import Mathlib

/-!
# Multi-Layer-Encryption: the layered cipher pipeline

A shallow embedding of `server/utils/encryptionUtils.js`,
`server/controllers/encryptionController.js` and
`server/utils/cryptanalysisUtils.js`.

JavaScript strings are sequences of UTF-16 code units; they are embedded as
lists of natural numbers (`JSString`), so that `length`, `charAt`,
`charCodeAt` and `split('')` see exactly the units the program sees.
-/

namespace MultiLayer

/-! ## JavaScript strings -/

/-- A JavaScript string: its UTF-16 code units in order. -/
abbrev JSString := List Nat

/-- UTF-16 code units of one Unicode code point (`String.fromCodePoint`). -/
def unitsOfCodePoint (cp : Nat) : JSString :=
  if cp < 0x10000 then [cp]
  else [0xD800 + (cp - 0x10000) / 0x400, 0xDC00 + (cp - 0x10000) % 0x400]

/-- Code units of a string literal. -/
def js (s : String) : JSString :=
  s.toList.flatMap fun c => unitsOfCodePoint c.toNat

/-- `String.fromCharCode(n)` for an integer `n`: the unit `ToUint16(n)`. -/
def fromCharCode (n : Int) : Nat := (n % 65536).toNat

/-- `s.charAt(i)`: a string of one unit, or the empty string past the end. -/
def charAt (s : JSString) (i : Nat) : JSString := (s.get? i).toList

/-- The `%` operator of JavaScript on integers: the remainder has the sign
of the dividend. -/
def jsMod (a b : Int) : Int := Int.tmod a b

/-- The regular expression `/[A-Z]/` on one code unit. -/
def isUpperAZ (c : Nat) : Bool := decide (65 ≤ c) && decide (c ≤ 90)

/-- The regular expression `/[a-z]/` on one code unit. -/
def isLowerAZ (c : Nat) : Bool := decide (97 ≤ c) && decide (c ≤ 122)

/-- The test `/[A-Za-z]/.test(char)` on a one-unit string. -/
def isAlpha (c : Nat) : Bool := isUpperAZ c || isLowerAZ c

/-- `char.toUpperCase()` for a one-unit string holding an ASCII character
(the program calls it only on units accepted by `/[A-Za-z]/` and on letters it
built itself). -/
def toUpperCaseUnit (c : Nat) : Nat := if isLowerAZ c then c - 32 else c

/-- `char.toLowerCase()` for a one-unit string holding an ASCII character. -/
def toLowerCaseUnit (c : Nat) : Nat := if isUpperAZ c then c + 32 else c

/-- The characters outside ASCII whose upper-casing holds ASCII letters,
each with those letters: sharp s (`SS`), dotless i (`I`), n preceded by an
apostrophe (`N`), long s (`S`), j with caron (`J`), h with line below (`H`),
t with diaeresis (`T`), w and y with ring above (`W`, `Y`), a with right half
ring (`A`), and the ligatures ff, fi, fl, ffi, ffl, long-s-t and st. -/
def specialUpperAZ : List (Nat × JSString) :=
  [(0xDF, [83, 83]), (0x131, [73]), (0x149, [78]), (0x17F, [83]), (0x1F0, [74]),
   (0x1E96, [72]), (0x1E97, [84]), (0x1E98, [87]), (0x1E99, [89]), (0x1E9A, [65]),
   (0xFB00, [70, 70]), (0xFB01, [70, 73]), (0xFB02, [70, 76]), (0xFB03, [70, 70, 73]),
   (0xFB04, [70, 70, 76]), (0xFB05, [83, 84]), (0xFB06, [83, 84])]

/-- The letters `A`..`Z` that the unit `c` contributes to
`text.toUpperCase().replace(/[^A-Z]/g, '')`.  `toUpperCase` applies the full
Unicode case mapping, so besides the ASCII letters a few other characters
upper-case to a sequence that holds ASCII letters (`specialUpperAZ`).  Every
other unit upper-cases to units outside `A`..`Z`. -/
def upperAZ (c : Nat) : JSString :=
  if isUpperAZ c then [c]
  else if isLowerAZ c then [c - 32]
  else
    match specialUpperAZ.find? (fun entry => entry.1 == c) with
    | some entry => entry.2
    | none => []

/-- The expression `text.toUpperCase().replace(/[^A-Z]/g, '')`. -/
def normalizeLetters (text : JSString) : JSString := text.flatMap upperAZ

/-! ## The Autokey key

The key of the Autokey cipher is a string; the program reads it with
`parseInt` and works on the number it gets, a double.  A double holds every
integer below `2^53` in absolute value; a longer numeral is rounded to the
nearest double (ties to the even significand), and from `2^1024 - 2^970` on to
`Infinity`.
-/

/-- A number that is not `NaN` and has no fraction: a double that holds the
integer `value`, or `Infinity` (`-Infinity` when `negative`).  These are the
numbers `parseInt` returns besides `NaN`. -/
inductive ParsedNumber where
  /-- A double that holds the integer `value`. -/
  | finite (value : Int)
  /-- The number `Infinity`, or `-Infinity` when `negative`. -/
  | infinity (negative : Bool)
  deriving Repr, DecidableEq

/-- The number of bits of `n` beyond 53: the least `e`, from `e` on and
within `fuel` steps, such that `n / 2^e` is below `2^53`. -/
def excessBits (n : Nat) : Nat → Nat → Nat
  | 0, e => e
  | fuel + 1, e => if n >>> e < 2 ^ 53 then e else excessBits n fuel (e + 1)

/-- The double nearest to the natural number `n`, `none` when that is
`Infinity`: `n` itself below `2^53`; otherwise `n` is cut to its 53 leading
bits and rounded to the nearest multiple of `2^e`, to the even one of two
equally near, and the result is `Infinity` when it reaches `2^1024`. -/
def roundToDouble (n : Nat) : Option Nat :=
  if n < 2 ^ 53 then some n
  else if n >>> 1024 ≠ 0 then none
  else
    let e := excessBits n 971 0
    let q := n >>> e
    let r := n - (q <<< e)
    let half := (1 <<< e) / 2
    let m := if r < half then q else if half < r then q + 1
      else if q % 2 = 0 then q else q + 1
    if (m <<< e) >>> 1024 ≠ 0 then none else some (m <<< e)

/-- The number a numeral that denotes the integer `n` is read as: the
double nearest to `n`. -/
def toDouble (n : Int) : ParsedNumber :=
  match roundToDouble n.natAbs with
  | some v => .finite (if n < 0 then -(v : Int) else (v : Int))
  | none => .infinity (decide (n < 0))

/-- `modKey = ((numKey % 26) + 26) % 26` (lines 319 and 400); `none` is
`NaN`, the remainder of `Infinity`. -/
def modKey (numKey : ParsedNumber) : Option Int :=
  match numKey with
  | .finite n => some (jsMod (jsMod n 26 + 26) 26)
  | .infinity _ => none

/-- `actualKey = modKey === 0 ? 26 : modKey` (lines 320 and 401); `NaN` is
not `0` and stays `NaN`. -/
def actualKey (numKey : ParsedNumber) : Option Int :=
  match modKey numKey with
  | some m => some (if m = 0 then 26 else m)
  | none => none

/-- `keyLetter = String.fromCharCode(actualKey + 64)` (lines 321 and 402),
as its single code unit; `String.fromCharCode(NaN)` is the unit 0. -/
def keyLetter (numKey : ParsedNumber) : Nat :=
  match actualKey numKey with
  | some a => fromCharCode (a + 64)
  | none => 0

/-! ## Raw Autokey encryption -/

/-- One iteration of the loop of lines 334-341: the cipher letter for the
text letter `t` and the key-stream letter `k`. -/
def encryptChar (t k : Nat) : Nat :=
  let textChar : Int := (t : Int) - 65
  let keyChar : Int := (k : Int) - 65
  fromCharCode (jsMod (textChar + keyChar) 26 + 65)

/-- The loop of lines 334-341: `result[i]` combines `normalizedText[i]`
with `fullKey[i]`, for every `i < normalizedText.length`. -/
def encryptLetters (normalizedText fullKey : JSString) : JSString :=
  List.zipWith encryptChar normalizedText fullKey

/-- The loop of lines 347-358, from position `i` of `text` on: letters are
replaced by the next unit of `result` in the case of the original, every other
unit is copied. -/
def reinsertEncrypted (result : JSString) : JSString → Nat → JSString
  | [], _ => []
  | char :: rest, resultIndex =>
    if isAlpha char then
      (if char = toUpperCaseUnit char then charAt result resultIndex
        else (charAt result resultIndex).map toLowerCaseUnit)
        ++ reinsertEncrypted result rest (resultIndex + 1)
    else
      char :: reinsertEncrypted result rest resultIndex

/-- `encryptAutokeyRaw(text, key)` (lines 310-361); `numKey` is the number
`parseInt(key)` evaluates to, which is not `NaN` (the function throws for
`NaN` at line 312 and takes every other number, `Infinity` too). -/
def encryptAutokeyRaw (text : JSString) (numKey : ParsedNumber) : JSString :=
  let keyLetter := keyLetter numKey
  let normalizedText := normalizeLetters text
  if normalizedText.length = 0 then text
  else
    let fullKey := keyLetter :: normalizedText
    let result := encryptLetters normalizedText fullKey
    reinsertEncrypted result text 0

/-! ## Raw Autokey decryption -/

/-- `alphabeticChars` after the loop of lines 413-423. -/
def alphabeticChars (text : JSString) : JSString :=
  (text.filter isAlpha).map toUpperCaseUnit

/-- `nonAlphaPositions` after the loop of lines 413-423, from index `i` on:
pairs `(index, char)`. -/
def nonAlphaPositionsFrom : JSString → Nat → List (Nat × Nat)
  | [], _ => []
  | char :: rest, i =>
    if isAlpha char then nonAlphaPositionsFrom rest (i + 1)
    else (i, char) :: nonAlphaPositionsFrom rest (i + 1)

/-- `nonAlphaPositions` after the loop of lines 413-423. -/
def nonAlphaPositions (text : JSString) : List (Nat × Nat) :=
  nonAlphaPositionsFrom text 0

/-- The variables of the loop of lines 433-448. -/
structure DecryptState where
  /-- The loop counter `i`. -/
  i : Nat
  /-- The key stream built so far. -/
  keyStream : JSString
  /-- The decrypted letters so far. -/
  result : JSString
  deriving Repr, DecidableEq

/-- The index `Math.min(i, keyStream.length - 1)` read at line 435. -/
def keyIndex (s : DecryptState) : Nat := min s.i (s.keyStream.length - 1)

/-- The letter decrypted at lines 434-441 from the cipher letter `c` and
the key-stream unit at the index read (`none` when `charCodeAt` is out of
range and yields `NaN`, which `String.fromCharCode` turns into unit 0). -/
def decryptChar (c : Nat) : Option Nat → Nat
  | none => 0
  | some k =>
    let cipherChar : Int := (c : Int) - 65
    let keyChar : Int := (k : Int) - 65
    let plainChar := jsMod (cipherChar - keyChar) 26
    let plainChar := if plainChar < 0 then plainChar + 26 else plainChar
    fromCharCode (plainChar + 65)

/-- One iteration of the loop of lines 433-448 on the cipher letter `c`. -/
def decryptStep (normalizedKey : JSString) (s : DecryptState) (c : Nat) :
    DecryptState :=
  let decryptedChar := decryptChar c (s.keyStream.get? (keyIndex s))
  { i := s.i + 1
    keyStream :=
      if s.keyStream.length ≤ normalizedKey.length + s.i then
        s.keyStream ++ [decryptedChar]
      else s.keyStream
    result := s.result ++ [decryptedChar] }

/-- The state of the loop of lines 433-448 after it has consumed `cs`. -/
def decryptLoop (normalizedKey : JSString) (cs : JSString) : DecryptState :=
  cs.foldl (decryptStep normalizedKey)
    { i := 0, keyStream := normalizedKey, result := [] }

/-- The loop of lines 455-467, from position `i` of `text` on. -/
def reinsertDecrypted (nonAlpha : List (Nat × Nat)) (result : JSString) :
    JSString → Nat → Nat → JSString
  | [], _, _ => []
  | originalChar :: rest, i, resultIndex =>
    match nonAlpha.find? (fun pos => pos.1 == i) with
    | some pos => pos.2 :: reinsertDecrypted nonAlpha result rest (i + 1) resultIndex
    | none =>
      (if originalChar = toUpperCaseUnit originalChar then
          (charAt result resultIndex).map toUpperCaseUnit
        else (charAt result resultIndex).map toLowerCaseUnit)
        ++ reinsertDecrypted nonAlpha result rest (i + 1) (resultIndex + 1)

/-- `decryptAutokeyRaw(text, key)` (lines 392-470); `numKey` is the number
`parseInt(key)` evaluates to, which is not `NaN` (the function throws for
`NaN` at line 394 and takes every other number, `Infinity` too). -/
def decryptAutokeyRaw (text : JSString) (numKey : ParsedNumber) : JSString :=
  let normalizedKey : JSString := [keyLetter numKey]
  let alphabetic := alphabeticChars text
  if alphabetic.length = 0 then text
  else
    let result := (decryptLoop normalizedKey alphabetic).result
    reinsertDecrypted (nonAlphaPositions text) result text 0 0

/-! ## Buffer: UTF-8 and base64 -/

/-- A surrogate code unit (`0xD800`..`0xDFFF`). -/
def isSurrogate (c : Nat) : Bool := decide (0xD800 ≤ c) && decide (c ≤ 0xDFFF)

/-- A high (leading) surrogate. -/
def isHighSurrogate (c : Nat) : Bool := decide (0xD800 ≤ c) && decide (c ≤ 0xDBFF)

/-- A low (trailing) surrogate. -/
def isLowSurrogate (c : Nat) : Bool := decide (0xDC00 ≤ c) && decide (c ≤ 0xDFFF)

/-- The code points `Buffer.from(text)` reads from a string: a surrogate
pair is one supplementary code point, an unpaired surrogate is replaced by
U+FFFD. -/
def codePoints : JSString → List Nat
  | [] => []
  | [c] => [if isSurrogate c then 0xFFFD else c]
  | c :: d :: rest =>
    if isHighSurrogate c && isLowSurrogate d then
      (0x10000 + (c - 0xD800) * 0x400 + (d - 0xDC00)) :: codePoints rest
    else (if isSurrogate c then 0xFFFD else c) :: codePoints (d :: rest)

/-- UTF-8 bytes of one code point. -/
def utf8EncodeCodePoint (cp : Nat) : List Nat :=
  if cp < 0x80 then [cp]
  else if cp < 0x800 then [0xC0 + cp / 64, 0x80 + cp % 64]
  else if cp < 0x10000 then [0xE0 + cp / 4096, 0x80 + cp / 64 % 64, 0x80 + cp % 64]
  else [0xF0 + cp / 262144, 0x80 + cp / 4096 % 64, 0x80 + cp / 64 % 64, 0x80 + cp % 64]

/-- `Buffer.from(text)`: the UTF-8 bytes of a string. -/
def bufferFromString (text : JSString) : List Nat :=
  (codePoints text).flatMap utf8EncodeCodePoint

/-- The state of the UTF-8 decoder: continuation bytes still expected, the
code point accumulated so far, the range allowed for the next byte, and the
code points decoded so far. -/
structure Utf8State where
  /-- Continuation bytes still expected. -/
  needed : Nat
  /-- Bits of the code point read so far. -/
  codePoint : Nat
  /-- Least value allowed for the next byte. -/
  lower : Nat
  /-- Greatest value allowed for the next byte. -/
  upper : Nat
  /-- Code points decoded so far. -/
  out : List Nat
  deriving Repr, DecidableEq

/-- The decoder reads `byte` while it expects a lead byte. -/
def utf8Lead (out : List Nat) (byte : Nat) : Utf8State :=
  if byte ≤ 0x7F then ⟨0, 0, 0x80, 0xBF, out ++ [byte]⟩
  else if 0xC2 ≤ byte ∧ byte ≤ 0xDF then ⟨1, byte % 32, 0x80, 0xBF, out⟩
  else if 0xE0 ≤ byte ∧ byte ≤ 0xEF then
    ⟨2, byte % 16, if byte = 0xE0 then 0xA0 else 0x80,
      if byte = 0xED then 0x9F else 0xBF, out⟩
  else if 0xF0 ≤ byte ∧ byte ≤ 0xF4 then
    ⟨3, byte % 8, if byte = 0xF0 then 0x90 else 0x80,
      if byte = 0xF4 then 0x8F else 0xBF, out⟩
  else ⟨0, 0, 0x80, 0xBF, out ++ [0xFFFD]⟩

/-- One step of the UTF-8 decoder: an ill-formed sequence yields U+FFFD and
the offending byte is read again as a lead byte. -/
def utf8Step (s : Utf8State) (byte : Nat) : Utf8State :=
  if s.needed = 0 then utf8Lead s.out byte
  else if byte < s.lower ∨ s.upper < byte then utf8Lead (s.out ++ [0xFFFD]) byte
  else if s.needed = 1 then
    ⟨0, 0, 0x80, 0xBF, s.out ++ [s.codePoint * 64 + byte % 64]⟩
  else ⟨s.needed - 1, s.codePoint * 64 + byte % 64, 0x80, 0xBF, s.out⟩

/-- The code points `buf.toString()` decodes from UTF-8 bytes; a sequence
cut short by the end of the buffer yields U+FFFD. -/
def utf8Decode (bytes : List Nat) : List Nat :=
  let s := bytes.foldl utf8Step ⟨0, 0, 0x80, 0xBF, []⟩
  if s.needed = 0 then s.out else s.out ++ [0xFFFD]

/-- `buf.toString()`: the string decoded from UTF-8 bytes. -/
def bufferToString (bytes : List Nat) : JSString :=
  (utf8Decode bytes).flatMap unitsOfCodePoint

/-- The base64 digit of a six-bit value. -/
def base64Char (n : Nat) : Nat :=
  if n < 26 then 65 + n
  else if n < 52 then 71 + n
  else if n < 62 then n - 4
  else if n = 62 then 43
  else 47

/-- The six-bit value of a base64 digit (the URL-safe digits `-` and `_`
are accepted too), `none` for any other unit. -/
def base64Value (c : Nat) : Option Nat :=
  if isUpperAZ c then some (c - 65)
  else if isLowerAZ c then some (c - 71)
  else if 48 ≤ c ∧ c ≤ 57 then some (c + 4)
  else if c = 43 ∨ c = 45 then some 62
  else if c = 47 ∨ c = 95 then some 63
  else none

/-- `buf.toString('base64')`. -/
def base64Encode : List Nat → JSString
  | [] => []
  | [a] => [base64Char (a / 4), base64Char (a % 4 * 16), 61, 61]
  | [a, b] =>
    [base64Char (a / 4), base64Char (a % 4 * 16 + b / 16), base64Char (b % 16 * 4), 61]
  | a :: b :: c :: rest =>
    base64Char (a / 4) :: base64Char (a % 4 * 16 + b / 16) ::
      base64Char (b % 16 * 4 + c / 64) :: base64Char (c % 64) :: base64Encode rest

/-- The six-bit values the base64 decoder reads: of every unit it takes the
low byte; it stops at the first `=` and skips every byte that is not a base64
digit. -/
def base64Sextets : JSString → List Nat
  | [] => []
  | c :: rest =>
    if c % 256 = 61 then []
    else
      match base64Value (c % 256) with
      | some v => v :: base64Sextets rest
      | none => base64Sextets rest

/-- The bytes of a sequence of six-bit values: four values give three
bytes, a last group of three gives two, of two gives one. -/
def bytesOfSextets : List Nat → List Nat
  | a :: b :: c :: d :: rest =>
    (a * 4 + b / 16) :: (b % 16 * 16 + c / 4) :: (c % 4 * 64 + d) :: bytesOfSextets rest
  | [a, b, c] => [a * 4 + b / 16, b % 16 * 16 + c / 4]
  | [a, b] => [a * 4 + b / 16]
  | _ => []

/-- `Buffer.from(s, 'base64')`. -/
def bufferFromBase64 (s : JSString) : List Nat := bytesOfSextets (base64Sextets s)

/-- `Buffer.from(text).toString('base64')` (lines 292 and 526). -/
def toBase64 (text : JSString) : JSString := base64Encode (bufferFromString text)

/-- `Buffer.from(text, 'base64').toString()` (line 375). -/
def fromBase64 (text : JSString) : JSString := bufferToString (bufferFromBase64 text)

/-! ## The Autokey layer -/

/-- The units of `text` with `code < 32 || code > 126` (lines 479-482). -/
def nonPrintableCount (text : JSString) : Nat :=
  (text.filter fun code => decide (code < 32) || decide (code > 126)).length

/-- `containsBinaryData(text)` for a string (lines 475-486).  The test
`nonPrintableCount / text.length > 0.2` is taken over the rationals, where it
reads `text.length < 5 * nonPrintableCount`; the two agree for every string a
JavaScript engine can hold (its length is far below `2^53`), and on the empty
string both are false (`0 / 0` is `NaN`). -/
def containsBinaryData (text : JSString) : Bool :=
  decide (text.length < 5 * nonPrintableCount text)

/-- The literal `"BASE64:"`. -/
def base64Marker : JSString := [66, 65, 83, 69, 54, 52, 58]

/-- `autokeyEncrypt(text, key)` (lines 286-305); `numKey` is the number
`parseInt(key)` evaluates to, which is not `NaN`. -/
def autokeyEncrypt (text : JSString) (numKey : ParsedNumber) : JSString :=
  if containsBinaryData text then
    let base64 := toBase64 text
    base64Marker ++ encryptAutokeyRaw base64 numKey
  else encryptAutokeyRaw text numKey

/-- `autokeyDecrypt(text, key)` (lines 366-387); `numKey` is the number
`parseInt(key)` evaluates to, which is not `NaN`. -/
def autokeyDecrypt (text : JSString) (numKey : ParsedNumber) : JSString :=
  if base64Marker.isPrefixOf text then
    let encryptedBase64 := text.drop 7
    let decryptedBase64 := decryptAutokeyRaw encryptedBase64 numKey
    fromBase64 decryptedBase64
  else decryptAutokeyRaw text numKey

/-! ## The layer normaliser -/

/-- `normalizeLayerData(input, sourceAlgo, targetAlgo)` for a string input
(lines 509-540); an algorithm tag that is `undefined` is `none`. -/
def normalizeLayerData (input : JSString) (sourceAlgo targetAlgo : Option String) :
    JSString :=
  if input.length = 0 then input
  else if sourceAlgo = some "aes" ∧
      (targetAlgo = some "rsa" ∨ targetAlgo = some "autokey") then input
  else if (sourceAlgo = some "rsa" ∨ sourceAlgo = some "autokey") ∧
      targetAlgo = some "aes" then
    if containsBinaryData input then toBase64 input else input
  else input

/-- A JavaScript value given as `input`: a string, or a value of another
type (told apart by a tag). -/
inductive JSValue where
  /-- A string. -/
  | str (s : JSString)
  /-- A value that is not a string. -/
  | nonString (tag : Nat)
  deriving Repr, DecidableEq

/-- `normalizeLayerData(input, sourceAlgo, targetAlgo)` for any input: a
value that is no string is returned as it is (line 511). -/
def normalizeLayerDataAny (input : JSValue) (sourceAlgo targetAlgo : Option String) :
    JSValue :=
  match input with
  | .nonString tag => .nonString tag
  | .str s => .str (normalizeLayerData s sourceAlgo targetAlgo)

/-! ## The RSA layer -/

/-- What `decrypt.decrypt(chunk)` of JSEncrypt returns: the plain text,
`false`, or `null`. -/
inductive DecryptResult where
  /-- A decrypted string. -/
  | text (s : JSString)
  /-- The value `false`. -/
  | failed
  /-- The value `null`. -/
  | null
  deriving Repr, DecidableEq

/-- The chunk cipher of JSEncrypt, by key. -/
structure ChunkCipher where
  /-- The call `encrypt.encrypt(chunk)` once `setPublicKey(publicKey)` is done:
  the cipher text, or `none` for `false` or `null`. -/
  encrypt : JSString → JSString → Option JSString
  /-- The call `decrypt.decrypt(chunk)` once `setPrivateKey(privateKey)` is
  done. -/
  decrypt : JSString → JSString → DecryptResult

/-- `s.substring(start, stop)` for `start ≤ stop`. -/
def substring (s : JSString) (start stop : Nat) : JSString :=
  (s.drop start).take (stop - start)

/-- `maxChunkSize = Math.floor(keySize / 8) - 11` with `keySize = 2048`
(lines 222-223). -/
def maxChunkSize : Nat := 2048 / 8 - 11

/-- The loop of lines 227-229 from index `i` on, for at most `fuel`
iterations. -/
def chunkLoop (processedText : JSString) : Nat → Nat → List JSString
  | 0, _ => []
  | fuel + 1, i =>
    if i < processedText.length then
      substring processedText i (i + maxChunkSize) ::
        chunkLoop processedText fuel (i + maxChunkSize)
    else []

/-- The array `chunks` after the loop of lines 227-229; the loop adds
`maxChunkSize` to `i` at each turn, so `text.length` turns are enough. -/
def rsaChunks (processedText : JSString) : List JSString :=
  chunkLoop processedText processedText.length 0

/-- The callback of `chunks.map` (lines 232-238): the encrypted chunk, or
the message of the error thrown when the result is falsy. -/
def encryptChunk (E : ChunkCipher) (publicKey chunk : JSString) : Except String JSString :=
  match E.encrypt publicKey chunk with
  | none => .error "RSA encryption failed"
  | some encrypted =>
    if encrypted.isEmpty then .error "RSA encryption failed" else .ok encrypted

/-- The call `chunks.map(...)` of lines 232-238, which stops at the first
chunk whose encryption throws. -/
def encryptChunks (E : ChunkCipher) (publicKey : JSString) :
    List JSString → Except String (List JSString)
  | [] => .ok []
  | chunk :: rest =>
    match encryptChunk E publicKey chunk with
    | .error message => .error message
    | .ok encrypted =>
      match encryptChunks E publicKey rest with
      | .error message => .error message
      | .ok others => .ok (encrypted :: others)

/-- `rsaEncrypt(text, publicKey)` (lines 212-246): the joined cipher text,
or the message of the error thrown. -/
def rsaEncrypt (E : ChunkCipher) (text publicKey : JSString) : Except String JSString :=
  match encryptChunks E publicKey (rsaChunks text) with
  | .ok encryptedChunks => .ok (List.intercalate [124] encryptedChunks)
  | .error message => .error ("RSA encryption failed: " ++ message)

/-- The loop of lines 267-273: the array `decryptedChunks`, or the message
of the error thrown at the first chunk for which the cipher returns `false`.
A `null` is pushed as it is; `join` then renders it as the empty string. -/
def decryptChunks (E : ChunkCipher) (privateKey : JSString) :
    List JSString → Except String (List JSString)
  | [] => .ok []
  | chunk :: rest =>
    match E.decrypt privateKey chunk with
    | .failed => .error "RSA decryption failed. Invalid key or corrupted data."
    | .text decrypted =>
      match decryptChunks E privateKey rest with
      | .error message => .error message
      | .ok others => .ok (decrypted :: others)
    | .null =>
      match decryptChunks E privateKey rest with
      | .error message => .error message
      | .ok others => .ok ([] :: others)

/-- `rsaDecrypt(ciphertext, privateKey)` (lines 251-281); `split` never
returns an empty array, so the test of line 260 is never true. -/
def rsaDecrypt (E : ChunkCipher) (ciphertext privateKey : JSString) :
    Except String JSString :=
  let encryptedChunks := ciphertext.splitOn 124
  match decryptChunks E privateKey encryptedChunks with
  | .ok decryptedChunks => .ok decryptedChunks.flatten
  | .error message => .error ("RSA decryption failed: " ++ message)

/-! ## The pipeline orchestrator -/

/-- `StrWhiteSpaceChar`: the units `parseInt` skips at the start. -/
def isStrWhiteSpace (c : Nat) : Bool :=
  decide (c ∈ [9, 10, 11, 12, 13, 32, 160, 0x1680, 0x2028, 0x2029, 0x202F, 0x205F,
    0x3000, 0xFEFF]) || (decide (0x2000 ≤ c) && decide (c ≤ 0x200A))

/-- The value of the unit `c` as a digit in base `radix`, if it is one. -/
def digitValue (radix c : Nat) : Option Nat :=
  let v :=
    if 48 ≤ c ∧ c ≤ 57 then some (c - 48)
    else if isLowerAZ c then some (c - 87)
    else if isUpperAZ c then some (c - 55)
    else none
  v.filter fun d => decide (d < radix)

/-- The values of the longest run of base-`radix` digits at the start. -/
def leadingDigits (radix : Nat) : JSString → List Nat
  | [] => []
  | c :: rest =>
    match digitValue radix c with
    | some d => d :: leadingDigits radix rest
    | none => []

/-- The sign `parseInt` reads at the start, `-1` after `-` and `1` otherwise,
and the string after the sign. -/
def parseSign : JSString → Int × JSString
  | 45 :: rest => (-1, rest)
  | 43 :: rest => (1, rest)
  | s => (1, s)

/-- The radix `parseInt` takes when none is given, 16 after `0x` or `0X` and
10 otherwise, and the string after the prefix. -/
def parseRadix : JSString → Nat × JSString
  | 48 :: 120 :: rest => (16, rest)
  | 48 :: 88 :: rest => (16, rest)
  | s => (10, s)

/-- `parseInt(s)` for a string: white space, an optional sign, an optional
`0x` or `0X`, then digits; `none` is `NaN`.  The result is a double: the one
nearest to the integer the digits denote (the language lets an engine round
off the digits of a decimal numeral after the 20th first; V8 reads them all),
so `Infinity` for a decimal numeral of 310 digits that does not start with
`0`. -/
def parseInt (s : JSString) : Option ParsedNumber :=
  let signed := parseSign (s.dropWhile isStrWhiteSpace)
  let based := parseRadix signed.2
  let digits := leadingDigits based.1 based.2
  if digits.length = 0 then none
  else some (toDouble (signed.1 * ((digits.foldl (fun acc d => acc * based.1 + d) 0 : Nat) : Int)))

/-- One slot of `req.body.layers`; a field that is absent is `none`. -/
structure Layer where
  /-- The tag `layer.algorithm`. -/
  algorithm : Option String
  /-- The string `layer.key`. -/
  key : Option JSString
  /-- The integer `parseInt(layer.keySize)` evaluates to (`none` is `NaN`;
  `Infinity`, which no key length equals, is left out: line 51 refuses it as it
  refuses any size that differs from eight times the length of the key). -/
  keySize : Option Int
  /-- The tag `layer.mode`. -/
  mode : Option String
  /-- The string `layer.publicKey`. -/
  publicKey : Option JSString
  /-- The string `layer.privateKey`. -/
  privateKey : Option JSString
  deriving Repr, DecidableEq

/-- The body of a request: `text`, `action` and `layers` (`none` when
`layers` is absent or not an array; an absent `text` or `action` is the empty
string, which the program treats alike). -/
structure Request where
  /-- The string `req.body.text`. -/
  text : JSString
  /-- The string `req.body.action`. -/
  action : String
  /-- The array `req.body.layers`. -/
  layers : Option (List Layer)
  deriving Repr, DecidableEq

/-- The `error` string of a response, as the template it is built from and
the values inserted in it. -/
inductive ErrorBody where
  /-- The text `Text to process is required`. -/
  | textRequired
  /-- The text `Valid action (encrypt or decrypt) is required`. -/
  | actionRequired
  /-- The text `At least one layer configuration is required`. -/
  | layersRequired
  /-- The text `AES key is required for Layer n`. -/
  | aesKeyRequired (layer : Nat)
  /-- The text `AES key must be exactly keySizeBits/8 characters for
  keySizeBits-bit encryption (Layer n)`. -/
  | aesKeyLength (keySizeBits : Option Int) (layer : Nat)
  /-- The text `RSA public key is required for Layer n`. -/
  | rsaPublicKeyRequired (layer : Nat)
  /-- The text `RSA private key is required for Layer n`. -/
  | rsaPrivateKeyRequired (layer : Nat)
  /-- The text `Autokey cipher key is required for Layer n`. -/
  | autokeyKeyRequired (layer : Nat)
  /-- The text `Autokey cipher key should be a valid numeric value (Layer n)`. -/
  | autokeyKeyNumeric (layer : Nat)
  /-- The text `family decryption failed in Layer n: message`. -/
  | decryptionFailed (family : String) (layer : Nat) (message : String)
  /-- The text `Unknown algorithm: tag in Layer n`. -/
  | unknownAlgorithm (tag : String) (layer : Nat)
  /-- The text `Server error: message`. -/
  | serverError (message : String)
  deriving Repr, DecidableEq

/-- What `processData` sends: `res.json` with the result and the steps, or
a status 400 or 500 with an error (and, for some, the steps so far). -/
inductive Response where
  /-- The call `res.json` with `result` and `steps`. -/
  | json (result : JSString) (steps : List String)
  /-- The call `res.status(400).json` with `error` and possibly `steps`. -/
  | status400 (error : ErrorBody) (steps : Option (List String))
  /-- The call `res.status(500).json` with `error` and `steps`. -/
  | status500 (error : ErrorBody) (steps : List String)
  deriving Repr, DecidableEq

/-- The AES and RSA functions of `encryptionUtils` that `processData`
calls, with the message of the error each may throw; `aesEncrypt` also takes
the random bytes it draws. -/
structure Primitives where
  /-- The function `aesEncrypt(text, key, keySize, mode)` given its random IV. -/
  aesEncrypt : List Nat → JSString → JSString → Option Int → Option String →
    Except String JSString
  /-- The function `aesDecrypt(ciphertext, key, keySize, mode)`. -/
  aesDecrypt : JSString → JSString → Option Int → Option String →
    Except String JSString
  /-- The function `rsaEncrypt(text, publicKey)`. -/
  rsaEncrypt : JSString → JSString → Except String JSString
  /-- The function `rsaDecrypt(ciphertext, privateKey)`. -/
  rsaDecrypt : JSString → JSString → Except String JSString

/-- The test `!value` on an optional string. -/
def isMissing (value : Option JSString) : Bool :=
  match value with
  | none => true
  | some v => v.isEmpty

/-- How a template literal prints an optional tag. -/
def showTag (tag : Option String) : String := tag.getD "undefined"

/-- The tag `layers[i-1].algorithm` when `i > 0` and it is not `'none'`
(the guard of lines 60, 76, 99, 115, 139 and 155), `none` when the guard is
false. -/
def previousAlgorithm (layers : List Layer) (i : Nat) : Option (Option String) :=
  if 0 < i then
    match layers.get? (i - 1) with
    | some previous =>
      if previous.algorithm ≠ some "none" then some previous.algorithm else none
    | none => none
  else none

/-- The data and the step log while the layers are visited. -/
abbrev RunState := JSString × List String

/-- The AES case of the switch (lines 42-85). -/
def processAes (P : Primitives) (ivs : Nat → List Nat) (action : String)
    (layers : List Layer) (layer : Layer) (i : Nat) (state : RunState) :
    Except Response RunState :=
  match layer.key with
  | none => .error (.status400 (.aesKeyRequired (i + 1)) none)
  | some key =>
    if key.isEmpty then .error (.status400 (.aesKeyRequired (i + 1)) none)
    else if layer.keySize ≠ some ((key.length : Int) * 8) then
      .error (.status400 (.aesKeyLength layer.keySize (i + 1)) none)
    else
      let steps := state.2 ++ [s!"Processing Layer {i + 1}: AES {showTag layer.mode} {action}"]
      if action = "encrypt" then
        let normalized : RunState :=
          match previousAlgorithm layers i with
          | some previous =>
            (normalizeLayerData state.1 previous (some "aes"),
              steps ++ [s!"Normalized data from {showTag previous} for AES encryption"])
          | none => (state.1, steps)
        match P.aesEncrypt (ivs i) normalized.1 key layer.keySize layer.mode with
        | .ok out => .ok (out, normalized.2)
        | .error message =>
          .error (.status500 (.serverError message) ["Error occurred during processing."])
      else
        match P.aesDecrypt state.1 key layer.keySize layer.mode with
        | .error message =>
          .error (.status400 (.decryptionFailed "AES" (i + 1) message) (some steps))
        | .ok out =>
          match previousAlgorithm layers i with
          | some previous =>
            .ok (normalizeLayerData out (some "aes") previous,
              steps ++ [s!"Normalized AES output for {showTag previous} decryption"])
          | none => .ok (out, steps)

/-- The RSA case of the switch (lines 87-124). -/
def processRsa (P : Primitives) (action : String) (layers : List Layer)
    (layer : Layer) (i : Nat) (state : RunState) : Except Response RunState :=
  if action = "encrypt" ∧ isMissing layer.publicKey then
    .error (.status400 (.rsaPublicKeyRequired (i + 1)) none)
  else if action = "decrypt" ∧ isMissing layer.privateKey then
    .error (.status400 (.rsaPrivateKeyRequired (i + 1)) none)
  else
    let steps := state.2 ++ [s!"Processing Layer {i + 1}: RSA {action}"]
    if action = "encrypt" then
      let normalized : RunState :=
        match previousAlgorithm layers i with
        | some previous =>
          (normalizeLayerData state.1 previous (some "rsa"),
            steps ++ [s!"Normalized data from {showTag previous} for RSA encryption"])
        | none => (state.1, steps)
      match P.rsaEncrypt normalized.1 (layer.publicKey.getD []) with
      | .ok out => .ok (out, normalized.2)
      | .error message =>
        .error (.status500 (.serverError message) ["Error occurred during processing."])
    else
      match P.rsaDecrypt state.1 (layer.privateKey.getD []) with
      | .error message =>
        .error (.status400 (.decryptionFailed "RSA" (i + 1) message) (some steps))
      | .ok out =>
        match previousAlgorithm layers i with
        | some previous =>
          .ok (normalizeLayerData out (some "rsa") previous,
            steps ++ [s!"Normalized RSA output for {showTag previous} decryption"])
        | none => .ok (out, steps)

/-- The Autokey case of the switch (lines 124-164). -/
def processAutokey (action : String) (layers : List Layer) (layer : Layer)
    (i : Nat) (state : RunState) : Except Response RunState :=
  match layer.key with
  | none => .error (.status400 (.autokeyKeyRequired (i + 1)) none)
  | some key =>
    if key.isEmpty then .error (.status400 (.autokeyKeyRequired (i + 1)) none)
    else
      match parseInt key with
      | none => .error (.status400 (.autokeyKeyNumeric (i + 1)) none)
      | some numKey =>
        let steps := state.2 ++ [s!"Processing Layer {i + 1}: Autokey cipher {action}"]
        if action = "encrypt" then
          let normalized : RunState :=
            match previousAlgorithm layers i with
            | some previous =>
              (normalizeLayerData state.1 previous (some "autokey"),
                steps ++ [s!"Normalized data from {showTag previous} for Autokey encryption"])
            | none => (state.1, steps)
          .ok (autokeyEncrypt normalized.1 numKey, normalized.2)
        else
          let out := autokeyDecrypt state.1 numKey
          match previousAlgorithm layers i with
          | some previous =>
            .ok (normalizeLayerData out (some "autokey") previous,
              steps ++ [s!"Normalized Autokey output for {showTag previous} decryption"])
          | none => .ok (out, steps)

/-- The body of the loop over `layerIndices` (lines 31-171) for slot `i`. -/
def processLayer (P : Primitives) (ivs : Nat → List Nat) (action : String)
    (layers : List Layer) (state : RunState) (i : Nat) : Except Response RunState :=
  match layers.get? i with
  | none => .ok state
  | some layer =>
    match layer.algorithm with
    | none => .ok (state.1, state.2 ++ [s!"Layer {i + 1}: No encryption selected, skipping"])
    | some tag =>
      if tag = "" ∨ tag = "none" then
        .ok (state.1, state.2 ++ [s!"Layer {i + 1}: No encryption selected, skipping"])
      else if tag = "aes" then processAes P ivs action layers layer i state
      else if tag = "rsa" then processRsa P action layers layer i state
      else if tag = "autokey" then processAutokey action layers layer i state
      else .error (.status400 (.unknownAlgorithm tag (i + 1)) none)

/-- The loop over `layerIndices`, from the state `state` on. -/
def processLayers (P : Primitives) (ivs : Nat → List Nat) (action : String)
    (layers : List Layer) : List Nat → RunState → Except Response RunState
  | [], state => .ok state
  | i :: rest, state =>
    match processLayer P ivs action layers state i with
    | .error response => .error response
    | .ok next => processLayers P ivs action layers rest next

/-- `processData(req, res)` (lines 8-189): the response it sends. -/
def processData (P : Primitives) (ivs : Nat → List Nat) (req : Request) : Response :=
  if req.text.isEmpty then .status400 .textRequired none
  else if req.action ≠ "encrypt" ∧ req.action ≠ "decrypt" then
    .status400 .actionRequired none
  else
    match req.layers with
    | none => .status400 .layersRequired none
    | some layers =>
      if layers.length = 0 then .status400 .layersRequired none
      else
        let layerIndices := if req.action = "encrypt" then [0, 1, 2] else [2, 1, 0]
        match processLayers P ivs req.action layers layerIndices (req.text, []) with
        | .error response => response
        | .ok (processedData, steps) =>
          .json processedData
            (steps ++ [if req.action = "encrypt" then "Encryption complete!"
              else "Decryption complete!"])

/-! ## Auxiliary definitions for the proofs -/

/-- The text with its letters replaced, in order, by the units of
`letters`, each in the case of the letter it replaces; where `letters` runs
out the letter is dropped. -/
def substitute : JSString → JSString → JSString
  | [], _ => []
  | c :: rest, letters =>
    if isAlpha c then
      match letters with
      | [] => substitute rest []
      | l :: ls =>
        (if c = toUpperCaseUnit c then l else toLowerCaseUnit l) :: substitute rest ls
    else c :: substitute rest letters

/-- The number of ASCII letters of a text. -/
def letterCount (text : JSString) : Nat := (text.filter isAlpha).length

/-- Two units are alike: equal when the first is no letter, letters of the same case otherwise. -/
def SameShape (c d : Nat) : Prop :=
  (isAlpha c = false → d = c) ∧
    (isAlpha c = true → isUpperAZ d = isUpperAZ c ∧ isLowerAZ d = isLowerAZ c)

/-- The cipher letters of the letters `ts` when the key-stream letter in
front of them is `prev`: each letter is added to the one before it. -/
def encryptFrom (prev : Nat) : JSString → JSString
  | [] => []
  | t :: ts => encryptChar t prev :: encryptFrom t ts

/-- The plain letters of the cipher letters `cs` when the key-stream letter
in front of them is `prev`: each decrypted letter is the key of the next. -/
def decryptFrom (prev : Nat) : JSString → JSString
  | [] => []
  | c :: cs => decryptChar c (some prev) :: decryptFrom (decryptChar c (some prev)) cs

/-- The loop state of the decryption once the letters `r` are decrypted. -/
def decryptStateOf (k : Nat) (r : JSString) : DecryptState :=
  { i := r.length, keyStream := k :: r, result := r }

/-- No unit of the text other than an ASCII letter upper-cases to ASCII
letters. -/
def PlainLetters (text : JSString) : Prop :=
  ∀ c ∈ text, isAlpha c = false → upperAZ c = []

/-- A Unicode scalar value: a code point that is not a surrogate. -/
def isScalar (cp : Nat) : Bool := decide (cp < 0x110000) && !isSurrogate cp

/-- A well-formed UTF-16 string: every unit is below `0x10000` and every
surrogate is part of a pair (high then low). -/
def wellFormed : JSString → Bool
  | [] => true
  | [c] => !isSurrogate c && decide (c < 0x10000)
  | c :: d :: rest =>
    if isHighSurrogate c && isLowSurrogate d then wellFormed rest
    else (!isSurrogate c && decide (c < 0x10000)) && wellFormed (d :: rest)

/-- The letters of a text, in order, upper-cased, as numbers `A = 0` ..
`Z = 25`. -/
def letterValues (text : JSString) : List Nat :=
  (alphabeticChars text).map fun c => c - 65

/-- A layer configuration with the Autokey cipher and the key `key`. -/
def autokeyLayer (key : JSString) : Layer :=
  { algorithm := some "autokey", key := some key, keySize := none, mode := none,
    publicKey := none, privateKey := none }

/-- A layer configuration with `algorithm: 'none'`. -/
def noneLayer : Layer :=
  { algorithm := some "none", key := none, keySize := none, mode := none,
    publicKey := none, privateKey := none }

/-- A stand-in for the AES and RSA functions, used to run the orchestrator
on concrete requests: AES encryption puts `#` in front of the data and throws
for a mode other than `ECB`, `CBC` or `CTR` (written in capitals), as the
`switch` of line 43 does for an unsupported mode; RSA
encryption puts `$` in front; decryption removes the sign and throws when it
is absent or nothing follows it. -/
def toyPrimitives : Primitives where
  aesEncrypt := fun _ text _ _ mode =>
    if mode = some "ECB" ∨ mode = some "CBC" ∨ mode = some "CTR" then .ok (35 :: text)
    else .error ("AES encryption failed: Unsupported AES mode: " ++ showTag mode)
  aesDecrypt := fun ciphertext _ _ _ =>
    match ciphertext with
    | 35 :: c :: rest => .ok (c :: rest)
    | _ => .error "AES decryption failed: All decryption attempts failed"
  rsaEncrypt := fun text _ => .ok (36 :: text)
  rsaDecrypt := fun ciphertext _ =>
    match ciphertext with
    | 36 :: rest => .ok rest
    | _ => .error "RSA decryption failed: RSA decryption failed. Invalid key or corrupted data."

/-- A layer configuration with AES, the key `key`, the key size `keySize`
and the mode `mode`. -/
def aesLayer (key : JSString) (keySize : Int) (mode : String) : Layer :=
  { algorithm := some "aes", key := some key, keySize := some keySize, mode := some mode,
    publicKey := none, privateKey := none }

/-- A layer configuration with RSA and the two keys. -/
def rsaLayer (publicKey privateKey : JSString) : Layer :=
  { algorithm := some "rsa", key := none, keySize := none, mode := none,
    publicKey := some publicKey, privateKey := some privateKey }

/-- A validation error of a layer: status 400, one of the six messages
about a layer's fields, and no step log. -/
def isValidationError : Response → Bool
  | .status400 (.aesKeyRequired _) none => true
  | .status400 (.aesKeyLength _ _) none => true
  | .status400 (.rsaPublicKeyRequired _) none => true
  | .status400 (.rsaPrivateKeyRequired _) none => true
  | .status400 (.autokeyKeyRequired _) none => true
  | .status400 (.autokeyKeyNumeric _) none => true
  | _ => false

/-- The visit of a slot ended in a validation error. -/
def isRejected : Except Response RunState → Bool
  | .error response => isValidationError response
  | .ok _ => false

/-- An active layer violates its field requirements: AES key missing or
of a length other than `keySizeBits / 8` units, RSA key for the direction
missing, Autokey key missing or not numeric. -/
def LayerInvalid (action : String) (layer : Layer) : Prop :=
  (layer.algorithm = some "aes" ∧
    (isMissing layer.key = true ∨
      layer.keySize ≠ some (((layer.key.getD []).length : Int) * 8))) ∨
  (layer.algorithm = some "rsa" ∧
    ((action = "encrypt" ∧ isMissing layer.publicKey = true) ∨
      (action = "decrypt" ∧ isMissing layer.privateKey = true))) ∨
  (layer.algorithm = some "autokey" ∧
    (isMissing layer.key = true ∨ parseInt (layer.key.getD []) = none))

/-- The length of a string in UTF-8 bytes. -/
def utf8Length (s : JSString) : Nat := (bufferFromString s).length

/-- An Autokey layer without a key. -/
def autokeyLayerNoKey : Layer :=
  { algorithm := some "autokey", key := none, keySize := none, mode := none,
    publicKey := none, privateKey := none }

/-- The data an encrypting layer in slot `i` transforms: normalised from
the tag of slot `i - 1` when the guard on that slot holds. -/
def normalisedInput (layers : List Layer) (i : Nat) (data : JSString) (family : String) :
    JSString :=
  match previousAlgorithm layers i with
  | some tag => normalizeLayerData data tag (some family)
  | none => data

/-- The data a decrypting layer in slot `i` hands on: normalised towards
the tag of slot `i - 1` when the guard on that slot holds. -/
def normalisedOutput (layers : List Layer) (i : Nat) (out : JSString) (family : String) :
    JSString :=
  match previousAlgorithm layers i with
  | some tag => normalizeLayerData out (some family) tag
  | none => out

/-- The normalisation entry an encrypting layer in slot `i` logs, if any. -/
def encryptNotes (layers : List Layer) (i : Nat) (name : String) : List String :=
  match previousAlgorithm layers i with
  | some tag => [s!"Normalized data from {showTag tag} for {name} encryption"]
  | none => []

/-- The normalisation entry a decrypting layer in slot `i` logs, if any. -/
def decryptNotes (layers : List Layer) (i : Nat) (name : String) : List String :=
  match previousAlgorithm layers i with
  | some tag => [s!"Normalized {name} output for {showTag tag} decryption"]
  | none => []

/-- A chunk cipher for concrete runs: encryption puts `!` in front of the
chunk with 125 added to each unit (so no `|` occurs), decryption undoes it and
returns `false` on any other text. -/
def toyChunkCipher : ChunkCipher where
  encrypt := fun _ chunk => some (33 :: chunk.map fun c => c + 125)
  decrypt := fun _ e =>
    match e with
    | 33 :: rest => .text (rest.map fun c => c - 125)
    | _ => .failed

/-- What `join('')` makes of an element of `decryptedChunks`: the string
itself, the empty string for `null` (and `false` for `false`, which the loop
never pushes). -/
def joinedText : DecryptResult → JSString
  | .text s => s
  | .failed => js "false"
  | .null => []

/-- A chunk cipher for concrete runs whose `decrypt` gives `null`, not
`false`, for a chunk it cannot decrypt. -/
def nullChunkCipher : ChunkCipher where
  encrypt := toyChunkCipher.encrypt
  decrypt := fun _ e =>
    match e with
    | 33 :: rest => .text (rest.map fun c => c - 125)
    | _ => .null

/-! ## The AES layer: encryption

The function `aesEncrypt` of `server/utils/encryptionUtils.js`. -/

/-- The functions of CryptoJS that `aesEncrypt` and `aesDecrypt` call on
bytes. -/
structure CryptoJS where
  /-- The bytes of `CryptoJS.AES.encrypt(message, key, cfg).ciphertext`, by
  the mode of `cfg` (`ECB` and `CBC` with Pkcs7 padding, `CTR` with none), the
  bytes of the key, the bytes of the IV of `cfg` (none for `ECB`) and the bytes
  of the message. -/
  encrypt : String → List Nat → List Nat → List Nat → List Nat
  /-- The bytes of `CryptoJS.enc.Base64.parse(text)`. -/
  base64Parse : JSString → List Nat
  /-- The bytes of `CryptoJS.AES.decrypt(ciphertext, key, cfg)` for a cipher
  text given as a string, by the mode of `cfg`, the bytes of the key and the
  bytes of the IV of `cfg` (none for `ECB`). -/
  decrypt : String → List Nat → List Nat → JSString → List Nat
  /-- The bytes of `CryptoJS.AES.decrypt({ ciphertext: words }, key, cfg)` for
  a cipher text given as bytes. -/
  decryptParsed : String → List Nat → List Nat → List Nat → List Nat
  /-- The bytes of `CryptoJS.enc.Hex.parse(text)`. -/
  hexParse : JSString → List Nat

/-- `CryptoJS.enc.Utf8.parse(s)`: the UTF-8 bytes of `s`; it goes through
`encodeURIComponent`, which throws `URI malformed` for a string with a
surrogate that is not part of a pair. -/
def utf8Parse (s : JSString) : Except String (List Nat) :=
  if wellFormed s then .ok (bufferFromString s) else .error "URI malformed"

/-- `n.toString(16)` for a value below 16. -/
def hexDigit (n : Nat) : Nat := if n < 10 then 48 + n else 87 + n

/-- `CryptoJS.enc.Hex.stringify`: two digits for each byte, `bite >>> 4`
and `bite & 0x0f` of `bite = ... & 0xff`. -/
def hexStringify (bytes : List Nat) : JSString :=
  bytes.flatMap fun bite => [hexDigit (bite % 256 / 16), hexDigit (bite % 256 % 16)]

/-- The test `normalizedKey.length < requiredLength` of line 17, with
`requiredLength = keySizeBits / 8`; it is false for `NaN`. -/
def belowRequiredLength (normalizedKey : JSString) (keySizeBits : Option Int) : Bool :=
  match keySizeBits with
  | none => false
  | some bits => decide ((normalizedKey.length : Int) * 8 < bits)

/-- The loop of lines 17-19 for at most `fuel` more rounds; `none` when the
test still holds after them. -/
def appendKey (key : JSString) (keySizeBits : Option Int) : Nat → JSString → Option JSString
  | 0, normalizedKey =>
    if belowRequiredLength normalizedKey keySizeBits then none else some normalizedKey
  | fuel + 1, normalizedKey =>
    if belowRequiredLength normalizedKey keySizeBits then
      appendKey key keySizeBits fuel (normalizedKey ++ key)
    else some normalizedKey

/-- The integer part of `requiredLength`, as `substring` takes it: zero for
`NaN` and for a negative value. -/
def requiredLength (keySizeBits : Option Int) : Nat :=
  match keySizeBits with
  | none => 0
  | some bits => bits.toNat / 8

/-- Lines 16-20: the key repeated until it is long enough, then cut to
`requiredLength`. A non-empty key is long enough after `requiredLength`
rounds; `none` stands for the loop that never ends, on an empty key. -/
def normalizeKey (key : JSString) (keySizeBits : Option Int) : Option JSString :=
  match appendKey key keySizeBits (requiredLength keySizeBits + 1) key with
  | none => none
  | some normalizedKey => some (substring normalizedKey 0 (requiredLength keySizeBits))

/-- The test `mode.toUpperCase() === name` for one of the names `ECB`, `CBC`
and `CTR`: no character outside ASCII has an upper case made of these
letters, so that upper-casing the ASCII letters decides it. -/
def modeIs (mode name : String) : Bool :=
  decide ((js mode).map toUpperCaseUnit = js name)

/-- Lines 26-36: the bytes of the text, through `Utf8.parse` and, when that
throws, through `Base64.parse`, which does not throw. -/
def textWordArray (C : CryptoJS) (text : JSString) : List Nat :=
  match utf8Parse text with
  | .ok bytes => bytes
  | .error _ => C.base64Parse text

/-- `encryptedData.toString()`: the cipher text in base64 (the key is a
`WordArray`, so that there is no salt). -/
def cipherToString (ciphertext : List Nat) : JSString := base64Encode ciphertext

/-- `aesEncrypt(text, key, keySize, mode)` (lines 7-82) given the bytes `iv`
of `WordArray.random(16)`, with `keySize` the value of `parseInt(keySize)`
and an absent `mode` as `none`. The result is `none` when the call does not
return, and otherwise the string returned or the message of the error
thrown. -/
def aesEncrypt (C : CryptoJS) (iv : List Nat) (text key : JSString)
    (keySize : Option Int) (mode : Option String) : Option (Except String JSString) :=
  match normalizeKey key keySize with
  | none => none
  | some normalizedKey =>
    some <|
      match utf8Parse normalizedKey with
      | .error message => .error ("AES encryption failed: " ++ message)
      | .ok keyWordArray =>
        match mode with
        | none =>
          .error ("AES encryption failed: " ++
            "Cannot read properties of undefined (reading 'toUpperCase')")
        | some mode =>
          if modeIs mode "ECB" then
            .ok (cipherToString (C.encrypt "ECB" keyWordArray [] (textWordArray C text)))
          else if modeIs mode "CBC" then
            .ok (hexStringify iv ++ [58] ++
              cipherToString (C.encrypt "CBC" keyWordArray iv (textWordArray C text)))
          else if modeIs mode "CTR" then
            .ok (hexStringify iv ++ [58] ++
              cipherToString (C.encrypt "CTR" keyWordArray iv (textWordArray C text)))
          else .error ("AES encryption failed: " ++ ("Unsupported AES mode: " ++ mode))

/-! ## Auxiliary definitions for the proofs about AES encryption -/

/-- The test `/[0-9a-f]/` on one code unit. -/
def isLowerHexDigit (c : Nat) : Bool :=
  (decide (48 ≤ c) && decide (c ≤ 57)) || (decide (97 ≤ c) && decide (c ≤ 102))

/-- A valid AES key for a key size: the size is 128, 192 or 256 bits, the
key has as many characters as the size has bytes, and it is well-formed
UTF-16. -/
def ValidAesKey (key : JSString) (keySize : Option Int) : Prop :=
  (keySize = some 128 ∨ keySize = some 192 ∨ keySize = some 256) ∧
    keySize = some ((key.length : Int) * 8) ∧ wellFormed key = true

/-- The value of a hexadecimal digit, zero for another unit. -/
def hexValue (c : Nat) : Nat :=
  if 48 ≤ c ∧ c ≤ 57 then c - 48
  else if 97 ≤ c ∧ c ≤ 102 then c - 87
  else if 65 ≤ c ∧ c ≤ 70 then c - 55
  else 0

/-- The bytes of a string of hexadecimal digits, two digits a byte. -/
def bytesOfHex : JSString → List Nat
  | a :: b :: rest => (hexValue a * 16 + hexValue b) :: bytesOfHex rest
  | _ => []

/-- A stand-in for CryptoJS in concrete runs: the cipher adds the length of
the key to every byte of the IV and of the message, and the decryption drops
as many bytes as the IV has and takes the length of the key away. -/
def toyCryptoJS : CryptoJS where
  encrypt := fun _ key iv message => (iv ++ message).map fun b => (b + key.length) % 256
  base64Parse := bufferFromBase64
  decrypt := fun _ key iv ciphertext =>
    ((bufferFromBase64 ciphertext).drop iv.length).map fun b =>
      (b + 256 - key.length % 256) % 256
  decryptParsed := fun _ key iv ciphertext =>
    (ciphertext.drop iv.length).map fun b => (b + 256 - key.length % 256) % 256
  hexParse := bytesOfHex

/-! ## Cryptanalysis: objects and numbers

The functions of `server/utils/cryptanalysisUtils.js`; the line numbers in
this part are those of that file. -/

/-- The test `/[0-9]/` on one code unit. -/
def isDigit (c : Nat) : Bool := decide (48 ≤ c) && decide (c ≤ 57)

/-- The number a property key stands for when the key is an array index: a
decimal numeral in canonical form below `2^32 - 1`. -/
def arrayIndex (key : JSString) : Option Nat :=
  let value := key.foldl (fun acc c => acc * 10 + (c - 48)) 0
  if key.all isDigit && !key.isEmpty && (key == [48] || key.head? != some 48) &&
      decide (value < 2 ^ 32 - 1) then some value
  else none

/-- The order in which `for...in` and `Object.keys` visit the own
properties of an object that got them in the order of `entries`: the array
indices in ascending order, then the other keys in the order of creation. -/
def ownKeysOrder {α : Type} (entries : List (JSString × α)) : List (JSString × α) :=
  (entries.filter fun e => (arrayIndex e.1).isSome).insertionSort
      (fun a b => (arrayIndex a.1).getD 0 ≤ (arrayIndex b.1).getD 0) ++
    entries.filter fun e => (arrayIndex e.1).isNone

/-- The statement `counts[key] = (counts[key] || 0) + 1` on an object whose
own properties are `counts`, in the order of creation (lines 22 and 271; the
keys are strings of one unit, which name no inherited property). -/
def increment (counts : List (JSString × Nat)) (key : JSString) : List (JSString × Nat) :=
  match counts with
  | [] => [(key, 1)]
  | (k, n) :: rest =>
    if k = key then (k, n + 1) :: rest else (k, n) :: increment rest key

/-- The names of the properties that an object literal inherits from
`Object.prototype`; the value of each is truthy and has no `push`. -/
def objectPrototypeKeys : List JSString :=
  [js "constructor", js "__defineGetter__", js "__defineSetter__", js "hasOwnProperty",
    js "__lookupGetter__", js "__lookupSetter__", js "isPrototypeOf",
    js "propertyIsEnumerable", js "toString", js "valueOf", js "__proto__",
    js "toLocaleString"]

/-- A number of JavaScript as the analysis computes it from counts: an exact
rational value, `Infinity` or `NaN`. The rounding of a quotient to a double is
left out. -/
inductive JSNumber where
  /-- A finite value. -/
  | value (q : ℚ)
  /-- The value `Infinity`. -/
  | infinity
  /-- The value `NaN`. -/
  | nan
  deriving DecidableEq

/-- The quotient `a / b` of two counts: `0 / 0` is `NaN` and `a / 0` is
`Infinity` for a positive `a`. -/
def divide (a b : Nat) : JSNumber :=
  if b = 0 then (if a = 0 then .nan else .infinity) else .value ((a : ℚ) / (b : ℚ))

/-- The comparison `x > t` with a finite number `t`; it is false for `NaN`. -/
def greaterThan (x : JSNumber) (t : ℚ) : Bool :=
  match x with
  | .value q => decide (t < q)
  | .infinity => true
  | .nan => false

/-! ## Cryptanalysis: frequencies and the index of coincidence -/

/-- `interpretIC(ic)` (lines 60-68). -/
def interpretIC (ic : JSNumber) : String :=
  if greaterThan ic (6 / 100) then
    "High likelihood of simple substitution cipher or plaintext"
  else if greaterThan ic (45 / 1000) then
    "Possible polyalphabetic cipher (like Vigenère or Autokey)"
  else "Likely a more complex encryption or random/compressed data"

/-- One element of `frequencies`. -/
structure FrequencyEntry where
  /-- The field `character`, a string of one unit. -/
  character : JSString
  /-- The field `count`. -/
  count : Nat
  /-- The field `frequency`, in percent. -/
  frequency : ℚ
  deriving DecidableEq

/-- The object `frequencyAnalysis` returns when it has letters to count. -/
structure FrequencyReport where
  /-- The field `totalSample`. -/
  totalSample : Nat
  /-- The field `frequencies`. -/
  frequencies : List FrequencyEntry
  /-- The field `ic`. -/
  ic : JSNumber
  /-- The field `interpretation`. -/
  interpretation : String
  deriving DecidableEq

/-- The object `charCount` after the loop of lines 21-23. -/
def countCharacters (cleanText : JSString) : List (JSString × Nat) :=
  cleanText.foldl (fun charCount char => increment charCount [char]) []

/-- `frequencyAnalysis(text)` (lines 8-55) on a string; `.error message` is
the object `{ error: message }` it returns without a report. The array
`frequencies` is sorted as `Array.prototype.sort` does, keeping the order of
elements that compare equal. -/
def frequencyAnalysis (text : JSString) : Except String FrequencyReport :=
  let cleanText := normalizeLetters text
  if cleanText.length = 0 then .error "No alphabetic characters found in the text"
  else
    let charCount := countCharacters cleanText
    let totalChars := cleanText.length
    let frequencies : List FrequencyEntry := (ownKeysOrder charCount).map fun e =>
      { character := e.1, count := e.2, frequency := (e.2 : ℚ) / (totalChars : ℚ) * 100 }
    let sorted := frequencies.insertionSort fun a b => b.count ≤ a.count
    let sumSquares := (ownKeysOrder charCount).foldl (fun sum e => sum + e.2 * (e.2 - 1)) 0
    let ic := divide sumSquares (totalChars * (totalChars - 1))
    .ok { totalSample := totalChars, frequencies := sorted, ic := ic,
          interpretation := interpretIC ic }

/-! ## Cryptanalysis: entropy -/

/-- `calculateEntropy(str)` (lines 265-282), given the function `Math.log2`
on the relative frequencies. -/
def calculateEntropy (log2 : ℚ → ℚ) (str : JSString) : ℚ :=
  let len := str.length
  let frequencies := str.foldl (fun frequencies c => increment frequencies [c]) []
  (ownKeysOrder frequencies).foldl
    (fun entropy e => entropy - (e.2 : ℚ) / (len : ℚ) * log2 ((e.2 : ℚ) / (len : ℚ))) 0

/-! ## Cryptanalysis: repeating sequences and blocks -/

/-- One element of the array `findRepeatingSequences` returns. -/
structure RepeatingSequence where
  /-- The field `sequence`. -/
  sequence : JSString
  /-- The field `length`. -/
  length : Nat
  /-- The field `occurrences`. -/
  occurrences : Nat
  /-- The field `positions`. -/
  positions : List Nat
  /-- The field `distances`. -/
  distances : List Int
  deriving DecidableEq

/-- Lines 320-324 once the test `!found[seq]` has read an own property or
none: the first position of a new key, or one more position of a key. -/
def addPosition (found : List (JSString × List Nat)) (seq : JSString) (i : Nat) :
    List (JSString × List Nat) :=
  match found with
  | [] => [(seq, [i])]
  | (key, positions) :: rest =>
    if key = seq then (key, positions ++ [i]) :: rest
    else (key, positions) :: addPosition rest seq i

/-- The loop of lines 317-325 over the start indices `indices`. For a
window that names an inherited property, `found[seq]` is truthy and
`found[seq].push(i)` throws a `TypeError`. -/
def slide (text : JSString) (len : Nat) :
    List Nat → List (JSString × List Nat) → Except String (List (JSString × List Nat))
  | [], found => .ok found
  | i :: indices, found =>
    let seq := substring text i (i + len)
    if seq ∈ objectPrototypeKeys then .error "found[seq].push is not a function"
    else slide text len indices (addPosition found seq i)

/-- The array `distances` of lines 332-336. -/
def distancesOf (positions : List Nat) : List Int :=
  List.zipWith (fun next previous => (next : Int) - (previous : Int)) positions.tail positions

/-- The loop of lines 328-346: a record for every key of `found` with more
than one position. -/
def repeatedIn (found : List (JSString × List Nat)) : List RepeatingSequence :=
  (ownKeysOrder found).filterMap fun e =>
    if 1 < e.2.length then
      some { sequence := e.1, length := e.1.length, occurrences := e.2.length,
             positions := e.2, distances := distancesOf e.2 }
    else none

/-- The loop of lines 311-347 over the lengths `lens`, with the `break` of
line 312. -/
def sequencesOfLengths (text : JSString) : List Nat → Except String (List RepeatingSequence)
  | [] => .ok []
  | len :: lens =>
    if text.length < 3 * len then .ok []
    else
      match slide text len (List.range (text.length - len + 1)) [] with
      | .error message => .error message
      | .ok found =>
        match sequencesOfLengths text lens with
        | .error message => .error message
        | .ok sequences => .ok (repeatedIn found ++ sequences)

/-- The comparator of lines 350-355. -/
def compareSequences (a b : RepeatingSequence) : Int :=
  if a.occurrences ≠ b.occurrences then (b.occurrences : Int) - (a.occurrences : Int)
  else (b.length : Int) - (a.length : Int)

/-- `findRepeatingSequences(text)` (lines 306-358): the sorted array, or
the message of the `TypeError` thrown. The sort keeps the order of elements
that compare equal. -/
def findRepeatingSequences (text : JSString) : Except String (List RepeatingSequence) :=
  match sequencesOfLengths text [3, 4, 5, 6, 7, 8, 9, 10] with
  | .error message => .error message
  | .ok sequences => .ok (sequences.insertionSort fun a b => compareSequences a b ≤ 0)

/-- The test `/^[0-9a-fA-F]+$/` on a string. -/
def isHexText (s : JSString) : Bool :=
  !s.isEmpty && s.all fun c =>
    isDigit c || (decide (97 ≤ c) && decide (c ≤ 102)) || (decide (65 ≤ c) && decide (c ≤ 70))

/-- `s.substr(start, length)`. -/
def substr (s : JSString) (start length : Nat) : JSString := (s.drop start).take length

/-- The values of `i` in the loop of line 379, for at most `fuel` rounds. -/
def blockOffsets (length blockSize : Nat) : Nat → Nat → List Nat
  | 0, _ => []
  | fuel + 1, i =>
    if i + blockSize < length then i :: blockOffsets length blockSize fuel (i + blockSize)
    else []

/-- Lines 380-386 for one block, on the object `blocks` and the flag
`hasRepeats` (no inherited property has a name of 24 or 32 characters). -/
def countBlock (state : List (JSString × Nat) × Bool) (block : JSString) :
    List (JSString × Nat) × Bool :=
  if (state.1.lookup block).isSome then (increment state.1 block, true)
  else (increment state.1 block, state.2)

/-- The text `processedText` of lines 367-370: the second of the pieces
of `ciphertext.split(':')` when the cipher text holds a colon. -/
def processedText (ciphertext : JSString) : JSString :=
  if 58 ∈ ciphertext then (ciphertext.splitOn 58).getD 1 [] else ciphertext

/-- The width `blockSize` of line 374. -/
def blockSize (processedText : JSString) : Nat :=
  if isHexText processedText then 32 else 24

/-- `detectRepeatingBlocks(ciphertext)` (lines 365-390); the loop of line
379 ends within `processedText.length` rounds. -/
def detectRepeatingBlocks (ciphertext : JSString) : Bool :=
  let text := processedText ciphertext
  let offsets := blockOffsets text.length (blockSize text) text.length 0
  ((offsets.map fun i => substr text i (blockSize text)).foldl countBlock ([], false)).2

/-! ## Auxiliary definitions for the proofs about the cryptanalysis -/

/-- The update of an object that `increment` and `addPosition` share: the
value of `key` becomes `update` of its old value, and a new key goes to the
end. -/
def upsert {β : Type} (entries : List (JSString × β)) (key : JSString)
    (update : Option β → β) : List (JSString × β) :=
  match entries with
  | [] => [(key, update none)]
  | (k, v) :: rest =>
    if k = key then (k, update (some v)) :: rest else (k, v) :: upsert rest key update

/-- The value of the own property `key`, if there is one. -/
def ownValue {β : Type} (entries : List (JSString × β)) (key : JSString) : Option β :=
  match entries with
  | [] => none
  | (k, v) :: rest => if k = key then some v else ownValue rest key

/-- The index of coincidence of a cleaned text by its formula: the sum over
the 26 letters of `n (n - 1)`, with `n` the count of the letter, by
`N (N - 1)`, with `N` the number of letters. -/
def indexOfCoincidence (cleanText : JSString) : ℚ :=
  ((List.range 26).map fun i =>
      (cleanText.count (65 + i) : ℚ) * ((cleanText.count (65 + i) : ℚ) - 1)).sum /
    ((cleanText.length : ℚ) * ((cleanText.length : ℚ) - 1))

/-- A stand-in for `Math.log2` on relative frequencies in concrete runs:
zero at 1 and negative below 1. -/
def toyLog2 (p : ℚ) : ℚ := p - 1

/-- The object `found` after the loop of lines 317-325 for the length
`len`, when no window names an inherited property. -/
def foundFor (text : JSString) (len : Nat) : List (JSString × List Nat) :=
  (List.range (text.length - len + 1)).foldl
    (fun found i => addPosition found (substring text i (i + len)) i) []

/-- The start positions at which `s` occurs in `text`, in ascending order. -/
def startPositions (s text : JSString) : List Nat :=
  (List.range (text.length + 1)).filter fun i => s.isPrefixOf (text.drop i)

/-- No window that the scan reads names a property inherited from
`Object.prototype`. -/
def AvoidsInheritedNames (text : JSString) : Prop :=
  ∀ len i, 3 ≤ len → len ≤ 10 → 3 * len ≤ text.length → i + len ≤ text.length →
    substring text i (i + len) ∉ objectPrototypeKeys

/-! ## The AES layer: decryption

The function `aesDecrypt` of `server/utils/encryptionUtils.js`. -/

/-- `wordArray.toString(CryptoJS.enc.Utf8)`: the string the bytes encode in
UTF-8; it goes through `decodeURIComponent`, and throws `Malformed UTF-8 data`
unless the bytes are well-formed UTF-8, which is when the decoding of `Buffer`
replaces nothing, so that its text encodes back to the same bytes. -/
def utf8Stringify (bytes : List Nat) : Except String JSString :=
  if bufferFromString (bufferToString bytes) = bytes then .ok (bufferToString bytes)
  else .error "Malformed UTF-8 data"

/-- The case of the `switch` of lines 132 and 170 that `mode.toUpperCase()`
selects, `none` when no case matches and `decryptedData` stays `undefined`. -/
def switchCase (mode : String) : Option String :=
  if modeIs mode "ECB" then some "ECB"
  else if modeIs mode "CBC" then some "CBC"
  else if modeIs mode "CTR" then some "CTR"
  else none

/-- Lines 111-127: the bytes of `iv` (none for a mode other than CBC and
CTR, and for the empty array of `WordArray.create()`) and `actualCiphertext`. -/
def ivAndCiphertext (C : CryptoJS) (cleanedCiphertext : JSString) (mode : String) :
    List Nat × JSString :=
  if modeIs mode "CBC" || modeIs mode "CTR" then
    if 58 ∈ cleanedCiphertext then
      let parts := cleanedCiphertext.splitOn 58
      if 2 ≤ parts.length then
        (C.hexParse (parts.getD 0 []), List.intercalate [58] (parts.drop 1))
      else ([], cleanedCiphertext)
    else ([], cleanedCiphertext)
  else ([], cleanedCiphertext)

/-- The cipher's IV in a case of the `switch`: the case `ECB` passes none. -/
def ivOfCase (name : String) (iv : List Nat) : List Nat := if name = "ECB" then [] else iv

/-- Lines 131-160, the first attempt: the string it returns, or `none` when
it throws (no case of the `switch` matches, the bytes are not UTF-8, or the
result is empty). -/
def primaryAttempt (C : CryptoJS) (mode : String) (keyWordArray iv : List Nat)
    (actualCiphertext : JSString) : Option JSString :=
  match switchCase mode with
  | none => none
  | some name =>
    match utf8Stringify (C.decrypt name keyWordArray (ivOfCase name iv) actualCiphertext) with
    | .error _ => none
    | .ok result => if result.isEmpty then none else some result

/-- Lines 166-199, the second attempt, on `Base64.parse(actualCiphertext)`:
the string it returns, or `none` when it returns nothing. -/
def fallbackAttempt (C : CryptoJS) (mode : String) (keyWordArray iv : List Nat)
    (actualCiphertext : JSString) : Option JSString :=
  match switchCase mode with
  | none => none
  | some name =>
    match utf8Stringify
        (C.decryptParsed name keyWordArray (ivOfCase name iv)
          (C.base64Parse actualCiphertext)) with
    | .error _ => none
    | .ok result => if result.isEmpty then none else some result

/-- `aesDecrypt(ciphertext, key, keySize, mode)` (lines 87-207), with
`keySize` the value of `parseInt(keySize)` and an absent `mode` as `none`. The
result is `none` when the call does not return, and otherwise the string
returned or the message of the error thrown. -/
def aesDecrypt (C : CryptoJS) (ciphertext key : JSString) (keySize : Option Int)
    (mode : Option String) : Option (Except String JSString) :=
  match normalizeKey key keySize with
  | none => none
  | some normalizedKey =>
    some <|
      match utf8Parse normalizedKey with
      | .error message => .error ("AES decryption failed: " ++ message)
      | .ok keyWordArray =>
        match mode with
        | none =>
          .error ("AES decryption failed: " ++
            "Cannot read properties of undefined (reading 'toUpperCase')")
        | some mode =>
          let parsed := ivAndCiphertext C ciphertext mode
          match primaryAttempt C mode keyWordArray parsed.1 parsed.2 with
          | some result => .ok result
          | none =>
            match fallbackAttempt C mode keyWordArray parsed.1 parsed.2 with
            | some result => .ok result
            | none => .error ("AES decryption failed: " ++ "All decryption attempts failed")

/-- The first `n` characters of the key repeated end to end. -/
def repeatedKey (key : JSString) (n : Nat) : JSString :=
  ((List.replicate n key).flatten).take n

/-- The result of the two attempts in the words of the claim: the plain
text of the first attempt if it is non-empty, otherwise the plain text of the
second attempt if it is non-empty, and otherwise the failure. -/
def resultOfAttempts (primary fallback : Except String JSString) : Except String JSString :=
  match primary with
  | .ok (c :: rest) => .ok (c :: rest)
  | _ =>
    match fallback with
    | .ok (c :: rest) => .ok (c :: rest)
    | _ => .error "AES decryption failed: All decryption attempts failed"

/-- A primitive that round-trips: decryption, of the formatted string and
of the parsed cipher text, gives back the bytes of the message, and
`Hex.parse` gives back the bytes that `Hex.stringify` printed. -/
def RoundTrips (C : CryptoJS) : Prop :=
  (∀ mode key iv message, (∀ b ∈ message, b < 256) →
    C.decrypt mode key iv (cipherToString (C.encrypt mode key iv message)) = message) ∧
  (∀ mode key iv message, (∀ b ∈ message, b < 256) →
    C.decryptParsed mode key iv
      (C.base64Parse (cipherToString (C.encrypt mode key iv message))) = message) ∧
  (∀ iv, (∀ b ∈ iv, b < 256) → C.hexParse (hexStringify iv) = iv)

/-- The entry of `frequencies` for the letter `c` of a cleaned text: its
count and its share of the text in percent. -/
def frequencyEntryOf (cleanText : JSString) (c : Nat) : FrequencyEntry :=
  { character := [c], count := cleanText.count c,
    frequency := (cleanText.count c : ℚ) / (cleanText.length : ℚ) * 100 }

/-! ## Cryptanalysis: the Autokey and RSA reports -/

/-- `Array.from(new Set(values))` and the elements a `Set` built from
`values` holds: the values in the order in which they first occur. -/
def setOf {α : Type} [DecidableEq α] (values : List α) : List α :=
  values.foldl (fun set v => if v ∈ set then set else set ++ [v]) []

/-- The array `commonLetters` of line 93. -/
def commonLetters : List JSString := [js "E", js "T", js "A", js "O", js "I", js "N"]

/-- The string `potentialKey` of lines 101-103; `charCodeAt(0)` of an
empty string is `NaN`, which ends as the unit 0. -/
def potentialKey (character letter : JSString) : JSString :=
  match character.head?, letter.head? with
  | some c, some l => [fromCharCode (jsMod ((c : Int) - (l : Int) + 26) 26 + 65)]
  | _, _ => [0]

/-- The array `possibleKeyLetters` after the loops of lines 98-106. -/
def possibleKeyLetters (frequencies : List FrequencyEntry) : List JSString :=
  (frequencies.take 6).flatMap fun item =>
    commonLetters.map fun letter => potentialKey item.character letter

/-- The report of `autokeyAnalysis`. -/
structure AutokeyReport where
  /-- The field `keyCharacteristics.possibleFirstLetters`. -/
  possibleFirstLetters : List JSString
  /-- The field `keyCharacteristics.estimatedLength`. -/
  estimatedLength : String
  /-- The field `frequencies`. -/
  frequencies : List FrequencyEntry
  /-- The field `ic`. -/
  ic : JSNumber
  /-- The field `interpretation`. -/
  interpretation : String
  /-- The field `repeatingSequences`. -/
  repeatingSequences : List RepeatingSequence
  deriving DecidableEq

/-- `autokeyAnalysis(ciphertext)` (lines 75-124) on a string; `.error
message` is the object `{ error: message }`, returned for a short text and
from the `catch` of line 120 when `findRepeatingSequences` throws or
`freqAnalysis` has no `frequencies`. -/
def autokeyAnalysis (ciphertext : JSString) : Except String AutokeyReport :=
  let cleanText := normalizeLetters ciphertext
  if cleanText.length < 20 then
    .error "Text too short for reliable analysis. Need at least 20 characters."
  else
    match findRepeatingSequences cleanText with
    | .error message => .error message
    | .ok repeats =>
      match frequencyAnalysis cleanText with
      | .error _ => .error "Cannot read properties of undefined (reading 'slice')"
      | .ok freqAnalysis =>
        .ok { possibleFirstLetters := setOf (possibleKeyLetters freqAnalysis.frequencies),
              estimatedLength := "Unknown (Autokey uses plaintext as part of the key)",
              frequencies := freqAnalysis.frequencies.take 10,
              ic := freqAnalysis.ic,
              interpretation := freqAnalysis.interpretation,
              repeatingSequences := repeats.take 5 }

/-- `interpretEntropy(entropy)` (lines 287-299). -/
def interpretEntropy (entropy : ℚ) : String :=
  if entropy < 3 then "Very low entropy - likely not encrypted or highly structured data"
  else if entropy < 4 then "Low entropy - possibly simple encoding or simple cipher"
  else if entropy < 5 then "Moderate entropy - typical for text or simple encryption"
  else if entropy < 7 then "High entropy - characteristic of good encryption or compression"
  else "Very high entropy - strong encryption or random data"

/-- `keySizeDesc.includes(part)`. -/
def includes (keySizeDesc part : String) : Bool :=
  decide (js part <:+: js keySizeDesc)

/-- `evaluateRsaKeyStrength(keySizeDesc)` (lines 397-407). -/
def evaluateRsaKeyStrength (keySizeDesc : String) : String :=
  if includes keySizeDesc "4096" then "Very strong - suitable for long-term security"
  else if includes keySizeDesc "2048" then "Strong - currently recommended minimum size"
  else if includes keySizeDesc "1024" then "Weak - considered insufficient by modern standards"
  else "Unknown strength or potentially very weak"

/-- The test `/^[A-Za-z0-9+/=]+$/` on a string. -/
def isBase64Text (s : JSString) : Bool :=
  !s.isEmpty && s.all fun c =>
    isUpperAZ c || isLowerAZ c || isDigit c || decide (c = 43) || decide (c = 47) ||
      decide (c = 61)

/-- The array `chunks` of line 205. -/
def chunksOf (ciphertext : JSString) : List JSString :=
  if 124 ∈ ciphertext then ciphertext.splitOn 124 else [ciphertext]

/-- The sum of line 214: `chunks.reduce((sum, chunk) => sum + chunk.length, 0)`. -/
def totalLength (chunks : List JSString) : Nat :=
  chunks.foldl (fun sum chunk => sum + chunk.length) 0

/-- Lines 211-224: the text `estimatedKeySize`. -/
def estimateKeySize (chunks : List JSString) (isBase64 : Bool) : String :=
  if decide (0 < chunks.length) && isBase64 then
    let avgChunkLength := divide (totalLength chunks) chunks.length
    if greaterThan avgChunkLength 683 then "4096 bits or higher"
    else if greaterThan avgChunkLength 342 then "~2048 bits"
    else if greaterThan avgChunkLength 171 then "~1024 bits"
    else "Less than 1024 bits (not recommended)"
  else "Unknown"

/-- Lines 230-233: the flag `consistentChunks`. -/
def consistentChunks (chunks : List JSString) : Bool :=
  let chunkLengths := chunks.map fun chunk => chunk.length
  let uniqueChunkLengths := (setOf chunkLengths).length
  decide (uniqueChunkLengths = 1) || (decide (5 < chunks.length) && decide (uniqueChunkLengths ≤ 2))

/-- `Math.round(a / b)` for two counts with `b` positive: the integer part
of the quotient plus one half. -/
def roundedQuotient (a b : Nat) : Nat := (2 * a + b) / (2 * b)

/-- The field `chunks` of the report of `rsaAnalysis`. -/
structure ChunkStatistics where
  /-- The field `count`. -/
  count : Nat
  /-- The field `averageLength`. -/
  averageLength : Nat
  /-- The field `consistent`. -/
  consistent : Bool
  deriving DecidableEq

/-- The report of `rsaAnalysis`. -/
structure RsaReport where
  /-- The field `format`. -/
  format : String
  /-- The field `encoding`. -/
  encoding : String
  /-- The field `entropy`. -/
  entropy : ℚ
  /-- The field `entropyInterpretation`. -/
  entropyInterpretation : String
  /-- The field `chunks`. -/
  chunks : ChunkStatistics
  /-- The field `estimatedKeySize`. -/
  estimatedKeySize : String
  /-- The field `keyStrength`. -/
  keyStrength : String
  /-- The field `recommendations`. -/
  recommendations : List String
  deriving DecidableEq

/-- `rsaAnalysis(ciphertext)` (lines 201-258) on a string, given the
function `Math.log2`; nothing in it throws. -/
def rsaAnalysis (log2 : ℚ → ℚ) (ciphertext : JSString) : RsaReport :=
  let isRsaFormat : Bool := decide (124 ∈ ciphertext)
  let chunks := chunksOf ciphertext
  let isBase64 := chunks.all isBase64Text
  let estimatedKeySize := estimateKeySize chunks isBase64
  let entropy := calculateEntropy log2 ciphertext
  let chunkLengths := chunks.map fun chunk => chunk.length
  { format :=
      if isRsaFormat then "Multiple chunks separated by '|' - standard RSA format"
      else "Single chunk - possibly small data or non-standard format",
    encoding :=
      if isBase64 then "Base64 encoded (expected for RSA)" else "Not standard Base64 encoding",
    entropy := entropy,
    entropyInterpretation := interpretEntropy entropy,
    chunks :=
      { count := chunks.length,
        averageLength := roundedQuotient (chunkLengths.foldl (fun a b => a + b) 0) chunks.length,
        consistent := consistentChunks chunks },
    estimatedKeySize := estimatedKeySize,
    keyStrength := evaluateRsaKeyStrength estimatedKeySize,
    recommendations :=
      ["RSA keys should be at least 2048 bits in modern applications",
        "RSA should be combined with proper padding schemes (PKCS#1 v2 or OAEP)",
        "For large data, use RSA to encrypt a symmetric key, then encrypt data with AES"] }

/-- The letter with the value `(c - e) mod 26`, for two capital letters
`c` and `e`. -/
def candidateKeyLetter (c e : Nat) : Nat := (((c : Int) - (e : Int)) % 26 + 65).toNat

/-- The average chunk length: the sum of the lengths of the chunks by
their number. -/
def averageChunkLength (chunks : List JSString) : ℚ :=
  (chunks.map fun chunk => (chunk.length : ℚ)).sum / (chunks.length : ℚ)

/-- The decimal numeral of an integer `k`, as a key is typed: its digits,
the first of them not `0` unless `k` is 0, with `-` in front of a negative
one. -/
def decimal (k : Int) : JSString :=
  (if k < 0 then [45] else []) ++
    (if k = 0 then [48] else (Nat.digits 10 k.natAbs).reverse.map fun d => 48 + d)

/-- A key of 310 digits `9`, the number `10^310 - 1`. -/
def ninesKey : JSString := List.replicate 310 57

/-- The second unit stands for the first in a printable way: it is the
same unit when the first is no letter, and a printable unit (code 32 to 126)
otherwise. -/
def PrintShape (c d : Nat) : Prop :=
  (isAlpha c = false → d = c) ∧ (isAlpha c = true → 32 ≤ d ∧ d ≤ 126)

/-- The comparison `x <= t` with a finite number `t`; it is false for `NaN`
and for `Infinity`. -/
def atMost (x : JSNumber) (t : ℚ) : Bool :=
  match x with
  | .value q => decide (q ≤ t)
  | .infinity => false
  | .nan => false

/-! ## The key letter -/

/-- The remainder of JavaScript by 26, by the sign of the dividend. -/
theorem jsMod_26 (a : Int) :
    (0 ≤ a ∧ jsMod a 26 = a % 26) ∨ (a < 0 ∧ jsMod a 26 = -((-a) % 26)) := by
  rcases a with n | n
  · left
    exact ⟨Int.ofNat_nonneg n, Int.tmod_eq_emod (Int.ofNat_nonneg n) (by decide)⟩
  · right
    refine ⟨Int.negSucc_lt_zero n, ?_⟩
    show -((((n + 1) % 26 : Nat)) : Int) = -((-Int.negSucc n) % 26)
    rw [Int.neg_negSucc]
    rfl

/-- The double remainder of lines 319 and 400 is the mathematical
remainder. -/
theorem modKey_eq (n : Int) : modKey (.finite n) = some (n % 26) := by
  unfold modKey
  simp only [Option.some.injEq]
  rcases jsMod_26 n with ⟨h0, h⟩ | ⟨h0, h⟩ <;>
    rcases jsMod_26 (jsMod n 26 + 26) with ⟨h1, h2⟩ | ⟨h1, h2⟩ <;> omega

theorem actualKey_eq (n : Int) :
    actualKey (.finite n) = some (if n % 26 = 0 then 26 else n % 26) := by
  unfold actualKey
  rw [modKey_eq]

theorem keyLetter_eq (n : Int) :
    (keyLetter (.finite n) : Int) = (if n % 26 = 0 then 26 else n % 26) + 64 := by
  unfold keyLetter
  rw [actualKey_eq]
  simp only [fromCharCode]
  split <;> omega

theorem keyLetter_upper (n : Int) : isUpperAZ (keyLetter (.finite n)) = true := by
  have h2 := keyLetter_eq n
  simp only [isUpperAZ, Bool.and_eq_true, decide_eq_true_eq]
  split at h2 <;> omega

/-- Two finite keys with the same remainder by 26 have the same key
letter. -/
theorem keyLetter_congr (a b : Int) (h : a % 26 = b % 26) :
    keyLetter (.finite a) = keyLetter (.finite b) := by
  have h1 := keyLetter_eq a
  have h2 := keyLetter_eq b
  rw [h] at h1
  omega

/-- For `Infinity` and `-Infinity` the key letter is the unit 0. -/
theorem keyLetter_infinity (negative : Bool) : keyLetter (.infinity negative) = 0 := rfl

/-- An integer below `2^53` in absolute value is a double. -/
theorem toDouble_exact (n : Int) (h : n.natAbs < 2 ^ 53) : toDouble n = .finite n := by
  unfold toDouble roundToDouble
  simp only [h, if_true]
  congr 1
  split <;> omega

/-! ## The shape of the raw transforms -/

theorem reinsertEncrypted_eq (result text : JSString) (idx : Nat) :
    reinsertEncrypted result text idx = substitute text (result.drop idx) := by
  induction text generalizing idx with
  | nil => simp [reinsertEncrypted, substitute]
  | cons c rest ih =>
    simp only [reinsertEncrypted, substitute, ih]
    by_cases hc : isAlpha c = true
    · simp only [hc, if_true]
      by_cases hlt : idx < result.length
      · rw [List.drop_eq_getElem_cons hlt]
        simp [charAt, List.getElem?_eq_getElem hlt]
        split <;> rfl
      · have h1 : result.drop idx = [] := List.drop_eq_nil_of_le (by omega)
        have h2 : result.drop (idx + 1) = [] := List.drop_eq_nil_of_le (by omega)
        have h3 : result[idx]? = none := List.getElem?_eq_none (by omega)
        simp [charAt, h1, h2, h3]
    · simp [hc]

theorem find_nonAlphaPositionsFrom (text : JSString) (s i : Nat) :
    (nonAlphaPositionsFrom text s).find? (fun pos => pos.1 == i) =
      if s ≤ i then
        match text[i - s]? with
        | some c => if isAlpha c then none else some (i, c)
        | none => none
      else none := by
  induction text generalizing s with
  | nil => simp [nonAlphaPositionsFrom]
  | cons c rest ih =>
    simp only [nonAlphaPositionsFrom]
    by_cases hs : s ≤ i
    · by_cases hsi : s = i
      · subst hsi
        by_cases hc : isAlpha c = true
        · simp [hc, ih]
        · simp [hc]
      · have h1 : s + 1 ≤ i := by omega
        have h2 : i - s = (i - (s + 1)) + 1 := by omega
        have h3 : (s == i) = false := by simp [hsi]
        by_cases hc : isAlpha c = true
        · simp only [hc, if_true, ih, h1, hs]
          rw [h2, List.getElem?_cons_succ]
        · simp only [hc, hs, if_true, Bool.false_eq_true, if_false]
          rw [h2, List.getElem?_cons_succ, List.find?_cons]
          simp only [h3, ih, h1, if_true]
    · have h1 : ¬ s + 1 ≤ i := by omega
      have h3 : (s == i) = false := by simp; omega
      by_cases hc : isAlpha c = true
      · simp [hc, ih, h1, hs]
      · simp [hc, List.find?_cons, h3, ih, h1, hs]

theorem reinsertDecrypted_eq (result : JSString)
    (hup : ∀ l ∈ result, toUpperCaseUnit l = l) (pre rest : JSString) (idx : Nat) :
    reinsertDecrypted (nonAlphaPositions (pre ++ rest)) result rest pre.length idx =
      substitute rest (result.drop idx) := by
  induction rest generalizing pre idx with
  | nil => simp [reinsertDecrypted, substitute]
  | cons c rest ih =>
    have hget : (pre ++ c :: rest)[pre.length]? = some c := by
      rw [List.getElem?_append_right (Nat.le_refl _)]
      simp
    have hnext := ih (pre ++ [c])
    simp only [List.append_assoc, List.singleton_append, List.length_append,
      List.length_singleton] at hnext
    simp only [reinsertDecrypted, substitute, nonAlphaPositions,
      find_nonAlphaPositionsFrom, Nat.zero_le, if_true, Nat.sub_zero, hget]
    by_cases hc : isAlpha c = true
    · simp only [hc, if_true]
      rw [← nonAlphaPositions, hnext]
      by_cases hlt : idx < result.length
      · rw [List.drop_eq_getElem_cons hlt]
        have hl := hup _ (List.getElem_mem hlt)
        simp [charAt, List.getElem?_eq_getElem hlt, hl]
        split <;> rfl
      · have h1 : result.drop idx = [] := List.drop_eq_nil_of_le (by omega)
        have h2 : result.drop (idx + 1) = [] := List.drop_eq_nil_of_le (by omega)
        have h3 : result[idx]? = none := List.getElem?_eq_none (by omega)
        simp [charAt, h1, h2, h3]
    · simp only [hc]
      rw [← nonAlphaPositions, hnext]
      simp

theorem cased_letter (c l : Nat) (hc : isAlpha c = true) (hl : isUpperAZ l = true) :
    isUpperAZ (if c = toUpperCaseUnit c then l else toLowerCaseUnit l) = isUpperAZ c ∧
    isLowerAZ (if c = toUpperCaseUnit c then l else toLowerCaseUnit l) = isLowerAZ c ∧
    isAlpha (if c = toUpperCaseUnit c then l else toLowerCaseUnit l) = true ∧
    toUpperCaseUnit (if c = toUpperCaseUnit c then l else toLowerCaseUnit l) = l := by
  have hl2 : 65 ≤ l ∧ l ≤ 90 := by simpa [isUpperAZ] using hl
  by_cases hlow : isLowerAZ c = true
  · have hc2 : 97 ≤ c ∧ c ≤ 122 := by simpa [isLowerAZ] using hlow
    have hne : ¬ c = toUpperCaseUnit c := by
      simp only [toUpperCaseUnit, hlow, if_true]; omega
    have hd : toLowerCaseUnit l = l + 32 := by simp [toLowerCaseUnit, hl]
    have h1 : isUpperAZ c = false := by simp [isUpperAZ]; omega
    have h2 : isUpperAZ (l + 32) = false := by simp [isUpperAZ]; omega
    have h3 : isLowerAZ (l + 32) = true := by simp [isLowerAZ]; omega
    rw [if_neg hne, hd, h1, h2, h3, hlow]
    simp [isAlpha, h3, toUpperCaseUnit]
  · have hlow2 : isLowerAZ c = false := by simpa using hlow
    have hupc : isUpperAZ c = true := by simpa [isAlpha, hlow2] using hc
    have heq : c = toUpperCaseUnit c := by simp [toUpperCaseUnit, hlow2]
    have h3 : isLowerAZ l = false := by simp [isLowerAZ]; omega
    rw [if_pos heq, hl, hupc, h3, hlow2]
    simp [isAlpha, hl, toUpperCaseUnit, h3]

theorem letterCount_cons (c : Nat) (rest : JSString) :
    letterCount (c :: rest) = (if isAlpha c then 1 else 0) + letterCount rest := by
  unfold letterCount
  by_cases hc : isAlpha c = true
  · simp [hc]; omega
  · simp [hc]

theorem substitute_shape (text letters : JSString)
    (hup : ∀ l ∈ letters, isUpperAZ l = true) (hlen : letterCount text ≤ letters.length) :
    List.Forall₂ SameShape text (substitute text letters) := by
  induction text generalizing letters with
  | nil => simp [substitute]
  | cons c rest ih =>
    rw [letterCount_cons] at hlen
    by_cases hc : isAlpha c = true
    · rw [if_pos hc] at hlen
      cases letters with
      | nil => simp at hlen
      | cons l ls =>
        simp only [substitute, hc, if_true]
        have hl := hup l (List.mem_cons_self _ _)
        have hcase := cased_letter c l hc hl
        refine List.Forall₂.cons ⟨fun h => ?_, fun _ => ⟨hcase.1, hcase.2.1⟩⟩
          (ih ls (fun x hx => hup x (List.mem_cons_of_mem _ hx)) ?_)
        · rw [hc] at h; cases h
        · simp at hlen; omega
    · have hc' : isAlpha c = false := by simpa using hc
      rw [if_neg hc] at hlen
      simp only [substitute, hc', Bool.false_eq_true, if_false]
      exact List.Forall₂.cons ⟨fun _ => rfl, fun h => by rw [hc'] at h; cases h⟩
        (ih letters hup (by omega))

theorem alphabeticChars_substitute (text letters : JSString)
    (hup : ∀ l ∈ letters, isUpperAZ l = true) :
    alphabeticChars (substitute text letters) = letters.take (letterCount text) := by
  induction text generalizing letters with
  | nil => simp [substitute, alphabeticChars, letterCount]
  | cons c rest ih =>
    rw [letterCount_cons]
    by_cases hc : isAlpha c = true
    · cases letters with
      | nil =>
        simp only [substitute, hc, if_true, List.take_nil]
        simpa using ih [] (by simp)
      | cons l ls =>
        have hl := hup l (List.mem_cons_self _ _)
        have hcase := cased_letter c l hc hl
        have hrest := ih ls (fun x hx => hup x (List.mem_cons_of_mem _ hx))
        simp only [substitute, hc, if_true]
        unfold alphabeticChars at hrest ⊢
        rw [List.filter_cons_of_pos hcase.2.2.1, List.map_cons, hcase.2.2.2, hrest,
          Nat.add_comm, List.take_succ_cons]
    · have hc' : isAlpha c = false := by simpa using hc
      have hrest := ih letters hup
      simp only [substitute, hc', Bool.false_eq_true, if_false, Nat.zero_add]
      unfold alphabeticChars at hrest ⊢
      rw [List.filter_cons_of_neg (by simp [hc']), hrest]

theorem substitute_substitute (text letters : JSString)
    (hup : ∀ l ∈ letters, isUpperAZ l = true) (hlen : letterCount text ≤ letters.length) :
    substitute (substitute text letters) (alphabeticChars text) = text := by
  induction text generalizing letters with
  | nil => simp [substitute]
  | cons c rest ih =>
    rw [letterCount_cons] at hlen
    by_cases hc : isAlpha c = true
    · rw [if_pos hc] at hlen
      cases letters with
      | nil => simp at hlen
      | cons l ls =>
        have hl := hup l (List.mem_cons_self _ _)
        have hcase := cased_letter c l hc hl
        have hrest := ih ls (fun x hx => hup x (List.mem_cons_of_mem _ hx))
          (by simp at hlen; omega)
        unfold alphabeticChars at hrest ⊢
        simp only [substitute, hc, if_true]
        rw [List.filter_cons_of_pos hc, List.map_cons]
        simp only [substitute, hcase.2.2.1, if_true, hrest, hcase.2.2.2]
        congr 1
        simp only [isAlpha, isUpperAZ, isLowerAZ, toUpperCaseUnit, toLowerCaseUnit,
          Bool.or_eq_true, Bool.and_eq_true, decide_eq_true_eq] at hc hl ⊢
        split_ifs <;> omega
    · have hc' : isAlpha c = false := by simpa using hc
      rw [if_neg hc] at hlen
      have hrest := ih letters hup (by omega)
      unfold alphabeticChars at hrest ⊢
      simp only [substitute, hc', Bool.false_eq_true, if_false]
      rw [List.filter_cons_of_neg (by simp [hc'])]
      simp only [substitute, hc', Bool.false_eq_true, if_false, hrest]

/-! ## Raw encryption keeps the shape of the text -/

theorem upperAZ_of_alpha (c : Nat) (hc : isAlpha c = true) :
    upperAZ c = [toUpperCaseUnit c] := by
  by_cases hlow : isLowerAZ c = true
  · have hc2 : 97 ≤ c ∧ c ≤ 122 := by simpa [isLowerAZ] using hlow
    have h1 : isUpperAZ c = false := by simp [isUpperAZ]; omega
    simp [upperAZ, toUpperCaseUnit, hlow, h1]
  · have hlow2 : isLowerAZ c = false := by simpa using hlow
    have hupc : isUpperAZ c = true := by simpa [isAlpha, hlow2] using hc
    simp [upperAZ, toUpperCaseUnit, hlow2, hupc]

theorem upperAZ_all_upper (c : Nat) : (upperAZ c).all isUpperAZ = true := by
  unfold upperAZ
  by_cases h1 : isUpperAZ c = true
  · simp only [h1, if_true, List.all_cons, List.all_nil, Bool.and_self]
  · have h1 : isUpperAZ c = false := by simpa using h1
    by_cases h2 : isLowerAZ c = true
    · have hc2 : 97 ≤ c ∧ c ≤ 122 := by simpa [isLowerAZ] using h2
      have h3 : isUpperAZ (c - 32) = true := by simp [isUpperAZ]; omega
      simp only [h1, h2, if_true, Bool.false_eq_true, if_false, List.all_cons, List.all_nil,
        h3, Bool.and_self]
    · have h2 : isLowerAZ c = false := by simpa using h2
      simp only [h1, h2, Bool.false_eq_true, if_false]
      cases hfind : specialUpperAZ.find? (fun entry => entry.1 == c) with
      | none => rfl
      | some entry =>
        have hmem := List.mem_of_find?_eq_some hfind
        have hall : ∀ e ∈ specialUpperAZ, e.2.all isUpperAZ = true := by decide
        exact hall entry hmem

theorem upperAZ_upper (c l : Nat) (hl : l ∈ upperAZ c) : isUpperAZ l = true :=
  List.all_eq_true.mp (upperAZ_all_upper c) l hl

theorem normalizeLetters_upper (text : JSString) (l : Nat)
    (hl : l ∈ normalizeLetters text) : isUpperAZ l = true := by
  unfold normalizeLetters at hl
  rcases List.mem_flatMap.mp hl with ⟨c, _, hc⟩
  exact upperAZ_upper c l hc

theorem letterCount_le_normalizeLetters (text : JSString) :
    letterCount text ≤ (normalizeLetters text).length := by
  induction text with
  | nil => simp [letterCount]
  | cons c rest ih =>
    rw [letterCount_cons]
    unfold normalizeLetters at ih ⊢
    rw [List.flatMap_cons, List.length_append]
    by_cases hc : isAlpha c = true
    · rw [upperAZ_of_alpha c hc, if_pos hc]
      simp only [List.length_singleton]
      omega
    · rw [if_neg hc]
      omega

theorem encryptChar_upper (t k : Nat) (ht : isUpperAZ t = true) (hk : isUpperAZ k = true) :
    isUpperAZ (encryptChar t k) = true := by
  have ht2 : 65 ≤ t ∧ t ≤ 90 := by simpa [isUpperAZ] using ht
  have hk2 : 65 ≤ k ∧ k ≤ 90 := by simpa [isUpperAZ] using hk
  simp only [isUpperAZ, encryptChar, fromCharCode, Bool.and_eq_true, decide_eq_true_eq]
  rcases jsMod_26 ((t : Int) - 65 + ((k : Int) - 65)) with ⟨h0, h⟩ | ⟨h0, h⟩ <;> omega

theorem encryptLetters_length (normalizedText : JSString) (k : Nat) :
    (encryptLetters normalizedText (k :: normalizedText)).length = normalizedText.length := by
  simp [encryptLetters]

theorem encryptLetters_upper (normalizedText : JSString) (k : Nat)
    (hN : ∀ l ∈ normalizedText, isUpperAZ l = true) (hk : isUpperAZ k = true) :
    ∀ l ∈ encryptLetters normalizedText (k :: normalizedText), isUpperAZ l = true := by
  intro l hl
  unfold encryptLetters at hl
  rcases List.mem_iff_getElem.mp hl with ⟨i, hi, rfl⟩
  rw [List.getElem_zipWith]
  have hi2 : i < normalizedText.length := by simpa using hi
  have hlt : i < (k :: normalizedText).length := by simp; omega
  have hmem : (k :: normalizedText)[i] ∈ k :: normalizedText := List.getElem_mem hlt
  refine encryptChar_upper _ _ (hN _ (List.getElem_mem _)) ?_
  rcases List.mem_cons.mp hmem with h | h
  · rw [h]; exact hk
  · exact hN _ h

/-- The raw encryption keeps the shape of the text: the raw cipher text is
the text with its letters replaced by the first cipher letters. -/
theorem encryptAutokeyRaw_eq_substitute (text : JSString) (numKey : ParsedNumber)
    (h : (normalizeLetters text).length ≠ 0) :
    encryptAutokeyRaw text numKey =
      substitute text
        (encryptLetters (normalizeLetters text) (keyLetter numKey :: normalizeLetters text)) := by
  unfold encryptAutokeyRaw
  simp only [h, if_false, reinsertEncrypted_eq, List.drop_zero]

theorem substitute_no_letters (text letters : JSString) (h : letterCount text = 0) :
    substitute text letters = text := by
  induction text generalizing letters with
  | nil => simp [substitute]
  | cons c rest ih =>
    rw [letterCount_cons] at h
    by_cases hc : isAlpha c = true
    · rw [if_pos hc] at h; omega
    · have hc' : isAlpha c = false := by simpa using hc
      rw [if_neg hc] at h
      simp only [substitute, hc', Bool.false_eq_true, if_false, ih letters (by omega)]

theorem encryptAutokeyRaw_shape (text : JSString) (n : Int) :
    List.Forall₂ SameShape text (encryptAutokeyRaw text (.finite n)) := by
  by_cases h : (normalizeLetters text).length = 0
  · have hcount : letterCount text = 0 := by
      have := letterCount_le_normalizeLetters text
      omega
    have heq : encryptAutokeyRaw text (.finite n) = text := by
      unfold encryptAutokeyRaw
      simp only [h, if_true]
    have hsub := substitute_shape text [] (by simp) (by simp [hcount])
    rw [substitute_no_letters text [] hcount] at hsub
    rw [heq]
    exact hsub
  · rw [encryptAutokeyRaw_eq_substitute text (.finite n) h]
    refine substitute_shape text _ ?_ ?_
    · exact encryptLetters_upper _ _ (normalizeLetters_upper text) (keyLetter_upper n)
    · rw [encryptLetters_length]
      exact letterCount_le_normalizeLetters text

/-! ## Raw decryption and the raw round trip -/

theorem encryptLetters_eq_encryptFrom (n : JSString) (k : Nat) :
    encryptLetters n (k :: n) = encryptFrom k n := by
  unfold encryptLetters
  induction n generalizing k with
  | nil => rfl
  | cons t ts ih => simp only [List.zipWith_cons_cons, encryptFrom, ih]

theorem decryptChar_upper (c k : Nat) : isUpperAZ (decryptChar c (some k)) = true := by
  simp only [isUpperAZ, decryptChar, fromCharCode, Bool.and_eq_true, decide_eq_true_eq]
  rcases jsMod_26 ((c : Int) - 65 - ((k : Int) - 65)) with ⟨h0, h⟩ | ⟨h0, h⟩ <;>
    split <;> omega

theorem decryptChar_encryptChar (t k : Nat) (ht : isUpperAZ t = true)
    (hk : isUpperAZ k = true) : decryptChar (encryptChar t k) (some k) = t := by
  have ht2 : 65 ≤ t ∧ t ≤ 90 := by simpa [isUpperAZ] using ht
  have hk2 : 65 ≤ k ∧ k ≤ 90 := by simpa [isUpperAZ] using hk
  have he : (encryptChar t k : Int) = ((t : Int) - 65 + ((k : Int) - 65)) % 26 + 65 := by
    simp only [encryptChar, fromCharCode]
    rcases jsMod_26 ((t : Int) - 65 + ((k : Int) - 65)) with ⟨h0, h⟩ | ⟨h0, h⟩ <;> omega
  simp only [decryptChar, fromCharCode]
  rcases jsMod_26 ((encryptChar t k : Int) - 65 - ((k : Int) - 65)) with ⟨h0, h⟩ | ⟨h0, h⟩ <;>
    split <;> omega

theorem decryptFrom_upper (k : Nat) (cs : JSString) :
    ∀ l ∈ decryptFrom k cs, isUpperAZ l = true := by
  induction cs generalizing k with
  | nil => simp [decryptFrom]
  | cons c cs ih =>
    intro l hl
    simp only [decryptFrom, List.mem_cons] at hl
    rcases hl with rfl | hl
    · exact decryptChar_upper c k
    · exact ih _ l hl

theorem decryptFrom_length (k : Nat) (cs : JSString) :
    (decryptFrom k cs).length = cs.length := by
  induction cs generalizing k with
  | nil => rfl
  | cons c cs ih => simp [decryptFrom, ih]

theorem encryptFrom_length (k : Nat) (ts : JSString) :
    (encryptFrom k ts).length = ts.length := by
  induction ts generalizing k with
  | nil => rfl
  | cons c cs ih => simp [encryptFrom, ih]

theorem decryptFrom_encryptFrom (k : Nat) (ts : JSString) (hk : isUpperAZ k = true)
    (hts : ∀ l ∈ ts, isUpperAZ l = true) : decryptFrom k (encryptFrom k ts) = ts := by
  induction ts generalizing k with
  | nil => rfl
  | cons t ts ih =>
    have ht := hts t (List.mem_cons_self _ _)
    simp only [encryptFrom, decryptFrom, decryptChar_encryptChar t k ht hk]
    rw [ih t ht (fun l hl => hts l (List.mem_cons_of_mem _ hl))]

theorem decryptStep_stateOf (k : Nat) (r : JSString) (c : Nat) :
    decryptStep [k] (decryptStateOf k r) c =
      decryptStateOf k (r ++ [decryptChar c (some (r.getLastD k))]) := by
  have hidx : keyIndex (decryptStateOf k r) = r.length := by
    simp [keyIndex, decryptStateOf]
  have hget : (k :: r)[r.length]? = some (r.getLastD k) := by
    cases r using List.reverseRecOn with
    | nil => rfl
    | append_singleton r a =>
      rw [List.getLastD_concat, ← List.cons_append, List.getElem?_append_right (by simp)]
      simp
  simp only [decryptStep, hidx]
  simp only [decryptStateOf, List.get?_eq_getElem?, hget, List.length_append,
    List.length_singleton, List.length_cons, List.cons_append]
  simp
  omega

theorem foldl_decryptStep (k : Nat) (r cs : JSString) :
    cs.foldl (decryptStep [k]) (decryptStateOf k r) =
      decryptStateOf k (r ++ decryptFrom (r.getLastD k) cs) := by
  induction cs generalizing r with
  | nil => simp [decryptFrom]
  | cons c cs ih =>
    rw [List.foldl_cons, decryptStep_stateOf, ih, List.getLastD_concat]
    simp [decryptFrom]

theorem decryptLoop_eq (k : Nat) (cs : JSString) :
    decryptLoop [k] cs = decryptStateOf k (decryptFrom k cs) := by
  have h := foldl_decryptStep k [] cs
  simpa [decryptLoop, decryptStateOf] using h

theorem letterCount_eq_alphabeticChars (text : JSString) :
    (alphabeticChars text).length = letterCount text := by
  simp [alphabeticChars, letterCount]

theorem decryptAutokeyRaw_eq_substitute (text : JSString) (numKey : ParsedNumber) :
    decryptAutokeyRaw text numKey =
      substitute text (decryptFrom (keyLetter numKey) (alphabeticChars text)) := by
  unfold decryptAutokeyRaw
  by_cases h : (alphabeticChars text).length = 0
  · have hcount : letterCount text = 0 := by
      rw [← letterCount_eq_alphabeticChars]; exact h
    simp only [h, if_true]
    exact (substitute_no_letters text _ hcount).symm
  · simp only [h, if_false, decryptLoop_eq, decryptStateOf]
    have := reinsertDecrypted_eq (decryptFrom (keyLetter numKey) (alphabeticChars text))
      (fun l hl => by
        have hu := decryptFrom_upper _ _ l hl
        have h2 : 65 ≤ l ∧ l ≤ 90 := by simpa [isUpperAZ] using hu
        have h3 : isLowerAZ l = false := by simp [isLowerAZ]; omega
        simp [toUpperCaseUnit, h3]) [] text 0
    simpa using this

theorem decryptAutokeyRaw_shape (text : JSString) (numKey : ParsedNumber) :
    List.Forall₂ SameShape text (decryptAutokeyRaw text numKey) := by
  rw [decryptAutokeyRaw_eq_substitute]
  refine substitute_shape text _ (decryptFrom_upper _ _) ?_
  rw [decryptFrom_length, letterCount_eq_alphabeticChars]

theorem normalizeLetters_of_plain (text : JSString) (h : PlainLetters text) :
    normalizeLetters text = alphabeticChars text := by
  induction text with
  | nil => rfl
  | cons c rest ih =>
    have hrest : PlainLetters rest := fun d hd => h d (List.mem_cons_of_mem _ hd)
    have ih := ih hrest
    unfold normalizeLetters alphabeticChars at ih ⊢
    rw [List.flatMap_cons, ih]
    by_cases hc : isAlpha c = true
    · rw [upperAZ_of_alpha c hc, List.filter_cons_of_pos hc]
      rfl
    · have hc' : isAlpha c = false := by simpa using hc
      rw [h c (List.mem_cons_self _ _) hc', List.filter_cons_of_neg (by simp [hc'])]
      rfl

theorem alphabeticChars_upper (text : JSString) :
    ∀ l ∈ alphabeticChars text, isUpperAZ l = true := by
  intro l hl
  unfold alphabeticChars at hl
  rcases List.mem_map.mp hl with ⟨c, hc, rfl⟩
  have hc2 := (List.mem_filter.mp hc).2
  by_cases hlow : isLowerAZ c = true
  · have hc3 : 97 ≤ c ∧ c ≤ 122 := by simpa [isLowerAZ] using hlow
    simp [toUpperCaseUnit, hlow, isUpperAZ]; omega
  · have hlow2 : isLowerAZ c = false := by simpa using hlow
    have hupc : isUpperAZ c = true := by simpa [isAlpha, hlow2] using hc2
    simp [toUpperCaseUnit, hlow2, hupc]

/-- On a text whose letters are the ASCII letters only, raw decryption
undoes raw encryption. -/
theorem decrypt_encrypt_raw (text : JSString) (n : Int) (h : PlainLetters text) :
    decryptAutokeyRaw (encryptAutokeyRaw text (.finite n)) (.finite n) = text := by
  have hN := normalizeLetters_of_plain text h
  by_cases h0 : (normalizeLetters text).length = 0
  · have heq : encryptAutokeyRaw text (.finite n) = text := by
      unfold encryptAutokeyRaw
      simp only [h0, if_true]
    have hcount : letterCount text = 0 := by
      rw [← letterCount_eq_alphabeticChars, ← hN]; exact h0
    rw [heq, decryptAutokeyRaw_eq_substitute]
    exact substitute_no_letters text _ hcount
  · rw [encryptAutokeyRaw_eq_substitute text (.finite n) h0, decryptAutokeyRaw_eq_substitute,
      encryptLetters_eq_encryptFrom, hN]
    have hup : ∀ l ∈ encryptFrom (keyLetter (.finite n)) (alphabeticChars text),
        isUpperAZ l = true := by
      rw [← encryptLetters_eq_encryptFrom]
      exact encryptLetters_upper _ _ (alphabeticChars_upper text) (keyLetter_upper n)
    rw [alphabeticChars_substitute text _ hup, List.take_of_length_le (by
      rw [encryptFrom_length, letterCount_eq_alphabeticChars]),
      decryptFrom_encryptFrom _ _ (keyLetter_upper n) (alphabeticChars_upper text)]
    exact substitute_substitute text _ hup (by
      rw [encryptFrom_length, letterCount_eq_alphabeticChars])

/-! ## Buffer: base64 and UTF-8 round trips -/

theorem base64Sextets_cons (n : Nat) (h : n < 64) (rest : JSString) :
    base64Sextets (base64Char n :: rest) = n :: base64Sextets rest := by
  have hv : base64Value (base64Char n) = some n ∧ base64Char n ≠ 61 := by
    unfold base64Char
    split_ifs with h1 h2 h3 h4
    · have : isUpperAZ (65 + n) = true := by simp [isUpperAZ]; omega
      refine ⟨?_, by omega⟩
      simp only [base64Value, this, if_true]
      congr 1; omega
    · have h5 : isUpperAZ (71 + n) = false := by simp [isUpperAZ]; omega
      have h6 : isLowerAZ (71 + n) = true := by simp [isLowerAZ]; omega
      refine ⟨?_, by omega⟩
      simp only [base64Value, h5, h6, if_true, Bool.false_eq_true, if_false]
      congr 1; omega
    · have h5 : isUpperAZ (n - 4) = false := by simp [isUpperAZ]; omega
      have h6 : isLowerAZ (n - 4) = false := by simp [isLowerAZ]; omega
      have h7 : 48 ≤ n - 4 ∧ n - 4 ≤ 57 := by omega
      refine ⟨?_, by omega⟩
      simp only [base64Value, h5, h6, h7, Bool.false_eq_true, if_false, and_self, if_true]
      congr 1; omega
    · subst h4; exact ⟨by decide, by decide⟩
    · have : n = 63 := by omega
      subst this; exact ⟨by decide, by decide⟩
  have hlow : base64Char n % 256 = base64Char n := by
    unfold base64Char
    split_ifs <;> omega
  simp only [base64Sextets, hlow, hv.2, if_false, hv.1]

/-- The decoder reads the low byte of a unit above 255: four times U+0141,
whose low byte is `A`, decode to three zero bytes. -/
theorem bufferFromBase64_low_byte :
    bufferFromBase64 [0x141, 0x141, 0x141, 0x141] = [0, 0, 0] ∧
    bufferFromBase64 (js "AAAA") = [0, 0, 0] := by
  decide

/-- Decoding base64 undoes encoding, on bytes. -/
theorem bufferFromBase64_encode (bytes : List Nat) (h : ∀ b ∈ bytes, b < 256) :
    bufferFromBase64 (base64Encode bytes) = bytes := by
  unfold bufferFromBase64
  induction bytes using base64Encode.induct with
  | case1 => rfl
  | case2 a =>
    have ha := h a (by simp)
    rw [base64Encode, base64Sextets_cons _ (by omega), base64Sextets_cons _ (by omega)]
    simp only [base64Sextets, if_true, bytesOfSextets]
    congr 1; omega
  | case3 a b =>
    have ha := h a (by simp)
    have hb := h b (by simp)
    rw [base64Encode, base64Sextets_cons _ (by omega), base64Sextets_cons _ (by omega),
      base64Sextets_cons _ (by omega)]
    simp only [base64Sextets, if_true, bytesOfSextets]
    congr 1
    · omega
    · congr 1; omega
  | case4 a b c rest ih =>
    have ha := h a (by simp)
    have hb := h b (by simp)
    have hc := h c (by simp)
    rw [base64Encode, base64Sextets_cons _ (by omega), base64Sextets_cons _ (by omega),
      base64Sextets_cons _ (by omega), base64Sextets_cons _ (by omega)]
    simp only [bytesOfSextets]
    rw [ih (fun x hx => h x (by simp [hx]))]
    congr 1
    · omega
    · congr 1
      · omega
      · congr 1; omega

theorem utf8Step_ascii (out : List Nat) (b : Nat) (h : b ≤ 0x7F) :
    utf8Step ⟨0, 0, 0x80, 0xBF, out⟩ b = ⟨0, 0, 0x80, 0xBF, out ++ [b]⟩ := by
  simp only [utf8Step, utf8Lead, h, if_true]

theorem utf8Step_lead2 (out : List Nat) (b : Nat) (h : 0xC2 ≤ b ∧ b ≤ 0xDF) :
    utf8Step ⟨0, 0, 0x80, 0xBF, out⟩ b = ⟨1, b % 32, 0x80, 0xBF, out⟩ := by
  have a1 : ¬ b ≤ 0x7F := by omega
  simp only [utf8Step, utf8Lead, a1, h, if_true, if_false, and_self]

theorem utf8Step_lead3 (out : List Nat) (b : Nat) (h : 0xE0 ≤ b ∧ b ≤ 0xEF) :
    utf8Step ⟨0, 0, 0x80, 0xBF, out⟩ b =
      ⟨2, b % 16, if b = 0xE0 then 0xA0 else 0x80, if b = 0xED then 0x9F else 0xBF, out⟩ := by
  have a1 : ¬ b ≤ 0x7F := by omega
  have a2 : ¬ (0xC2 ≤ b ∧ b ≤ 0xDF) := by omega
  simp only [utf8Step, utf8Lead, a1, a2, h, if_true, if_false, and_self]

theorem utf8Step_lead4 (out : List Nat) (b : Nat) (h : 0xF0 ≤ b ∧ b ≤ 0xF4) :
    utf8Step ⟨0, 0, 0x80, 0xBF, out⟩ b =
      ⟨3, b % 8, if b = 0xF0 then 0x90 else 0x80, if b = 0xF4 then 0x8F else 0xBF, out⟩ := by
  have a1 : ¬ b ≤ 0x7F := by omega
  have a2 : ¬ (0xC2 ≤ b ∧ b ≤ 0xDF) := by omega
  have a3 : ¬ (0xE0 ≤ b ∧ b ≤ 0xEF) := by omega
  simp only [utf8Step, utf8Lead, a1, a2, a3, h, if_true, if_false, and_self]

theorem utf8Step_last (cp lo hi : Nat) (out : List Nat) (b : Nat) (h : lo ≤ b ∧ b ≤ hi) :
    utf8Step ⟨1, cp, lo, hi, out⟩ b = ⟨0, 0, 0x80, 0xBF, out ++ [cp * 64 + b % 64]⟩ := by
  have a1 : ¬ (b < lo ∨ hi < b) := by omega
  simp only [utf8Step, a1, if_true, if_false, Nat.one_ne_zero]

theorem utf8Step_two (cp lo hi : Nat) (out : List Nat) (b : Nat) (h : lo ≤ b ∧ b ≤ hi) :
    utf8Step ⟨2, cp, lo, hi, out⟩ b = ⟨1, cp * 64 + b % 64, 0x80, 0xBF, out⟩ := by
  have a1 : ¬ (b < lo ∨ hi < b) := by omega
  simp [utf8Step, a1]

theorem utf8Step_three (cp lo hi : Nat) (out : List Nat) (b : Nat) (h : lo ≤ b ∧ b ≤ hi) :
    utf8Step ⟨3, cp, lo, hi, out⟩ b = ⟨2, cp * 64 + b % 64, 0x80, 0xBF, out⟩ := by
  have a1 : ¬ (b < lo ∨ hi < b) := by omega
  simp [utf8Step, a1]

theorem utf8_fold_codePoint (cp : Nat) (hcp : isScalar cp = true) (out rest : List Nat) :
    (utf8EncodeCodePoint cp ++ rest).foldl utf8Step ⟨0, 0, 0x80, 0xBF, out⟩ =
      rest.foldl utf8Step ⟨0, 0, 0x80, 0xBF, out ++ [cp]⟩ := by
  have h : cp < 0x110000 ∧ (cp < 0xD800 ∨ 0xDFFF < cp) := by
    simpa [isScalar, isSurrogate] using hcp
  unfold utf8EncodeCodePoint
  split_ifs with h1 h2 h3
  · rw [List.singleton_append, List.foldl_cons, utf8Step_ascii out cp (by omega)]
  · rw [List.cons_append, List.cons_append, List.nil_append, List.foldl_cons, List.foldl_cons,
      utf8Step_lead2 out (0xC0 + cp / 64) (by omega),
      utf8Step_last ((0xC0 + cp / 64) % 32) 0x80 0xBF out (0x80 + cp % 64) (by omega)]
    have e : (0xC0 + cp / 64) % 32 * 64 + (0x80 + cp % 64) % 64 = cp := by omega
    rw [e]
  · rw [List.cons_append, List.cons_append, List.cons_append, List.nil_append, List.foldl_cons,
      List.foldl_cons, List.foldl_cons, utf8Step_lead3 out (0xE0 + cp / 4096) (by omega),
      utf8Step_two ((0xE0 + cp / 4096) % 16) _ _ out (0x80 + cp / 64 % 64)
        (by split_ifs <;> omega),
      utf8Step_last _ 0x80 0xBF out (0x80 + cp % 64) (by omega)]
    have e : ((0xE0 + cp / 4096) % 16 * 64 + (0x80 + cp / 64 % 64) % 64) * 64 +
        (0x80 + cp % 64) % 64 = cp := by omega
    rw [e]
  · rw [List.cons_append, List.cons_append, List.cons_append, List.cons_append,
      List.nil_append, List.foldl_cons, List.foldl_cons, List.foldl_cons, List.foldl_cons,
      utf8Step_lead4 out (0xF0 + cp / 262144) (by omega),
      utf8Step_three ((0xF0 + cp / 262144) % 8) _ _ out (0x80 + cp / 4096 % 64)
        (by split_ifs <;> omega),
      utf8Step_two _ 0x80 0xBF out (0x80 + cp / 64 % 64) (by omega),
      utf8Step_last _ 0x80 0xBF out (0x80 + cp % 64) (by omega)]
    have e : (((0xF0 + cp / 262144) % 8 * 64 + (0x80 + cp / 4096 % 64) % 64) * 64 +
        (0x80 + cp / 64 % 64) % 64) * 64 + (0x80 + cp % 64) % 64 = cp := by omega
    rw [e]

theorem utf8_fold_encode (cps : List Nat) (h : ∀ cp ∈ cps, isScalar cp = true)
    (out : List Nat) :
    (cps.flatMap utf8EncodeCodePoint).foldl utf8Step ⟨0, 0, 0x80, 0xBF, out⟩ =
      ⟨0, 0, 0x80, 0xBF, out ++ cps⟩ := by
  induction cps generalizing out with
  | nil => simp
  | cons cp cps ih =>
    rw [List.flatMap_cons, utf8_fold_codePoint cp (h cp (List.mem_cons_self _ _)),
      ih (fun x hx => h x (List.mem_cons_of_mem _ hx))]
    simp

/-- Decoding UTF-8 undoes encoding, on scalar values. -/
theorem utf8Decode_encode (cps : List Nat) (h : ∀ cp ∈ cps, isScalar cp = true) :
    utf8Decode (cps.flatMap utf8EncodeCodePoint) = cps := by
  unfold utf8Decode
  rw [utf8_fold_encode cps h]
  simp

theorem codePoints_wellFormed (text : JSString) (h : wellFormed text = true) :
    (∀ cp ∈ codePoints text, isScalar cp = true) ∧
      (codePoints text).flatMap unitsOfCodePoint = text := by
  induction text using codePoints.induct with
  | case1 => simp [codePoints]
  | case2 c =>
    have hc : (c < 0xD800 ∨ 0xDFFF < c) ∧ c < 0x10000 := by
      simpa [wellFormed, isSurrogate] using h
    have hs : isSurrogate c = false := by simp [isSurrogate]; omega
    simp only [codePoints, hs, Bool.false_eq_true, if_false, List.mem_singleton,
      forall_eq, List.flatMap_cons, List.flatMap_nil, List.append_nil]
    refine ⟨?_, ?_⟩
    · simp [isScalar, hs]; omega
    · simp [unitsOfCodePoint, hc.2]
  | case3 c d rest hpair ih =>
    have hw : wellFormed rest = true := by simpa [wellFormed, hpair] using h
    have ih := ih hw
    have hcd : (0xD800 ≤ c ∧ c ≤ 0xDBFF) ∧ (0xDC00 ≤ d ∧ d ≤ 0xDFFF) := by
      simpa [isHighSurrogate, isLowSurrogate] using hpair
    simp only [codePoints, hpair, if_true, List.mem_cons, forall_eq_or_imp,
      List.flatMap_cons, ih.2]
    refine ⟨⟨?_, ih.1⟩, ?_⟩
    · simp [isScalar, isSurrogate]; omega
    · have hge : ¬ (0x10000 + (c - 0xD800) * 0x400 + (d - 0xDC00) < 0x10000) := by omega
      have e1 : 0xD800 + (0x10000 + (c - 0xD800) * 0x400 + (d - 0xDC00) - 0x10000) / 0x400 = c := by
        omega
      have e2 : 0xDC00 + (0x10000 + (c - 0xD800) * 0x400 + (d - 0xDC00) - 0x10000) % 0x400 = d := by
        omega
      simp only [unitsOfCodePoint, hge, if_false, List.cons_append, List.nil_append, e1, e2]
  | case4 c d rest hpair ih =>
    have hpair' : (isHighSurrogate c && isLowSurrogate d) = false := by simpa using hpair
    have hw : ((c < 0xD800 ∨ 0xDFFF < c) ∧ c < 0x10000) ∧ wellFormed (d :: rest) = true := by
      simpa [wellFormed, hpair', isSurrogate] using h
    have ih := ih hw.2
    have hs : isSurrogate c = false := by simp [isSurrogate]; omega
    simp only [codePoints, hpair', hs, Bool.false_eq_true, if_false, List.mem_cons,
      forall_eq_or_imp, List.flatMap_cons, ih.2]
    refine ⟨⟨?_, ih.1⟩, ?_⟩
    · simp [isScalar, hs]; omega
    · simp [unitsOfCodePoint, hw.1.2]

/-- For a well-formed string, decoding its base64 encoding gives it back. -/
theorem fromBase64_toBase64 (text : JSString) (h : wellFormed text = true) :
    fromBase64 (toBase64 text) = text := by
  have hcp := codePoints_wellFormed text h
  unfold fromBase64 toBase64 bufferToString bufferFromString
  rw [bufferFromBase64_encode, utf8Decode_encode _ hcp.1, hcp.2]
  intro b hb
  rcases List.mem_flatMap.mp hb with ⟨cp, hcpm, hb⟩
  have hsc : cp < 0x110000 := by
    have := hcp.1 cp hcpm
    simp [isScalar] at this
    exact this.1
  unfold utf8EncodeCodePoint at hb
  split_ifs at hb <;> simp at hb <;> omega

/-! ## The Autokey layer on binary-looking input -/

theorem upperAZ_of_ascii (c : Nat) (h : c < 128) (hc : isAlpha c = false) :
    upperAZ c = [] := by
  have h1 : isUpperAZ c = false := by
    simp only [isAlpha, Bool.or_eq_false_iff] at hc; exact hc.1
  have h2 : isLowerAZ c = false := by
    simp only [isAlpha, Bool.or_eq_false_iff] at hc; exact hc.2
  have hfind : specialUpperAZ.find? (fun entry => entry.1 == c) = none := by
    rw [List.find?_eq_none]
    intro e he
    have hall : ∀ e ∈ specialUpperAZ, 128 ≤ e.1 := by decide
    have := hall e he
    simp only [beq_iff_eq, Bool.not_eq_true]
    omega
  simp only [upperAZ, h1, h2, Bool.false_eq_true, if_false, hfind]

theorem plainLetters_of_ascii (text : JSString) (h : ∀ c ∈ text, c < 128) :
    PlainLetters text :=
  fun c hc hna => upperAZ_of_ascii c (h c hc) hna

theorem base64Char_lt (n : Nat) : base64Char n < 128 := by
  unfold base64Char
  split_ifs <;> omega

theorem base64Encode_ascii (bytes : List Nat) : ∀ c ∈ base64Encode bytes, c < 128 := by
  induction bytes using base64Encode.induct with
  | case1 => simp [base64Encode]
  | case2 a =>
    intro c hc
    simp only [base64Encode, List.mem_cons, List.mem_singleton] at hc
    have := base64Char_lt (a / 4)
    have := base64Char_lt (a % 4 * 16)
    rcases hc with rfl | rfl | rfl | rfl | hc <;> first | omega | simp at hc
  | case3 a b =>
    intro c hc
    simp only [base64Encode, List.mem_cons, List.mem_singleton] at hc
    have := base64Char_lt (a / 4)
    have := base64Char_lt (a % 4 * 16 + b / 16)
    have := base64Char_lt (b % 16 * 4)
    rcases hc with rfl | rfl | rfl | rfl | hc <;> first | omega | simp at hc
  | case4 a b c rest ih =>
    intro x hx
    simp only [base64Encode, List.mem_cons] at hx
    have := base64Char_lt (a / 4)
    have := base64Char_lt (a % 4 * 16 + b / 16)
    have := base64Char_lt (b % 16 * 4 + c / 64)
    have := base64Char_lt (c % 64)
    rcases hx with rfl | rfl | rfl | rfl | hx
    · omega
    · omega
    · omega
    · omega
    · exact ih x hx

theorem toBase64_plain (text : JSString) : PlainLetters (toBase64 text) :=
  plainLetters_of_ascii _ (base64Encode_ascii _)

theorem isPrefixOf_marker_append (rest : JSString) :
    base64Marker.isPrefixOf (base64Marker ++ rest) = true := by
  simp [base64Marker, List.isPrefixOf]

theorem drop_marker_append (rest : JSString) : (base64Marker ++ rest).drop 7 = rest := by
  simp [base64Marker]

/-- On a binary-looking, well-formed string the Autokey layer round-trips
through the marker path. -/
theorem autokey_binary_roundtrip (text : JSString) (n : Int)
    (hw : wellFormed text = true) (hb : containsBinaryData text = true) :
    autokeyDecrypt (autokeyEncrypt text (.finite n)) (.finite n) = text := by
  simp only [autokeyEncrypt, hb, if_true, autokeyDecrypt, isPrefixOf_marker_append,
    drop_marker_append, decrypt_encrypt_raw _ n (toBase64_plain text),
    fromBase64_toBase64 text hw]

/-! ## Letters of the raw decryption -/

theorem shape_getElem? {text out : JSString} (h : List.Forall₂ SameShape text out)
    (i : Nat) (c : Nat) (hc : text[i]? = some c) :
    ∃ d, out[i]? = some d ∧ SameShape c d := by
  induction h generalizing i with
  | nil => simp at hc
  | cons hab _ ih =>
    cases i with
    | zero =>
      simp only [List.getElem?_cons_zero, Option.some.injEq] at hc
      subst hc
      exact ⟨_, by simp, hab⟩
    | succ i =>
      simp only [List.getElem?_cons_succ] at hc ⊢
      exact ih i hc

theorem decryptChar_value (c k : Nat) :
    (decryptChar c (some k) : Int) = ((c : Int) - 65 - ((k : Int) - 65)) % 26 + 65 := by
  simp only [decryptChar, fromCharCode]
  rcases jsMod_26 ((c : Int) - 65 - ((k : Int) - 65)) with ⟨h0, h⟩ | ⟨h0, h⟩ <;>
    split <;> omega

theorem decryptFrom_getD (k : Nat) (cs : JSString) (i : Nat) (hi : i < cs.length) :
    (decryptFrom k cs).getD i 0 =
      decryptChar (cs.getD i 0)
        (some (if i = 0 then k else (decryptFrom k cs).getD (i - 1) 0)) := by
  induction cs generalizing k i with
  | nil => simp at hi
  | cons c cs ih =>
    cases i with
    | zero => simp [decryptFrom]
    | succ i =>
      have hi' : i < cs.length := by simpa using hi
      simp only [decryptFrom, List.getD_cons_succ, Nat.add_sub_cancel]
      rw [ih _ i hi']
      cases i with
      | zero => simp
      | succ j => simp

theorem alphabeticChars_decryptAutokeyRaw (text : JSString) (numKey : ParsedNumber) :
    alphabeticChars (decryptAutokeyRaw text numKey) =
      decryptFrom (keyLetter numKey) (alphabeticChars text) := by
  rw [decryptAutokeyRaw_eq_substitute, alphabeticChars_substitute _ _ (decryptFrom_upper _ _),
    List.take_of_length_le]
  rw [decryptFrom_length, letterCount_eq_alphabeticChars]

/-! ## Claims about the raw decryption -/

theorem decryptFrom_take (k : Nat) (cs : JSString) (n : Nat) :
    decryptFrom k (cs.take n) = (decryptFrom k cs).take n := by
  induction cs generalizing k n with
  | nil => simp [decryptFrom]
  | cons c cs ih =>
    cases n with
    | zero => simp [decryptFrom]
    | succ n => simp [decryptFrom, ih]

theorem letterValues_getD (text : JSString) (i : Nat) :
    (letterValues text).getD i 0 = (alphabeticChars text).getD i 0 - 65 := by
  unfold letterValues
  by_cases h : i < (alphabeticChars text).length
  · rw [List.getD_eq_getElem _ _ (by simpa using h), List.getD_eq_getElem _ _ h]
    simp
  · rw [List.getD_eq_default _ _ (by simpa using h), List.getD_eq_default _ _ (by omega)]

theorem alphabeticChars_getD_ge (text : JSString) (i : Nat)
    (h : i < (alphabeticChars text).length) :
    65 ≤ (alphabeticChars text).getD i 0 ∧ (alphabeticChars text).getD i 0 ≤ 90 := by
  rw [List.getD_eq_getElem _ _ h]
  have := alphabeticChars_upper text _ (List.getElem_mem h)
  simpa [isUpperAZ] using this

/-- Claim C6: for every cipher text and every key (every number `parseInt`
can give, `Infinity` too), the letters of `decryptAutokeyRaw`'s output (as
numbers, `A = 0`) are as many as those of the input, each lies in `0..25`,
letter `0` is `(c_0 - K) mod 26` and letter `i` is `(c_i - p_(i-1)) mod 26`;
when the loop is about to treat letter `i` its counter is `i`, the index
`min(i, keyStream.length - 1)` it reads is `i`, and its key stream is the key
letter followed by the `i` letters decrypted so far. -/
theorem decrypt_letters_autokey (text : JSString) (numKey : ParsedNumber) (i : Nat)
    (hi : i < (letterValues text).length) :
    (letterValues (decryptAutokeyRaw text numKey)).length = (letterValues text).length ∧
    (letterValues (decryptAutokeyRaw text numKey)).getD i 0 < 26 ∧
    ((letterValues (decryptAutokeyRaw text numKey)).getD i 0 : Int) =
      (((letterValues text).getD i 0 : Int) -
        (if i = 0 then (keyLetter numKey : Int) - 65
         else ((letterValues (decryptAutokeyRaw text numKey)).getD (i - 1) 0 : Int))) % 26 ∧
    (decryptLoop [keyLetter numKey] ((alphabeticChars text).take i)).i = i ∧
    keyIndex (decryptLoop [keyLetter numKey] ((alphabeticChars text).take i)) = i ∧
    (decryptLoop [keyLetter numKey] ((alphabeticChars text).take i)).keyStream =
      keyLetter numKey :: (alphabeticChars (decryptAutokeyRaw text numKey)).take i := by
  have hi' : i < (alphabeticChars text).length := by simpa [letterValues] using hi
  have hP := alphabeticChars_decryptAutokeyRaw text numKey
  have hlenP : (alphabeticChars (decryptAutokeyRaw text numKey)).length =
      (alphabeticChars text).length := by rw [hP, decryptFrom_length]
  have hrec := decryptFrom_getD (keyLetter numKey) (alphabeticChars text) i hi'
  rw [← hP] at hrec
  have hval := decryptChar_value ((alphabeticChars text).getD i 0)
    (if i = 0 then keyLetter numKey
      else (alphabeticChars (decryptAutokeyRaw text numKey)).getD (i - 1) 0)
  rw [← hrec] at hval
  have hc := alphabeticChars_getD_ge text i hi'
  refine ⟨by simp [letterValues, hlenP], ?_, ?_, ?_, ?_, ?_⟩
  · rw [letterValues_getD]
    omega
  · rw [letterValues_getD, letterValues_getD]
    by_cases h0 : i = 0
    · simp only [h0, if_true] at hval ⊢
      subst h0
      omega
    · have hprev := alphabeticChars_getD_ge (decryptAutokeyRaw text numKey) (i - 1)
        (by omega)
      rw [letterValues_getD]
      simp only [h0, if_false] at hval ⊢
      omega
  · rw [decryptLoop_eq]
    simp [decryptStateOf, decryptFrom_length]
    omega
  · rw [decryptLoop_eq]
    simp [decryptStateOf, keyIndex, decryptFrom_length]
    omega
  · rw [decryptLoop_eq, hP, decryptFrom_take]
    rfl

theorem decrypt_letters_autokey_witness :
    1 < (letterValues (js "Bc d")).length ∧
    ((letterValues (decryptAutokeyRaw (js "Bc d") (.finite 2))).length = (letterValues (js "Bc d")).length ∧
    (letterValues (decryptAutokeyRaw (js "Bc d") (.finite 2))).getD 1 0 < 26 ∧
    ((letterValues (decryptAutokeyRaw (js "Bc d") (.finite 2))).getD 1 0 : Int) =
      (((letterValues (js "Bc d")).getD 1 0 : Int) -
        (if 1 = 0 then (keyLetter (.finite 2) : Int) - 65
         else ((letterValues (decryptAutokeyRaw (js "Bc d") (.finite 2))).getD (1 - 1) 0 : Int))) % 26 ∧
    (decryptLoop [keyLetter (.finite 2)] ((alphabeticChars (js "Bc d")).take 1)).i = 1 ∧
    keyIndex (decryptLoop [keyLetter (.finite 2)] ((alphabeticChars (js "Bc d")).take 1)) = 1 ∧
    (decryptLoop [keyLetter (.finite 2)] ((alphabeticChars (js "Bc d")).take 1)).keyStream =
      keyLetter (.finite 2) :: (alphabeticChars (decryptAutokeyRaw (js "Bc d") (.finite 2))).take 1) :=
  ⟨by decide, decrypt_letters_autokey (js "Bc d") (.finite 2) 1 (by decide)⟩

/-! ## Reading the key -/

theorem leadingDigits_decimal (ds : List Nat) (h : ∀ d ∈ ds, d < 10) :
    leadingDigits 10 (ds.map fun d => 48 + d) = ds := by
  induction ds with
  | nil => rfl
  | cons d rest ih =>
    have hd := h d (List.mem_cons_self _ _)
    have hv : digitValue 10 (48 + d) = some d := by
      unfold digitValue
      have h1 : 48 ≤ 48 + d ∧ 48 + d ≤ 57 := by omega
      simp only [h1, and_self, if_true, Nat.add_sub_cancel_left, Option.filter, hd, decide_True]
    simp only [List.map_cons, leadingDigits, hv]
    rw [ih (fun x hx => h x (List.mem_cons_of_mem _ hx))]

theorem foldl_digits (ds : List Nat) (acc : Nat) :
    ds.foldl (fun acc d => acc * 10 + d) acc = acc * 10 ^ ds.length + Nat.ofDigits 10 ds.reverse := by
  induction ds generalizing acc with
  | nil => simp
  | cons d rest ih =>
    rw [List.foldl_cons, ih, List.reverse_cons, Nat.ofDigits_append, Nat.ofDigits_singleton,
      List.length_reverse, List.length_cons]
    ring

theorem parseSign_digit (d : Nat) (rest : JSString) (hd : d < 10) :
    parseSign ((48 + d) :: rest) = (1, (48 + d) :: rest) := by
  unfold parseSign
  split
  · rename_i heq; simp only [List.cons.injEq] at heq; omega
  · rename_i heq; simp only [List.cons.injEq] at heq; omega
  · rfl

theorem parseRadix_digits (ds : List Nat) (h : ∀ d ∈ ds, d < 10) :
    parseRadix (ds.map fun d => 48 + d) = (10, ds.map fun d => 48 + d) := by
  unfold parseRadix
  split
  · rename_i heq
    cases ds with
    | nil => simp at heq
    | cons d rest =>
      cases rest with
      | nil => simp at heq
      | cons e rest2 =>
        simp only [List.map_cons, List.cons.injEq] at heq
        have := h e (by simp)
        omega
  · rename_i heq
    cases ds with
    | nil => simp at heq
    | cons d rest =>
      cases rest with
      | nil => simp at heq
      | cons e rest2 =>
        simp only [List.map_cons, List.cons.injEq] at heq
        have := h e (by simp)
        omega
  · rfl

theorem parseInt_digits (ds : List Nat) (h : ∀ d ∈ ds, d < 10) (hne : ds ≠ []) :
    parseInt (ds.map fun d => 48 + d) = some (toDouble (Nat.ofDigits 10 ds.reverse : Nat)) ∧
    parseInt (45 :: ds.map fun d => 48 + d) =
      some (toDouble (-1 * ((Nat.ofDigits 10 ds.reverse : Nat) : Int))) := by
  have hlead := leadingDigits_decimal ds h
  have hfold := foldl_digits ds 0
  simp only [Nat.zero_mul, Nat.zero_add] at hfold
  have hrad := parseRadix_digits ds h
  have hlen : ds.length ≠ 0 := fun e => hne (List.length_eq_zero.mp e)
  obtain ⟨d, rest, rfl⟩ := List.exists_cons_of_ne_nil hne
  have hd := h d (List.mem_cons_self _ _)
  have hws : isStrWhiteSpace (48 + d) = false := by
    have : ∀ x, x < 10 → isStrWhiteSpace (48 + x) = false := by decide
    exact this d hd
  have hws2 : isStrWhiteSpace 45 = false := by decide
  have hsign := parseSign_digit d (rest.map fun d => 48 + d) hd
  have hsign2 : parseSign (45 :: (d :: rest).map fun d => 48 + d) =
      (-1, (d :: rest).map fun d => 48 + d) := rfl
  constructor
  · unfold parseInt
    simp only [List.map_cons, List.dropWhile_cons, hws, Bool.false_eq_true, if_false, hsign]
    simp only [← List.map_cons, hrad, hlead, hfold, hlen, if_false, Int.one_mul]
  · unfold parseInt
    simp only [List.dropWhile_cons, hws2, Bool.false_eq_true, if_false, hsign2]
    simp only [hrad, hlead, hfold, hlen, if_false]

/-- The decimal numeral of an integer is read as the double nearest to
it. -/
theorem parseInt_decimal (k : Int) : parseInt (decimal k) = some (toDouble k) := by
  by_cases h0 : k = 0
  · subst h0
    decide
  · have hne : Nat.digits 10 k.natAbs ≠ [] := by
      intro e
      have := Nat.digits_eq_nil_iff_eq_zero.mp e
      omega
    have hlt : ∀ d ∈ (Nat.digits 10 k.natAbs).reverse, d < 10 := by
      intro d hd
      exact Nat.digits_lt_base (by decide) (List.mem_reverse.mp hd)
    have hp := parseInt_digits (Nat.digits 10 k.natAbs).reverse hlt (by simpa using hne)
    rw [List.reverse_reverse, Nat.ofDigits_digits] at hp
    unfold decimal
    by_cases hneg : k < 0
    · simp only [hneg, if_true, h0, if_false, List.singleton_append]
      rw [hp.2]
      congr 2
      omega
    · simp only [hneg, if_false, h0, List.nil_append]
      rw [hp.1]
      congr 2
      omega

/-! ## Claims about the key and the shape of the output -/

/-- Finite keys with the same remainder by 26 give the same output of the
raw transforms and of the Autokey layer. -/
theorem autokey_key_congr (text : JSString) (a b : Int) (h : a % 26 = b % 26) :
    encryptAutokeyRaw text (.finite a) = encryptAutokeyRaw text (.finite b) ∧
    autokeyEncrypt text (.finite a) = autokeyEncrypt text (.finite b) ∧
    decryptAutokeyRaw text (.finite a) = decryptAutokeyRaw text (.finite b) ∧
    autokeyDecrypt text (.finite a) = autokeyDecrypt text (.finite b) := by
  have hk := keyLetter_congr a b h
  have e : ∀ t, encryptAutokeyRaw t (.finite a) = encryptAutokeyRaw t (.finite b) := fun t => by
    unfold encryptAutokeyRaw; rw [hk]
  have d : ∀ t, decryptAutokeyRaw t (.finite a) = decryptAutokeyRaw t (.finite b) := fun t => by
    unfold decryptAutokeyRaw; rw [hk]
  exact ⟨e text, by simp only [autokeyEncrypt, e], d text, by simp only [autokeyDecrypt, d]⟩

/-- Claim C3, refuted as stated: the keys `9007199254740993` (`2^53 + 1`),
`9007199254741019` (26 more) and `9007199254740967` (26 less) are read by
`parseInt` as the doubles `2^53`, `2^53 + 28` and `2^53 - 25`, whose key
letters are `F`, `H` and `G`; the text `AAAA` is encrypted to `FAAA`, `HAAA`
and `GAAA`, and these three are decrypted to three different texts. -/
theorem autokey_key_period_counterexample :
    parseInt (js "9007199254740993") = some (.finite 9007199254740992) ∧
    parseInt (js "9007199254741019") = some (.finite 9007199254741020) ∧
    parseInt (js "9007199254740967") = some (.finite 9007199254740967) ∧
    autokeyEncrypt (js "AAAA") (.finite 9007199254740992) = js "FAAA" ∧
    autokeyEncrypt (js "AAAA") (.finite 9007199254741020) = js "HAAA" ∧
    autokeyEncrypt (js "AAAA") (.finite 9007199254740967) = js "GAAA" ∧
    encryptAutokeyRaw (js "AAAA") (.finite 9007199254740992) = js "FAAA" ∧
    encryptAutokeyRaw (js "AAAA") (.finite 9007199254741020) = js "HAAA" ∧
    encryptAutokeyRaw (js "AAAA") (.finite 9007199254740967) = js "GAAA" ∧
    decryptAutokeyRaw (js "FAAA") (.finite 9007199254740992) = js "AAAA" ∧
    decryptAutokeyRaw (js "FAAA") (.finite 9007199254741020) = js "YCYC" ∧
    decryptAutokeyRaw (js "FAAA") (.finite 9007199254740967) = js "ZBZB" := by
  decide

/-- Claim C3, amended: for every plaintext and every integer `k` such that
`k`, `k + 26` and `k - 26` are below `2^53` in absolute value, the decimal
numerals of the three keys are read exactly by `parseInt`, and the three keys
give the same output of `encryptAutokeyRaw`, of `autokeyEncrypt`, of
`decryptAutokeyRaw` and of `autokeyDecrypt`. -/
theorem autokey_key_period (text : JSString) (k : Int) (hk : k.natAbs + 26 < 2 ^ 53) :
    parseInt (decimal k) = some (.finite k) ∧
    parseInt (decimal (k + 26)) = some (.finite (k + 26)) ∧
    parseInt (decimal (k - 26)) = some (.finite (k - 26)) ∧
    encryptAutokeyRaw text (.finite (k + 26)) = encryptAutokeyRaw text (.finite k) ∧
    encryptAutokeyRaw text (.finite (k - 26)) = encryptAutokeyRaw text (.finite k) ∧
    autokeyEncrypt text (.finite (k + 26)) = autokeyEncrypt text (.finite k) ∧
    autokeyEncrypt text (.finite (k - 26)) = autokeyEncrypt text (.finite k) ∧
    decryptAutokeyRaw text (.finite (k + 26)) = decryptAutokeyRaw text (.finite k) ∧
    decryptAutokeyRaw text (.finite (k - 26)) = decryptAutokeyRaw text (.finite k) ∧
    autokeyDecrypt text (.finite (k + 26)) = autokeyDecrypt text (.finite k) ∧
    autokeyDecrypt text (.finite (k - 26)) = autokeyDecrypt text (.finite k) := by
  have h0 : parseInt (decimal k) = some (.finite k) := by
    rw [parseInt_decimal, toDouble_exact k (by omega)]
  have h1 : parseInt (decimal (k + 26)) = some (.finite (k + 26)) := by
    rw [parseInt_decimal, toDouble_exact _ (by omega)]
  have h2 : parseInt (decimal (k - 26)) = some (.finite (k - 26)) := by
    rw [parseInt_decimal, toDouble_exact _ (by omega)]
  have c1 := autokey_key_congr text (k + 26) k (by omega)
  have c2 := autokey_key_congr text (k - 26) k (by omega)
  exact ⟨h0, h1, h2, c1.1, c2.1, c1.2.1, c2.2.1, c1.2.2.1, c2.2.2.1, c1.2.2.2, c2.2.2.2⟩

/-- Claim C3 on the text `Attack at Dawn!` with the keys `3`, `29` and
`-23`. -/
theorem autokey_key_period_witness :
    (3 : Int).natAbs + 26 < 2 ^ 53 ∧
    parseInt (js "3") = some (.finite 3) ∧ parseInt (js "29") = some (.finite (3 + 26)) ∧
    parseInt (js "-23") = some (.finite (3 - 26)) ∧
    encryptAutokeyRaw (js "Attack at Dawn!") (.finite (3 + 26)) =
      encryptAutokeyRaw (js "Attack at Dawn!") (.finite 3) ∧
    encryptAutokeyRaw (js "Attack at Dawn!") (.finite (3 - 26)) =
      encryptAutokeyRaw (js "Attack at Dawn!") (.finite 3) ∧
    encryptAutokeyRaw (js "Attack at Dawn!") (.finite 3) = js "Ctmtcm kt Wdwj!" :=
  have h := autokey_key_period (js "Attack at Dawn!") 3 (by decide)
  ⟨by decide, by decide, by decide, by decide, h.2.2.2.1, h.2.2.2.2.1, by decide⟩

set_option maxRecDepth 20000 in
/-- Claim C4, refuted as stated: the key `9007199254740993` has the
remainder 7 by 26, the position of `G`, but it is read as the double `2^53`
and the key letter is `F`; a key of 310 digits `9` is read as `Infinity`, for
which the derived key number is `NaN` and the key letter is the unit 0, so that
`AAAA` is encrypted to `4AAA`. -/
theorem key_letter_large_counterexample :
    (9007199254740993 : Int) % 26 = 7 ∧
    parseInt (js "9007199254740993") = some (.finite 9007199254740992) ∧
    (parseInt (js "9007199254740993")).map keyLetter = some 70 ∧
    parseInt ninesKey = some (.infinity false) ∧
    actualKey (.infinity false) = none ∧
    (parseInt ninesKey).map keyLetter = some 0 ∧
    (parseInt ninesKey).map (autokeyEncrypt (js "AAAA")) = some (js "4AAA") := by
  decide

/-- Claim C4, amended: for every integer `n` that the key is read as (the
decimal numeral of an integer below `2^53` in absolute value is read exactly, a
longer one as a rounded integer `m` or as `Infinity`), the derived key number
`((n mod 26) + 26) mod 26`, with 0 taken to 26, is the mathematical remainder
of `n` by 26 with 0 taken to 26 and lies in `1..26`; the key letter is the
letter at that position of the alphabet (1 gives `A`, 2 gives `B`, 27 gives
`A`, -3 gives `W`, 0 and 26 give `Z`); encryption and decryption use the same
letter: encrypting `A` gives the key letter and decrypting the key letter gives
`A`. -/
theorem key_letter_derivation (n : Int) :
    (∃ a : Int, actualKey (.finite n) = some a ∧ 1 ≤ a ∧ a ≤ 26 ∧
      a = (if n % 26 = 0 then 26 else n % 26) ∧ (keyLetter (.finite n) : Int) = 64 + a) ∧
    (n.natAbs < 2 ^ 53 → parseInt (decimal n) = some (.finite n)) ∧
    (∀ m, parseInt (decimal n) = some (.finite m) →
      (keyLetter (.finite m) : Int) = 64 + (if m % 26 = 0 then 26 else m % 26)) ∧
    (parseInt (js "1")).map keyLetter = some 65 ∧
    (parseInt (js "2")).map keyLetter = some 66 ∧
    (parseInt (js "27")).map keyLetter = some 65 ∧
    (parseInt (js "-3")).map keyLetter = some 87 ∧
    (parseInt (js "0")).map keyLetter = some 90 ∧
    (parseInt (js "26")).map keyLetter = some 90 ∧
    encryptAutokeyRaw [65] (.finite n) = [keyLetter (.finite n)] ∧
    decryptAutokeyRaw [keyLetter (.finite n)] (.finite n) = [65] := by
  have hk := keyLetter_eq n
  have hu := keyLetter_upper n
  have hk2 : 65 ≤ keyLetter (.finite n) ∧ keyLetter (.finite n) ≤ 90 := by
    simpa [isUpperAZ] using hu
  have henc : encryptChar 65 (keyLetter (.finite n)) = keyLetter (.finite n) := by
    have : (encryptChar 65 (keyLetter (.finite n)) : Int) = keyLetter (.finite n) := by
      simp only [encryptChar, fromCharCode]
      rcases jsMod_26 (((65 : Nat) : Int) - 65 + ((keyLetter (.finite n) : Int) - 65)) with
        ⟨h0, h⟩ | ⟨h0, h⟩ <;> omega
    exact_mod_cast this
  have hdec : decryptChar (keyLetter (.finite n)) (some (keyLetter (.finite n))) = 65 := by
    have := decryptChar_value (keyLetter (.finite n)) (keyLetter (.finite n))
    omega
  have hup : toUpperCaseUnit (keyLetter (.finite n)) = keyLetter (.finite n) := by
    have h3 : isLowerAZ (keyLetter (.finite n)) = false := by simp [isLowerAZ]; omega
    simp [toUpperCaseUnit, h3]
  have halpha : isAlpha (keyLetter (.finite n)) = true := by simp [isAlpha, hu]
  refine ⟨⟨_, actualKey_eq n, ?_, ?_, rfl, ?_⟩, ?_, ?_, by decide, by decide,
    by decide, by decide, by decide, by decide, ?_, ?_⟩
  · split <;> omega
  · split <;> omega
  · rw [hk]; omega
  · intro hn
    rw [parseInt_decimal, toDouble_exact n hn]
  · intro m _
    rw [keyLetter_eq m]
    omega
  · have hN : normalizeLetters [65] = [65] := by decide
    have h0 : (normalizeLetters [65]).length ≠ 0 := by rw [hN]; decide
    rw [encryptAutokeyRaw_eq_substitute _ _ h0, hN, encryptLetters_eq_encryptFrom]
    simp only [encryptFrom, henc]
    have : isAlpha 65 = true := by decide
    simp [substitute, this, toUpperCaseUnit, show isLowerAZ 65 = false by decide]
  · rw [decryptAutokeyRaw_eq_substitute]
    have hA : alphabeticChars [keyLetter (.finite n)] = [keyLetter (.finite n)] := by
      simp [alphabeticChars, halpha, hup]
    rw [hA]
    simp [decryptFrom, hdec, substitute, halpha, hup]

theorem getElem?_of_shape_nonletter {text out : JSString}
    (h : List.Forall₂ SameShape text out) (i c : Nat) (hc : text[i]? = some c)
    (hn : isAlpha c = false) : out[i]? = some c := by
  rcases shape_getElem? h i c hc with ⟨d, hd, hs⟩
  rw [hd, hs.1 hn]

theorem getElem?_of_shape_letter {text out : JSString}
    (h : List.Forall₂ SameShape text out) (i c : Nat) (hc : text[i]? = some c)
    (ha : isAlpha c = true) :
    out[i]?.map isUpperAZ = some (isUpperAZ c) ∧ out[i]?.map isLowerAZ = some (isLowerAZ c) := by
  rcases shape_getElem? h i c hc with ⟨d, hd, hs⟩
  rw [hd]
  simp [hs.2 ha]

theorem substitute_length (text letters : JSString)
    (hlen : letterCount text ≤ letters.length) :
    (substitute text letters).length = text.length := by
  induction text generalizing letters with
  | nil => simp [substitute]
  | cons c rest ih =>
    rw [letterCount_cons] at hlen
    by_cases hc : isAlpha c = true
    · rw [if_pos hc] at hlen
      cases letters with
      | nil => simp at hlen
      | cons l ls =>
        simp only [substitute, hc, if_true, List.length_cons]
        rw [ih ls (by simp at hlen; omega)]
    · have hc' : isAlpha c = false := by simpa using hc
      rw [if_neg hc] at hlen
      simp only [substitute, hc', Bool.false_eq_true, if_false, List.length_cons]
      rw [ih letters (by omega)]

theorem substitute_nonletter (text letters : JSString)
    (hlen : letterCount text ≤ letters.length) (i c : Nat) (hi : text[i]? = some c)
    (hn : isAlpha c = false) : (substitute text letters)[i]? = some c := by
  induction text generalizing letters i with
  | nil => simp at hi
  | cons d rest ih =>
    rw [letterCount_cons] at hlen
    by_cases hd : isAlpha d = true
    · rw [if_pos hd] at hlen
      cases letters with
      | nil => simp at hlen
      | cons l ls =>
        simp only [substitute, hd, if_true]
        cases i with
        | zero =>
          simp only [List.getElem?_cons_zero, Option.some.injEq] at hi
          rw [hi, hn] at hd
          cases hd
        | succ j =>
          simp only [List.getElem?_cons_succ] at hi ⊢
          exact ih ls (by simp at hlen; omega) j hi
    · have hd' : isAlpha d = false := by simpa using hd
      rw [if_neg hd] at hlen
      simp only [substitute, hd', Bool.false_eq_true, if_false]
      cases i with
      | zero => simpa using hi
      | succ j =>
        simp only [List.getElem?_cons_succ] at hi ⊢
        exact ih letters (by omega) j hi

/-- Whatever the key, the raw encryption keeps the length of the text and
every unit that is no letter. -/
theorem encryptAutokeyRaw_keeps (text : JSString) (numKey : ParsedNumber) :
    (encryptAutokeyRaw text numKey).length = text.length ∧
    ∀ (i c : Nat), text[i]? = some c → isAlpha c = false →
      (encryptAutokeyRaw text numKey)[i]? = some c := by
  by_cases h : (normalizeLetters text).length = 0
  · have heq : encryptAutokeyRaw text numKey = text := by
      unfold encryptAutokeyRaw
      simp only [h, if_true]
    rw [heq]
    exact ⟨rfl, fun i c hc _ => hc⟩
  · rw [encryptAutokeyRaw_eq_substitute text numKey h]
    have hlen : letterCount text ≤
        (encryptLetters (normalizeLetters text)
          (keyLetter numKey :: normalizeLetters text)).length := by
      rw [encryptLetters_length]
      exact letterCount_le_normalizeLetters text
    exact ⟨substitute_length text _ hlen, fun i c hc hn =>
      substitute_nonletter text _ hlen i c hc hn⟩

/-- Claim C7, refuted as stated: a binary-looking input of one unit is
encrypted by `autokeyEncrypt` to eleven units (the marker and the encrypted
base64 text), so the length is not kept. -/
theorem autokeyEncrypt_length_counterexample :
    containsBinaryData [1] = true ∧ (autokeyEncrypt [1] (.finite 1)).length = 11 ∧
      ¬ (autokeyEncrypt [1] (.finite 1)).length = ([1] : JSString).length := by
  decide

/-- Claim C7, amended: for every input text that is not binary-looking and
every key, the output of `autokeyEncrypt` has the length of the input and
every unit of the input that is no letter stands unchanged at the same index
of the output; `encryptAutokeyRaw` does so on every input. -/
theorem autokeyEncrypt_keeps_nonletters (text : JSString) (numKey : ParsedNumber) :
    (encryptAutokeyRaw text numKey).length = text.length ∧
    (∀ (i c : Nat), text[i]? = some c → isAlpha c = false →
      (encryptAutokeyRaw text numKey)[i]? = some c) ∧
    (containsBinaryData text = false →
      (autokeyEncrypt text numKey).length = text.length ∧
      ∀ (i c : Nat), text[i]? = some c → isAlpha c = false →
        (autokeyEncrypt text numKey)[i]? = some c) := by
  have hs := encryptAutokeyRaw_keeps text numKey
  refine ⟨hs.1, hs.2, fun hb => ?_⟩
  have heq : autokeyEncrypt text numKey = encryptAutokeyRaw text numKey := by
    simp [autokeyEncrypt, hb]
  rw [heq]
  exact hs

theorem autokeyEncrypt_keeps_nonletters_witness :
    containsBinaryData (js "Attack at Dawn!") = false ∧
    (js "Attack at Dawn!")[14]? = some 33 ∧ isAlpha 33 = false ∧
    (autokeyEncrypt (js "Attack at Dawn!") (.finite 1)).length = (js "Attack at Dawn!").length ∧
    (autokeyEncrypt (js "Attack at Dawn!") (.finite 1))[14]? = some 33 ∧
    (autokeyEncrypt (js "HELLO") (.infinity false)).length = (js "HELLO").length :=
  have h := (autokeyEncrypt_keeps_nonletters (js "Attack at Dawn!") (.finite 1)).2.2 (by decide)
  have h2 := (autokeyEncrypt_keeps_nonletters (js "HELLO") (.infinity false)).2.2 (by decide)
  ⟨by decide, by decide, by decide, h.1, h.2 14 33 (by decide) (by decide), h2.1⟩

/-- For every text and every finite key, at every index where the input of
`encryptAutokeyRaw` holds an ASCII letter the output holds a unit that is
upper-case exactly when the input letter is and lower-case exactly when it is;
`decryptAutokeyRaw` does so for every key. -/
theorem raw_transforms_keep_case_finite (text : JSString) (n : Int)
    (numKey : ParsedNumber) (i c : Nat)
    (hc : text[i]? = some c) (ha : isAlpha c = true) :
    (encryptAutokeyRaw text (.finite n))[i]?.map isUpperAZ = some (isUpperAZ c) ∧
    (encryptAutokeyRaw text (.finite n))[i]?.map isLowerAZ = some (isLowerAZ c) ∧
    (decryptAutokeyRaw text numKey)[i]?.map isUpperAZ = some (isUpperAZ c) ∧
    (decryptAutokeyRaw text numKey)[i]?.map isLowerAZ = some (isLowerAZ c) := by
  have he := getElem?_of_shape_letter (encryptAutokeyRaw_shape text n) i c hc ha
  have hd := getElem?_of_shape_letter (decryptAutokeyRaw_shape text numKey) i c hc ha
  exact ⟨he.1, he.2, hd.1, hd.2⟩

set_option maxRecDepth 20000 in
/-- Claim C8, the failing input: a key of 310 digits `9` is read by
`parseInt` as `Infinity`, which is not `NaN`, so the key is accepted; the key
letter is the unit 0 and `Hello` is encrypted to `;lpwz`, by `autokeyEncrypt`
and by the pipeline: index 0 holds the letter `H` in the input and `;`, no
letter, in the output.  With key `1` (key letter `A`) the witness of the claim
holds: `Attack at Dawn!` gives `Atmtcm kt Wdwj!`. -/
theorem keep_case_infinite_key (P : Primitives) (ivs : Nat → List Nat) :
    parseInt ninesKey = some (.infinity false) ∧
    encryptAutokeyRaw (js "Hello") (.infinity false) = js ";lpwz" ∧
    autokeyEncrypt (js "Hello") (.infinity false) = js ";lpwz" ∧
    processData P ivs
        { text := js "Hello", action := "encrypt",
          layers := some [autokeyLayer ninesKey, noneLayer, noneLayer] } =
      .json (js ";lpwz")
        ["Processing Layer 1: Autokey cipher encrypt",
         "Layer 2: No encryption selected, skipping",
         "Layer 3: No encryption selected, skipping", "Encryption complete!"] ∧
    (js "Hello")[0]? = some 72 ∧ isAlpha 72 = true ∧
    (js ";lpwz")[0]? = some 59 ∧ isAlpha 59 = false ∧
    (parseInt (js "1")).map keyLetter = some 65 ∧
    (parseInt (js "1")).map (encryptAutokeyRaw (js "Attack at Dawn!")) =
      some (js "Atmtcm kt Wdwj!") := by
  refine ⟨by decide, by decide, by decide, ?_, by decide, by decide, by decide, by decide,
    by decide, by decide⟩
  rfl

/-! ## Claims about the Autokey layer, the normaliser and the round trip -/

/-- Claim C1, the failing input: the text `BZTL64:` is not binary-looking,
key 1 encrypts it to `BASE64:`, which `autokeyDecrypt` takes for the marker of
the base64 path, so decryption returns the empty string and not the text. -/
theorem autokey_roundtrip_marker_collision :
    containsBinaryData (js "BZTL64:") = false ∧
    autokeyEncrypt (js "BZTL64:") (.finite 1) = js "BASE64:" ∧
    autokeyDecrypt (autokeyEncrypt (js "BZTL64:") (.finite 1)) (.finite 1) = [] ∧
    ¬ autokeyDecrypt (autokeyEncrypt (js "BZTL64:") (.finite 1)) (.finite 1) = js "BZTL64:" := by
  decide

/-- Claim C2, the failing input: with the Autokey cipher (key `1`) in slot
1 and the other two slots `none`, whatever the AES and RSA functions are,
encrypting `BZTL64:` returns `BASE64:` and decrypting that under the same
layers returns the empty string, not the original text. -/
theorem pipeline_roundtrip_marker_collision (P : Primitives) (ivs : Nat → List Nat) :
    processData P ivs
        { text := js "BZTL64:", action := "encrypt",
          layers := some [autokeyLayer (js "1"), noneLayer, noneLayer] } =
      .json (js "BASE64:")
        ["Processing Layer 1: Autokey cipher encrypt",
         "Layer 2: No encryption selected, skipping",
         "Layer 3: No encryption selected, skipping", "Encryption complete!"] ∧
    processData P ivs
        { text := js "BASE64:", action := "decrypt",
          layers := some [autokeyLayer (js "1"), noneLayer, noneLayer] } =
      .json []
        ["Layer 3: No encryption selected, skipping",
         "Layer 2: No encryption selected, skipping",
         "Processing Layer 1: Autokey cipher decrypt", "Decryption complete!"] := by
  constructor <;> rfl

/-- Claim C5, the failing input: in the text made of a sharp s and `abcd`
the letters are `a`, `b`, `c`, `d` (values 0 to 3) and key 1 has key letter
`A` (value 0), so the claim gives the cipher letters 0, 1, 3, 5 (`abdf`).  The
text is not binary-looking (one unit in five is not printable), so
`autokeyEncrypt` passes it to `encryptAutokeyRaw`, which returns the sharp s
followed by `sksb` (values 18, 10, 18, 1), because the upper-casing of the
sharp s puts `SS` in front of the letters; decryption does not give the text
back. -/
theorem encrypt_letters_sharp_s :
    containsBinaryData [0xDF, 97, 98, 99, 100] = false ∧
    letterValues [0xDF, 97, 98, 99, 100] = [0, 1, 2, 3] ∧
    (parseInt (js "1")).map keyLetter = some 65 ∧
    normalizeLetters [0xDF, 97, 98, 99, 100] = js "SSABCD" ∧
    autokeyEncrypt [0xDF, 97, 98, 99, 100] (.finite 1) = [0xDF, 115, 107, 115, 98] ∧
    encryptAutokeyRaw [0xDF, 97, 98, 99, 100] (.finite 1) = [0xDF, 115, 107, 115, 98] ∧
    letterValues (autokeyEncrypt [0xDF, 97, 98, 99, 100] (.finite 1)) = [18, 10, 18, 1] ∧
    autokeyDecrypt (autokeyEncrypt [0xDF, 97, 98, 99, 100] (.finite 1)) (.finite 1) =
      [0xDF, 115, 115, 97, 98] := by
  decide

/-- Claim C9, refuted as stated: the string made of one unpaired high
surrogate is binary-looking; its base64 encoding is that of U+FFFD, so
decryption of its encryption returns U+FFFD and not the input. -/
theorem autokey_binary_surrogate_counterexample :
    containsBinaryData [0xD800] = true ∧
    autokeyEncrypt [0xD800] (.finite 1) =
      base64Marker ++ encryptAutokeyRaw (toBase64 [0xD800]) (.finite 1) ∧
    autokeyDecrypt (autokeyEncrypt [0xD800] (.finite 1)) (.finite 1) = [0xFFFD] ∧
    ¬ autokeyDecrypt (autokeyEncrypt [0xD800] (.finite 1)) (.finite 1) = [0xD800] := by
  decide

/-- Claim C9, amended: for every binary-looking input and every key,
`autokeyEncrypt` returns the marker `BASE64:` followed by `encryptAutokeyRaw`
of the base64 encoding of the input, and `autokeyDecrypt` of that result
base64-decodes the raw decryption of what follows the marker; when the input
is a well-formed UTF-16 string (no unpaired surrogate) and the key is read as
a finite number, the raw decryption gives back the base64 encoding and the
decoding gives back the input. -/
theorem autokey_binary_path (text : JSString) (numKey : ParsedNumber) (n : Int)
    (hw : wellFormed text = true) (hb : containsBinaryData text = true) :
    autokeyEncrypt text numKey =
      base64Marker ++ encryptAutokeyRaw (toBase64 text) numKey ∧
    autokeyDecrypt (base64Marker ++ encryptAutokeyRaw (toBase64 text) numKey) numKey =
      fromBase64 (decryptAutokeyRaw (encryptAutokeyRaw (toBase64 text) numKey) numKey) ∧
    decryptAutokeyRaw (encryptAutokeyRaw (toBase64 text) (.finite n)) (.finite n) =
      toBase64 text ∧
    fromBase64 (toBase64 text) = text ∧
    autokeyDecrypt (autokeyEncrypt text (.finite n)) (.finite n) = text := by
  refine ⟨by simp [autokeyEncrypt, hb], ?_,
    decrypt_encrypt_raw _ n (toBase64_plain text), fromBase64_toBase64 text hw,
    autokey_binary_roundtrip text n hw hb⟩
  simp only [autokeyDecrypt, isPrefixOf_marker_append, drop_marker_append, if_true]

/-- With a key that is read as `Infinity` the round trip of the marker path
fails: the unit 1 is encrypted to `BASE64:4Q==`, which is decrypted to
U+FFFD. -/
theorem autokey_binary_infinite_key :
    containsBinaryData [1] = true ∧
    autokeyEncrypt [1] (.infinity false) = js "BASE64:4Q==" ∧
    autokeyDecrypt (js "BASE64:4Q==") (.infinity false) = [0xFFFD] := by
  decide

theorem autokey_binary_path_witness :
    (wellFormed [1, 2, 0xD83D, 0xDE00, 233] = true ∧
      containsBinaryData [1, 2, 0xD83D, 0xDE00, 233] = true) ∧
    parseInt (js "5") = some (.finite 5) ∧
    autokeyEncrypt [1, 2, 0xD83D, 0xDE00, 233] (.finite 5) =
      base64Marker ++ encryptAutokeyRaw (toBase64 [1, 2, 0xD83D, 0xDE00, 233]) (.finite 5) ∧
    decryptAutokeyRaw (encryptAutokeyRaw (toBase64 [1, 2, 0xD83D, 0xDE00, 233]) (.finite 5))
      (.finite 5) = toBase64 [1, 2, 0xD83D, 0xDE00, 233] ∧
    fromBase64 (toBase64 [1, 2, 0xD83D, 0xDE00, 233]) = [1, 2, 0xD83D, 0xDE00, 233] ∧
    autokeyDecrypt (autokeyEncrypt [1, 2, 0xD83D, 0xDE00, 233] (.finite 5)) (.finite 5) =
      [1, 2, 0xD83D, 0xDE00, 233] :=
  have h := autokey_binary_path [1, 2, 0xD83D, 0xDE00, 233] (.finite 5) 5 (by decide) (by decide)
  ⟨by decide, by decide, h.1, h.2.2.1, h.2.2.2.1, h.2.2.2.2⟩

theorem codePoints_lt (text : JSString) (h : ∀ c ∈ text, c < 65536) :
    ∀ cp ∈ codePoints text, cp < 0x110000 := by
  induction text using codePoints.induct with
  | case1 => simp [codePoints]
  | case2 c =>
    have hc := h c (by simp)
    intro cp hcp
    simp only [codePoints, List.mem_singleton] at hcp
    subst hcp
    split_ifs <;> omega
  | case3 c d rest hpair ih =>
    have hcd : (0xD800 ≤ c ∧ c ≤ 0xDBFF) ∧ (0xDC00 ≤ d ∧ d ≤ 0xDFFF) := by
      simpa [isHighSurrogate, isLowSurrogate] using hpair
    intro cp hcp
    simp only [codePoints, hpair, if_true, List.mem_cons] at hcp
    rcases hcp with hcp | hcp
    · rw [hcp]; omega
    · exact ih (fun x hx => h x (by simp [hx])) cp hcp
  | case4 c d rest hpair ih =>
    have hpair2 : (isHighSurrogate c && isLowSurrogate d) = false := by simpa using hpair
    have hc := h c (by simp)
    intro cp hcp
    simp only [codePoints, hpair2, Bool.false_eq_true, if_false, List.mem_cons] at hcp
    rcases hcp with rfl | hcp
    · split_ifs <;> omega
    · exact ih (fun x hx => h x (List.mem_cons_of_mem _ hx)) cp hcp

theorem bufferFromString_lt (text : JSString) (h : ∀ c ∈ text, c < 65536) :
    ∀ b ∈ bufferFromString text, b < 256 := by
  intro b hb
  unfold bufferFromString at hb
  rcases List.mem_flatMap.mp hb with ⟨cp, hcpm, hb⟩
  have hsc := codePoints_lt text h cp hcpm
  unfold utf8EncodeCodePoint at hb
  split_ifs at hb <;> simp at hb <;> omega

theorem base64Encode_length (bytes : List Nat) :
    (base64Encode bytes).length = 4 * ((bytes.length + 2) / 3) := by
  induction bytes using base64Encode.induct with
  | case1 => rfl
  | case2 a => simp [base64Encode]
  | case3 a b => simp [base64Encode]
  | case4 a b c rest ih =>
    simp only [base64Encode, List.length_cons, ih]
    omega

theorem base64Char_alphabet (n : Nat) :
    isUpperAZ (base64Char n) = true ∨ isLowerAZ (base64Char n) = true ∨
      isDigit (base64Char n) = true ∨ base64Char n = 43 ∨ base64Char n = 47 := by
  unfold base64Char
  split_ifs with h1 h2 h3 h4
  · left; simp [isUpperAZ]; omega
  · right; left; simp [isLowerAZ]; omega
  · right; right; left; simp [isDigit]; omega
  · right; right; right; left; rfl
  · right; right; right; right; rfl

theorem base64Encode_alphabet (bytes : List Nat) :
    ∀ c ∈ base64Encode bytes, isUpperAZ c = true ∨ isLowerAZ c = true ∨ isDigit c = true ∨
      c = 43 ∨ c = 47 ∨ c = 61 := by
  have hc : ∀ n, isUpperAZ (base64Char n) = true ∨ isLowerAZ (base64Char n) = true ∨
      isDigit (base64Char n) = true ∨ base64Char n = 43 ∨ base64Char n = 47 ∨
      base64Char n = 61 := by
    intro n
    have hn := base64Char_alphabet n
    tauto
  have hp : isUpperAZ 61 = true ∨ isLowerAZ 61 = true ∨ isDigit 61 = true ∨
      (61 : Nat) = 43 ∨ (61 : Nat) = 47 ∨ (61 : Nat) = 61 := by decide
  induction bytes using base64Encode.induct with
  | case1 => simp [base64Encode]
  | case2 a =>
    intro c hcm
    simp only [base64Encode, List.mem_cons, List.mem_singleton, List.not_mem_nil,
      or_false] at hcm
    rcases hcm with rfl | rfl | rfl | rfl
    · exact hc _
    · exact hc _
    · exact hp
    · exact hp
  | case3 a b =>
    intro c hcm
    simp only [base64Encode, List.mem_cons, List.mem_singleton, List.not_mem_nil,
      or_false] at hcm
    rcases hcm with rfl | rfl | rfl | rfl
    · exact hc _
    · exact hc _
    · exact hc _
    · exact hp
  | case4 a b c rest ih =>
    intro x hx
    simp only [base64Encode, List.mem_cons] at hx
    rcases hx with rfl | rfl | rfl | rfl | hx
    · exact hc _
    · exact hc _
    · exact hc _
    · exact hc _
    · exact ih x hx

/-- Claim C10: for every non-empty string input with source family `rsa`
or `autokey` and target family `aes`, `normalizeLayerData` returns the input
unchanged when `containsBinaryData` fails of it, and otherwise its base64
encoding: the text `Buffer.from(input).toString('base64')`, which has four
characters for every three bytes of the UTF-8 encoding of the input (the last
group filled with `=`), holds characters of the base64 alphabet only, and
decodes to these bytes, and so to the input when that is well formed.
`containsBinaryData` holds exactly when more than a fifth of the units have a
code below 32 or above 126 (`length < 5 * count`): a string with exactly a
fifth of such units (one in five) is returned unchanged, with one in four it is
encoded. -/
theorem normalize_to_aes (input : JSString) (sourceAlgo : Option String)
    (hne : input ≠ []) (hs : sourceAlgo = some "rsa" ∨ sourceAlgo = some "autokey") :
    (containsBinaryData input = true ↔ input.length < 5 * nonPrintableCount input) ∧
    (containsBinaryData input = false →
      normalizeLayerData input sourceAlgo (some "aes") = input) ∧
    (containsBinaryData input = true →
      normalizeLayerData input sourceAlgo (some "aes") = base64Encode (bufferFromString input) ∧
      (normalizeLayerData input sourceAlgo (some "aes")).length =
        4 * (((bufferFromString input).length + 2) / 3) ∧
      (∀ c ∈ normalizeLayerData input sourceAlgo (some "aes"),
        isUpperAZ c = true ∨ isLowerAZ c = true ∨ isDigit c = true ∨
          c = 43 ∨ c = 47 ∨ c = 61) ∧
      ((∀ c ∈ input, c < 65536) →
        bufferFromBase64 (normalizeLayerData input sourceAlgo (some "aes")) =
          bufferFromString input) ∧
      (wellFormed input = true →
        fromBase64 (normalizeLayerData input sourceAlgo (some "aes")) = input)) ∧
    normalizeLayerData [1] sourceAlgo (some "aes") = js "AQ==" ∧
    normalizeLayerData [1, 65, 66, 67] sourceAlgo (some "aes") = js "AUFCQw==" ∧
    normalizeLayerData [233, 233, 65] sourceAlgo (some "aes") = js "w6nDqUE=" ∧
    nonPrintableCount [1, 65, 66, 67, 68] = 1 ∧
    normalizeLayerData [1, 65, 66, 67, 68] sourceAlgo (some "aes") = [1, 65, 66, 67, 68] := by
  have hsrc : ¬ (sourceAlgo = some "aes" ∧
      ((some "aes" : Option String) = some "rsa" ∨ (some "aes" : Option String) = some "autokey")) := by
    rintro ⟨_, h | h⟩ <;> exact absurd h (by decide)
  have hmain : ∀ x : JSString, x ≠ [] → normalizeLayerData x sourceAlgo (some "aes") =
      (if containsBinaryData x then toBase64 x else x) := by
    intro x hx
    have hlen : ¬ x.length = 0 := fun h => hx (List.length_eq_zero.mp h)
    unfold normalizeLayerData
    rw [if_neg hlen, if_neg hsrc, if_pos ⟨hs, rfl⟩]
  refine ⟨by simp [containsBinaryData], ?_, ?_, ?_, ?_, ?_, by decide, ?_⟩
  · intro hb
    rw [hmain input hne, hb]
    rfl
  · intro hb
    have he : normalizeLayerData input sourceAlgo (some "aes") =
        base64Encode (bufferFromString input) := by
      rw [hmain input hne, hb]
      rfl
    rw [he]
    refine ⟨rfl, base64Encode_length _, base64Encode_alphabet _, fun hu => ?_, fun hw => ?_⟩
    · exact bufferFromBase64_encode _ (bufferFromString_lt input hu)
    · exact fromBase64_toBase64 input hw
  · rw [hmain _ (by decide)]
    decide
  · rw [hmain _ (by decide)]
    decide
  · rw [hmain _ (by decide)]
    decide
  · rw [hmain _ (by decide)]
    rfl

/-- Claim C10 on the binary-looking string of the unit 1 followed by `ABC`,
coming from RSA: it is encoded to `AUFCQw==`. -/
theorem normalize_to_aes_witness :
    (([1, 65, 66, 67] : JSString) ≠ [] ∧
      ((some "rsa" : Option String) = some "rsa" ∨ (some "rsa" : Option String) = some "autokey")) ∧
    containsBinaryData [1, 65, 66, 67] = true ∧
    normalizeLayerData [1, 65, 66, 67] (some "rsa") (some "aes") = js "AUFCQw==" ∧
    bufferFromBase64 (normalizeLayerData [1, 65, 66, 67] (some "rsa") (some "aes")) =
      bufferFromString [1, 65, 66, 67] ∧
    fromBase64 (normalizeLayerData [1, 65, 66, 67] (some "rsa") (some "aes")) = [1, 65, 66, 67] :=
  have h := normalize_to_aes [1, 65, 66, 67] (some "rsa") (by decide) (Or.inl rfl)
  have hb := h.2.2.1 (by decide)
  ⟨by decide, by decide, h.2.2.2.2.1, hb.2.2.2.1 (by decide), hb.2.2.2.2 (by decide)⟩

/-! ## Claims about the normaliser -/

/-- Claim C11: `normalizeLayerData` returns its input unchanged when the
source is `aes` and the target is `rsa` or `autokey`, for every other pairing
of families that is not (`rsa` or `autokey`) to `aes`, for the empty string
whatever the families, and for every input that is not a string whatever the
families. -/
theorem normalize_unchanged (input : JSString) (sourceAlgo targetAlgo : Option String)
    (tag : Nat)
    (h : input = [] ∨
      ¬ ((sourceAlgo = some "rsa" ∨ sourceAlgo = some "autokey") ∧ targetAlgo = some "aes")) :
    normalizeLayerData input sourceAlgo targetAlgo = input ∧
    normalizeLayerDataAny (.str input) sourceAlgo targetAlgo = .str input ∧
    normalizeLayerData input (some "aes") (some "rsa") = input ∧
    normalizeLayerData input (some "aes") (some "autokey") = input ∧
    normalizeLayerData [] sourceAlgo targetAlgo = [] ∧
    normalizeLayerDataAny (.nonString tag) sourceAlgo targetAlgo = .nonString tag := by
  have hmain : normalizeLayerData input sourceAlgo targetAlgo = input := by
    unfold normalizeLayerData
    rcases h with h | h
    · subst h; rfl
    · split_ifs <;> rfl
  have haes : ∀ t : Option String, t = some "rsa" ∨ t = some "autokey" →
      normalizeLayerData input (some "aes") t = input := by
    intro t ht
    unfold normalizeLayerData
    split_ifs with h1 h2 h3 h4 <;> first | rfl | skip
    exact absurd h3.1 (by decide)
  refine ⟨hmain, ?_, haes _ (Or.inl rfl), haes _ (Or.inr rfl), rfl, rfl⟩
  simp only [normalizeLayerDataAny, hmain]

theorem normalize_unchanged_witness :
    (([200, 201, 202] : JSString) = [] ∨
      ¬ (((some "autokey" : Option String) = some "rsa" ∨
          (some "autokey" : Option String) = some "autokey") ∧
        (some "rsa" : Option String) = some "aes")) ∧
    (normalizeLayerData [200, 201, 202] (some "autokey") (some "rsa") = [200, 201, 202] ∧
    normalizeLayerDataAny (.str [200, 201, 202]) (some "autokey") (some "rsa") =
      .str [200, 201, 202] ∧
    normalizeLayerData [200, 201, 202] (some "aes") (some "rsa") = [200, 201, 202] ∧
    normalizeLayerData [200, 201, 202] (some "aes") (some "autokey") = [200, 201, 202] ∧
    normalizeLayerData [] (some "autokey") (some "rsa") = [] ∧
    normalizeLayerDataAny (.nonString 7) (some "autokey") (some "rsa") = .nonString 7) :=
  ⟨by decide, normalize_unchanged [200, 201, 202] (some "autokey") (some "rsa") 7
    (Or.inr (by decide))⟩

/-! ## The orchestrator: the loop over the slots -/

theorem processAes_steps (P : Primitives) (ivs : Nat → List Nat) (action : String)
    (layers : List Layer) (layer : Layer) (i : Nat) (state next : RunState)
    (h : processAes P ivs action layers layer i state = .ok next) :
    ∃ added, next.2 = state.2 ++ added := by
  unfold processAes at h
  repeat' first | split at h | (dsimp only at h; split at h)
  all_goals first
    | (cases h; done)
    | (cases h; simp only [List.append_assoc]; exact ⟨_, rfl⟩)

theorem processRsa_steps (P : Primitives) (action : String)
    (layers : List Layer) (layer : Layer) (i : Nat) (state next : RunState)
    (h : processRsa P action layers layer i state = .ok next) :
    ∃ added, next.2 = state.2 ++ added := by
  unfold processRsa at h
  repeat' first | split at h | (dsimp only at h; split at h)
  all_goals first
    | (cases h; done)
    | (cases h; simp only [List.append_assoc]; exact ⟨_, rfl⟩)

theorem processAutokey_steps (action : String)
    (layers : List Layer) (layer : Layer) (i : Nat) (state next : RunState)
    (h : processAutokey action layers layer i state = .ok next) :
    ∃ added, next.2 = state.2 ++ added := by
  unfold processAutokey at h
  repeat' split at h
  all_goals first
    | (cases h; done)
    | (cases h; simp only [List.append_assoc]; exact ⟨_, rfl⟩)

/-- Each visit of a slot only appends to the step log. -/
theorem processLayer_steps (P : Primitives) (ivs : Nat → List Nat) (action : String)
    (layers : List Layer) (i : Nat) (state next : RunState)
    (h : processLayer P ivs action layers state i = .ok next) :
    ∃ added, next.2 = state.2 ++ added := by
  unfold processLayer at h
  split at h
  · cases h; exact ⟨[], by simp⟩
  · split at h
    · cases h; exact ⟨_, rfl⟩
    · split_ifs at h
      · cases h; exact ⟨_, rfl⟩
      · exact processAes_steps _ _ _ _ _ _ _ _ h
      · exact processRsa_steps _ _ _ _ _ _ _ h
      · exact processAutokey_steps _ _ _ _ _ _ h

theorem processLayer_skip (P : Primitives) (ivs : Nat → List Nat) (action : String)
    (layers : List Layer) (i : Nat) (state : RunState) (layer : Layer)
    (hget : layers[i]? = some layer)
    (hnone : layer.algorithm = none ∨ layer.algorithm = some "" ∨
      layer.algorithm = some "none") :
    processLayer P ivs action layers state i =
      .ok (state.1, state.2 ++ [s!"Layer {i + 1}: No encryption selected, skipping"]) := by
  unfold processLayer
  simp only [List.get?_eq_getElem?, hget]
  rcases hnone with h | h | h <;> simp [h]

theorem processData_encrypt (P : Primitives) (ivs : Nat → List Nat) (text : JSString)
    (layers : List Layer) (ht : text ≠ []) (hl : layers ≠ []) :
    processData P ivs { text := text, action := "encrypt", layers := some layers } =
      match processLayers P ivs "encrypt" layers [0, 1, 2] (text, []) with
      | .error response => response
      | .ok (processedData, steps) => .json processedData (steps ++ ["Encryption complete!"]) := by
  have h1 : text.isEmpty = false := by cases text <;> simp_all
  have h2 : ¬ layers.length = 0 := fun h => hl (List.length_eq_zero.mp h)
  simp only [processData, h1, h2, Bool.false_eq_true, if_false, ne_eq, not_true_eq_false,
    false_and, if_true]

theorem processData_decrypt (P : Primitives) (ivs : Nat → List Nat) (text : JSString)
    (layers : List Layer) (ht : text ≠ []) (hl : layers ≠ []) :
    processData P ivs { text := text, action := "decrypt", layers := some layers } =
      match processLayers P ivs "decrypt" layers [2, 1, 0] (text, []) with
      | .error response => response
      | .ok (processedData, steps) => .json processedData (steps ++ ["Decryption complete!"]) := by
  have h1 : text.isEmpty = false := by cases text <;> simp_all
  have h2 : ¬ layers.length = 0 := fun h => hl (List.length_eq_zero.mp h)
  have h3 : ¬ ("decrypt" = "encrypt") := by decide
  simp only [processData, h1, h2, h3, Bool.false_eq_true, if_false, ne_eq, not_true_eq_false,
    and_false, not_false_eq_true]

/-! ## Claims about the order of the slots -/

/-- Claim C12: for every request with three layer slots that reaches the
loop (non-empty text), whatever the three slots hold, `processData` treats
slot 1, then 2, then 3 when encrypting and slot 3, then 2, then 1 when
decrypting, each visit starting from the data and the log the visit before
left, and stops at the first visit that fails, so that the result is what the
visits make of the text in that order; a visit that succeeds only appends to
the log; a slot whose algorithm is absent, empty or `none` appends the one
entry `Layer n: No encryption selected, skipping` and leaves the data
unchanged. -/
theorem pipeline_visits_in_order (P : Primitives) (ivs : Nat → List Nat) (text : JSString)
    (l0 l1 l2 : Layer) (ht : text ≠ []) :
    processData P ivs { text := text, action := "encrypt", layers := some [l0, l1, l2] } =
      (match processLayer P ivs "encrypt" [l0, l1, l2] (text, []) 0 with
       | .error response => response
       | .ok s0 =>
         match processLayer P ivs "encrypt" [l0, l1, l2] s0 1 with
         | .error response => response
         | .ok s1 =>
           match processLayer P ivs "encrypt" [l0, l1, l2] s1 2 with
           | .error response => response
           | .ok s2 => .json s2.1 (s2.2 ++ ["Encryption complete!"])) ∧
    processData P ivs { text := text, action := "decrypt", layers := some [l0, l1, l2] } =
      (match processLayer P ivs "decrypt" [l0, l1, l2] (text, []) 2 with
       | .error response => response
       | .ok s2 =>
         match processLayer P ivs "decrypt" [l0, l1, l2] s2 1 with
         | .error response => response
         | .ok s1 =>
           match processLayer P ivs "decrypt" [l0, l1, l2] s1 0 with
           | .error response => response
           | .ok s0 => .json s0.1 (s0.2 ++ ["Decryption complete!"])) ∧
    (∀ (action : String) (i : Nat) (layer : Layer) (state : RunState),
      [l0, l1, l2][i]? = some layer →
      (layer.algorithm = none ∨ layer.algorithm = some "" ∨ layer.algorithm = some "none") →
      processLayer P ivs action [l0, l1, l2] state i =
        .ok (state.1, state.2 ++ [s!"Layer {i + 1}: No encryption selected, skipping"])) ∧
    (∀ (action : String) (j : Nat) (before after : RunState),
      processLayer P ivs action [l0, l1, l2] before j = .ok after →
      after.2.take before.2.length = before.2) := by
  refine ⟨?_, ?_, fun action i layer state hget hnone =>
    processLayer_skip P ivs action _ i state layer hget hnone, ?_⟩
  · rw [processData_encrypt P ivs text _ ht (by simp)]
    simp only [processLayers]
    cases processLayer P ivs "encrypt" [l0, l1, l2] (text, []) 0 with
    | error r => rfl
    | ok s0 =>
      try dsimp only
      cases processLayer P ivs "encrypt" [l0, l1, l2] s0 1 with
      | error r => rfl
      | ok s1 =>
        try dsimp only
        cases processLayer P ivs "encrypt" [l0, l1, l2] s1 2 with
        | error r => rfl
        | ok s2 => rfl
  · rw [processData_decrypt P ivs text _ ht (by simp)]
    simp only [processLayers]
    cases processLayer P ivs "decrypt" [l0, l1, l2] (text, []) 2 with
    | error r => rfl
    | ok s0 =>
      try dsimp only
      cases processLayer P ivs "decrypt" [l0, l1, l2] s0 1 with
      | error r => rfl
      | ok s1 =>
        try dsimp only
        cases processLayer P ivs "decrypt" [l0, l1, l2] s1 0 with
        | error r => rfl
        | ok s2 => rfl
  · intro action j before after hok
    rcases processLayer_steps P ivs action _ j before after hok with ⟨added, h⟩
    rw [h]
    simp

/-- Claim C12 on three active layers, AES then RSA then Autokey with the key
`3`: `hi` is encrypted to `$#jp` through the slots 1, 2, 3 and `$#jp` is
decrypted to `hi` through the slots 3, 2, 1. -/
theorem pipeline_visits_in_order_witness :
    js "hi" ≠ [] ∧ js "$#jp" ≠ [] ∧
    processData toyPrimitives (fun _ => [])
        { text := js "hi", action := "encrypt",
          layers := some [aesLayer (js "0123456789ABCDEF") 128 "ECB",
            rsaLayer (js "pub") (js "priv"), autokeyLayer (js "3")] } =
      .json (js "$#jp")
        ["Processing Layer 1: AES ECB encrypt", "Processing Layer 2: RSA encrypt",
         "Normalized data from aes for RSA encryption",
         "Processing Layer 3: Autokey cipher encrypt",
         "Normalized data from rsa for Autokey encryption", "Encryption complete!"] ∧
    processData toyPrimitives (fun _ => [])
        { text := js "$#jp", action := "decrypt",
          layers := some [aesLayer (js "0123456789ABCDEF") 128 "ECB",
            rsaLayer (js "pub") (js "priv"), autokeyLayer (js "3")] } =
      .json (js "hi")
        ["Processing Layer 3: Autokey cipher decrypt",
         "Normalized Autokey output for rsa decryption", "Processing Layer 2: RSA decrypt",
         "Normalized RSA output for aes decryption", "Processing Layer 1: AES ECB decrypt",
         "Decryption complete!"] :=
  have he := (pipeline_visits_in_order toyPrimitives (fun _ => []) (js "hi")
    (aesLayer (js "0123456789ABCDEF") 128 "ECB") (rsaLayer (js "pub") (js "priv"))
    (autokeyLayer (js "3")) (by decide)).1
  have hd := (pipeline_visits_in_order toyPrimitives (fun _ => []) (js "$#jp")
    (aesLayer (js "0123456789ABCDEF") 128 "ECB") (rsaLayer (js "pub") (js "priv"))
    (autokeyLayer (js "3")) (by decide)).2.1
  ⟨by decide, by decide, he.trans (by decide), hd.trans (by decide)⟩

/-! ## Claims about the all-none pipeline and the layers array -/

theorem processLayer_not_layersRequired (P : Primitives) (ivs : Nat → List Nat)
    (action : String) (layers : List Layer) (i : Nat) (state : RunState) :
    processLayer P ivs action layers state i ≠ .error (.status400 .layersRequired none) := by
  intro h
  unfold processLayer at h
  repeat' split at h
  all_goals first
    | (cases h)
    | (unfold processAes at h
       repeat' first | split at h | (dsimp only at h; split at h)
       all_goals (cases h))
    | (unfold processRsa at h
       repeat' first | split at h | (dsimp only at h; split at h)
       all_goals (cases h))
    | (unfold processAutokey at h
       repeat' split at h
       all_goals (cases h))

theorem processLayers_not_layersRequired (P : Primitives) (ivs : Nat → List Nat)
    (action : String) (layers : List Layer) (indices : List Nat) (state : RunState) :
    processLayers P ivs action layers indices state ≠
      .error (.status400 .layersRequired none) := by
  induction indices generalizing state with
  | nil => intro h; cases h
  | cons i rest ih =>
    intro h
    unfold processLayers at h
    split at h
    · next r hr =>
      cases h
      exact processLayer_not_layersRequired P ivs action layers i state hr
    · exact ih _ h

/-- Claim C13, refuted as stated: for the empty text a pipeline whose
three layers are all `none` is rejected with `Text to process is required`; no
input is returned and there is no log. -/
theorem all_none_empty_text_counterexample :
    processData toyPrimitives (fun _ => [])
        { text := [], action := "encrypt", layers := some [noneLayer, noneLayer, noneLayer] } =
      .status400 .textRequired none ∧
    processData toyPrimitives (fun _ => [])
        { text := [], action := "decrypt", layers := some [noneLayer, noneLayer, noneLayer] } =
      .status400 .textRequired none := by
  decide

/-- Claim C13, amended: for every non-empty input text and either
direction, a pipeline whose three layers are all `none` (or have no algorithm)
returns the input unchanged together with a log of exactly four entries: the
three `skipping` entries, in the order of the visits, followed by the
completion entry. -/
theorem all_none_pipeline (P : Primitives) (ivs : Nat → List Nat) (text : JSString)
    (l0 l1 l2 : Layer) (ht : text ≠ [])
    (h0 : l0.algorithm = none ∨ l0.algorithm = some "" ∨ l0.algorithm = some "none")
    (h1 : l1.algorithm = none ∨ l1.algorithm = some "" ∨ l1.algorithm = some "none")
    (h2 : l2.algorithm = none ∨ l2.algorithm = some "" ∨ l2.algorithm = some "none") :
    processData P ivs { text := text, action := "encrypt", layers := some [l0, l1, l2] } =
      .json text
        ["Layer 1: No encryption selected, skipping",
         "Layer 2: No encryption selected, skipping",
         "Layer 3: No encryption selected, skipping", "Encryption complete!"] ∧
    processData P ivs { text := text, action := "decrypt", layers := some [l0, l1, l2] } =
      .json text
        ["Layer 3: No encryption selected, skipping",
         "Layer 2: No encryption selected, skipping",
         "Layer 1: No encryption selected, skipping", "Decryption complete!"] := by
  have s0 := fun action state =>
    processLayer_skip P ivs action [l0, l1, l2] 0 state l0 rfl h0
  have s1 := fun action state =>
    processLayer_skip P ivs action [l0, l1, l2] 1 state l1 rfl h1
  have s2 := fun action state =>
    processLayer_skip P ivs action [l0, l1, l2] 2 state l2 rfl h2
  constructor
  · rw [processData_encrypt P ivs text _ ht (by simp)]
    simp only [processLayers, s0, s1, s2]
    rfl
  · rw [processData_decrypt P ivs text _ ht (by simp)]
    simp only [processLayers, s0, s1, s2]
    rfl

theorem all_none_pipeline_witness :
    (js "hello" ≠ [] ∧
      (noneLayer.algorithm = none ∨ noneLayer.algorithm = some "" ∨
        noneLayer.algorithm = some "none")) ∧
    (processData toyPrimitives (fun _ => [])
        { text := js "hello", action := "encrypt",
          layers := some [noneLayer, noneLayer, noneLayer] } =
      .json (js "hello")
        ["Layer 1: No encryption selected, skipping",
         "Layer 2: No encryption selected, skipping",
         "Layer 3: No encryption selected, skipping", "Encryption complete!"] ∧
    processData toyPrimitives (fun _ => [])
        { text := js "hello", action := "decrypt",
          layers := some [noneLayer, noneLayer, noneLayer] } =
      .json (js "hello")
        ["Layer 3: No encryption selected, skipping",
         "Layer 2: No encryption selected, skipping",
         "Layer 1: No encryption selected, skipping", "Decryption complete!"]) :=
  ⟨⟨by decide, Or.inr (Or.inr rfl)⟩,
    all_none_pipeline toyPrimitives (fun _ => []) (js "hello") noneLayer noneLayer noneLayer
      (by decide) (Or.inr (Or.inr rfl)) (Or.inr (Or.inr rfl)) (Or.inr (Or.inr rfl))⟩

/-- Claim C14, refuted as stated: a request in which no layer is active
(three slots, all `none`) is not rejected; `processData` answers with a result,
the text unchanged. -/
theorem no_active_layer_counterexample :
    processData toyPrimitives (fun _ => [])
        { text := js "secret", action := "encrypt",
          layers := some [noneLayer, noneLayer, noneLayer] } =
      .json (js "secret")
        ["Layer 1: No encryption selected, skipping",
         "Layer 2: No encryption selected, skipping",
         "Layer 3: No encryption selected, skipping", "Encryption complete!"] := by
  decide

/-- Claim C14, amended: validation requires at least one layer slot, not
an active layer: a request with a text and a valid action is rejected with the
validation error `At least one layer configuration is required`, and no result,
exactly when `layers` is absent, is no array or is empty. -/
theorem layers_required (P : Primitives) (ivs : Nat → List Nat) (text : JSString)
    (action : String) (layers : Option (List Layer)) (ht : text ≠ [])
    (ha : action = "encrypt" ∨ action = "decrypt") :
    processData P ivs { text := text, action := action, layers := layers } =
        .status400 .layersRequired none ↔
      (layers = none ∨ layers = some []) := by
  have h1 : text.isEmpty = false := by cases text <;> simp_all
  constructor
  · intro h
    cases layers with
    | none => exact Or.inl rfl
    | some ls =>
      right
      by_contra hne
      have hl : ls ≠ [] := fun he => hne (by rw [he])
      rcases ha with ha | ha <;> subst ha
      · rw [processData_encrypt P ivs text ls ht hl] at h
        split at h
        · next r hr =>
          subst h
          exact processLayers_not_layersRequired _ _ _ _ _ _ hr
        · cases h
      · rw [processData_decrypt P ivs text ls ht hl] at h
        split at h
        · next r hr =>
          subst h
          exact processLayers_not_layersRequired _ _ _ _ _ _ hr
        · cases h
  · intro h
    have ha2 : ¬ (action ≠ "encrypt" ∧ action ≠ "decrypt") := by
      rcases ha with ha | ha <;> simp [ha]
    rcases h with h | h <;> subst h <;> simp [processData, h1, ha2]

theorem layers_required_witness :
    (js "secret" ≠ [] ∧ (("encrypt" : String) = "encrypt" ∨ ("encrypt" : String) = "decrypt")) ∧
    (processData toyPrimitives (fun _ => [])
        { text := js "secret", action := "encrypt", layers := some [] } =
        .status400 .layersRequired none ↔
      ((some [] : Option (List Layer)) = none ∨ (some [] : Option (List Layer)) = some [])) :=
  ⟨⟨by decide, Or.inl rfl⟩,
    layers_required toyPrimitives (fun _ => []) (js "secret") "encrypt" (some []) (by decide)
      (Or.inl rfl)⟩

/-! ## The orchestrator: validation of a layer -/

theorem processLayers_append (P : Primitives) (ivs : Nat → List Nat) (action : String)
    (layers : List Layer) (pre post : List Nat) (state : RunState) :
    processLayers P ivs action layers (pre ++ post) state =
      match processLayers P ivs action layers pre state with
      | .error response => .error response
      | .ok next => processLayers P ivs action layers post next := by
  induction pre generalizing state with
  | nil => rfl
  | cons i rest ih =>
    simp only [List.cons_append, processLayers]
    cases processLayer P ivs action layers state i with
    | error r => rfl
    | ok next => exact ih next

theorem processAes_rejected_iff (P : Primitives) (ivs : Nat → List Nat) (action : String)
    (layers : List Layer) (layer : Layer) (i : Nat) (state : RunState) :
    isRejected (processAes P ivs action layers layer i state) = true ↔
      (isMissing layer.key = true ∨
        layer.keySize ≠ some (((layer.key.getD []).length : Int) * 8)) := by
  unfold processAes
  cases hk : layer.key with
  | none => simp [isRejected, isValidationError, isMissing]
  | some key =>
    by_cases he : key.isEmpty = true
    · simp [isRejected, isValidationError, isMissing, he]
    · by_cases hs : layer.keySize ≠ some ((key.length : Int) * 8)
      · simp only [he, Bool.false_eq_true, if_false, hs, if_true, isRejected,
          isValidationError, isMissing, Option.getD_some, ne_eq, not_false_eq_true, or_true]
      · simp only [he, Bool.false_eq_true, if_false, hs, isMissing, Option.getD_some,
          or_self, iff_false, Bool.not_eq_true]
        repeat' split
        all_goals rfl

theorem processRsa_rejected_iff (P : Primitives) (action : String)
    (layers : List Layer) (layer : Layer) (i : Nat) (state : RunState) :
    isRejected (processRsa P action layers layer i state) = true ↔
      ((action = "encrypt" ∧ isMissing layer.publicKey = true) ∨
        (action = "decrypt" ∧ isMissing layer.privateKey = true)) := by
  unfold processRsa
  by_cases h1 : action = "encrypt" ∧ isMissing layer.publicKey = true
  · rw [if_pos h1]
    simp [h1, isRejected, isValidationError]
  · by_cases h2 : action = "decrypt" ∧ isMissing layer.privateKey = true
    · rw [if_neg h1, if_pos h2]
      simp [h2, isRejected, isValidationError]
    · rw [if_neg h1, if_neg h2]
      simp only [h1, h2, or_self, iff_false, Bool.not_eq_true]
      repeat' split
      all_goals rfl

theorem processAutokey_rejected_iff (action : String)
    (layers : List Layer) (layer : Layer) (i : Nat) (state : RunState) :
    isRejected (processAutokey action layers layer i state) = true ↔
      (isMissing layer.key = true ∨ parseInt (layer.key.getD []) = none) := by
  unfold processAutokey
  cases hk : layer.key with
  | none => simp [isRejected, isValidationError, isMissing]
  | some key =>
    by_cases he : key.isEmpty = true
    · simp [isRejected, isValidationError, isMissing, he]
    · cases hp : parseInt key with
      | none => simp [isRejected, isValidationError, isMissing, he, hp]
      | some k =>
        constructor
        · intro h
          exfalso
          simp only [he, Bool.false_eq_true, if_false, hp] at h
          repeat' split at h
          all_goals (simp [isRejected] at h)
        · intro h
          simp [isMissing, he, hp] at h

theorem processLayer_invalid (P : Primitives) (ivs : Nat → List Nat) (action : String)
    (layers : List Layer) (layer : Layer) (i : Nat) (state : RunState)
    (hget : layers[i]? = some layer) (hinv : LayerInvalid action layer) :
    isRejected (processLayer P ivs action layers state i) = true := by
  unfold processLayer
  simp only [List.get?_eq_getElem?, hget]
  rcases hinv with ⟨ha, h⟩ | ⟨ha, h⟩ | ⟨ha, h⟩
  · simp only [ha, show ¬ (("aes" : String) = "" ∨ ("aes" : String) = "none") by decide,
      if_false, if_true]
    exact (processAes_rejected_iff P ivs action layers layer i state).mpr h
  · simp only [ha, show ¬ (("rsa" : String) = "" ∨ ("rsa" : String) = "none") by decide,
      show ¬ (("rsa" : String) = "aes") by decide, if_false, if_true]
    exact (processRsa_rejected_iff P action layers layer i state).mpr h
  · simp only [ha, show ¬ (("autokey" : String) = "" ∨ ("autokey" : String) = "none") by decide,
      show ¬ (("autokey" : String) = "aes") by decide,
      show ¬ (("autokey" : String) = "rsa") by decide, if_false, if_true]
    exact (processAutokey_rejected_iff action layers layer i state).mpr h

/-! ## Claims about validation -/

/-- Claim C15, refuted as stated: slot 1 is a valid AES layer whose mode
`GCM` makes `aesEncrypt` throw and slot 2 is an Autokey layer without a key;
encryption runs the AES transform of slot 1 before it looks at slot 2, so the
outcome is the server error of slot 1 and not the validation error of slot 2. -/
theorem validation_after_transform_counterexample :
    LayerInvalid "encrypt" autokeyLayerNoKey ∧
    processData toyPrimitives (fun _ => [])
        { text := js "hello", action := "encrypt",
          layers := some [aesLayer (js "0123456789ABCDEF") 128 "GCM", autokeyLayerNoKey,
            noneLayer] } =
      .status500 (.serverError "AES encryption failed: Unsupported AES mode: GCM")
        ["Error occurred during processing."] ∧
    isValidationError (processData toyPrimitives (fun _ => [])
        { text := js "hello", action := "encrypt",
          layers := some [aesLayer (js "0123456789ABCDEF") 128 "GCM", autokeyLayerNoKey,
            noneLayer] }) = false := by
  refine ⟨Or.inr (Or.inr ⟨rfl, Or.inl rfl⟩), by decide, by decide⟩

/-- Claim C15, amended: validation is made slot by slot, when the slot is
visited.  If the layers visited before an invalid active layer all succeed,
`processData` returns a validation error that carries no step log; their
transforms have run by then, and if one of them fails the response is that
failure. -/
theorem validation_on_visit (P : Primitives) (ivs : Nat → List Nat) (text : JSString)
    (action : String) (layers : List Layer) (layer : Layer) (i : Nat) (pre post : List Nat)
    (ht : text ≠ []) (ha : action = "encrypt" ∨ action = "decrypt")
    (hidx : (if action = "encrypt" then [0, 1, 2] else [2, 1, 0]) = pre ++ i :: post)
    (hget : layers[i]? = some layer) (hinv : LayerInvalid action layer) :
    (∀ state, processLayers P ivs action layers pre (text, []) = .ok state →
      isRejected (processLayer P ivs action layers state i) = true ∧
      isValidationError
        (processData P ivs { text := text, action := action, layers := some layers }) = true) ∧
    (∀ response, processLayers P ivs action layers pre (text, []) = .error response →
      processData P ivs { text := text, action := action, layers := some layers } =
        response) := by
  have hl : layers ≠ [] := by
    intro h; subst h; simp at hget
  have hdata : processData P ivs { text := text, action := action, layers := some layers } =
      match processLayers P ivs action layers (pre ++ i :: post) (text, []) with
      | .error response => response
      | .ok (processedData, steps) =>
        .json processedData
          (steps ++ [if action = "encrypt" then "Encryption complete!"
            else "Decryption complete!"]) := by
    rcases ha with ha | ha <;> subst ha
    · rw [processData_encrypt P ivs text layers ht hl, ← hidx]
      simp only [if_true]
    · rw [processData_decrypt P ivs text layers ht hl, ← hidx]
      simp only [show ¬ (("decrypt" : String) = "encrypt") by decide, if_false]
  constructor
  · intro state hpre
    have hrej := processLayer_invalid P ivs action layers layer i state hget hinv
    refine ⟨hrej, ?_⟩
    rw [hdata, processLayers_append, hpre]
    simp only [processLayers]
    cases hr : processLayer P ivs action layers state i with
    | error r => rw [hr] at hrej; exact hrej
    | ok next => rw [hr] at hrej; simp [isRejected] at hrej
  · intro response hpre
    rw [hdata, processLayers_append, hpre]

theorem validation_on_visit_witness :
    (js "hello" ≠ [] ∧ (("encrypt" : String) = "encrypt" ∨ ("encrypt" : String) = "decrypt") ∧
      (if ("encrypt" : String) = "encrypt" then [0, 1, 2] else [2, 1, 0]) = [0] ++ 1 :: [2] ∧
      [aesLayer (js "0123456789ABCDEF") 128 "ECB", autokeyLayerNoKey, noneLayer][1]? =
        some autokeyLayerNoKey ∧
      LayerInvalid "encrypt" autokeyLayerNoKey) ∧
    ((∀ state, processLayers toyPrimitives (fun _ => []) "encrypt"
          [aesLayer (js "0123456789ABCDEF") 128 "ECB", autokeyLayerNoKey, noneLayer] [0]
          (js "hello", []) = .ok state →
      isRejected (processLayer toyPrimitives (fun _ => []) "encrypt"
          [aesLayer (js "0123456789ABCDEF") 128 "ECB", autokeyLayerNoKey, noneLayer]
          state 1) = true ∧
      isValidationError
        (processData toyPrimitives (fun _ => [])
          { text := js "hello", action := "encrypt",
            layers := some [aesLayer (js "0123456789ABCDEF") 128 "ECB", autokeyLayerNoKey,
              noneLayer] }) = true) ∧
    (∀ response, processLayers toyPrimitives (fun _ => []) "encrypt"
          [aesLayer (js "0123456789ABCDEF") 128 "ECB", autokeyLayerNoKey, noneLayer] [0]
          (js "hello", []) = .error response →
      processData toyPrimitives (fun _ => [])
          { text := js "hello", action := "encrypt",
            layers := some [aesLayer (js "0123456789ABCDEF") 128 "ECB", autokeyLayerNoKey,
              noneLayer] } = response)) :=
  ⟨⟨by decide, Or.inl rfl, by decide, by decide, Or.inr (Or.inr ⟨rfl, Or.inl rfl⟩)⟩,
    validation_on_visit toyPrimitives (fun _ => []) (js "hello") "encrypt"
      [aesLayer (js "0123456789ABCDEF") 128 "ECB", autokeyLayerNoKey, noneLayer]
      autokeyLayerNoKey 1 [0] [2] (by decide) (Or.inl rfl) (by decide) (by decide)
      (Or.inr (Or.inr ⟨rfl, Or.inl rfl⟩))⟩

/-! ## Claims about the AES key, failures and normalisation -/

/-- Claim C16, refuted as stated: a key of sixteen units `é` has 32 bytes
in UTF-8, not `128 / 8`, yet the AES layer accepts it for 128 bits; a key of
eight such units has `128 / 8` bytes and is rejected. -/
theorem aes_key_bytes_counterexample :
    utf8Length (List.replicate 16 0xE9) = 32 ∧
    isRejected (processLayer toyPrimitives (fun _ => []) "encrypt"
      [aesLayer (List.replicate 16 0xE9) 128 "ECB"] (js "hi", []) 0) = false ∧
    processLayer toyPrimitives (fun _ => []) "encrypt"
        [aesLayer (List.replicate 16 0xE9) 128 "ECB"] (js "hi", []) 0 =
      .ok (35 :: js "hi", ["Processing Layer 1: AES ECB encrypt"]) ∧
    utf8Length (List.replicate 8 0xE9) = 16 ∧
    processLayer toyPrimitives (fun _ => []) "encrypt"
        [aesLayer (List.replicate 8 0xE9) 128 "ECB"] (js "hi", []) 0 =
      .error (.status400 (.aesKeyLength (some 128) 1) none) := by
  refine ⟨by decide, by decide, rfl, by decide, rfl⟩

/-- Claim C16, amended: for every visited AES layer, `processData` rejects
the request with a validation error exactly when the key is missing (absent or
empty) or the number of characters (UTF-16 units) of the key differs from
`keySizeBits / 8`; a key with `keySizeBits / 8` characters is accepted, whatever
its length in bytes. -/
theorem aes_key_validation (P : Primitives) (ivs : Nat → List Nat) (action : String)
    (layers : List Layer) (layer : Layer) (i : Nat) (state : RunState)
    (hget : layers[i]? = some layer) (halg : layer.algorithm = some "aes") :
    isRejected (processLayer P ivs action layers state i) = true ↔
      (isMissing layer.key = true ∨
        layer.keySize ≠ some (((layer.key.getD []).length : Int) * 8)) := by
  have h : processLayer P ivs action layers state i =
      processAes P ivs action layers layer i state := by
    unfold processLayer
    simp only [List.get?_eq_getElem?, hget, halg,
      show ¬ (("aes" : String) = "" ∨ ("aes" : String) = "none") by decide, if_false, if_true]
  rw [h]
  exact processAes_rejected_iff P ivs action layers layer i state

theorem aes_key_validation_witness :
    ([aesLayer (List.replicate 16 0xE9) 128 "ECB"][0]? =
        some (aesLayer (List.replicate 16 0xE9) 128 "ECB") ∧
      (aesLayer (List.replicate 16 0xE9) 128 "ECB").algorithm = some "aes") ∧
    (isRejected (processLayer toyPrimitives (fun _ => []) "encrypt"
        [aesLayer (List.replicate 16 0xE9) 128 "ECB"] (js "hi", []) 0) = true ↔
      (isMissing (aesLayer (List.replicate 16 0xE9) 128 "ECB").key = true ∨
        (aesLayer (List.replicate 16 0xE9) 128 "ECB").keySize ≠
          some ((((aesLayer (List.replicate 16 0xE9) 128 "ECB").key.getD []).length : Int) * 8))) :=
  ⟨⟨by decide, rfl⟩,
    aes_key_validation toyPrimitives (fun _ => []) "encrypt"
      [aesLayer (List.replicate 16 0xE9) 128 "ECB"]
      (aesLayer (List.replicate 16 0xE9) 128 "ECB") 0 (js "hi", []) (by decide) rfl⟩

/-- Claim C17, the failing input: when the AES encryption of slot 1 throws
(mode `GCM`), `processData` answers with status 500, the error
`Server error: ...` that names no layer index, and the fixed log
`Error occurred during processing.` in place of the entries accumulated so
far; in the decryption direction the failure of slot 1 is reported with the
layer, the family and the accumulated log. -/
theorem encrypt_failure_response :
    processData toyPrimitives (fun _ => [])
        { text := js "hello", action := "encrypt",
          layers := some [aesLayer (js "0123456789ABCDEF") 128 "GCM", noneLayer, noneLayer] } =
      .status500 (.serverError "AES encryption failed: Unsupported AES mode: GCM")
        ["Error occurred during processing."] ∧
    processData toyPrimitives (fun _ => [])
        { text := js "hello", action := "decrypt",
          layers := some [aesLayer (js "0123456789ABCDEF") 128 "GCM", noneLayer, noneLayer] } =
      .status400
        (.decryptionFailed "AES" 1 "AES decryption failed: All decryption attempts failed")
        (some ["Layer 3: No encryption selected, skipping",
          "Layer 2: No encryption selected, skipping",
          "Processing Layer 1: AES GCM decrypt"]) := by
  decide

/-- Claim C18, the failing input: with the layers AES, `none`, RSA the two
active layers are consecutive in the traversal, yet no normalisation is made
or logged, in either direction, because slot 2 is `none`: when decrypting, the
output of the RSA layer of slot 3 goes to the AES layer of slot 1 as it is.
With the same two layers in adjacent slots the normalisation is made and
logged. -/
theorem normalisation_across_none :
    processData toyPrimitives (fun _ => [])
        { text := js "hello", action := "encrypt",
          layers := some [aesLayer (js "0123456789ABCDEF") 128 "ECB", noneLayer,
            rsaLayer (js "pub") (js "priv")] } =
      .json (36 :: 35 :: js "hello")
        ["Processing Layer 1: AES ECB encrypt",
         "Layer 2: No encryption selected, skipping",
         "Processing Layer 3: RSA encrypt", "Encryption complete!"] ∧
    processData toyPrimitives (fun _ => [])
        { text := 36 :: 35 :: js "hello", action := "decrypt",
          layers := some [aesLayer (js "0123456789ABCDEF") 128 "ECB", noneLayer,
            rsaLayer (js "pub") (js "priv")] } =
      .json (js "hello")
        ["Processing Layer 3: RSA decrypt",
         "Layer 2: No encryption selected, skipping",
         "Processing Layer 1: AES ECB decrypt", "Decryption complete!"] ∧
    processData toyPrimitives (fun _ => [])
        { text := 36 :: 35 :: js "hello", action := "decrypt",
          layers := some [aesLayer (js "0123456789ABCDEF") 128 "ECB",
            rsaLayer (js "pub") (js "priv"), noneLayer] } =
      .json (js "hello")
        ["Layer 3: No encryption selected, skipping",
         "Processing Layer 2: RSA decrypt", "Normalized RSA output for aes decryption",
         "Processing Layer 1: AES ECB decrypt", "Decryption complete!"] := by
  decide

/-! ## The orchestrator: normalisation at a visit -/

theorem previousAlgorithm_eq_some (layers : List Layer) (i : Nat) (tag : Option String) :
    previousAlgorithm layers i = some tag ↔
      (0 < i ∧ ∃ previous, layers[i - 1]? = some previous ∧ previous.algorithm = tag ∧
        tag ≠ some "none") := by
  unfold previousAlgorithm
  by_cases hi : 0 < i
  · simp only [hi, if_true, List.get?_eq_getElem?, true_and]
    cases hprev : layers[i - 1]? with
    | none => simp
    | some previous =>
      by_cases hn : previous.algorithm ≠ some "none"
      · dsimp only
        rw [if_pos hn]
        simp only [Option.some.injEq]
        constructor
        · intro h; exact ⟨previous, rfl, h, h ▸ hn⟩
        · rintro ⟨p, hp, hpa, _⟩
          cases hp; exact hpa
      · dsimp only
        rw [if_neg hn]
        constructor
        · intro h; cases h
        · rintro ⟨p, hp, hpa, hne⟩
          cases hp
          exact absurd (hpa ▸ hne) hn
  · simp [hi]

theorem processLayer_autokey (P : Primitives) (ivs : Nat → List Nat)
    (layers : List Layer) (layer : Layer) (i : Nat) (state : RunState) (key : JSString)
    (k : ParsedNumber) (hget : layers[i]? = some layer)
    (halg : layer.algorithm = some "autokey")
    (hkey : layer.key = some key) (hne : key ≠ []) (hk : parseInt key = some k) :
    processLayer P ivs "encrypt" layers state i =
      .ok (autokeyEncrypt (normalisedInput layers i state.1 "autokey") k,
        state.2 ++ [s!"Processing Layer {i + 1}: Autokey cipher encrypt"] ++
          encryptNotes layers i "Autokey") ∧
    processLayer P ivs "decrypt" layers state i =
      .ok (normalisedOutput layers i (autokeyDecrypt state.1 k) "autokey",
        state.2 ++ [s!"Processing Layer {i + 1}: Autokey cipher decrypt"] ++
          decryptNotes layers i "Autokey") := by
  have he : key.isEmpty = false := by cases key <;> simp_all
  have h : ∀ action, processLayer P ivs action layers state i =
      processAutokey action layers layer i state := by
    intro action
    unfold processLayer
    simp only [List.get?_eq_getElem?, hget, halg,
      show ¬ (("autokey" : String) = "" ∨ ("autokey" : String) = "none") by decide,
      show ¬ (("autokey" : String) = "aes") by decide,
      show ¬ (("autokey" : String) = "rsa") by decide, if_false, if_true]
  rw [h, h]
  unfold processAutokey normalisedInput normalisedOutput encryptNotes decryptNotes
  simp only [hkey, he, Bool.false_eq_true, if_false, hk, if_true,
    show ¬ (("decrypt" : String) = "encrypt") by decide]
  constructor <;> cases previousAlgorithm layers i <;> (first
    | rfl
    | (simp only [toString, String.append_empty, String.append_assoc, List.append_assoc,
        List.singleton_append, List.nil_append, List.append_nil]; rfl))

theorem processLayer_rsa (P : Primitives) (ivs : Nat → List Nat)
    (layers : List Layer) (layer : Layer) (i : Nat) (state : RunState)
    (hget : layers[i]? = some layer) (halg : layer.algorithm = some "rsa") :
    (∀ publicKey, layer.publicKey = some publicKey → publicKey ≠ [] →
      processLayer P ivs "encrypt" layers state i =
        (match P.rsaEncrypt (normalisedInput layers i state.1 "rsa") publicKey with
         | .ok out =>
           .ok (out, state.2 ++ [s!"Processing Layer {i + 1}: RSA encrypt"] ++
             encryptNotes layers i "RSA")
         | .error message =>
           .error (.status500 (.serverError message) ["Error occurred during processing."]))) ∧
    (∀ privateKey, layer.privateKey = some privateKey → privateKey ≠ [] →
      processLayer P ivs "decrypt" layers state i =
        (match P.rsaDecrypt state.1 privateKey with
         | .ok out =>
           .ok (normalisedOutput layers i out "rsa",
             state.2 ++ [s!"Processing Layer {i + 1}: RSA decrypt"] ++
               decryptNotes layers i "RSA")
         | .error message =>
           .error (.status400 (.decryptionFailed "RSA" (i + 1) message)
             (some (state.2 ++ [s!"Processing Layer {i + 1}: RSA decrypt"]))))) := by
  have h : ∀ action, processLayer P ivs action layers state i =
      processRsa P action layers layer i state := by
    intro action
    unfold processLayer
    simp only [List.get?_eq_getElem?, hget, halg,
      show ¬ (("rsa" : String) = "" ∨ ("rsa" : String) = "none") by decide,
      show ¬ (("rsa" : String) = "aes") by decide, if_false, if_true]
  constructor
  · intro publicKey hpub hne
    have he : publicKey.isEmpty = false := by cases publicKey <;> simp_all
    rw [h]
    unfold processRsa normalisedInput encryptNotes
    simp only [hpub, isMissing, he, Bool.false_eq_true, and_false, if_false, if_true,
      show ¬ (("encrypt" : String) = "decrypt") by decide, false_and, Option.getD_some]
    cases previousAlgorithm layers i with
    | none =>
      dsimp only
      cases P.rsaEncrypt state.1 publicKey <;> (first
    | rfl
    | (simp only [toString, String.append_empty, String.append_assoc, List.append_assoc,
        List.singleton_append, List.nil_append, List.append_nil]; rfl))
    | some tag =>
      dsimp only
      cases P.rsaEncrypt (normalizeLayerData state.1 tag (some "rsa")) publicKey <;> (first
    | rfl
    | (simp only [toString, String.append_empty, String.append_assoc, List.append_assoc,
        List.singleton_append, List.nil_append, List.append_nil]; rfl))
  · intro privateKey hpriv hne2
    have he2 : privateKey.isEmpty = false := by cases privateKey <;> simp_all
    rw [h]
    unfold processRsa normalisedOutput decryptNotes
    simp only [hpriv, isMissing, he2, Bool.false_eq_true, and_false, if_false, if_true,
      show ¬ (("decrypt" : String) = "encrypt") by decide, false_and, Option.getD_some]
    cases P.rsaDecrypt state.1 privateKey with
    | error m => (first
    | rfl
    | (simp only [toString, String.append_empty, String.append_assoc, List.append_assoc,
        List.singleton_append, List.nil_append, List.append_nil]; rfl))
    | ok out => cases previousAlgorithm layers i <;> (first
    | rfl
    | (simp only [toString, String.append_empty, String.append_assoc, List.append_assoc,
        List.singleton_append, List.nil_append, List.append_nil]; rfl))

theorem processLayer_aes (P : Primitives) (ivs : Nat → List Nat)
    (layers : List Layer) (layer : Layer) (i : Nat) (state : RunState) (key : JSString)
    (hget : layers[i]? = some layer) (halg : layer.algorithm = some "aes")
    (hkey : layer.key = some key) (hne : key ≠ [])
    (hsize : layer.keySize = some ((key.length : Int) * 8)) :
    processLayer P ivs "encrypt" layers state i =
      (match P.aesEncrypt (ivs i) (normalisedInput layers i state.1 "aes") key layer.keySize
          layer.mode with
       | .ok out =>
         .ok (out, state.2 ++
           [s!"Processing Layer {i + 1}: AES {showTag layer.mode} encrypt"] ++
           encryptNotes layers i "AES")
       | .error message =>
         .error (.status500 (.serverError message) ["Error occurred during processing."])) ∧
    processLayer P ivs "decrypt" layers state i =
      (match P.aesDecrypt state.1 key layer.keySize layer.mode with
       | .ok out =>
         .ok (normalisedOutput layers i out "aes",
           state.2 ++ [s!"Processing Layer {i + 1}: AES {showTag layer.mode} decrypt"] ++
             decryptNotes layers i "AES")
       | .error message =>
         .error (.status400 (.decryptionFailed "AES" (i + 1) message)
           (some (state.2 ++
             [s!"Processing Layer {i + 1}: AES {showTag layer.mode} decrypt"])))) := by
  have he : key.isEmpty = false := by cases key <;> simp_all
  have h : ∀ action, processLayer P ivs action layers state i =
      processAes P ivs action layers layer i state := by
    intro action
    unfold processLayer
    simp only [List.get?_eq_getElem?, hget, halg,
      show ¬ (("aes" : String) = "" ∨ ("aes" : String) = "none") by decide, if_false, if_true]
  rw [h, h]
  unfold processAes normalisedInput normalisedOutput encryptNotes decryptNotes
  simp only [hkey, he, Bool.false_eq_true, if_false, if_true, ne_eq, not_true_eq_false,
    show ¬ (("decrypt" : String) = "encrypt") by decide, hsize]
  constructor
  · cases previousAlgorithm layers i with
    | none =>
      dsimp only
      cases P.aesEncrypt (ivs i) state.1 key (some ((key.length : Int) * 8)) layer.mode <;> (first
    | rfl
    | (simp only [toString, String.append_empty, String.append_assoc, List.append_assoc,
        List.singleton_append, List.nil_append, List.append_nil]; rfl))
    | some tag =>
      dsimp only
      cases P.aesEncrypt (ivs i) (normalizeLayerData state.1 tag (some "aes")) key
        (some ((key.length : Int) * 8)) layer.mode <;> (first
    | rfl
    | (simp only [toString, String.append_empty, String.append_assoc, List.append_assoc,
        List.singleton_append, List.nil_append, List.append_nil]; rfl))
  · cases P.aesDecrypt state.1 key (some ((key.length : Int) * 8)) layer.mode with
    | error m => (first
    | rfl
    | (simp only [toString, String.append_empty, String.append_assoc, List.append_assoc,
        List.singleton_append, List.nil_append, List.append_nil]; rfl))
    | ok out => cases previousAlgorithm layers i <;> (first
    | rfl
    | (simp only [toString, String.append_empty, String.append_assoc, List.append_assoc,
        List.singleton_append, List.nil_append, List.append_nil]; rfl))

/-! ## Claim about the normaliser calls of the orchestrator -/

/-- The normaliser is driven by the slot next to the layer, not by the
previous active layer.  When an active layer in slot `i` is
visited, `normalizeLayerData` is called and one entry is logged exactly when
`i > 0` and the tag of slot `i - 1` is not `none`: on encryption the data is
normalised from that tag to the family of the layer before the transform, on
decryption the output of the transform is normalised from the family of the
layer to that tag.  For slot 1, or when slot `i - 1` is `none` (as between the
active layers of AES, `none`, RSA), nothing is normalised or logged. -/
theorem normalisation_by_neighbour (P : Primitives) (ivs : Nat → List Nat)
    (layers : List Layer) (layer : Layer) (i : Nat) (state : RunState)
    (hget : layers[i]? = some layer) :
    (∀ tag, previousAlgorithm layers i = some tag ↔
      (0 < i ∧ ∃ previous, layers[i - 1]? = some previous ∧ previous.algorithm = tag ∧
        tag ≠ some "none")) ∧
    (∀ tag data family name, previousAlgorithm layers i = some tag →
      normalisedInput layers i data family = normalizeLayerData data tag (some family) ∧
      normalisedOutput layers i data family = normalizeLayerData data (some family) tag ∧
      encryptNotes layers i name =
        [s!"Normalized data from {showTag tag} for {name} encryption"] ∧
      decryptNotes layers i name =
        [s!"Normalized {name} output for {showTag tag} decryption"]) ∧
    (∀ data family name, previousAlgorithm layers i = none →
      normalisedInput layers i data family = data ∧
      normalisedOutput layers i data family = data ∧
      encryptNotes layers i name = [] ∧ decryptNotes layers i name = []) ∧
    (∀ key k, layer.algorithm = some "autokey" → layer.key = some key → key ≠ [] →
      parseInt key = some k →
      processLayer P ivs "encrypt" layers state i =
        .ok (autokeyEncrypt (normalisedInput layers i state.1 "autokey") k,
          state.2 ++ [s!"Processing Layer {i + 1}: Autokey cipher encrypt"] ++
            encryptNotes layers i "Autokey") ∧
      processLayer P ivs "decrypt" layers state i =
        .ok (normalisedOutput layers i (autokeyDecrypt state.1 k) "autokey",
          state.2 ++ [s!"Processing Layer {i + 1}: Autokey cipher decrypt"] ++
            decryptNotes layers i "Autokey")) ∧
    (∀ publicKey, layer.algorithm = some "rsa" →
      layer.publicKey = some publicKey → publicKey ≠ [] →
      processLayer P ivs "encrypt" layers state i =
        (match P.rsaEncrypt (normalisedInput layers i state.1 "rsa") publicKey with
         | .ok out =>
           .ok (out, state.2 ++ [s!"Processing Layer {i + 1}: RSA encrypt"] ++
             encryptNotes layers i "RSA")
         | .error message =>
           .error (.status500 (.serverError message) ["Error occurred during processing."]))) ∧
    (∀ privateKey, layer.algorithm = some "rsa" →
      layer.privateKey = some privateKey → privateKey ≠ [] →
      processLayer P ivs "decrypt" layers state i =
        (match P.rsaDecrypt state.1 privateKey with
         | .ok out =>
           .ok (normalisedOutput layers i out "rsa",
             state.2 ++ [s!"Processing Layer {i + 1}: RSA decrypt"] ++
               decryptNotes layers i "RSA")
         | .error message =>
           .error (.status400 (.decryptionFailed "RSA" (i + 1) message)
             (some (state.2 ++ [s!"Processing Layer {i + 1}: RSA decrypt"]))))) ∧
    (∀ key, layer.algorithm = some "aes" → layer.key = some key → key ≠ [] →
      layer.keySize = some ((key.length : Int) * 8) →
      processLayer P ivs "encrypt" layers state i =
        (match P.aesEncrypt (ivs i) (normalisedInput layers i state.1 "aes") key
            layer.keySize layer.mode with
         | .ok out =>
           .ok (out, state.2 ++
             [s!"Processing Layer {i + 1}: AES {showTag layer.mode} encrypt"] ++
             encryptNotes layers i "AES")
         | .error message =>
           .error (.status500 (.serverError message) ["Error occurred during processing."])) ∧
      processLayer P ivs "decrypt" layers state i =
        (match P.aesDecrypt state.1 key layer.keySize layer.mode with
         | .ok out =>
           .ok (normalisedOutput layers i out "aes",
             state.2 ++ [s!"Processing Layer {i + 1}: AES {showTag layer.mode} decrypt"] ++
               decryptNotes layers i "AES")
         | .error message =>
           .error (.status400 (.decryptionFailed "AES" (i + 1) message)
             (some (state.2 ++
               [s!"Processing Layer {i + 1}: AES {showTag layer.mode} decrypt"]))))) := by
  refine ⟨fun tag => previousAlgorithm_eq_some layers i tag, ?_, ?_, ?_, ?_, ?_, ?_⟩
  · intro tag data family name h
    simp only [normalisedInput, normalisedOutput, encryptNotes, decryptNotes, h, and_self]
  · intro data family name h
    simp only [normalisedInput, normalisedOutput, encryptNotes, decryptNotes, h, and_self]
  · intro key k halg hkey hne hk
    exact processLayer_autokey P ivs layers layer i state key k hget halg hkey hne hk
  · intro publicKey halg hpub hne
    exact (processLayer_rsa P ivs layers layer i state hget halg).1 publicKey hpub hne
  · intro privateKey halg hpriv hne2
    exact (processLayer_rsa P ivs layers layer i state hget halg).2 privateKey hpriv hne2
  · intro key halg hkey hne hsize
    exact processLayer_aes P ivs layers layer i state key hget halg hkey hne hsize

/-! ## The RSA layer: chunks -/

theorem maxChunkSize_eq : maxChunkSize = 245 := by decide

theorem substring_chunk (text : JSString) (i : Nat) :
    substring text i (i + maxChunkSize) = (text.drop i).take 245 := by
  simp [substring, maxChunkSize_eq]

theorem chunkLoop_flatten (text : JSString) (fuel i : Nat) (h : text.length - i ≤ fuel) :
    (chunkLoop text fuel i).flatten = text.drop i := by
  induction fuel generalizing i with
  | zero =>
    have : text.length ≤ i := by omega
    simp [chunkLoop, List.drop_eq_nil_of_le this]
  | succ f ih =>
    unfold chunkLoop
    by_cases hi : i < text.length
    · rw [if_pos hi, substring_chunk, List.flatten_cons, ih (i + maxChunkSize) (by
        rw [maxChunkSize_eq]; omega), maxChunkSize_eq]
      have hd : text.drop (i + 245) = (text.drop i).drop 245 := by
        rw [List.drop_drop]
      rw [hd, List.take_append_drop]
    · rw [if_neg hi]
      have : text.length ≤ i := by omega
      simp [List.drop_eq_nil_of_le this]

theorem chunkLoop_length (text : JSString) (fuel i : Nat) (h : text.length - i ≤ fuel) :
    (chunkLoop text fuel i).length = (text.length - i + 244) / 245 := by
  induction fuel generalizing i with
  | zero =>
    simp only [chunkLoop, List.length_nil]
    omega
  | succ f ih =>
    unfold chunkLoop
    by_cases hi : i < text.length
    · rw [if_pos hi, List.length_cons, ih (i + maxChunkSize) (by
        rw [maxChunkSize_eq]; omega), maxChunkSize_eq]
      omega
    · rw [if_neg hi, List.length_nil]
      omega

theorem chunkLoop_sizes (text : JSString) (fuel i : Nat) :
    ∀ c ∈ chunkLoop text fuel i, 0 < c.length ∧ c.length ≤ 245 := by
  induction fuel generalizing i with
  | zero => simp [chunkLoop]
  | succ f ih =>
    unfold chunkLoop
    by_cases hi : i < text.length
    · rw [if_pos hi]
      intro c hc
      rcases List.mem_cons.mp hc with rfl | hc
      · rw [substring_chunk, List.length_take, List.length_drop]
        omega
      · exact ih _ c hc
    · rw [if_neg hi]
      simp

theorem chunkLoop_full (text : JSString) (fuel i : Nat) (h : text.length - i ≤ fuel)
    (j : Nat) (hj : j + 1 < (chunkLoop text fuel i).length) :
    ((chunkLoop text fuel i).getD j []).length = 245 := by
  induction fuel generalizing i j with
  | zero => simp [chunkLoop] at hj
  | succ f ih =>
    have hlen := chunkLoop_length text (f + 1) i h
    unfold chunkLoop at hj ⊢
    by_cases hi : i < text.length
    · rw [if_pos hi] at hj ⊢
      have hf : text.length - (i + maxChunkSize) ≤ f := by rw [maxChunkSize_eq]; omega
      have hrest := chunkLoop_length text f (i + maxChunkSize) hf
      rw [maxChunkSize_eq] at hrest
      cases j with
      | zero =>
        rw [List.getD_cons_zero, substring_chunk, List.length_take, List.length_drop]
        simp only [List.length_cons] at hj
        rw [maxChunkSize_eq] at hj
        omega
      | succ j =>
        rw [List.getD_cons_succ]
        exact ih (i + maxChunkSize) hf j (by simpa using hj)
    · rw [if_neg hi] at hj
      simp at hj

theorem encryptChunks_ok_iff (E : ChunkCipher) (publicKey : JSString)
    (chunks encrypted : List JSString) :
    encryptChunks E publicKey chunks = .ok encrypted ↔
      List.Forall₂ (fun chunk e => E.encrypt publicKey chunk = some e ∧ e ≠ [])
        chunks encrypted := by
  induction chunks generalizing encrypted with
  | nil =>
    simp only [encryptChunks]
    constructor
    · intro h; cases h; exact List.Forall₂.nil
    · intro h; cases h; rfl
  | cons chunk rest ih =>
    simp only [encryptChunks, encryptChunk]
    cases he : E.encrypt publicKey chunk with
    | none =>
      constructor
      · intro h; cases h
      · intro h
        cases h with
        | cons hab _ => rw [he] at hab; cases hab.1
    | some e =>
      by_cases hempty : e.isEmpty = true
      · have he0 : e = [] := List.isEmpty_iff.mp hempty
        simp only [hempty, if_true]
        constructor
        · intro h; cases h
        · intro h
          cases h with
          | cons hab _ =>
            rw [he] at hab
            cases hab.1
            exact absurd he0 hab.2
      · have hne : e ≠ [] := fun h => hempty (List.isEmpty_iff.mpr h)
        simp only [hempty, Bool.false_eq_true, if_false]
        cases hrest : encryptChunks E publicKey rest with
        | error m =>
          constructor
          · intro h; cases h
          · intro h
            cases h with
            | cons hab htail =>
              have := (ih _).mpr htail
              rw [hrest] at this
              cases this
        | ok others =>
          constructor
          · intro h
            cases h
            exact List.Forall₂.cons ⟨he, hne⟩ ((ih others).mp hrest)
          · intro h
            cases h with
            | cons hab htail =>
              rw [he] at hab
              cases hab.1
              have := (ih _).mpr htail
              rw [hrest] at this
              cases this
              rfl

/-! ## Claims about the RSA layer -/

theorem rsaChunks_flatten (text : JSString) : (rsaChunks text).flatten = text := by
  have := chunkLoop_flatten text text.length 0 (by omega)
  simpa [rsaChunks] using this

theorem rsaChunks_length (text : JSString) :
    (rsaChunks text).length = (text.length + 244) / 245 := by
  have := chunkLoop_length text text.length 0 (by omega)
  simpa [rsaChunks] using this

/-- Claim C19: for every input text of length `n` and every public key,
`rsaEncrypt` splits the text into `ceil(n / 245)` chunks (245 is
`floor(2048 / 8) - 11`; the key plays no part), each non-empty and of length at
most 245, all but the last of length exactly 245, whose concatenation in order
is the input; each chunk is encrypted on its own, and when every encryption
gives a non-empty text the result is those texts joined by `|` (otherwise
`rsaEncrypt` throws). -/
theorem rsaEncrypt_chunks (E : ChunkCipher) (text publicKey : JSString) :
    maxChunkSize = 245 ∧
    (rsaChunks text).length = (text.length + 244) / 245 ∧
    (∀ c ∈ rsaChunks text, 0 < c.length ∧ c.length ≤ 245) ∧
    (∀ j, j + 1 < (rsaChunks text).length → ((rsaChunks text).getD j []).length = 245) ∧
    (rsaChunks text).flatten = text ∧
    (∀ encrypted,
      List.Forall₂ (fun chunk e => E.encrypt publicKey chunk = some e ∧ e ≠ [])
        (rsaChunks text) encrypted →
      rsaEncrypt E text publicKey = .ok (List.intercalate [124] encrypted)) ∧
    (∀ encrypted, rsaEncrypt E text publicKey = .ok encrypted →
      ∃ chunks, encrypted = List.intercalate [124] chunks ∧
        List.Forall₂ (fun chunk e => E.encrypt publicKey chunk = some e ∧ e ≠ [])
          (rsaChunks text) chunks) ∧
    (∀ message, encryptChunks E publicKey (rsaChunks text) = .error message →
      rsaEncrypt E text publicKey = .error ("RSA encryption failed: " ++ message)) := by
  refine ⟨maxChunkSize_eq, rsaChunks_length text, chunkLoop_sizes text _ _, ?_,
    rsaChunks_flatten text, ?_, ?_, ?_⟩
  · intro j hj
    exact chunkLoop_full text text.length 0 (by omega) j hj
  · intro encrypted h
    have := (encryptChunks_ok_iff E publicKey _ _).mpr h
    simp only [rsaEncrypt, this]
  · intro encrypted h
    unfold rsaEncrypt at h
    cases hc : encryptChunks E publicKey (rsaChunks text) with
    | error m => rw [hc] at h; cases h
    | ok chunks =>
      rw [hc] at h
      cases h
      exact ⟨chunks, rfl, (encryptChunks_ok_iff E publicKey _ _).mp hc⟩
  · intro message h
    simp only [rsaEncrypt, h]

/-! ## Claim about the RSA round trip -/

theorem encryptChunks_of_inverse (E : ChunkCipher) (publicKey privateKey : JSString)
    (hE : ∀ chunk : JSString, chunk.length ≤ 245 →
      ∃ e, E.encrypt publicKey chunk = some e ∧ e ≠ [] ∧ 124 ∉ e ∧
        E.decrypt privateKey e = .text chunk)
    (chunks : List JSString) (hc : ∀ c ∈ chunks, c.length ≤ 245) :
    ∃ encrypted, encryptChunks E publicKey chunks = .ok encrypted ∧
      encrypted.length = chunks.length ∧
      (∀ e ∈ encrypted, 124 ∉ e) ∧
      List.Forall₂ (fun e chunk => E.decrypt privateKey e = .text chunk) encrypted chunks ∧
      decryptChunks E privateKey encrypted = .ok chunks := by
  induction chunks with
  | nil => exact ⟨[], rfl, rfl, by simp, List.Forall₂.nil, rfl⟩
  | cons chunk rest ih =>
    rcases hE chunk (hc chunk (List.mem_cons_self _ _)) with ⟨e, he, hne, hbar, hd⟩
    rcases ih (fun c hcm => hc c (List.mem_cons_of_mem _ hcm)) with
      ⟨es, hes, hlen, hbars, hall, hdec⟩
    have hempty : e.isEmpty = false := by cases e <;> simp_all
    refine ⟨e :: es, ?_, by simp [hlen], ?_, List.Forall₂.cons hd hall, ?_⟩
    · simp only [encryptChunks, encryptChunk, he, hempty, Bool.false_eq_true, if_false, hes]
    · intro x hx
      rcases List.mem_cons.mp hx with rfl | hx
      · exact hbar
      · exact hbars x hx
    · simp only [decryptChunks, hd, hdec]

theorem mem_intercalate_of_two (a b : JSString) (rest : List JSString) :
    124 ∈ List.intercalate [124] (a :: b :: rest) := by
  simp [List.intercalate, List.intersperse]

/-- Claim C20: assume that, for the two keys, the chunk cipher encrypts
every chunk of at most 245 characters to a non-empty text without `|` which it
decrypts back to the chunk.  Then for every plaintext longer than 245
characters `rsaEncrypt` returns a text that contains `|`, whose `|`-delimited
pieces are as many as the plaintext chunks and decrypt one by one to them, and
`rsaDecrypt` of it returns the plaintext. -/
theorem rsa_roundtrip (E : ChunkCipher) (text publicKey privateKey : JSString)
    (hE : ∀ chunk : JSString, chunk.length ≤ 245 →
      ∃ e, E.encrypt publicKey chunk = some e ∧ e ≠ [] ∧ 124 ∉ e ∧
        E.decrypt privateKey e = .text chunk)
    (hlong : 245 < text.length) :
    ∃ out, rsaEncrypt E text publicKey = .ok out ∧ 124 ∈ out ∧
      (out.splitOn 124).length = (rsaChunks text).length ∧
      List.Forall₂ (fun e chunk => E.decrypt privateKey e = .text chunk)
        (out.splitOn 124) (rsaChunks text) ∧
      rsaDecrypt E out privateKey = .ok text := by
  rcases encryptChunks_of_inverse E publicKey privateKey hE (rsaChunks text)
    (fun c hc => (chunkLoop_sizes text _ _ c hc).2) with ⟨es, hes, hlen, hbars, hall, hdec⟩
  have hcount : 2 ≤ es.length := by
    rw [hlen, rsaChunks_length]
    omega
  have hne : es ≠ [] := by
    intro h; rw [h] at hcount; simp at hcount
  have hsplit : (List.intercalate [124] es).splitOn 124 = es :=
    List.splitOn_intercalate es 124 hbars hne
  refine ⟨List.intercalate [124] es, by simp only [rsaEncrypt, hes], ?_, ?_, ?_, ?_⟩
  · match es, hcount with
    | a :: b :: rest, _ => exact mem_intercalate_of_two a b rest
  · rw [hsplit, hlen]
  · rw [hsplit]; exact hall
  · simp only [rsaDecrypt, hsplit, hdec, rsaChunks_flatten]

theorem rsa_roundtrip_witness :
    ((∀ chunk : JSString, chunk.length ≤ 245 →
      ∃ e, toyChunkCipher.encrypt (js "pub") chunk = some e ∧ e ≠ [] ∧ 124 ∉ e ∧
        toyChunkCipher.decrypt (js "priv") e = .text chunk) ∧
      245 < (List.replicate 300 65 : JSString).length) ∧
    (∃ out, rsaEncrypt toyChunkCipher (List.replicate 300 65) (js "pub") = .ok out ∧
      124 ∈ out ∧
      (out.splitOn 124).length = (rsaChunks (List.replicate 300 65)).length ∧
      List.Forall₂ (fun e chunk => toyChunkCipher.decrypt (js "priv") e = .text chunk)
        (out.splitOn 124) (rsaChunks (List.replicate 300 65)) ∧
      rsaDecrypt toyChunkCipher out (js "priv") = .ok (List.replicate 300 65)) :=
  have hE : ∀ chunk : JSString, chunk.length ≤ 245 →
      ∃ e, toyChunkCipher.encrypt (js "pub") chunk = some e ∧ e ≠ [] ∧ 124 ∉ e ∧
        toyChunkCipher.decrypt (js "priv") e = .text chunk :=
    fun chunk _ => ⟨33 :: chunk.map fun c => c + 125, rfl, by simp, by
      simp only [List.mem_cons, List.mem_map, not_or, not_exists, not_and]
      exact ⟨by decide, fun x _ => by omega⟩, by
      simp only [toyChunkCipher, List.map_map]
      congr 1
      conv_rhs => rw [← List.map_id chunk]
      apply List.map_congr_left
      intro a _
      simp⟩
  ⟨⟨hE, by rw [List.length_replicate]; omega⟩,
    rsa_roundtrip toyChunkCipher (List.replicate 300 65) (js "pub") (js "priv")
      hE (by rw [List.length_replicate]; omega)⟩

/-! ## Claim about a chunk that fails to decrypt -/

theorem decryptChunks_failed (E : ChunkCipher) (privateKey : JSString)
    (chunks : List JSString)
    (h : ∃ chunk ∈ chunks, E.decrypt privateKey chunk = .failed) :
    decryptChunks E privateKey chunks =
      .error "RSA decryption failed. Invalid key or corrupted data." := by
  induction chunks with
  | nil => rcases h with ⟨c, hc, _⟩; cases hc
  | cons chunk rest ih =>
    cases hd : E.decrypt privateKey chunk with
    | failed => simp only [decryptChunks, hd]
    | text s =>
      have hrest : ∃ c ∈ rest, E.decrypt privateKey c = .failed := by
        rcases h with ⟨c, hc, hf⟩
        rcases List.mem_cons.mp hc with rfl | hc
        · rw [hd] at hf; cases hf
        · exact ⟨c, hc, hf⟩
      simp only [decryptChunks, hd, ih hrest]
    | null =>
      have hrest : ∃ c ∈ rest, E.decrypt privateKey c = .failed := by
        rcases h with ⟨c, hc, hf⟩
        rcases List.mem_cons.mp hc with rfl | hc
        · rw [hd] at hf; cases hf
        · exact ⟨c, hc, hf⟩
      simp only [decryptChunks, hd, ih hrest]

theorem decryptChunks_flatten (E : ChunkCipher) (privateKey : JSString)
    (chunks : List JSString)
    (h : ∀ chunk ∈ chunks, E.decrypt privateKey chunk ≠ .failed) :
    ∃ decrypted, decryptChunks E privateKey chunks = .ok decrypted ∧
      decrypted.flatten = (chunks.map fun chunk => joinedText (E.decrypt privateKey chunk)).flatten := by
  induction chunks with
  | nil => exact ⟨[], rfl, rfl⟩
  | cons chunk rest ih =>
    rcases ih (fun c hc => h c (List.mem_cons_of_mem _ hc)) with ⟨ds, hds, hfl⟩
    cases hd : E.decrypt privateKey chunk with
    | failed => exact absurd hd (h chunk (List.mem_cons_self _ _))
    | text s =>
      refine ⟨s :: ds, by simp only [decryptChunks, hd, hds], ?_⟩
      simp only [List.flatten_cons, List.map_cons, hd, joinedText, hfl]
    | null =>
      refine ⟨[] :: ds, by simp only [decryptChunks, hd, hds], ?_⟩
      simp only [List.flatten_cons, List.map_cons, hd, joinedText, hfl]

/-- What `rsaDecrypt` does with a primitive that does not throw: it splits
the cipher text at every `|`; when the primitive returns `false` for any chunk
it throws
`RSA decryption failed: RSA decryption failed. Invalid key or corrupted data.`
and returns no plain text; it returns a result exactly when the primitive
returns `false` for no chunk, and the result is then the decrypted chunks
joined in order, a chunk for which the primitive returns `null` giving the
empty string. -/
theorem rsaDecrypt_failure (E : ChunkCipher) (ciphertext privateKey : JSString) :
    ((∃ chunk ∈ ciphertext.splitOn 124, E.decrypt privateKey chunk = .failed) →
      rsaDecrypt E ciphertext privateKey =
        .error "RSA decryption failed: RSA decryption failed. Invalid key or corrupted data.") ∧
    ((∀ chunk ∈ ciphertext.splitOn 124, E.decrypt privateKey chunk ≠ .failed) →
      rsaDecrypt E ciphertext privateKey =
        .ok ((ciphertext.splitOn 124).map fun chunk =>
          joinedText (E.decrypt privateKey chunk)).flatten) ∧
    ((∃ result, rsaDecrypt E ciphertext privateKey = .ok result) ↔
      ∀ chunk ∈ ciphertext.splitOn 124, E.decrypt privateKey chunk ≠ .failed) := by
  have hfail : (∃ chunk ∈ ciphertext.splitOn 124, E.decrypt privateKey chunk = .failed) →
      rsaDecrypt E ciphertext privateKey =
        .error "RSA decryption failed: RSA decryption failed. Invalid key or corrupted data." := by
    intro h
    simp only [rsaDecrypt, decryptChunks_failed E privateKey _ h]
    rfl
  have hok : (∀ chunk ∈ ciphertext.splitOn 124, E.decrypt privateKey chunk ≠ .failed) →
      rsaDecrypt E ciphertext privateKey =
        .ok ((ciphertext.splitOn 124).map fun chunk =>
          joinedText (E.decrypt privateKey chunk)).flatten := by
    intro h
    rcases decryptChunks_flatten E privateKey _ h with ⟨ds, hds, hfl⟩
    simp only [rsaDecrypt, hds, hfl]
  refine ⟨hfail, hok, ?_, fun h => ⟨_, hok h⟩⟩
  rintro ⟨result, hres⟩ chunk hc hf
  rw [hfail ⟨chunk, hc, hf⟩] at hres
  cases hres

/-- Claim C21, the failing input: with a primitive that returns `null`, not
`false`, for the chunk `AAAA` it cannot decrypt, the strict test
`decrypted === false` of line 269 lets the chunk pass, and `rsaDecrypt` does
not fail on `!åæ|AAAA`: it returns the plain text `hi` of the first chunk
alone.  When the primitive returns `false` for that chunk, `rsaDecrypt` fails
with the message of line 270. -/
theorem rsaDecrypt_partial_result :
    js "AAAA" ∈ ([33, 229, 230] ++ js "|AAAA").splitOn 124 ∧
    nullChunkCipher.decrypt [] (js "AAAA") = .null ∧
    (¬ ∃ s, nullChunkCipher.decrypt [] (js "AAAA") = .text s) ∧
    rsaDecrypt nullChunkCipher ([33, 229, 230] ++ js "|AAAA") [] = .ok (js "hi") ∧
    toyChunkCipher.decrypt [] (js "AAAA") = .failed ∧
    rsaDecrypt toyChunkCipher ([33, 229, 230] ++ js "|AAAA") [] =
      .error "RSA decryption failed: RSA decryption failed. Invalid key or corrupted data." := by
  refine ⟨by decide, rfl, ?_, by rfl, rfl, by rfl⟩
  rintro ⟨s, hs⟩
  cases hs

/-! ## Claim about the format of AES encryption -/

theorem hexDigit_lower (n : Nat) (h : n < 16) : isLowerHexDigit (hexDigit n) = true := by
  unfold hexDigit isLowerHexDigit
  split_ifs <;> simp <;> omega

theorem hexStringify_length (bytes : List Nat) :
    (hexStringify bytes).length = 2 * bytes.length := by
  induction bytes with
  | nil => rfl
  | cons b rest ih =>
    simp only [hexStringify, List.flatMap_cons, List.length_append, List.length_cons,
      List.length_nil] at ih ⊢
    omega

theorem hexStringify_digits (bytes : List Nat) :
    ∀ c ∈ hexStringify bytes, isLowerHexDigit c = true := by
  intro c hc
  unfold hexStringify at hc
  rcases List.mem_flatMap.mp hc with ⟨b, _, hb⟩
  simp only [List.mem_cons, List.mem_singleton, List.not_mem_nil, or_false] at hb
  rcases hb with rfl | rfl
  · exact hexDigit_lower _ (by omega)
  · exact hexDigit_lower _ (by omega)

theorem base64Char_ne_colon (n : Nat) : base64Char n ≠ 58 := by
  unfold base64Char
  split_ifs <;> omega

theorem base64Encode_no_colon (bytes : List Nat) : 58 ∉ base64Encode bytes := by
  induction bytes using base64Encode.induct with
  | case1 => simp [base64Encode]
  | case2 a =>
    simp only [base64Encode, List.mem_cons, List.mem_singleton, List.not_mem_nil, or_false,
      not_or]
    exact ⟨(base64Char_ne_colon _).symm, (base64Char_ne_colon _).symm, by decide, by decide⟩
  | case3 a b =>
    simp only [base64Encode, List.mem_cons, List.mem_singleton, List.not_mem_nil, or_false,
      not_or]
    exact ⟨(base64Char_ne_colon _).symm, (base64Char_ne_colon _).symm,
      (base64Char_ne_colon _).symm, by decide⟩
  | case4 a b c rest ih =>
    simp only [base64Encode, List.mem_cons, not_or]
    exact ⟨(base64Char_ne_colon _).symm, (base64Char_ne_colon _).symm,
      (base64Char_ne_colon _).symm, (base64Char_ne_colon _).symm, ih⟩

theorem normalizeKey_valid (key : JSString) (keySize : Option Int)
    (h : keySize = some ((key.length : Int) * 8)) : normalizeKey key keySize = some key := by
  subst h
  have hreq : requiredLength (some ((key.length : Int) * 8)) = key.length := by
    simp only [requiredLength]
    have : ((key.length : Int) * 8).toNat = key.length * 8 := by omega
    rw [this]
    omega
  have hb : belowRequiredLength key (some ((key.length : Int) * 8)) = false := by
    simp [belowRequiredLength]
  simp only [normalizeKey, hreq, appendKey, hb, Bool.false_eq_true, if_false, substring,
    List.drop_zero, Nat.sub_zero, List.take_length]

theorem count_colon_format (ivHex body : JSString)
    (hiv : ∀ c ∈ ivHex, isLowerHexDigit c = true) (hbody : 58 ∉ body) :
    (ivHex ++ [58] ++ body).count 58 = 1 := by
  have h1 : ivHex.count 58 = 0 := by
    apply List.count_eq_zero.mpr
    intro hmem
    have := hiv 58 hmem
    simp [isLowerHexDigit] at this
  have h2 : body.count 58 = 0 := List.count_eq_zero.mpr hbody
  simp [List.count_append, h1, h2]

/-- Claim C22, refuted as stated: a key of sixteen unpaired surrogates has
the 16 characters that 128 bits ask for, so that the pipeline accepts it, but
`Utf8.parse` throws on it, and `aesEncrypt` fails with
`AES encryption failed: URI malformed` in every mode, whatever the primitive
and the text. -/
theorem aesEncrypt_surrogate_key_counterexample :
    (some 128 : Option Int) = some ((((List.replicate 16 0xD800 : JSString).length : Nat) : Int) * 8) ∧
    wellFormed (List.replicate 16 0xD800) = false ∧
    (∀ (C : CryptoJS) (iv : List Nat) (text : JSString) (mode : String),
      aesEncrypt C iv text (List.replicate 16 0xD800) (some 128) (some mode) =
        some (.error "AES encryption failed: URI malformed")) ∧
    (∀ (P : Primitives) (ivs : Nat → List Nat) (message : String),
      P.aesEncrypt (ivs 0) (js "HELLO") (List.replicate 16 0xD800) (some 128) (some "CBC") =
        .error message →
      processData P ivs
          { text := js "HELLO", action := "encrypt",
            layers := some [aesLayer (List.replicate 16 0xD800) 128 "CBC"] } =
        .status500 (.serverError message) ["Error occurred during processing."]) := by
  refine ⟨by decide, by decide, ?_, ?_⟩
  · intro C iv text mode
    have hnorm : normalizeKey (List.replicate 16 0xD800) (some 128) =
        some (List.replicate 16 0xD800) := by decide
    have hparse : utf8Parse (List.replicate 16 0xD800) = .error "URI malformed" := by rfl
    simp only [aesEncrypt, hnorm, hparse]
    rfl
  · intro P ivs message h
    rw [processData_encrypt P ivs _ _ (by decide) (by decide)]
    have hl : processLayer P ivs "encrypt" [aesLayer (List.replicate 16 0xD800) 128 "CBC"]
        (js "HELLO", []) 0 =
        .error (.status500 (.serverError message) ["Error occurred during processing."]) := by
      have h2 : P.aesEncrypt (ivs 0) (js "HELLO")
          [55296, 55296, 55296, 55296, 55296, 55296, 55296, 55296, 55296, 55296, 55296, 55296,
            55296, 55296, 55296, 55296] (some 128) (some "CBC") = .error message := h
      simp only [processLayer, aesLayer, processAes, previousAlgorithm]
      simp [h2]
    simp only [processLayers, hl]

/-- Claim C22, amended: for every plain text, every valid key that is a
well-formed string (`keySize / 8` characters without an unpaired surrogate,
`keySize` one of 128, 192, 256) and a 16-byte IV drawn by
`WordArray.random(16)`, `aesEncrypt` in mode CBC or CTR (in any letter case)
returns `ivHex:body`, where `ivHex` is the 32 lower-case hexadecimal digits of
the IV and `body` is the base64 text of the cipher text that the primitive
makes of the text in that mode with the bytes of the key and the IV; the body
holds no `:`, so that the result holds exactly one `:`; in mode ECB it returns
the base64 text of the cipher text alone, without `:`. -/
theorem aesEncrypt_format (C : CryptoJS) (iv : List Nat) (text key : JSString)
    (keySize : Option Int) (mode : String)
    (hiv : iv.length = 16) (hkey : ValidAesKey key keySize) :
    (modeIs mode "CBC" = true →
      aesEncrypt C iv text key keySize (some mode) =
        some (.ok (hexStringify iv ++ [58] ++
          base64Encode (C.encrypt "CBC" (bufferFromString key) iv (textWordArray C text))))) ∧
    (modeIs mode "CTR" = true →
      aesEncrypt C iv text key keySize (some mode) =
        some (.ok (hexStringify iv ++ [58] ++
          base64Encode (C.encrypt "CTR" (bufferFromString key) iv (textWordArray C text))))) ∧
    (modeIs mode "ECB" = true →
      aesEncrypt C iv text key keySize (some mode) =
        some (.ok (base64Encode
          (C.encrypt "ECB" (bufferFromString key) [] (textWordArray C text))))) ∧
    (hexStringify iv).length = 32 ∧
    (∀ c ∈ hexStringify iv, isLowerHexDigit c = true) ∧
    (∀ bytes, 58 ∉ base64Encode bytes ∧ (base64Encode bytes).count 58 = 0 ∧
      (hexStringify iv ++ [58] ++ base64Encode bytes).count 58 = 1) ∧
    (wellFormed text = true → textWordArray C text = bufferFromString text) := by
  rcases hkey with ⟨_, hlen, hwf⟩
  have hnorm := normalizeKey_valid key keySize hlen
  have hparse : utf8Parse key = .ok (bufferFromString key) := by
    simp only [utf8Parse, hwf, if_true]
  have hexcl : ∀ a b : String, a ≠ b → (a = "ECB" ∨ a = "CBC" ∨ a = "CTR") →
      (b = "ECB" ∨ b = "CBC" ∨ b = "CTR") → modeIs mode a = true → modeIs mode b = false := by
    intro a b hab ha hb hm
    by_contra hn
    have hn : modeIs mode b = true := by simpa using hn
    simp only [modeIs, decide_eq_true_eq] at hm hn
    rw [hm] at hn
    rcases ha with rfl | rfl | rfl <;> rcases hb with rfl | rfl | rfl <;>
      first
        | exact hab rfl
        | (revert hn; decide)
  refine ⟨?_, ?_, ?_, by rw [hexStringify_length, hiv], hexStringify_digits iv, ?_, ?_⟩
  · intro hcbc
    have hecb := hexcl "CBC" "ECB" (by decide) (by simp) (by simp) hcbc
    simp only [aesEncrypt, hnorm, hparse, hecb, hcbc, Bool.false_eq_true, if_false, if_true,
      cipherToString]
  · intro hctr
    have hecb := hexcl "CTR" "ECB" (by decide) (by simp) (by simp) hctr
    have hcbc := hexcl "CTR" "CBC" (by decide) (by simp) (by simp) hctr
    simp only [aesEncrypt, hnorm, hparse, hecb, hcbc, hctr, Bool.false_eq_true, if_false,
      if_true, cipherToString]
  · intro hecb
    simp only [aesEncrypt, hnorm, hparse, hecb, if_true, cipherToString]
  · intro bytes
    exact ⟨base64Encode_no_colon _, List.count_eq_zero.mpr (base64Encode_no_colon _),
      count_colon_format _ _ (hexStringify_digits iv) (base64Encode_no_colon _)⟩
  · intro hw
    simp only [textWordArray, utf8Parse, hw, if_true]

/-- Claim C22 on the key `0123456789ABCDEF`, 128 bits, CBC and the plain
text `HELLO`, with the stand-in for CryptoJS and the IV of the bytes 0 to
15. -/
theorem aesEncrypt_format_witness :
    (List.range 16).length = 16 ∧ ValidAesKey (js "0123456789ABCDEF") (some 128) ∧
    modeIs "CBC" "CBC" = true ∧
    aesEncrypt toyCryptoJS (List.range 16) (js "HELLO") (js "0123456789ABCDEF")
        (some 128) (some "CBC") =
      some (.ok (js "000102030405060708090a0b0c0d0e0f:EBESExQVFhcYGRobHB0eH1hVXFxf")) ∧
    (js "000102030405060708090a0b0c0d0e0f:EBESExQVFhcYGRobHB0eH1hVXFxf").count 58 = 1 :=
  have hkey : ValidAesKey (js "0123456789ABCDEF") (some 128) :=
    ⟨Or.inl rfl, by decide, by decide⟩
  have h := (aesEncrypt_format toyCryptoJS (List.range 16) (js "HELLO")
    (js "0123456789ABCDEF") (some 128) "CBC" (by decide) hkey).1 (by decide)
  have hout : hexStringify (List.range 16) ++ [58] ++
      base64Encode (toyCryptoJS.encrypt "CBC" (bufferFromString (js "0123456789ABCDEF"))
        (List.range 16) (textWordArray toyCryptoJS (js "HELLO"))) =
      js "000102030405060708090a0b0c0d0e0f:EBESExQVFhcYGRobHB0eH1hVXFxf" := by decide
  ⟨by decide, hkey, by decide, hout ▸ h, by decide⟩

/-! ## Objects: keys, values and the order of enumeration -/

theorem increment_eq_upsert (counts : List (JSString × Nat)) (key : JSString) :
    increment counts key = upsert counts key fun old => old.getD 0 + 1 := by
  induction counts with
  | nil => rfl
  | cons e rest ih =>
    obtain ⟨k, n⟩ := e
    simp only [increment, upsert, ih, Option.getD_some]

theorem addPosition_eq_upsert (found : List (JSString × List Nat)) (seq : JSString) (i : Nat) :
    addPosition found seq i = upsert found seq fun old => old.getD [] ++ [i] := by
  induction found with
  | nil => rfl
  | cons e rest ih =>
    obtain ⟨k, n⟩ := e
    simp only [addPosition, upsert, ih, Option.getD_some]

theorem ownValue_upsert {β : Type} (entries : List (JSString × β)) (key k : JSString)
    (update : Option β → β) :
    ownValue (upsert entries key update) k =
      if k = key then some (update (ownValue entries key)) else ownValue entries k := by
  induction entries with
  | nil =>
    by_cases h : k = key
    · subst h; simp [upsert, ownValue]
    · have h2 : ¬ key = k := fun e => h e.symm
      simp [upsert, ownValue, h, h2]
  | cons e rest ih =>
    obtain ⟨k0, v⟩ := e
    by_cases h0 : k0 = key
    · subst h0
      by_cases h : k = k0
      · subst h; simp [upsert, ownValue]
      · have h2 : ¬ k0 = k := fun e => h e.symm
        simp [upsert, ownValue, h, h2]
    · by_cases h : k = key
      · subst h
        simp [upsert, ownValue, h0, ih]
      · by_cases h1 : k0 = k
        · subst h1; simp [upsert, ownValue, h0, h]
        · simp [upsert, ownValue, h0, h, h1, ih]

theorem mem_keys_iff_ownValue {β : Type} (entries : List (JSString × β)) (k : JSString) :
    k ∈ entries.map Prod.fst ↔ ∃ v, ownValue entries k = some v := by
  induction entries with
  | nil => simp [ownValue]
  | cons e rest ih =>
    obtain ⟨k0, v⟩ := e
    by_cases h : k0 = k
    · subst h; simp [ownValue]
    · have h2 : ¬ k = k0 := fun e => h e.symm
      simp [ownValue, h, h2, ih]

theorem keys_upsert {β : Type} (entries : List (JSString × β)) (key : JSString)
    (update : Option β → β) :
    (upsert entries key update).map Prod.fst =
      if key ∈ entries.map Prod.fst then entries.map Prod.fst
      else entries.map Prod.fst ++ [key] := by
  induction entries with
  | nil => simp [upsert]
  | cons e rest ih =>
    obtain ⟨k0, v⟩ := e
    by_cases h0 : k0 = key
    · subst h0; simp [upsert]
    · have h2 : ¬ key = k0 := fun e => h0 e.symm
      by_cases hm : key ∈ rest.map Prod.fst
      · simp only [upsert, h0, if_false, List.map_cons, ih, hm, if_true, List.mem_cons, or_true]
      · simp only [upsert, h0, if_false, List.map_cons, ih, hm, List.mem_cons, h2, or_self,
          List.cons_append]

theorem keys_upsert_nodup {β : Type} (entries : List (JSString × β)) (key : JSString)
    (update : Option β → β) (h : (entries.map Prod.fst).Nodup) :
    ((upsert entries key update).map Prod.fst).Nodup := by
  rw [keys_upsert]
  split_ifs with hm
  · exact h
  · exact List.Nodup.append h (List.nodup_singleton _) (by
      intro a ha hb
      rw [List.mem_singleton] at hb
      subst hb
      exact hm ha)

theorem mem_iff_ownValue {β : Type} (entries : List (JSString × β))
    (h : (entries.map Prod.fst).Nodup) (k : JSString) (v : β) :
    (k, v) ∈ entries ↔ ownValue entries k = some v := by
  induction entries with
  | nil => simp [ownValue]
  | cons e rest ih =>
    obtain ⟨k0, v0⟩ := e
    rw [List.map_cons, List.nodup_cons] at h
    by_cases h0 : k0 = k
    · subst h0
      have : ∀ w, (k0, w) ∉ rest := fun w hw => h.1 (List.mem_map.mpr ⟨(k0, w), hw, rfl⟩)
      simp only [List.mem_cons, Prod.mk.injEq, true_and, ownValue, if_true, Option.some.injEq]
      constructor
      · rintro (rfl | hw)
        · rfl
        · exact absurd hw (this v)
      · intro e; exact Or.inl e.symm
    · have h2 : ¬ k = k0 := fun e => h0 e.symm
      simp only [List.mem_cons, Prod.mk.injEq, h2, false_and, false_or, ownValue, h0, if_false]
      exact ih h.2

/-- The object built by a loop that upserts one key for each item. -/
theorem ownValue_foldl_upsert {ι β : Type} (key : ι → JSString) (update : ι → Option β → β)
    (items : List ι) (k : JSString) :
    ownValue (items.foldl (fun entries x => upsert entries (key x) (update x)) []) k =
      (items.filter fun x => decide (key x = k)).foldl (fun old x => some (update x old)) none := by
  induction items using List.reverseRecOn with
  | nil => rfl
  | append_singleton items x ih =>
    rw [List.foldl_append, List.foldl_cons, List.foldl_nil, ownValue_upsert, List.filter_append,
      List.foldl_append]
    by_cases h : k = key x
    · subst h
      simp [ih]
    · have h2 : ¬ key x = k := fun e => h e.symm
      simp [h, h2, ih]

theorem keys_foldl_upsert_nodup {ι β : Type} (key : ι → JSString) (update : ι → Option β → β)
    (items : List ι) :
    ((items.foldl (fun entries x => upsert entries (key x) (update x)) []).map Prod.fst).Nodup := by
  induction items using List.reverseRecOn with
  | nil => simp
  | append_singleton items x ih =>
    rw [List.foldl_append, List.foldl_cons, List.foldl_nil]
    exact keys_upsert_nodup _ _ _ ih

theorem ownKeysOrder_perm {α : Type} (entries : List (JSString × α)) :
    (ownKeysOrder entries).Perm entries := by
  unfold ownKeysOrder
  have h1 := List.perm_insertionSort
    (fun a b : JSString × α => (arrayIndex a.1).getD 0 ≤ (arrayIndex b.1).getD 0)
    (entries.filter fun e => (arrayIndex e.1).isSome)
  have h2 : (entries.filter fun e => (arrayIndex e.1).isNone) =
      entries.filter fun e => !(arrayIndex e.1).isSome := by
    congr 1
    funext e
    cases arrayIndex e.1 <;> rfl
  rw [h2]
  exact (List.Perm.append h1 (List.Perm.refl _)).trans (List.filter_append_perm _ _)

/-! ## Cryptanalysis: the counts of the characters -/

theorem foldl_count_up (items : List Nat) (old : Option Nat) :
    items.foldl (fun old _ => some (old.getD 0 + 1)) old =
      if items = [] then old else some (old.getD 0 + items.length) := by
  induction items generalizing old with
  | nil => rfl
  | cons x rest ih =>
    rw [List.foldl_cons, ih]
    by_cases h : rest = []
    · subst h; simp
    · simp only [h, if_false, Option.getD_some, List.length_cons, reduceCtorEq]
      congr 1
      omega

theorem countCharacters_eq (cleanText : JSString) :
    countCharacters cleanText =
      cleanText.foldl (fun entries c => upsert entries [c] fun old => old.getD 0 + 1) [] := by
  unfold countCharacters
  congr 1
  funext entries c
  exact increment_eq_upsert entries [c]

theorem filter_singleton_eq (cleanText : JSString) (c : Nat) :
    (cleanText.filter fun x => decide ([x] = [c])) = cleanText.filter (· == c) := by
  congr 1
  funext x
  by_cases h : x = c <;> simp [h]

theorem ownValue_countCharacters (cleanText : JSString) (c : Nat) :
    ownValue (countCharacters cleanText) [c] =
      if cleanText.count c = 0 then none else some (cleanText.count c) := by
  rw [countCharacters_eq, ownValue_foldl_upsert (fun c : Nat => [c])
    (fun _ old => old.getD 0 + 1), foldl_count_up, filter_singleton_eq]
  have hlen : (cleanText.filter (· == c)).length = cleanText.count c := by
    rw [List.count_eq_countP, List.countP_eq_length_filter]
  by_cases h0 : cleanText.count c = 0
  · have : cleanText.filter (· == c) = [] := by
      apply List.eq_nil_of_length_eq_zero
      rw [hlen, h0]
    simp [this, h0]
  · have : cleanText.filter (· == c) ≠ [] := by
      intro e
      rw [e] at hlen
      exact h0 hlen.symm
    simp [this, h0, hlen]

theorem key_of_countCharacters (cleanText : JSString) (k : JSString) (n : Nat)
    (h : ownValue (countCharacters cleanText) k = some n) : ∃ c, k = [c] := by
  rw [countCharacters_eq, ownValue_foldl_upsert (fun c : Nat => [c])
    (fun _ old => old.getD 0 + 1), foldl_count_up] at h
  by_cases hf : (cleanText.filter fun x => decide ([x] = k)) = []
  · rw [if_pos hf] at h; cases h
  · rcases List.exists_mem_of_ne_nil _ hf with ⟨x, hx⟩
    have := (List.mem_filter.mp hx).2
    exact ⟨x, (of_decide_eq_true this).symm⟩

theorem countCharacters_nodup (cleanText : JSString) :
    ((countCharacters cleanText).map Prod.fst).Nodup := by
  rw [countCharacters_eq]
  exact keys_foldl_upsert_nodup _ _ _

theorem mem_countCharacters (cleanText : JSString) (k : JSString) (n : Nat) :
    (k, n) ∈ countCharacters cleanText ↔ ∃ c ∈ cleanText, k = [c] ∧ n = cleanText.count c := by
  rw [mem_iff_ownValue _ (countCharacters_nodup cleanText)]
  constructor
  · intro h
    rcases key_of_countCharacters cleanText k n h with ⟨c, rfl⟩
    rw [ownValue_countCharacters] at h
    by_cases h0 : cleanText.count c = 0
    · rw [if_pos h0] at h; cases h
    · rw [if_neg h0] at h
      have hpos : 0 < cleanText.count c := by omega
      exact ⟨c, List.count_pos_iff.mp hpos, rfl, (Option.some.inj h).symm⟩
  · rintro ⟨c, hc, rfl, rfl⟩
    rw [ownValue_countCharacters]
    have : cleanText.count c ≠ 0 := by
      have := List.count_pos_iff.mpr hc
      omega
    simp [this]

theorem countCharacters_perm (cleanText : JSString) :
    (countCharacters cleanText).Perm (cleanText.dedup.map fun c => ([c], cleanText.count c)) := by
  apply (List.perm_ext_iff_of_nodup ?_ ?_).mpr
  · rintro ⟨k, n⟩
    rw [mem_countCharacters, List.mem_map]
    constructor
    · rintro ⟨c, hc, rfl, rfl⟩
      exact ⟨c, List.mem_dedup.mpr hc, rfl⟩
    · rintro ⟨c, hc, he⟩
      rw [Prod.mk.injEq] at he
      exact ⟨c, List.mem_dedup.mp hc, he.1.symm, he.2.symm⟩
  · exact List.Nodup.of_map _ (countCharacters_nodup cleanText)
  · apply List.Nodup.map _ (List.nodup_dedup _)
    intro a b hab
    rw [Prod.mk.injEq] at hab
    exact List.singleton_injective hab.1

/-- A sum over the entries of `charCount`, in the order of enumeration, is
the sum over the distinct characters of the text. -/
theorem sum_ownKeysOrder_countCharacters {M : Type} [AddCommMonoid M]
    (cleanText : JSString) (g : Nat → M) :
    ((ownKeysOrder (countCharacters cleanText)).map fun e => g e.2).sum =
      (cleanText.dedup.map fun c => g (cleanText.count c)).sum := by
  have h := ((ownKeysOrder_perm (countCharacters cleanText)).trans
    (countCharacters_perm cleanText)).map fun e : JSString × Nat => g e.2
  rw [h.sum_eq, List.map_map]
  rfl

/-- A sum over the distinct characters of a text of capital letters is the
sum over the 26 letters, for a summand that is zero at the count zero. -/
theorem sum_dedup_eq_alphabet {M : Type} [AddCommMonoid M] (cleanText : JSString)
    (hup : ∀ c ∈ cleanText, isUpperAZ c = true) (g : Nat → M) (h0 : g 0 = 0) :
    (cleanText.dedup.map fun c => g (cleanText.count c)).sum =
      ((List.range 26).map fun i => g (cleanText.count (65 + i))).sum := by
  rw [← List.sum_toFinset (fun c => g (cleanText.count c)) (List.nodup_dedup cleanText)]
  have h2 : ((List.range 26).map fun i => g (cleanText.count (65 + i))).sum =
      (((List.range 26).map fun i => 65 + i).map fun c => g (cleanText.count c)).sum := by
    rw [List.map_map]
    rfl
  have hnd : ((List.range 26).map fun i => 65 + i).Nodup :=
    List.Nodup.map (fun a b hab => by omega) (List.nodup_range 26)
  rw [h2, ← List.sum_toFinset _ hnd]
  apply Finset.sum_subset
  · intro c hc
    rw [List.mem_toFinset] at hc ⊢
    rw [List.mem_dedup] at hc
    have := hup c hc
    simp only [isUpperAZ, Bool.and_eq_true, decide_eq_true_eq] at this
    exact List.mem_map.mpr ⟨c - 65, List.mem_range.mpr (by omega), by omega⟩
  · intro c _ hc
    rw [List.mem_toFinset, List.mem_dedup] at hc
    rw [List.count_eq_zero.mpr hc, h0]

/-! ## Claims about the index of coincidence -/

theorem foldl_add_eq_sum {α : Type} (f : α → Nat) (l : List α) (a : Nat) :
    l.foldl (fun sum e => sum + f e) a = a + (l.map f).sum := by
  induction l generalizing a with
  | nil => simp
  | cons x rest ih =>
    rw [List.foldl_cons, ih, List.map_cons, List.sum_cons]
    omega

/-- What `frequencyAnalysis` returns for a text with a letter: a report
whose `ic` is the sum of `n (n - 1)` over the distinct letters divided by
`N (N - 1)`. -/
theorem frequencyAnalysis_report (text : JSString) (h : normalizeLetters text ≠ []) :
    ∃ report, frequencyAnalysis text = .ok report ∧
      report.totalSample = (normalizeLetters text).length ∧
      report.ic = divide
        (((normalizeLetters text).dedup.map fun c =>
          (normalizeLetters text).count c * ((normalizeLetters text).count c - 1)).sum)
        ((normalizeLetters text).length * ((normalizeLetters text).length - 1)) ∧
      report.interpretation = interpretIC report.ic := by
  have hlen : ¬ (normalizeLetters text).length = 0 := by
    intro e
    exact h (List.eq_nil_of_length_eq_zero e)
  have hsum := sum_ownKeysOrder_countCharacters (normalizeLetters text) fun n => n * (n - 1)
  simp only [frequencyAnalysis, hlen, if_false]
  refine ⟨_, rfl, rfl, ?_, rfl⟩
  simp only [foldl_add_eq_sum, Nat.zero_add, hsum]

theorem cast_count_product (n : Nat) : ((n * (n - 1) : Nat) : ℚ) = (n : ℚ) * ((n : ℚ) - 1) := by
  cases n with
  | zero => simp
  | succ m => simp

/-- Claim C23: for every text whose cleaned form (upper-cased, every
character outside `A-Z` removed) has at least two letters, `frequencyAnalysis`
returns a report whose `ic` is the sum over the 26 letters of `n (n - 1)`
divided by `N (N - 1)`, with `n` the count of the letter in the cleaned text
and `N` the length of the cleaned text. -/
theorem frequencyAnalysis_ic (text : JSString) (h : 2 ≤ (normalizeLetters text).length) :
    ∃ report, frequencyAnalysis text = .ok report ∧
      report.totalSample = (normalizeLetters text).length ∧
      report.ic = .value (indexOfCoincidence (normalizeLetters text)) := by
  have hne : normalizeLetters text ≠ [] := by
    intro e
    rw [e] at h
    simp at h
  rcases frequencyAnalysis_report text hne with ⟨report, hrep, htotal, hic, _⟩
  refine ⟨report, hrep, htotal, ?_⟩
  rw [hic, sum_dedup_eq_alphabet _ (normalizeLetters_upper text) (fun n => n * (n - 1)) rfl]
  have hden : (normalizeLetters text).length * ((normalizeLetters text).length - 1) ≠ 0 := by
    apply Nat.mul_ne_zero <;> omega
  simp only [divide, hden, if_false, indexOfCoincidence]
  congr 2
  · rw [Nat.cast_list_sum, List.map_map]
    congr 1
    apply List.map_congr_left
    intro i _
    exact cast_count_product _
  · exact cast_count_product _

theorem indexOfCoincidence_hello :
    indexOfCoincidence (normalizeLetters (js "Hello, World!")) = 4 / 45 := by
  have h : normalizeLetters (js "Hello, World!") = [72, 69, 76, 76, 79, 87, 79, 82, 76, 68] := by
    decide
  rw [h]
  have hc : (List.range 26).map
      (fun i => List.count (65 + i) [72, 69, 76, 76, 79, 87, 79, 82, 76, 68]) =
      [0, 0, 0, 1, 1, 0, 0, 1, 0, 0, 0, 3, 0, 0, 2, 0, 0, 1, 0, 0, 0, 0, 1, 0, 0, 0] := by
    decide
  have hm : (List.range 26).map (fun i =>
      ((List.count (65 + i) [72, 69, 76, 76, 79, 87, 79, 82, 76, 68] : Nat) : ℚ) *
        (((List.count (65 + i) [72, 69, 76, 76, 79, 87, 79, 82, 76, 68] : Nat) : ℚ) - 1)) =
      ((List.range 26).map
        (fun i => List.count (65 + i) [72, 69, 76, 76, 79, 87, 79, 82, 76, 68])).map
        (fun n : Nat => (n : ℚ) * ((n : ℚ) - 1)) := by
    rw [List.map_map]
    rfl
  unfold indexOfCoincidence
  rw [hm, hc]
  norm_num

theorem frequencyAnalysis_of_A :
    frequencyAnalysis (js "A") = .ok
      { totalSample := 1,
        frequencies := [{ character := js "A", count := 1, frequency := 100 }],
        ic := .nan,
        interpretation := "Likely a more complex encryption or random/compressed data" } := by
  have h1 : normalizeLetters [65] = [65] := by decide
  have h2 : ownKeysOrder (countCharacters [65]) = [([65], 1)] := by decide
  have h3 : js "A" = [65] := by decide
  simp only [frequencyAnalysis, h3, h1, h2]
  norm_num [divide, interpretIC, greaterThan, List.insertionSort, List.orderedInsert]

/-- Claim C23 on the text `Hello, World!`, whose ten letters give
`(3 * 2 + 2 * 1) / (10 * 9)`. -/
theorem frequencyAnalysis_ic_witness :
    2 ≤ (normalizeLetters (js "Hello, World!")).length ∧
    indexOfCoincidence (normalizeLetters (js "Hello, World!")) = 4 / 45 ∧
    ∃ report, frequencyAnalysis (js "Hello, World!") = .ok report ∧
      report.totalSample = (normalizeLetters (js "Hello, World!")).length ∧
      report.ic = .value (indexOfCoincidence (normalizeLetters (js "Hello, World!"))) :=
  ⟨by decide, indexOfCoincidence_hello, frequencyAnalysis_ic (js "Hello, World!") (by decide)⟩

/-- Claim C24, what the code does: for a text whose cleaned form has exactly
one letter, `frequencyAnalysis` returns no error result but a report with
`totalSample` 1, with `ic` the value `NaN` of `0 / 0`, and with the
interpretation of the last branch of `interpretIC`. -/
theorem frequencyAnalysis_single_letter (text : JSString)
    (h : (normalizeLetters text).length = 1) :
    ∃ report, frequencyAnalysis text = .ok report ∧ report.totalSample = 1 ∧
      report.ic = .nan ∧
      report.interpretation = "Likely a more complex encryption or random/compressed data" := by
  have hne : normalizeLetters text ≠ [] := by
    intro e
    rw [e] at h
    simp at h
  rcases frequencyAnalysis_report text hne with ⟨report, hrep, htotal, hic, hint⟩
  have hnan : report.ic = .nan := by
    rw [hic]
    rcases List.length_eq_one.mp h with ⟨c, hc⟩
    rw [hc]
    simp [divide]
  refine ⟨report, hrep, by rw [htotal, h], hnan, ?_⟩
  rw [hint, hnan]
  rfl

/-- Claim C24 on the text `A`: the whole report. -/
theorem frequencyAnalysis_single_letter_witness :
    (normalizeLetters (js "A")).length = 1 ∧
    frequencyAnalysis (js "A") = .ok
      { totalSample := 1,
        frequencies := [{ character := js "A", count := 1, frequency := 100 }],
        ic := .nan,
        interpretation := "Likely a more complex encryption or random/compressed data" } ∧
    ∃ report, frequencyAnalysis (js "A") = .ok report ∧ report.totalSample = 1 ∧
      report.ic = .nan ∧
      report.interpretation = "Likely a more complex encryption or random/compressed data" :=
  ⟨by decide, frequencyAnalysis_of_A, frequencyAnalysis_single_letter (js "A") (by decide)⟩

theorem normalizeLetters_replicate (c N : Nat) (hc : isAlpha c = true) :
    normalizeLetters (List.replicate N c) = List.replicate N (toUpperCaseUnit c) := by
  induction N with
  | zero => rfl
  | succ n ih =>
    unfold normalizeLetters at ih ⊢
    rw [List.replicate_succ, List.flatMap_cons, ih, upperAZ_of_alpha c hc]
    rfl

/-- Claim C25: for every letter and every `N` of at least 2, the `ic` that
`frequencyAnalysis` reports for the text of `N` copies of the letter is
exactly 1. -/
theorem repeated_letter_ic (c N : Nat) (hc : isAlpha c = true) (hN : 2 ≤ N) :
    ∃ report, frequencyAnalysis (List.replicate N c) = .ok report ∧
      report.totalSample = N ∧ report.ic = .value 1 := by
  have hclean := normalizeLetters_replicate c N hc
  have hne : normalizeLetters (List.replicate N c) ≠ [] := by
    rw [hclean]
    intro e
    have := congrArg List.length e
    simp at this
    omega
  rcases frequencyAnalysis_report _ hne with ⟨report, hrep, htotal, hic, _⟩
  refine ⟨report, hrep, by rw [htotal, hclean, List.length_replicate], ?_⟩
  rw [hic, hclean, List.replicate_dedup (by omega)]
  have hden : N * (N - 1) ≠ 0 := by
    apply Nat.mul_ne_zero <;> omega
  have hq : ((N * (N - 1) : Nat) : ℚ) ≠ 0 := by exact_mod_cast hden
  simp only [List.map_cons, List.map_nil, List.sum_cons, List.sum_nil, List.count_replicate_self,
    List.length_replicate, Nat.add_zero, divide, hden, if_false]
  rw [div_self hq]

/-- Claim C25 on the text `AAAA`. -/
theorem repeated_letter_ic_witness :
    isAlpha 65 = true ∧ 2 ≤ 4 ∧ List.replicate 4 65 = js "AAAA" ∧
    ∃ report, frequencyAnalysis (List.replicate 4 65) = .ok report ∧
      report.totalSample = 4 ∧ report.ic = .value 1 :=
  ⟨by decide, by decide, by decide, repeated_letter_ic 65 4 (by decide) (by decide)⟩

/-- For every finite value of `ic`, `interpretIC` returns the first text
exactly when `ic > 0.06`, the second exactly when `0.045 < ic ≤ 0.06` and the
third exactly when `ic ≤ 0.045`; the three texts differ and the three cases
exclude one another and leave no value out. -/
theorem interpretIC_finite (ic : ℚ) :
    (interpretIC (.value ic) = "High likelihood of simple substitution cipher or plaintext" ↔
      6 / 100 < ic) ∧
    (interpretIC (.value ic) = "Possible polyalphabetic cipher (like Vigenère or Autokey)" ↔
      45 / 1000 < ic ∧ ic ≤ 6 / 100) ∧
    (interpretIC (.value ic) = "Likely a more complex encryption or random/compressed data" ↔
      ic ≤ 45 / 1000) ∧
    (6 / 100 < ic ∨ (45 / 1000 < ic ∧ ic ≤ 6 / 100) ∨ ic ≤ 45 / 1000) ∧
    ¬ (6 / 100 < ic ∧ ic ≤ 45 / 1000) ∧
    ¬ ((45 / 1000 < ic ∧ ic ≤ 6 / 100) ∧ ic ≤ 45 / 1000) := by
  have h12 : "High likelihood of simple substitution cipher or plaintext" ≠
      "Possible polyalphabetic cipher (like Vigenère or Autokey)" := by decide
  have h13 : "High likelihood of simple substitution cipher or plaintext" ≠
      "Likely a more complex encryption or random/compressed data" := by decide
  have h23 : "Possible polyalphabetic cipher (like Vigenère or Autokey)" ≠
      "Likely a more complex encryption or random/compressed data" := by decide
  have hlt : (45 : ℚ) / 1000 < 6 / 100 := by norm_num
  by_cases h1 : 6 / 100 < ic
  · have e : interpretIC (.value ic) =
        "High likelihood of simple substitution cipher or plaintext" := by
      simp only [interpretIC, greaterThan, h1, decide_True, if_true]
    rw [e]
    refine ⟨by simp [h1], ?_, ?_, Or.inl h1, ?_, ?_⟩
    · constructor
      · intro h; exact absurd h h12
      · intro h; exact absurd h1 (not_lt.mpr h.2)
    · constructor
      · intro h; exact absurd h h13
      · intro h; exact absurd (lt_trans hlt h1) (not_lt.mpr h)
    · intro h; exact absurd (lt_trans hlt h.1) (not_lt.mpr h.2)
    · intro h; exact absurd h.1.1 (not_lt.mpr h.2)
  · by_cases h2 : 45 / 1000 < ic
    · have e : interpretIC (.value ic) =
          "Possible polyalphabetic cipher (like Vigenère or Autokey)" := by
        simp only [interpretIC, greaterThan, h1, h2, decide_True, decide_False, if_true,
          Bool.false_eq_true, if_false]
      rw [e]
      refine ⟨?_, ?_, ?_, Or.inr (Or.inl ⟨h2, not_lt.mp h1⟩), ?_, ?_⟩
      · constructor
        · intro h; exact absurd h.symm h12
        · intro h; exact absurd h h1
      · constructor
        · intro _; exact ⟨h2, not_lt.mp h1⟩
        · intro _; rfl
      · constructor
        · intro h; exact absurd h h23
        · intro h; exact absurd h2 (not_lt.mpr h)
      · intro h; exact h1 h.1
      · intro h; exact absurd h2 (not_lt.mpr h.2)
    · have e : interpretIC (.value ic) =
          "Likely a more complex encryption or random/compressed data" := by
        simp only [interpretIC, greaterThan, h1, h2, decide_False, Bool.false_eq_true, if_false]
      rw [e]
      refine ⟨?_, ?_, ?_, Or.inr (Or.inr (not_lt.mp h2)), ?_, ?_⟩
      · constructor
        · intro h; exact absurd h.symm h13
        · intro h; exact absurd h h1
      · constructor
        · intro h; exact absurd h.symm h23
        · intro h; exact absurd h.1 h2
      · constructor
        · intro _; exact not_lt.mp h2
        · intro _; rfl
      · intro h; exact h1 h.1
      · intro h; exact h2 h.1.1

/-- Claim C26: for every number `ic` other than `NaN`, `interpretIC` returns
the first text exactly when `ic > 0.06`, the second exactly when
`0.045 < ic <= 0.06` and the third exactly when `ic <= 0.045`, and exactly one
of the three cases holds.  For `NaN` none of the three comparisons holds and
`interpretIC` returns the third text; `frequencyAnalysis` passes `NaN` for a
text of one letter, such as `A`. -/
theorem interpretIC_thresholds (ic : JSNumber) :
    (interpretIC ic = "High likelihood of simple substitution cipher or plaintext" ↔
      greaterThan ic (6 / 100) = true) ∧
    (interpretIC ic = "Possible polyalphabetic cipher (like Vigenère or Autokey)" ↔
      greaterThan ic (45 / 1000) = true ∧ atMost ic (6 / 100) = true) ∧
    (ic ≠ .nan →
      (interpretIC ic = "Likely a more complex encryption or random/compressed data" ↔
        atMost ic (45 / 1000) = true)) ∧
    (ic ≠ .nan →
      (greaterThan ic (6 / 100) = true ∨
        (greaterThan ic (45 / 1000) = true ∧ atMost ic (6 / 100) = true) ∨
        atMost ic (45 / 1000) = true) ∧
      ¬ (greaterThan ic (6 / 100) = true ∧ atMost ic (6 / 100) = true) ∧
      ¬ (greaterThan ic (6 / 100) = true ∧ atMost ic (45 / 1000) = true) ∧
      ¬ (greaterThan ic (45 / 1000) = true ∧ atMost ic (45 / 1000) = true)) ∧
    interpretIC .nan = "Likely a more complex encryption or random/compressed data" ∧
    greaterThan .nan (6 / 100) = false ∧ greaterThan .nan (45 / 1000) = false ∧
    atMost .nan (6 / 100) = false ∧ atMost .nan (45 / 1000) = false ∧
    (∃ report, frequencyAnalysis (js "A") = .ok report ∧ report.ic = .nan ∧
      report.interpretation = "Likely a more complex encryption or random/compressed data") := by
  have h12 : "High likelihood of simple substitution cipher or plaintext" ≠
      "Possible polyalphabetic cipher (like Vigenère or Autokey)" := by decide
  have h13 : "High likelihood of simple substitution cipher or plaintext" ≠
      "Likely a more complex encryption or random/compressed data" := by decide
  have h23 : "Possible polyalphabetic cipher (like Vigenère or Autokey)" ≠
      "Likely a more complex encryption or random/compressed data" := by decide
  have hA : ∃ report, frequencyAnalysis (js "A") = .ok report ∧ report.ic = .nan ∧
      report.interpretation =
        "Likely a more complex encryption or random/compressed data" :=
    ⟨_, frequencyAnalysis_of_A, rfl, rfl⟩
  refine ⟨?_, ?_, ?_, ?_, rfl, rfl, rfl, rfl, rfl, hA⟩
  · cases ic with
    | value q =>
      have h := (interpretIC_finite q).1
      simpa [greaterThan] using h
    | infinity => exact ⟨fun _ => rfl, fun _ => rfl⟩
    | nan => exact ⟨fun h => absurd h.symm h13, fun h => by cases h⟩
  · cases ic with
    | value q =>
      have h := (interpretIC_finite q).2.1
      simpa [greaterThan, atMost] using h
    | infinity =>
      exact ⟨fun h => absurd h h12, fun h => by cases h.2⟩
    | nan => exact ⟨fun h => absurd h.symm h23, fun h => by cases h.1⟩
  · intro hn
    cases ic with
    | value q =>
      have h := (interpretIC_finite q).2.2.1
      simpa [atMost] using h
    | infinity => exact ⟨fun h => absurd h h13, fun h => by cases h⟩
    | nan => exact absurd rfl hn
  · intro hn
    cases ic with
    | value q =>
      have h := (interpretIC_finite q).2.2.2
      simp only [greaterThan, atMost, decide_eq_true_eq]
      exact ⟨h.1, fun hh => absurd hh.1 (not_lt.mpr hh.2), h.2.1,
        fun hh => absurd hh.1 (not_lt.mpr hh.2)⟩
    | infinity =>
      refine ⟨Or.inl rfl, ?_, ?_, ?_⟩ <;> (intro hh; cases hh.2)
    | nan => exact absurd rfl hn

/-! ## Claim about the entropy -/

theorem foldl_sub_eq_sum {α : Type} (f : α → ℚ) (l : List α) (a : ℚ) :
    l.foldl (fun entropy e => entropy - f e) a = a - (l.map f).sum := by
  induction l generalizing a with
  | nil => simp
  | cons x rest ih =>
    rw [List.foldl_cons, ih, List.map_cons, List.sum_cons]
    ring

theorem list_sum_nonpos (l : List ℚ) (h : ∀ x ∈ l, x ≤ 0) : l.sum ≤ 0 := by
  induction l with
  | nil => simp
  | cons x rest ih =>
    rw [List.sum_cons]
    have h1 := h x (List.mem_cons_self _ _)
    have h2 := ih fun y hy => h y (List.mem_cons_of_mem _ hy)
    linarith

/-- The value of `calculateEntropy` as a sum over the distinct characters
of the string. -/
theorem calculateEntropy_eq (log2 : ℚ → ℚ) (str : JSString) :
    calculateEntropy log2 str =
      -((str.dedup.map fun c =>
        (str.count c : ℚ) / (str.length : ℚ) * log2 ((str.count c : ℚ) / (str.length : ℚ))).sum) := by
  have h := sum_ownKeysOrder_countCharacters str fun n : Nat =>
    (n : ℚ) / (str.length : ℚ) * log2 ((n : ℚ) / (str.length : ℚ))
  unfold calculateEntropy
  simp only []
  rw [foldl_sub_eq_sum (fun e : JSString × Nat =>
    (e.2 : ℚ) / (str.length : ℚ) * log2 ((e.2 : ℚ) / (str.length : ℚ)))]
  unfold countCharacters at h
  rw [h]
  ring

/-- Claim C27: for every string, the entropy that `calculateEntropy`
computes, `H = -sum p(c) log2 p(c)` over the distinct characters `c` of the
string with `p(c)` the relative frequency of `c`, is at least 0, and it is
exactly 0 for a string of `n` copies of one character, whatever `n`. The
function `Math.log2` is any function that is 0 at 1 and at most 0 on the
frequencies between 0 and 1. -/
theorem calculateEntropy_bounds (log2 : ℚ → ℚ) (hone : log2 1 = 0)
    (hle : ∀ p : ℚ, 0 < p → p ≤ 1 → log2 p ≤ 0) (str : JSString) (c n : Nat) :
    calculateEntropy log2 str =
      -((str.dedup.map fun c =>
        (str.count c : ℚ) / (str.length : ℚ) * log2 ((str.count c : ℚ) / (str.length : ℚ))).sum) ∧
    0 ≤ calculateEntropy log2 str ∧
    calculateEntropy log2 (List.replicate n c) = 0 := by
  refine ⟨calculateEntropy_eq log2 str, ?_, ?_⟩
  · rw [calculateEntropy_eq, neg_nonneg]
    apply list_sum_nonpos
    intro x hx
    rcases List.mem_map.mp hx with ⟨d, hd, rfl⟩
    have hmem : d ∈ str := List.mem_dedup.mp hd
    have hpos : 0 < str.count d := List.count_pos_iff.mpr hmem
    have hlen : 0 < str.length := List.length_pos_of_mem hmem
    have hcl : str.count d ≤ str.length := List.count_le_length d str
    have hp0 : (0 : ℚ) < (str.count d : ℚ) / (str.length : ℚ) := by
      apply div_pos <;> exact_mod_cast (by assumption)
    have hp1 : (str.count d : ℚ) / (str.length : ℚ) ≤ 1 := by
      rw [div_le_one (by exact_mod_cast hlen)]
      exact_mod_cast hcl
    exact mul_nonpos_of_nonneg_of_nonpos (le_of_lt hp0) (hle _ hp0 hp1)
  · rw [calculateEntropy_eq]
    cases n with
    | zero => simp
    | succ m =>
      have hq : ((m + 1 : Nat) : ℚ) ≠ 0 := by exact_mod_cast Nat.succ_ne_zero m
      rw [List.replicate_dedup (Nat.succ_ne_zero m)]
      simp only [List.map_cons, List.map_nil, List.sum_cons, List.sum_nil,
        List.count_replicate_self, List.length_replicate, div_self hq, hone]
      ring

/-- Claim C27 on the strings `aab` and `aaa`, with the stand-in for
`Math.log2`. -/
theorem calculateEntropy_bounds_witness :
    toyLog2 1 = 0 ∧ (∀ p : ℚ, 0 < p → p ≤ 1 → toyLog2 p ≤ 0) ∧
    0 ≤ calculateEntropy toyLog2 (js "aab") ∧
    calculateEntropy toyLog2 (List.replicate 3 97) = 0 :=
  have h1 : toyLog2 1 = 0 := by norm_num [toyLog2]
  have h2 : ∀ p : ℚ, 0 < p → p ≤ 1 → toyLog2 p ≤ 0 := by
    intro p _ hp
    unfold toyLog2
    linarith
  have h := calculateEntropy_bounds toyLog2 h1 h2 (js "aab") 97 3
  ⟨h1, h2, h.2.1, h.2.2⟩

/-! ## Cryptanalysis: the windows of the repeating-sequence scan -/

theorem slide_ok (text : JSString) (len : Nat) (indices : List Nat)
    (found : List (JSString × List Nat))
    (h : ∀ i ∈ indices, substring text i (i + len) ∉ objectPrototypeKeys) :
    slide text len indices found =
      .ok (indices.foldl (fun found i => addPosition found (substring text i (i + len)) i)
        found) := by
  induction indices generalizing found with
  | nil => rfl
  | cons i rest ih =>
    have hi := h i (List.mem_cons_self _ _)
    simp only [slide, hi, if_false, List.foldl_cons]
    exact ih _ fun j hj => h j (List.mem_cons_of_mem _ hj)

theorem foldl_positions (items : List Nat) (old : Option (List Nat)) :
    items.foldl (fun old i => some (old.getD [] ++ [i])) old =
      if items = [] then old else some (old.getD [] ++ items) := by
  induction items generalizing old with
  | nil => rfl
  | cons x rest ih =>
    rw [List.foldl_cons, ih]
    by_cases h : rest = []
    · subst h; simp
    · simp [h]

theorem foundFor_eq (text : JSString) (len : Nat) :
    foundFor text len =
      (List.range (text.length - len + 1)).foldl
        (fun entries i => upsert entries (substring text i (i + len))
          fun old => old.getD [] ++ [i]) [] := by
  unfold foundFor
  congr 1
  funext entries i
  exact addPosition_eq_upsert entries _ i

theorem foundFor_nodup (text : JSString) (len : Nat) :
    ((foundFor text len).map Prod.fst).Nodup := by
  rw [foundFor_eq]
  exact keys_foldl_upsert_nodup _ _ _

/-- The entries of `found`: every window that occurs, with the ascending
list of all its start indices. -/
theorem mem_foundFor (text : JSString) (len : Nat) (s : JSString) (ps : List Nat) :
    (s, ps) ∈ foundFor text len ↔
      ps ≠ [] ∧ ps = (List.range (text.length - len + 1)).filter
        fun i => decide (substring text i (i + len) = s) := by
  rw [mem_iff_ownValue _ (foundFor_nodup text len), foundFor_eq,
    ownValue_foldl_upsert (fun i : Nat => substring text i (i + len))
      (fun i old => old.getD [] ++ [i]), foldl_positions]
  by_cases h : ((List.range (text.length - len + 1)).filter
      fun i => decide (substring text i (i + len) = s)) = []
  · rw [if_pos h, h]
    constructor
    · intro e; cases e
    · rintro ⟨h1, h2⟩; exact absurd h2 h1
  · rw [if_neg h]
    simp only [Option.getD_none, List.nil_append, Option.some.injEq]
    constructor
    · intro e; rw [← e]; exact ⟨h, rfl⟩
    · rintro ⟨_, h2⟩; exact h2.symm

theorem mem_repeatedIn (found : List (JSString × List Nat)) (r : RepeatingSequence) :
    r ∈ repeatedIn found ↔
      ∃ s ps, (s, ps) ∈ found ∧ 1 < ps.length ∧
        r = { sequence := s, length := s.length, occurrences := ps.length,
              positions := ps, distances := distancesOf ps } := by
  unfold repeatedIn
  rw [List.mem_filterMap]
  constructor
  · rintro ⟨⟨s, ps⟩, hmem, hr⟩
    have hmem2 := (ownKeysOrder_perm found).mem_iff.mp hmem
    by_cases h1 : 1 < ps.length
    · simp only [h1, if_true, Option.some.injEq] at hr
      exact ⟨s, ps, hmem2, h1, hr.symm⟩
    · simp only [h1, if_false] at hr
      cases hr
  · rintro ⟨s, ps, hmem, h1, rfl⟩
    refine ⟨(s, ps), (ownKeysOrder_perm found).mem_iff.mpr hmem, ?_⟩
    simp only [h1, if_true]

theorem filterMap_keys_sublist (l : List (JSString × List Nat)) :
    ((l.filterMap fun e =>
      if 1 < e.2.length then
        some ({ sequence := e.1, length := e.1.length, occurrences := e.2.length,
                positions := e.2, distances := distancesOf e.2 } : RepeatingSequence)
      else none).map fun r => r.sequence).Sublist (l.map Prod.fst) := by
  induction l with
  | nil => simp
  | cons e rest ih =>
    by_cases h1 : 1 < e.2.length
    · simp only [List.filterMap_cons, h1, if_true, List.map_cons]
      exact List.Sublist.cons₂ _ ih
    · simp only [List.filterMap_cons, h1, if_false, List.map_cons]
      exact List.Sublist.cons _ ih

theorem repeatedIn_nodup (found : List (JSString × List Nat))
    (h : (found.map Prod.fst).Nodup) :
    ((repeatedIn found).map fun r => r.sequence).Nodup := by
  unfold repeatedIn
  apply List.Nodup.sublist (filterMap_keys_sublist _)
  exact ((ownKeysOrder_perm found).map Prod.fst).nodup_iff.mpr h

/-! ## Cryptanalysis: the records of the repeating-sequence scan -/

theorem sequencesOfLengths_ok (text : JSString) (h : AvoidsInheritedNames text)
    (lens : List Nat) (hl : ∀ len ∈ lens, 3 ≤ len ∧ len ≤ 10)
    (hs : lens.Pairwise (· < ·)) :
    sequencesOfLengths text lens =
      .ok ((lens.filter fun len => decide (3 * len ≤ text.length)).flatMap fun len =>
        repeatedIn (foundFor text len)) := by
  induction lens with
  | nil => rfl
  | cons len rest ih =>
    rw [List.pairwise_cons] at hs
    by_cases hlen : text.length < 3 * len
    · have hnone : (List.filter (fun len => decide (3 * len ≤ text.length)) (len :: rest)) = [] := by
        apply List.filter_eq_nil_iff.mpr
        intro x hx
        rcases List.mem_cons.mp hx with rfl | hx
        · simp; omega
        · have := hs.1 x hx
          simp; omega
      simp only [sequencesOfLengths, hlen, if_true, hnone, List.flatMap_nil]
    · have hle : 3 * len ≤ text.length := by omega
      have hb := hl len (List.mem_cons_self _ _)
      have hslide := slide_ok text len (List.range (text.length - len + 1)) []
        (fun i hi => h len i hb.1 hb.2 hle (by
          have := List.mem_range.mp hi
          omega))
      have ih2 := ih (fun x hx => hl x (List.mem_cons_of_mem _ hx)) hs.2
      simp only [sequencesOfLengths, hlen, if_false, hslide, ih2, List.filter_cons, hle,
        decide_True, if_true, List.flatMap_cons]
      rfl

theorem window_length (text : JSString) (i len : Nat) (h : i + len ≤ text.length) :
    (substring text i (i + len)).length = len := by
  simp only [substring, List.length_take, List.length_drop]
  omega

theorem window_eq_iff (text s : JSString) (i : Nat) :
    substring text i (i + s.length) = s ↔ s.isPrefixOf (text.drop i) = true := by
  rw [List.isPrefixOf_iff_prefix, List.prefix_iff_eq_take]
  simp only [substring, Nat.add_sub_cancel_left]
  exact eq_comm

theorem filter_range_eq (p q : Nat → Bool) (a b : Nat) (hab : a ≤ b)
    (h1 : ∀ i, i < a → p i = q i) (h2 : ∀ i, a ≤ i → i < b → q i = false) :
    (List.range a).filter p = (List.range b).filter q := by
  obtain ⟨d, rfl⟩ := Nat.exists_eq_add_of_le hab
  rw [List.range_add, List.filter_append]
  have htail : List.filter q (List.map (fun x => a + x) (List.range d)) = [] := by
    apply List.filter_eq_nil_iff.mpr
    intro x hx
    rcases List.mem_map.mp hx with ⟨j, hj, rfl⟩
    have := List.mem_range.mp hj
    rw [h2 (a + j) (by omega) (by omega)]
    simp
  rw [htail, List.append_nil]
  apply List.filter_congr
  intro i hi
  exact h1 i (List.mem_range.mp hi)

/-- The start indices that the scan collects for a window are the start
positions of the window in the text. -/
theorem filter_windows_eq (text s : JSString) (hpos : 0 < s.length)
    (hle : s.length ≤ text.length) :
    ((List.range (text.length - s.length + 1)).filter
        fun i => decide (substring text i (i + s.length) = s)) = startPositions s text := by
  unfold startPositions
  apply filter_range_eq _ _ _ _ (by omega)
  · intro i _
    by_cases hw : substring text i (i + s.length) = s
    · rw [decide_eq_true hw, (window_eq_iff text s i).mp hw]
    · rw [decide_eq_false hw]
      cases hp : s.isPrefixOf (List.drop i text) with
      | false => rfl
      | true => exact absurd ((window_eq_iff text s i).mpr hp) hw
  · intro i hi1 hi2
    cases hp : s.isPrefixOf (List.drop i text) with
    | false => rfl
    | true =>
      rw [List.isPrefixOf_iff_prefix] at hp
      have := hp.length_le
      rw [List.length_drop] at this
      omega

theorem key_length_foundFor (text : JSString) (len : Nat) (hle : len ≤ text.length)
    (s : JSString) (ps : List Nat) (hmem : (s, ps) ∈ foundFor text len) : s.length = len := by
  rcases (mem_foundFor text len s ps).mp hmem with ⟨hne, hps⟩
  rcases List.exists_mem_of_ne_nil _ hne with ⟨i, hi⟩
  rw [hps] at hi
  rcases List.mem_filter.mp hi with ⟨hrange, hw⟩
  have hw2 := of_decide_eq_true hw
  have := List.mem_range.mp hrange
  rw [← hw2]
  exact window_length text i len (by omega)

/-- The records of one length: one for every string of that length with at
least two start positions. -/
theorem mem_repeatedIn_foundFor (text : JSString) (len : Nat) (hpos : 0 < len)
    (hle : len ≤ text.length) (r : RepeatingSequence) :
    r ∈ repeatedIn (foundFor text len) ↔
      r.sequence.length = len ∧ 2 ≤ (startPositions r.sequence text).length ∧
      r = { sequence := r.sequence, length := r.sequence.length,
            occurrences := (startPositions r.sequence text).length,
            positions := startPositions r.sequence text,
            distances := distancesOf (startPositions r.sequence text) } := by
  rw [mem_repeatedIn]
  constructor
  · rintro ⟨s, ps, hmem, h1, rfl⟩
    have hlen := key_length_foundFor text len hle s ps hmem
    have hps := ((mem_foundFor text len s ps).mp hmem).2
    rw [← hlen] at hps
    rw [filter_windows_eq text s (by omega) (by omega)] at hps
    subst hps
    exact ⟨hlen, h1, rfl⟩
  · rintro ⟨hlen, h2, hr⟩
    refine ⟨r.sequence, startPositions r.sequence text, ?_, h2, hr⟩
    rw [mem_foundFor]
    constructor
    · intro e
      rw [e] at h2
      simp at h2
    · rw [← hlen, filter_windows_eq text r.sequence (by omega) (by omega)]

/-! ## Claims about the repeating sequences -/

theorem prototypeKeys_not_upper :
    ∀ k ∈ objectPrototypeKeys, ∃ c ∈ k, isUpperAZ c = false := by
  decide

theorem avoids_of_upper (text : JSString) (h : ∀ c ∈ text, isUpperAZ c = true) :
    AvoidsInheritedNames text := by
  intro len i _ _ _ _ hmem
  rcases prototypeKeys_not_upper _ hmem with ⟨c, hc, hlow⟩
  have hc2 : c ∈ text := by
    unfold substring at hc
    exact List.mem_of_mem_drop (List.mem_of_mem_take hc)
  rw [h c hc2] at hlow
  cases hlow

theorem findRepeatingSequences_ok (text : JSString) (h : AvoidsInheritedNames text) :
    findRepeatingSequences text =
      .ok ((([3, 4, 5, 6, 7, 8, 9, 10].filter fun len => decide (3 * len ≤ text.length)).flatMap
        fun len => repeatedIn (foundFor text len)).insertionSort
          fun a b => compareSequences a b ≤ 0) := by
  have hseq := sequencesOfLengths_ok text h [3, 4, 5, 6, 7, 8, 9, 10] (by decide) (by decide)
  simp only [findRepeatingSequences, hseq]

/-- The records that `findRepeatingSequences` returns: one for every string
of 3 to 10 units, at most a third of the text long, with at least two start
positions. -/
theorem mem_findRepeatingSequences (text : JSString) (h : AvoidsInheritedNames text)
    (records : List RepeatingSequence) (hrec : findRepeatingSequences text = .ok records)
    (r : RepeatingSequence) :
    r ∈ records ↔
      (3 ≤ r.sequence.length ∧ r.sequence.length ≤ 10 ∧ 3 * r.sequence.length ≤ text.length ∧
        2 ≤ (startPositions r.sequence text).length) ∧
      r = { sequence := r.sequence, length := r.sequence.length,
            occurrences := (startPositions r.sequence text).length,
            positions := startPositions r.sequence text,
            distances := distancesOf (startPositions r.sequence text) } := by
  rw [findRepeatingSequences_ok text h] at hrec
  cases hrec
  rw [(List.perm_insertionSort _ _).mem_iff, List.mem_flatMap]
  constructor
  · rintro ⟨len, hlen, hr⟩
    rcases List.mem_filter.mp hlen with ⟨hin, hle⟩
    have hle2 : 3 * len ≤ text.length := of_decide_eq_true hle
    have hall : ∀ l ∈ [3, 4, 5, 6, 7, 8, 9, 10], 3 ≤ l ∧ l ≤ 10 := by decide
    have hb := hall len hin
    rcases (mem_repeatedIn_foundFor text len (by omega) (by omega) r).mp hr with ⟨h1, h2, h3⟩
    exact ⟨⟨by omega, by omega, by rw [h1]; exact hle2, h2⟩, h3⟩
  · rintro ⟨⟨h3, h10, hle, h2⟩, hr⟩
    refine ⟨r.sequence.length, List.mem_filter.mpr ⟨?_, decide_eq_true hle⟩, ?_⟩
    · generalize r.sequence.length = len at h3 h10
      have : len = 3 ∨ len = 4 ∨ len = 5 ∨ len = 6 ∨ len = 7 ∨ len = 8 ∨ len = 9 ∨ len = 10 := by
        omega
      rcases this with rfl | rfl | rfl | rfl | rfl | rfl | rfl | rfl <;> decide
    · exact (mem_repeatedIn_foundFor text _ (by omega) (by omega) r).mpr ⟨rfl, h2, hr⟩

theorem findRepeatingSequences_nodup (text : JSString) (h : AvoidsInheritedNames text)
    (records : List RepeatingSequence) (hrec : findRepeatingSequences text = .ok records) :
    (records.map fun r => r.sequence).Nodup := by
  rw [findRepeatingSequences_ok text h] at hrec
  cases hrec
  rw [((List.perm_insertionSort _ _).map _).nodup_iff, List.map_flatMap, List.nodup_flatMap]
  constructor
  · intro len _
    exact repeatedIn_nodup _ (foundFor_nodup text len)
  · have hnd : ([3, 4, 5, 6, 7, 8, 9, 10].filter
        fun len => decide (3 * len ≤ text.length)).Nodup :=
      List.Nodup.filter _ (by decide)
    have hall : ∀ l ∈ [3, 4, 5, 6, 7, 8, 9, 10], 3 ≤ l ∧ l ≤ 10 := by decide
    apply List.Pairwise.imp_of_mem ?_ hnd
    intro a b ha hb hab
    rcases List.mem_filter.mp ha with ⟨ha1, ha2⟩
    rcases List.mem_filter.mp hb with ⟨hb1, hb2⟩
    have ha3 := hall a ha1
    have hb3 := hall b hb1
    have ha4 : 3 * a ≤ text.length := of_decide_eq_true ha2
    have hb4 : 3 * b ≤ text.length := of_decide_eq_true hb2
    intro s hsa hsb
    rcases List.mem_map.mp hsa with ⟨ra, hra, rfl⟩
    rcases List.mem_map.mp hsb with ⟨rb, hrb, hrs⟩
    have h1 := ((mem_repeatedIn_foundFor text a (by omega) (by omega) ra).mp hra).1
    have h2 := ((mem_repeatedIn_foundFor text b (by omega) (by omega) rb).mp hrb).1
    rw [hrs] at h2
    exact hab (h1.symm.trans h2)

theorem findRepeatingSequences_abc :
    findRepeatingSequences (js "ABCABCABC") = .ok
      [{ sequence := js "ABC", length := 3, occurrences := 3, positions := [0, 3, 6],
         distances := [3, 3] },
       { sequence := js "BCA", length := 3, occurrences := 2, positions := [1, 4],
         distances := [3] },
       { sequence := js "CAB", length := 3, occurrences := 2, positions := [2, 5],
         distances := [3] }] := by
  rfl

/-- Claim C28: for every text of capital letters of length `n` (the cleaned,
letters-only text that `autokeyAnalysis` passes), `findRepeatingSequences`
returns exactly one record for each string `s` with `3 ≤ |s| ≤ 10`,
`3 |s| ≤ n` and at least two start positions in the text (overlapping
occurrences counted); the record holds the length of `s`, the ascending list
of all start positions of `s`, their number and their distances; there is no
other record, and none at all when `n < 9`. -/
theorem findRepeatingSequences_records (text : JSString)
    (hupper : ∀ c ∈ text, isUpperAZ c = true) :
    ∃ records, findRepeatingSequences text = .ok records ∧
      (records.map fun r => r.sequence).Nodup ∧
      (∀ s, (∃ r ∈ records, r.sequence = s) ↔
        (3 ≤ s.length ∧ s.length ≤ 10 ∧ 3 * s.length ≤ text.length ∧
          2 ≤ (startPositions s text).length)) ∧
      (∀ r ∈ records, r.length = r.sequence.length ∧
        r.positions = startPositions r.sequence text ∧
        r.occurrences = r.positions.length ∧ r.distances = distancesOf r.positions) ∧
      (text.length < 9 → records = []) := by
  have h := avoids_of_upper text hupper
  refine ⟨_, findRepeatingSequences_ok text h, ?_, ?_, ?_, ?_⟩
  · exact findRepeatingSequences_nodup text h _ (findRepeatingSequences_ok text h)
  · intro s
    constructor
    · rintro ⟨r, hr, rfl⟩
      exact ((mem_findRepeatingSequences text h _ (findRepeatingSequences_ok text h) r).mp hr).1
    · intro hs
      refine ⟨{ sequence := s, length := s.length,
                occurrences := (startPositions s text).length,
                positions := startPositions s text,
                distances := distancesOf (startPositions s text) }, ?_, rfl⟩
      exact (mem_findRepeatingSequences text h _ (findRepeatingSequences_ok text h) _).mpr
        ⟨hs, rfl⟩
  · intro r hr
    have hrec :=
      ((mem_findRepeatingSequences text h _ (findRepeatingSequences_ok text h) r).mp hr).2
    rw [hrec]
    exact ⟨rfl, rfl, rfl, rfl⟩
  · intro hn
    apply List.eq_nil_iff_forall_not_mem.mpr
    intro r hr
    have hb :=
      ((mem_findRepeatingSequences text h _ (findRepeatingSequences_ok text h) r).mp hr).1
    omega

/-- Claim C28 on the text `ABCABCABC`: three records, for `ABC`, `BCA` and
`CAB`. -/
theorem findRepeatingSequences_records_witness :
    (∀ c ∈ js "ABCABCABC", isUpperAZ c = true) ∧
    findRepeatingSequences (js "ABCABCABC") = .ok
      [{ sequence := js "ABC", length := 3, occurrences := 3, positions := [0, 3, 6],
         distances := [3, 3] },
       { sequence := js "BCA", length := 3, occurrences := 2, positions := [1, 4],
         distances := [3] },
       { sequence := js "CAB", length := 3, occurrences := 2, positions := [2, 5],
         distances := [3] }] ∧
    ∃ records, findRepeatingSequences (js "ABCABCABC") = .ok records ∧
      (records.map fun r => r.sequence).Nodup ∧
      (∀ s, (∃ r ∈ records, r.sequence = s) ↔
        (3 ≤ s.length ∧ s.length ≤ 10 ∧ 3 * s.length ≤ (js "ABCABCABC").length ∧
          2 ≤ (startPositions s (js "ABCABCABC")).length)) ∧
      (∀ r ∈ records, r.length = r.sequence.length ∧
        r.positions = startPositions r.sequence (js "ABCABCABC") ∧
        r.occurrences = r.positions.length ∧ r.distances = distancesOf r.positions) ∧
      ((js "ABCABCABC").length < 9 → records = []) :=
  ⟨by decide, findRepeatingSequences_abc,
    findRepeatingSequences_records (js "ABCABCABC") (by decide)⟩

/-- Outside the texts of capital letters, which the program never passes:
on a text of letters in which a window spells `valueOf`, here at the positions
0, 7 and 14 of the 23 letters of `valueOfvalueOfvalueOfab`,
`findRepeatingSequences` returns no record at all: it throws a `TypeError`,
because `found` is an object literal and `found[seq]` reads the inherited
function. -/
theorem findRepeatingSequences_valueOf :
    (∀ c ∈ js "valueOfvalueOfvalueOfab", isAlpha c = true) ∧
    3 * (js "valueOf").length ≤ (js "valueOfvalueOfvalueOfab").length ∧
    startPositions (js "valueOf") (js "valueOfvalueOfvalueOfab") = [0, 7, 14] ∧
    findRepeatingSequences (js "valueOfvalueOfvalueOfab") =
      .error "found[seq].push is not a function" := by
  refine ⟨by decide, by decide, by decide, by rfl⟩

theorem compareSequences_le_iff (a b : RepeatingSequence) :
    compareSequences a b ≤ 0 ↔
      b.occurrences < a.occurrences ∨
        (a.occurrences = b.occurrences ∧ b.length ≤ a.length) := by
  unfold compareSequences
  by_cases h : a.occurrences = b.occurrences
  · rw [if_neg (not_not.mpr h)]
    constructor
    · intro hle
      exact Or.inr ⟨h, by omega⟩
    · rintro (hlt | ⟨_, hle⟩)
      · omega
      · omega
  · rw [if_pos h]
    constructor
    · intro hle
      exact Or.inl (by omega)
    · rintro (hlt | ⟨he, _⟩)
      · omega
      · exact absurd he h

/-- Claim C29: for every input for which `findRepeatingSequences` returns a
list, the list is ordered by occurrence count descending and, among records
of equal occurrence count, by sequence length descending. -/
theorem findRepeatingSequences_sorted (text : JSString) (records : List RepeatingSequence)
    (h : findRepeatingSequences text = .ok records) :
    records.Pairwise fun a b =>
      b.occurrences < a.occurrences ∨
        (a.occurrences = b.occurrences ∧ b.length ≤ a.length) := by
  unfold findRepeatingSequences at h
  cases hseq : sequencesOfLengths text [3, 4, 5, 6, 7, 8, 9, 10] with
  | error message => rw [hseq] at h; cases h
  | ok sequences =>
    rw [hseq] at h
    cases h
    haveI : IsTotal RepeatingSequence fun a b => compareSequences a b ≤ 0 :=
      ⟨fun a b => by
        rw [compareSequences_le_iff, compareSequences_le_iff]
        omega⟩
    haveI : IsTrans RepeatingSequence fun a b => compareSequences a b ≤ 0 :=
      ⟨fun a b c hab hbc => by
        rw [compareSequences_le_iff] at hab hbc ⊢
        omega⟩
    have hsorted := List.sorted_insertionSort (fun a b => compareSequences a b ≤ 0) sequences
    exact List.Pairwise.imp (fun hab => (compareSequences_le_iff _ _).mp hab) hsorted

/-- Claim C29 on the text `ABCABCABC`: `ABC`, with three occurrences, comes
before `BCA` and `CAB`, with two. -/
theorem findRepeatingSequences_sorted_witness :
    findRepeatingSequences (js "ABCABCABC") = .ok
      [{ sequence := js "ABC", length := 3, occurrences := 3, positions := [0, 3, 6],
         distances := [3, 3] },
       { sequence := js "BCA", length := 3, occurrences := 2, positions := [1, 4],
         distances := [3] },
       { sequence := js "CAB", length := 3, occurrences := 2, positions := [2, 5],
         distances := [3] }] ∧
    List.Pairwise (fun a b : RepeatingSequence =>
      b.occurrences < a.occurrences ∨
        (a.occurrences = b.occurrences ∧ b.length ≤ a.length))
      [{ sequence := js "ABC", length := 3, occurrences := 3, positions := [0, 3, 6],
         distances := [3, 3] },
       { sequence := js "BCA", length := 3, occurrences := 2, positions := [1, 4],
         distances := [3] },
       { sequence := js "CAB", length := 3, occurrences := 2, positions := [2, 5],
         distances := [3] }] :=
  ⟨findRepeatingSequences_abc,
    findRepeatingSequences_sorted (js "ABCABCABC") _ findRepeatingSequences_abc⟩

/-! ## Claim about the repeating blocks -/

theorem lookup_isSome_iff {β : Type} (entries : List (JSString × β)) (k : JSString) :
    (entries.lookup k).isSome = true ↔ k ∈ entries.map Prod.fst := by
  induction entries with
  | nil => simp
  | cons e rest ih =>
    obtain ⟨k0, v⟩ := e
    by_cases h : k = k0
    · subst h; simp [List.lookup]
    · have hb : (k == k0) = false := by simpa using h
      simp only [List.lookup, hb, List.map_cons, List.mem_cons, h, false_or]
      exact ih

theorem mem_keys_increment (counts : List (JSString × Nat)) (key k : JSString) :
    k ∈ (increment counts key).map Prod.fst ↔ k ∈ counts.map Prod.fst ∨ k = key := by
  rw [increment_eq_upsert, keys_upsert]
  split_ifs with h
  · constructor
    · intro hk; exact Or.inl hk
    · rintro (hk | rfl)
      · exact hk
      · exact h
  · rw [List.mem_append, List.mem_singleton]

/-- The flag `hasRepeats` after the loop of lines 379-387: it is set when a
block is met that was met before. -/
theorem foldl_countBlock (blocks : List JSString) (counts : List (JSString × Nat))
    (flag : Bool) :
    (blocks.foldl countBlock (counts, flag)).2 = true ↔
      flag = true ∨ (∃ x ∈ blocks, x ∈ counts.map Prod.fst) ∨ ¬ blocks.Nodup := by
  induction blocks generalizing counts flag with
  | nil => simp
  | cons x rest ih =>
    rw [List.foldl_cons]
    by_cases hx : x ∈ counts.map Prod.fst
    · have hl : (counts.lookup x).isSome = true := (lookup_isSome_iff counts x).mpr hx
      have hstep : countBlock (counts, flag) x = (increment counts x, true) := by
        simp only [countBlock, hl, if_true]
      rw [hstep, ih]
      constructor
      · intro _
        exact Or.inr (Or.inl ⟨x, List.mem_cons_self _ _, hx⟩)
      · intro _
        exact Or.inl rfl
    · have hl : ¬ (counts.lookup x).isSome = true := fun h => hx ((lookup_isSome_iff counts x).mp h)
      have hstep : countBlock (counts, flag) x = (increment counts x, flag) := by
        simp only [countBlock, hl, if_false, Bool.false_eq_true]
      rw [hstep, ih, List.nodup_cons]
      constructor
      · rintro (hf | ⟨y, hy, hk⟩ | hnd)
        · exact Or.inl hf
        · rcases (mem_keys_increment counts x y).mp hk with hk | rfl
          · exact Or.inr (Or.inl ⟨y, List.mem_cons_of_mem _ hy, hk⟩)
          · exact Or.inr (Or.inr fun h => h.1 hy)
        · exact Or.inr (Or.inr fun h => hnd h.2)
      · rintro (hf | ⟨y, hy, hk⟩ | hnd)
        · exact Or.inl hf
        · rcases List.mem_cons.mp hy with rfl | hy
          · exact absurd hk hx
          · exact Or.inr (Or.inl ⟨y, hy, (mem_keys_increment counts x y).mpr (Or.inl hk)⟩)
        · by_cases hxr : x ∈ rest
          · exact Or.inr (Or.inl ⟨x, hxr, (mem_keys_increment counts x x).mpr (Or.inr rfl)⟩)
          · exact Or.inr (Or.inr fun h => hnd ⟨hxr, h⟩)

theorem offset_lt_iff (length w j : Nat) (hw : 0 < w) :
    j * w + w < length ↔ j < (length - 1) / w := by
  have h1 : j < (length - 1) / w ↔ (j + 1) * w ≤ length - 1 := by
    rw [Nat.lt_iff_add_one_le, Nat.le_div_iff_mul_le hw]
  rw [h1, Nat.add_mul, Nat.one_mul]
  omega

/-- The offsets of the loop of line 379: the multiples `k * blockSize` with
`k * blockSize + blockSize` below the length. -/
theorem blockOffsets_eq (length w : Nat) (hw : 0 < w) (fuel j : Nat)
    (hfuel : (length - 1) / w - j ≤ fuel) :
    blockOffsets length w fuel (j * w) =
      (List.range' j ((length - 1) / w - j)).map fun k => k * w := by
  induction fuel generalizing j with
  | zero =>
    have : (length - 1) / w - j = 0 := by omega
    rw [this]
    rfl
  | succ fuel ih =>
    by_cases hlt : j * w + w < length
    · have hj := (offset_lt_iff length w j hw).mp hlt
      have hnext : j * w + w = (j + 1) * w := by rw [Nat.add_mul, Nat.one_mul]
      have hlen : (length - 1) / w - j = ((length - 1) / w - (j + 1)) + 1 := by omega
      simp only [blockOffsets, hlt, if_true]
      rw [hnext, ih (j + 1) (by omega), hlen, List.range'_succ, List.map_cons]
    · have hj : ¬ j < (length - 1) / w := fun h => hlt ((offset_lt_iff length w j hw).mpr h)
      have : (length - 1) / w - j = 0 := by omega
      simp only [blockOffsets, hlt, if_false, this, List.range'_zero, List.map_nil]

theorem blockSize_pos (text : JSString) : 0 < blockSize text := by
  unfold blockSize
  split_ifs <;> omega

theorem not_nodup_map_range (f : Nat → JSString) (m : Nat) :
    ¬ ((List.range m).map f).Nodup ↔ ∃ j k, j < k ∧ k < m ∧ f j = f k := by
  rw [List.nodup_map_iff_inj_on (List.nodup_range m)]
  constructor
  · intro h
    push_neg at h
    rcases h with ⟨x, hx, y, hy, hxy, hne⟩
    rw [List.mem_range] at hx hy
    rcases Nat.lt_or_gt_of_ne hne with hlt | hgt
    · exact ⟨x, y, hlt, hy, hxy⟩
    · exact ⟨y, x, hgt, hx, hxy.symm⟩
  · rintro ⟨j, k, hjk, hk, hf⟩ h
    have := h j (List.mem_range.mpr (by omega)) k (List.mem_range.mpr hk) hf
    omega

/-- What `detectRepeatingBlocks` computes: whether two of the blocks at the
offsets `k * blockSize` with `(k + 1) * blockSize` below the length of the
processed text are equal. -/
theorem detectRepeatingBlocks_iff (ciphertext : JSString) :
    detectRepeatingBlocks ciphertext = true ↔
      ∃ j k, j < k ∧
        (k + 1) * blockSize (processedText ciphertext) < (processedText ciphertext).length ∧
        substr (processedText ciphertext) (j * blockSize (processedText ciphertext))
            (blockSize (processedText ciphertext)) =
          substr (processedText ciphertext) (k * blockSize (processedText ciphertext))
            (blockSize (processedText ciphertext)) := by
  generalize hP : processedText ciphertext = text
  have hw := blockSize_pos text
  have hoff := blockOffsets_eq text.length (blockSize text) hw text.length 0 (by
    have := Nat.div_le_self (text.length - 1) (blockSize text)
    omega)
  rw [Nat.zero_mul, Nat.sub_zero, ← List.range_eq_range'] at hoff
  unfold detectRepeatingBlocks
  simp only [hP]
  rw [foldl_countBlock, hoff, List.map_map]
  simp only [Bool.false_eq_true, List.map_nil, List.not_mem_nil, and_false, exists_false,
    false_or]
  rw [not_nodup_map_range]
  constructor
  · rintro ⟨j, k, hjk, hk, hf⟩
    refine ⟨j, k, hjk, ?_, hf⟩
    have := (offset_lt_iff text.length (blockSize text) k hw).mpr hk
    rw [Nat.add_mul, Nat.one_mul]
    exact this
  · rintro ⟨j, k, hjk, hk, hf⟩
    refine ⟨j, k, hjk, ?_, hf⟩
    apply (offset_lt_iff text.length (blockSize text) k hw).mp
    rw [Nat.add_mul, Nat.one_mul] at hk
    exact hk

/-- Claim C30, what the code does: on the 48 characters
`ABCDEFGHIJKLMNOPQRSTUVWXABCDEFGHIJKLMNOPQRSTUVWX`, with no colon and block
width 24, the two blocks at the offsets 0 and 24 are equal and
`detectRepeatingBlocks` returns `false`, and so it does on 64 hexadecimal
digits made of one block of width 32 twice: the loop runs while
`i < length - blockSize`, so that the last block of a text whose length is a
multiple of the width is never read. With one more character after the
second block the result is `true`. For every cipher text the result is
`true` exactly when two blocks at offsets `j * w` and `k * w` with
`(k + 1) * w` below the length of the processed text are equal; the processed
text of a cipher text with a colon is the piece between the first colon and
the next one. -/
theorem detectRepeatingBlocks_last_block :
    (processedText (js "ABCDEFGHIJKLMNOPQRSTUVWXABCDEFGHIJKLMNOPQRSTUVWX") =
        js "ABCDEFGHIJKLMNOPQRSTUVWXABCDEFGHIJKLMNOPQRSTUVWX" ∧
      blockSize (js "ABCDEFGHIJKLMNOPQRSTUVWXABCDEFGHIJKLMNOPQRSTUVWX") = 24 ∧
      (js "ABCDEFGHIJKLMNOPQRSTUVWXABCDEFGHIJKLMNOPQRSTUVWX").length = 2 * 24 ∧
      substr (js "ABCDEFGHIJKLMNOPQRSTUVWXABCDEFGHIJKLMNOPQRSTUVWX") 0 24 =
        substr (js "ABCDEFGHIJKLMNOPQRSTUVWXABCDEFGHIJKLMNOPQRSTUVWX") 24 24 ∧
      detectRepeatingBlocks (js "ABCDEFGHIJKLMNOPQRSTUVWXABCDEFGHIJKLMNOPQRSTUVWX") = false) ∧
    (blockSize (js "00112233445566778899aabbccddeeff00112233445566778899aabbccddeeff") = 32 ∧
      detectRepeatingBlocks
        (js "00112233445566778899aabbccddeeff00112233445566778899aabbccddeeff") = false) ∧
    detectRepeatingBlocks (js "ABCDEFGHIJKLMNOPQRSTUVWXABCDEFGHIJKLMNOPQRSTUVWX=") = true ∧
    processedText (js "00:ab:cd") = js "ab" ∧
    ∀ ciphertext : JSString,
      detectRepeatingBlocks ciphertext = true ↔
        ∃ j k, j < k ∧
          (k + 1) * blockSize (processedText ciphertext) < (processedText ciphertext).length ∧
          substr (processedText ciphertext) (j * blockSize (processedText ciphertext))
              (blockSize (processedText ciphertext)) =
            substr (processedText ciphertext) (k * blockSize (processedText ciphertext))
              (blockSize (processedText ciphertext)) :=
  ⟨⟨by decide, by decide, by decide, by decide, by decide⟩, ⟨by decide, by decide⟩, by decide,
    by decide, detectRepeatingBlocks_iff⟩

/-! ## Claim about the raw transforms on ASCII text -/

theorem encryptChar_decryptChar (c k : Nat) (hc : isUpperAZ c = true)
    (hk : isUpperAZ k = true) : encryptChar (decryptChar c (some k)) k = c := by
  have hc2 : 65 ≤ c ∧ c ≤ 90 := by simpa [isUpperAZ] using hc
  have hk2 : 65 ≤ k ∧ k ≤ 90 := by simpa [isUpperAZ] using hk
  have hd : (decryptChar c (some k) : Int) = ((c : Int) - 65 - ((k : Int) - 65)) % 26 + 65 := by
    simp only [decryptChar, fromCharCode]
    rcases jsMod_26 ((c : Int) - 65 - ((k : Int) - 65)) with ⟨h0, h⟩ | ⟨h0, h⟩ <;>
      split <;> omega
  simp only [encryptChar, fromCharCode]
  rcases jsMod_26 ((decryptChar c (some k) : Int) - 65 + ((k : Int) - 65)) with
    ⟨h0, h⟩ | ⟨h0, h⟩ <;> omega

theorem encryptFrom_decryptFrom (k : Nat) (cs : JSString) (hk : isUpperAZ k = true)
    (hcs : ∀ l ∈ cs, isUpperAZ l = true) : encryptFrom k (decryptFrom k cs) = cs := by
  induction cs generalizing k with
  | nil => rfl
  | cons c cs ih =>
    have hc := hcs c (List.mem_cons_self _ _)
    simp only [decryptFrom, encryptFrom, encryptChar_decryptChar c k hc hk]
    rw [ih _ (decryptChar_upper c k) (fun l hl => hcs l (List.mem_cons_of_mem _ hl))]

theorem substitute_ascii (text letters : JSString) (h : ∀ c ∈ text, c < 128)
    (hup : ∀ l ∈ letters, isUpperAZ l = true) : ∀ c ∈ substitute text letters, c < 128 := by
  induction text generalizing letters with
  | nil => simp [substitute]
  | cons c rest ih =>
    have hrest : ∀ d ∈ rest, d < 128 := fun d hd => h d (List.mem_cons_of_mem _ hd)
    by_cases hc : isAlpha c = true
    · cases letters with
      | nil =>
        simp only [substitute, hc, if_true]
        exact ih [] hrest (by simp)
      | cons l ls =>
        have hl := hup l (List.mem_cons_self _ _)
        have hl2 : 65 ≤ l ∧ l ≤ 90 := by simpa [isUpperAZ] using hl
        intro d hd
        simp only [substitute, hc, if_true, List.mem_cons] at hd
        rcases hd with rfl | hd
        · split_ifs
          · omega
          · simp only [toLowerCaseUnit, hl, if_true]; omega
        · exact ih ls hrest (fun x hx => hup x (List.mem_cons_of_mem _ hx)) d hd
    · intro d hd
      simp only [substitute, hc, if_false, List.mem_cons, Bool.false_eq_true] at hd
      rcases hd with rfl | hd
      · exact h _ (List.mem_cons_self _ _)
      · exact ih letters hrest hup d hd

theorem encrypt_decrypt_raw (text : JSString) (n : Int) (h : ∀ c ∈ text, c < 128) :
    encryptAutokeyRaw (decryptAutokeyRaw text (.finite n)) (.finite n) = text := by
  have hD := decryptFrom_upper (keyLetter (.finite n)) (alphabeticChars text)
  have hlen : letterCount text ≤
      (decryptFrom (keyLetter (.finite n)) (alphabeticChars text)).length := by
    rw [decryptFrom_length, letterCount_eq_alphabeticChars]
  rw [decryptAutokeyRaw_eq_substitute]
  have hplain : PlainLetters
      (substitute text (decryptFrom (keyLetter (.finite n)) (alphabeticChars text))) :=
    plainLetters_of_ascii _ (substitute_ascii text _ h hD)
  have hN := normalizeLetters_of_plain _ hplain
  rw [alphabeticChars_substitute text _ hD, List.take_of_length_le (by
    rw [decryptFrom_length, letterCount_eq_alphabeticChars])] at hN
  by_cases h0 : (alphabeticChars text).length = 0
  · have hcount : letterCount text = 0 := by
      rw [← letterCount_eq_alphabeticChars]; exact h0
    rw [substitute_no_letters text _ hcount]
    have hn0 : (normalizeLetters text).length = 0 := by
      rw [normalizeLetters_of_plain text (plainLetters_of_ascii text h)]; exact h0
    unfold encryptAutokeyRaw
    simp only [hn0, if_true]
  · have hne : (normalizeLetters
        (substitute text
          (decryptFrom (keyLetter (.finite n)) (alphabeticChars text)))).length ≠ 0 := by
      rw [hN, decryptFrom_length]; exact h0
    rw [encryptAutokeyRaw_eq_substitute _ (.finite n) hne, encryptLetters_eq_encryptFrom, hN,
      encryptFrom_decryptFrom _ _ (keyLetter_upper n) (alphabeticChars_upper text)]
    exact substitute_substitute text _ hD hlen

/-- For every string of ASCII characters (codes 0 to 127) and every key that
is read as a finite number, the raw decryption undoes the raw encryption and
the raw encryption undoes the raw decryption. -/
theorem raw_transforms_inverse_finite (t : JSString) (n : Int) (h : ∀ c ∈ t, c < 128) :
    decryptAutokeyRaw (encryptAutokeyRaw t (.finite n)) (.finite n) = t ∧
    encryptAutokeyRaw (decryptAutokeyRaw t (.finite n)) (.finite n) = t :=
  ⟨decrypt_encrypt_raw t n (plainLetters_of_ascii t h), encrypt_decrypt_raw t n h⟩

set_option maxRecDepth 20000 in
/-- Claim C37, the failing input: a key of 310 digits `9` is read by
`parseInt` as `Infinity`, which is not `NaN`, so the key is accepted; the key
letter is the unit 0.  The ASCII text `Hello` is encrypted to `;lpwz`, and
`;lpwz` is decrypted to `;yrfu`, not to `Hello`, by the raw transforms, by the
Autokey layer and by the pipeline; `Hello` is decrypted to `Ukbke`, which is
encrypted to `.ello`, not to `Hello`.  With the key `3` both round trips
hold. -/
theorem raw_round_trip_infinite_key (P : Primitives) (ivs : Nat → List Nat) :
    (∀ c ∈ js "Hello", c < 128) ∧
    parseInt ninesKey = some (.infinity false) ∧
    encryptAutokeyRaw (js "Hello") (.infinity false) = js ";lpwz" ∧
    decryptAutokeyRaw (js ";lpwz") (.infinity false) = js ";yrfu" ∧
    decryptAutokeyRaw (js "Hello") (.infinity false) = js "Ukbke" ∧
    encryptAutokeyRaw (js "Ukbke") (.infinity false) = js ".ello" ∧
    autokeyDecrypt (autokeyEncrypt (js "Hello") (.infinity false)) (.infinity false) =
      js ";yrfu" ∧
    processData P ivs
        { text := js "Hello", action := "encrypt",
          layers := some [autokeyLayer ninesKey, noneLayer, noneLayer] } =
      .json (js ";lpwz")
        ["Processing Layer 1: Autokey cipher encrypt",
         "Layer 2: No encryption selected, skipping",
         "Layer 3: No encryption selected, skipping", "Encryption complete!"] ∧
    processData P ivs
        { text := js ";lpwz", action := "decrypt",
          layers := some [autokeyLayer ninesKey, noneLayer, noneLayer] } =
      .json (js ";yrfu")
        ["Layer 3: No encryption selected, skipping",
         "Layer 2: No encryption selected, skipping",
         "Processing Layer 1: Autokey cipher decrypt", "Decryption complete!"] ∧
    parseInt (js "3") = some (.finite 3) ∧
    decryptAutokeyRaw (encryptAutokeyRaw (js "Hello") (.finite 3)) (.finite 3) = js "Hello" ∧
    encryptAutokeyRaw (decryptAutokeyRaw (js "Hello") (.finite 3)) (.finite 3) = js "Hello" := by
  refine ⟨by decide, by decide, by decide, by decide, by decide, by decide, by decide, ?_, ?_,
    by decide, by decide, by decide⟩
  · rfl
  · rfl

/-! ## Claim about the output of the Autokey layer -/

theorem shape_nonPrintable {text out : JSString} (h : List.Forall₂ PrintShape text out) :
    nonPrintableCount out = nonPrintableCount text ∧ out.length = text.length := by
  induction h with
  | nil => exact ⟨rfl, rfl⟩
  | @cons c d rest rest2 hcd _ ih =>
    have hsame : (decide (d < 32) || decide (d > 126)) = (decide (c < 32) || decide (c > 126)) := by
      by_cases hc : isAlpha c = true
      · have hd := hcd.2 hc
        simp only [isAlpha, isUpperAZ, isLowerAZ, Bool.or_eq_true, Bool.and_eq_true,
          decide_eq_true_eq] at hc
        have h1 : (decide (d < 32) || decide (d > 126)) = false := by simp; omega
        have h2 : (decide (c < 32) || decide (c > 126)) = false := by simp; omega
        rw [h1, h2]
      · have hc2 : isAlpha c = false := by simpa using hc
        rw [hcd.1 hc2]
    unfold nonPrintableCount at ih ⊢
    refine ⟨?_, by simp [ih.2]⟩
    by_cases hp : (decide (c < 32) || decide (c > 126)) = true
    · have hq : (decide (d < 32) || decide (d > 126)) = true := by rw [hsame]; exact hp
      simp only [List.filter_cons, hp, hq, if_true, List.length_cons, ih.1]
    · have hp2 : (decide (c < 32) || decide (c > 126)) = false := by simpa using hp
      have hq : (decide (d < 32) || decide (d > 126)) = false := by rw [hsame]; exact hp2
      simp only [List.filter_cons, hp2, hq, Bool.false_eq_true, if_false, ih.1]

/-- Whatever the two units, the cipher unit lies between `(` and `Z`. -/
theorem encryptChar_range (t k : Nat) : 40 ≤ encryptChar t k ∧ encryptChar t k ≤ 90 := by
  simp only [encryptChar, fromCharCode]
  rcases jsMod_26 ((t : Int) - 65 + ((k : Int) - 65)) with ⟨h0, h⟩ | ⟨h0, h⟩ <;> omega

theorem encryptLetters_range (normalizedText fullKey : JSString) :
    ∀ l ∈ encryptLetters normalizedText fullKey, 40 ≤ l ∧ l ≤ 90 := by
  intro l hl
  unfold encryptLetters at hl
  rcases List.mem_iff_getElem.mp hl with ⟨i, hi, rfl⟩
  rw [List.getElem_zipWith]
  exact encryptChar_range _ _

theorem substitute_printShape (text letters : JSString)
    (hp : ∀ l ∈ letters, 40 ≤ l ∧ l ≤ 90) (hlen : letterCount text ≤ letters.length) :
    List.Forall₂ PrintShape text (substitute text letters) := by
  induction text generalizing letters with
  | nil => simp [substitute]
  | cons c rest ih =>
    rw [letterCount_cons] at hlen
    by_cases hc : isAlpha c = true
    · rw [if_pos hc] at hlen
      cases letters with
      | nil => simp at hlen
      | cons l ls =>
        simp only [substitute, hc, if_true]
        have hl := hp l (List.mem_cons_self _ _)
        refine List.Forall₂.cons ⟨fun h => ?_, fun _ => ?_⟩
          (ih ls (fun x hx => hp x (List.mem_cons_of_mem _ hx)) ?_)
        · rw [hc] at h; cases h
        · split_ifs
          · omega
          · unfold toLowerCaseUnit
            split_ifs <;> omega
        · simp at hlen; omega
    · have hc' : isAlpha c = false := by simpa using hc
      rw [if_neg hc] at hlen
      simp only [substitute, hc', Bool.false_eq_true, if_false]
      exact List.Forall₂.cons ⟨fun _ => rfl, fun h => by rw [hc'] at h; cases h⟩
        (ih letters hp (by omega))

/-- Whatever the key, the raw encryption keeps every unit that is no letter
and puts a printable unit in the place of every letter. -/
theorem encryptAutokeyRaw_printShape (text : JSString) (numKey : ParsedNumber) :
    List.Forall₂ PrintShape text (encryptAutokeyRaw text numKey) := by
  by_cases h : (normalizeLetters text).length = 0
  · have hcount : letterCount text = 0 := by
      have := letterCount_le_normalizeLetters text
      omega
    have heq : encryptAutokeyRaw text numKey = text := by
      unfold encryptAutokeyRaw
      simp only [h, if_true]
    have hsub := substitute_printShape text [] (by simp) (by simp [hcount])
    rw [substitute_no_letters text [] hcount] at hsub
    rw [heq]
    exact hsub
  · rw [encryptAutokeyRaw_eq_substitute text numKey h]
    refine substitute_printShape text _ (encryptLetters_range _ _) ?_
    rw [encryptLetters_length]
    exact letterCount_le_normalizeLetters text

theorem base64Char_printable (n : Nat) : 32 ≤ base64Char n ∧ base64Char n ≤ 126 := by
  unfold base64Char
  split_ifs <;> omega

theorem base64Encode_printable (bytes : List Nat) :
    ∀ c ∈ base64Encode bytes, 32 ≤ c ∧ c ≤ 126 := by
  induction bytes using base64Encode.induct with
  | case1 => simp [base64Encode]
  | case2 a =>
    intro c hc
    simp only [base64Encode, List.mem_cons, List.mem_singleton, List.not_mem_nil,
      or_false] at hc
    have := base64Char_printable (a / 4)
    have := base64Char_printable (a % 4 * 16)
    rcases hc with rfl | rfl | rfl | rfl <;> omega
  | case3 a b =>
    intro c hc
    simp only [base64Encode, List.mem_cons, List.mem_singleton, List.not_mem_nil,
      or_false] at hc
    have := base64Char_printable (a / 4)
    have := base64Char_printable (a % 4 * 16 + b / 16)
    have := base64Char_printable (b % 16 * 4)
    rcases hc with rfl | rfl | rfl | rfl <;> omega
  | case4 a b c rest ih =>
    intro x hx
    simp only [base64Encode, List.mem_cons] at hx
    have := base64Char_printable (a / 4)
    have := base64Char_printable (a % 4 * 16 + b / 16)
    have := base64Char_printable (b % 16 * 4 + c / 64)
    have := base64Char_printable (c % 64)
    rcases hx with rfl | rfl | rfl | rfl | hx
    · omega
    · omega
    · omega
    · omega
    · exact ih x hx

theorem nonPrintableCount_of_printable (text : JSString)
    (h : ∀ c ∈ text, 32 ≤ c ∧ c ≤ 126) : nonPrintableCount text = 0 := by
  unfold nonPrintableCount
  rw [List.length_eq_zero, List.filter_eq_nil_iff]
  intro c hc
  have := h c hc
  simp
  omega

theorem nonPrintableCount_append (a b : JSString) :
    nonPrintableCount (a ++ b) = nonPrintableCount a + nonPrintableCount b := by
  simp [nonPrintableCount, List.filter_append]

/-- The output of `autokeyEncrypt` is not binary-looking. -/
theorem autokeyEncrypt_printable (text : JSString) (numKey : ParsedNumber) :
    containsBinaryData (autokeyEncrypt text numKey) = false := by
  by_cases hb : containsBinaryData text = true
  · have hshape := shape_nonPrintable (encryptAutokeyRaw_printShape (toBase64 text) numKey)
    have h64 : nonPrintableCount (toBase64 text) = 0 :=
      nonPrintableCount_of_printable _ (base64Encode_printable _)
    have hm : nonPrintableCount base64Marker = 0 := by decide
    have hcount : nonPrintableCount
        (base64Marker ++ encryptAutokeyRaw (toBase64 text) numKey) = 0 := by
      rw [nonPrintableCount_append, hm, hshape.1, h64]
    simp only [autokeyEncrypt, hb, if_true]
    unfold containsBinaryData
    rw [hcount]
    simp
  · have hb2 : containsBinaryData text = false := by simpa using hb
    have hshape := shape_nonPrintable (encryptAutokeyRaw_printShape text numKey)
    simp only [autokeyEncrypt, hb2, Bool.false_eq_true, if_false]
    unfold containsBinaryData at hb2 ⊢
    rw [hshape.1, hshape.2]
    exact hb2

/-- Claim C38: for every input text and every key (every number `parseInt`
can give, `Infinity` too), the output of `autokeyEncrypt` is not
binary-looking, so that `normalizeLayerData` from `autokey` to `aes` returns it
unchanged. -/
theorem autokey_output_not_binary (text : JSString) (numKey : ParsedNumber) :
    containsBinaryData (autokeyEncrypt text numKey) = false ∧
    normalizeLayerData (autokeyEncrypt text numKey) (some "autokey") (some "aes") =
      autokeyEncrypt text numKey := by
  have h := autokeyEncrypt_printable text numKey
  refine ⟨h, ?_⟩
  unfold normalizeLayerData
  simp only [h, Bool.false_eq_true, if_false]
  split_ifs <;> rfl



/-! ## Claim about the normalisation of the AES key -/

theorem flatten_replicate_succ (key : JSString) (m : Nat) :
    (List.replicate (m + 1) key).flatten = (List.replicate m key).flatten ++ key := by
  rw [List.replicate_succ', List.flatten_append]
  simp

theorem length_flatten_replicate (key : JSString) (m : Nat) :
    (List.replicate m key).flatten.length = m * key.length := by
  induction m with
  | zero => simp
  | succ m ih =>
    rw [flatten_replicate_succ, List.length_append, ih, Nat.succ_mul]

theorem take_flatten_replicate (key : JSString) (a b n : Nat)
    (h : n ≤ (List.replicate a key).flatten.length) :
    ((List.replicate (a + b) key).flatten).take n = ((List.replicate a key).flatten).take n := by
  induction b with
  | zero => rfl
  | succ b ih =>
    rw [← Nat.add_assoc, flatten_replicate_succ, List.take_append_of_le_length, ih]
    rw [length_flatten_replicate] at h ⊢
    have : a * key.length ≤ (a + b) * key.length := Nat.mul_le_mul_right _ (by omega)
    omega

/-- The loop of lines 17-19 on a non-empty key ends within the rounds given
and leaves some number of copies of the key, long enough. -/
theorem appendKey_terminates (key : JSString) (hkey : key ≠ []) (bits : Int) (fuel m : Nat)
    (hfuel : bits ≤ 8 * ((fuel : Int) + (m : Int) * (key.length : Int))) :
    ∃ j, appendKey key (some bits) fuel (List.replicate m key).flatten =
        some (List.replicate j key).flatten ∧
      bits ≤ 8 * ((List.replicate j key).flatten.length : Int) := by
  have hlen : 1 ≤ key.length := by
    cases key with
    | nil => exact absurd rfl hkey
    | cons c rest => simp
  induction fuel generalizing m with
  | zero =>
    refine ⟨m, ?_, ?_⟩
    · have hb : belowRequiredLength (List.replicate m key).flatten (some bits) = false := by
        simp only [belowRequiredLength, length_flatten_replicate, decide_eq_false_iff_not]
        push_cast
        simp only [Nat.cast_zero] at hfuel
        omega
      simp only [appendKey, hb, Bool.false_eq_true, if_false]
    · rw [length_flatten_replicate]
      push_cast
      simp only [Nat.cast_zero] at hfuel
      omega
  | succ fuel ih =>
    by_cases hb : belowRequiredLength (List.replicate m key).flatten (some bits) = true
    · have hnext : bits ≤ 8 * ((fuel : Int) + ((m + 1 : Nat) : Int) * (key.length : Int)) := by
        push_cast at hfuel ⊢
        have : (1 : Int) ≤ (key.length : Int) := by exact_mod_cast hlen
        nlinarith
      rcases ih (m + 1) hnext with ⟨j, hj, hjl⟩
      refine ⟨j, ?_, hjl⟩
      simp only [appendKey, hb, if_true]
      rw [← flatten_replicate_succ]
      exact hj
    · have hb2 : belowRequiredLength (List.replicate m key).flatten (some bits) = false := by
        simpa using hb
      refine ⟨m, by simp only [appendKey, hb2, Bool.false_eq_true, if_false], ?_⟩
      simp only [belowRequiredLength, decide_eq_false_iff_not] at hb2
      omega

/-- The normalised key of a non-empty key, for any key size. -/
theorem normalizeKey_eq (key : JSString) (hkey : key ≠ []) (bits : Int) :
    normalizeKey key (some bits) = some (repeatedKey key (bits.toNat / 8)) := by
  have h1 : (List.replicate 1 key).flatten = key := by simp
  have hstart := appendKey_terminates key hkey bits (bits.toNat / 8 + 1) 1 (by
    have hlen : (1 : Int) ≤ (key.length : Int) := by
      cases key with
      | nil => exact absurd rfl hkey
      | cons c rest => simp
    push_cast
    omega)
  rw [h1] at hstart
  rcases hstart with ⟨j, hj, hjl⟩
  have hn : bits.toNat / 8 ≤ (List.replicate j key).flatten.length := by omega
  have hn2 : bits.toNat / 8 ≤ (List.replicate (bits.toNat / 8) key).flatten.length := by
    rw [length_flatten_replicate]
    have hlen : 1 ≤ key.length := by
      cases key with
      | nil => exact absurd rfl hkey
      | cons c rest => simp
    exact Nat.le_mul_of_pos_right _ hlen
  simp only [normalizeKey, requiredLength, hj, substring, List.drop_zero, Nat.sub_zero,
    repeatedKey]
  rw [← take_flatten_replicate key j (bits.toNat / 8) _ hn,
    ← take_flatten_replicate key (bits.toNat / 8) j _ hn2, Nat.add_comm]

theorem repeatedKey_length (key : JSString) (hkey : key ≠ []) (n : Nat) :
    (repeatedKey key n).length = n := by
  have hlen : 1 ≤ key.length := by
    cases key with
    | nil => exact absurd rfl hkey
    | cons c rest => simp
  unfold repeatedKey
  rw [List.length_take, length_flatten_replicate]
  exact Nat.min_eq_left (Nat.le_mul_of_pos_right _ hlen)

/-- Claim C36: for every non-empty key and every key size among 128, 192
and 256, the loop that normalises the key in `aesEncrypt` and in `aesDecrypt`
ends, so that both calls return or throw, and the normalised key is the first
`keySize / 8` characters of the key repeated end to end: it has exactly
`keySize / 8` characters, and it is the key itself when the key has that
length. -/
theorem key_normalisation (C : CryptoJS) (key : JSString) (keySize : Int)
    (hkey : key ≠ []) (hsize : keySize = 128 ∨ keySize = 192 ∨ keySize = 256) :
    normalizeKey key (some keySize) = some (repeatedKey key (keySize.toNat / 8)) ∧
    (repeatedKey key (keySize.toNat / 8)).length = keySize.toNat / 8 ∧
    (keySize.toNat / 8 = 16 ∨ keySize.toNat / 8 = 24 ∨ keySize.toNat / 8 = 32) ∧
    ((key.length : Int) * 8 = keySize → repeatedKey key (keySize.toNat / 8) = key) ∧
    (∀ iv text mode, (aesEncrypt C iv text key (some keySize) mode).isSome = true) ∧
    (∀ ciphertext mode, (aesDecrypt C ciphertext key (some keySize) mode).isSome = true) := by
  have hnorm := normalizeKey_eq key hkey keySize
  refine ⟨hnorm, repeatedKey_length key hkey _, ?_, ?_, ?_, ?_⟩
  · rcases hsize with rfl | rfl | rfl
    · left; decide
    · right; left; decide
    · right; right; decide
  · intro hlen
    have h2 := normalizeKey_valid key (some keySize) (by rw [hlen])
    rw [hnorm] at h2
    exact Option.some.inj h2
  · intro iv text mode
    simp only [aesEncrypt, hnorm, Option.isSome_some]
  · intro ciphertext mode
    simp only [aesDecrypt, hnorm, Option.isSome_some]

/-- Claim C36 on the key `abc` with 128 bits, which gives the 16 characters
`abcabcabcabcabca`, and on the empty key, for which the loop never ends. -/
theorem key_normalisation_witness :
    js "abc" ≠ [] ∧ ((128 : Int) = 128 ∨ (128 : Int) = 192 ∨ (128 : Int) = 256) ∧
    repeatedKey (js "abc") ((128 : Int).toNat / 8) = js "abcabcabcabcabca" ∧
    normalizeKey (js "abc") (some 128) = some (js "abcabcabcabcabca") ∧
    normalizeKey [] (some 128) = none ∧
    normalizeKey (js "abc") (some 128) =
      some (repeatedKey (js "abc") ((128 : Int).toNat / 8)) :=
  ⟨by decide, Or.inl rfl, by decide, by decide, by decide,
    (key_normalisation toyCryptoJS (js "abc") 128 (by decide) (Or.inl rfl)).1⟩

/-! ## The AES layer: the two attempts of the decryption -/

theorem primaryAttempt_ne_nil (C : CryptoJS) (mode : String) (keyWordArray iv : List Nat)
    (actualCiphertext : JSString) :
    primaryAttempt C mode keyWordArray iv actualCiphertext ≠ some [] := by
  unfold primaryAttempt
  cases switchCase mode with
  | none => simp
  | some name =>
    simp only []
    cases utf8Stringify (C.decrypt name keyWordArray (ivOfCase name iv) actualCiphertext) with
    | error m => simp
    | ok result =>
      cases result with
      | nil => simp
      | cons c rest => simp

theorem fallbackAttempt_ne_nil (C : CryptoJS) (mode : String) (keyWordArray iv : List Nat)
    (actualCiphertext : JSString) :
    fallbackAttempt C mode keyWordArray iv actualCiphertext ≠ some [] := by
  unfold fallbackAttempt
  cases switchCase mode with
  | none => simp
  | some name =>
    simp only []
    cases utf8Stringify (C.decryptParsed name keyWordArray (ivOfCase name iv)
        (C.base64Parse actualCiphertext)) with
    | error m => simp
    | ok result =>
      cases result with
      | nil => simp
      | cons c rest => simp

/-- `aesDecrypt` never returns the empty string. -/
theorem aesDecrypt_ne_empty (C : CryptoJS) (ciphertext key : JSString) (keySize : Option Int)
    (mode : Option String) : aesDecrypt C ciphertext key keySize mode ≠ some (.ok []) := by
  unfold aesDecrypt
  cases normalizeKey key keySize with
  | none => simp
  | some normalizedKey =>
    simp only []
    cases utf8Parse normalizedKey with
    | error m => simp
    | ok keyWordArray =>
      cases mode with
      | none => simp
      | some mode =>
        simp only []
        cases hp : primaryAttempt C mode keyWordArray (ivAndCiphertext C ciphertext mode).1
            (ivAndCiphertext C ciphertext mode).2 with
        | some r =>
          have := primaryAttempt_ne_nil C mode keyWordArray (ivAndCiphertext C ciphertext mode).1
            (ivAndCiphertext C ciphertext mode).2
          rw [hp] at this
          simp only [ne_eq, Option.some.injEq, Except.ok.injEq]
          intro e
          exact this (by rw [e])
        | none =>
          simp only []
          cases hf : fallbackAttempt C mode keyWordArray (ivAndCiphertext C ciphertext mode).1
              (ivAndCiphertext C ciphertext mode).2 with
          | some r =>
            have := fallbackAttempt_ne_nil C mode keyWordArray
              (ivAndCiphertext C ciphertext mode).1 (ivAndCiphertext C ciphertext mode).2
            rw [hf] at this
            simp only [ne_eq, Option.some.injEq, Except.ok.injEq]
            intro e
            exact this (by rw [e])
          | none => simp

/-- The result of `aesDecrypt` once the key is parsed and a mode is given,
by the plain texts of the two attempts. -/
theorem aesDecrypt_eq_resultOfAttempts (C : CryptoJS) (ciphertext key : JSString)
    (keySize : Option Int) (mode : String) (normalizedKey : JSString) (keyWordArray : List Nat)
    (hnorm : normalizeKey key keySize = some normalizedKey)
    (hparse : utf8Parse normalizedKey = .ok keyWordArray) :
    (switchCase mode = none →
      aesDecrypt C ciphertext key keySize (some mode) =
        some (.error "AES decryption failed: All decryption attempts failed")) ∧
    (∀ name, switchCase mode = some name →
      aesDecrypt C ciphertext key keySize (some mode) =
        some (resultOfAttempts
          (utf8Stringify (C.decrypt name keyWordArray
            (ivOfCase name (ivAndCiphertext C ciphertext mode).1)
            (ivAndCiphertext C ciphertext mode).2))
          (utf8Stringify (C.decryptParsed name keyWordArray
            (ivOfCase name (ivAndCiphertext C ciphertext mode).1)
            (C.base64Parse (ivAndCiphertext C ciphertext mode).2))))) := by
  constructor
  · intro hcase
    simp only [aesDecrypt, hnorm, hparse, primaryAttempt, fallbackAttempt, hcase]
    rfl
  · intro name hcase
    simp only [aesDecrypt, hnorm, hparse, primaryAttempt, fallbackAttempt, hcase]
    cases utf8Stringify (C.decrypt name keyWordArray
        (ivOfCase name (ivAndCiphertext C ciphertext mode).1)
        (ivAndCiphertext C ciphertext mode).2) with
    | error m =>
      cases utf8Stringify (C.decryptParsed name keyWordArray
          (ivOfCase name (ivAndCiphertext C ciphertext mode).1)
          (C.base64Parse (ivAndCiphertext C ciphertext mode).2)) with
      | error m2 => rfl
      | ok r2 => cases r2 <;> rfl
    | ok r =>
      cases r with
      | nil =>
        cases utf8Stringify (C.decryptParsed name keyWordArray
            (ivOfCase name (ivAndCiphertext C ciphertext mode).1)
            (C.base64Parse (ivAndCiphertext C ciphertext mode).2)) with
        | error m2 => rfl
        | ok r2 => cases r2 <;> rfl
      | cons c rest => rfl

/-! ## Claim about the attempts of the AES decryption -/

theorem modeIs_exclusive (mode a b : String) (ha : modeIs mode a = true)
    (hab : js a ≠ js b) : modeIs mode b = false := by
  simp only [modeIs, decide_eq_true_eq] at ha
  simp only [modeIs, decide_eq_false_iff_not, ha]
  exact hab

theorem utf8Stringify_nil : utf8Stringify [] = .ok [] := by rfl

theorem splitOn_iv_body (hex body : JSString) (hhex : 58 ∉ hex) (hbody : 58 ∉ body) :
    (hex ++ [58] ++ body).splitOn 58 = [hex, body] := by
  have h := List.splitOn_intercalate [hex, body] 58 (by
    intro l hl
    simp only [List.mem_cons, List.mem_singleton, List.not_mem_nil, or_false] at hl
    rcases hl with rfl | rfl
    · exact hhex
    · exact hbody) (by simp)
  have he : List.intercalate [58] [hex, body] = hex ++ [58] ++ body := by
    simp [List.intercalate]
  rw [← he]
  exact h

theorem hexStringify_no_colon (iv : List Nat) : 58 ∉ hexStringify iv := by
  intro h
  have := hexStringify_digits iv 58 h
  simp [isLowerHexDigit] at this

theorem ivAndCiphertext_of_format (C : CryptoJS) (iv : List Nat) (body : JSString)
    (mode : String) (hmode : (modeIs mode "CBC" || modeIs mode "CTR") = true)
    (hbody : 58 ∉ body) :
    ivAndCiphertext C (hexStringify iv ++ [58] ++ body) mode =
      (C.hexParse (hexStringify iv), body) := by
  have hsplit := splitOn_iv_body (hexStringify iv) body (hexStringify_no_colon iv) hbody
  have hmem : 58 ∈ hexStringify iv ++ [58] ++ body := by simp
  simp only [ivAndCiphertext, hmode, if_true, hmem, hsplit, List.length_cons, List.length_nil,
    List.drop_succ_cons, List.drop_zero, List.getD_cons_zero]
  simp [List.intercalate]

/-- With a primitive that round-trips, what `aesEncrypt` returns for the
empty text does not decrypt: both attempts give the empty string. -/
theorem aesDecrypt_of_encrypt_empty (C : CryptoJS) (iv : List Nat) (key : JSString)
    (keySize : Option Int) (mode : String) (hkey : ValidAesKey key keySize)
    (hiv : ∀ b ∈ iv, b < 256) (hrt : RoundTrips C) (encrypted : JSString)
    (henc : aesEncrypt C iv [] key keySize (some mode) = some (.ok encrypted)) :
    aesDecrypt C encrypted key keySize (some mode) =
      some (.error "AES decryption failed: All decryption attempts failed") := by
  rcases hkey with ⟨_, hlen, hwf⟩
  have hnorm := normalizeKey_valid key keySize hlen
  have hparse : utf8Parse key = .ok (bufferFromString key) := by
    simp only [utf8Parse, hwf, if_true]
  have htext : textWordArray C [] = [] := by rfl
  have hempty : ∀ b ∈ ([] : List Nat), b < 256 := by simp
  rcases hrt with ⟨hr1, hr2, hr3⟩
  have hattempts := aesDecrypt_eq_resultOfAttempts C encrypted key keySize mode key
    (bufferFromString key) hnorm hparse
  by_cases hecb : modeIs mode "ECB" = true
  · have hcbc := modeIs_exclusive mode "ECB" "CBC" hecb (by decide)
    have hctr := modeIs_exclusive mode "ECB" "CTR" hecb (by decide)
    have hcase : switchCase mode = some "ECB" := by simp only [switchCase, hecb, if_true]
    simp only [aesEncrypt, hnorm, hparse, hecb, if_true, htext, Option.some.injEq,
      Except.ok.injEq] at henc
    have hiac : ivAndCiphertext C encrypted mode = ([], encrypted) := by
      simp only [ivAndCiphertext, hcbc, hctr, Bool.or_self, Bool.false_eq_true, if_false]
    rw [hattempts.2 "ECB" hcase, hiac, ← henc]
    have hiv0 : ivOfCase "ECB" [] = [] := by rfl
    simp only [hiv0, hr1 "ECB" _ [] [] hempty, hr2 "ECB" _ [] [] hempty, utf8Stringify_nil]
    rfl
  · have hecb2 : modeIs mode "ECB" = false := by simpa using hecb
    by_cases hcbc : modeIs mode "CBC" = true
    · have hcase : switchCase mode = some "CBC" := by
        simp only [switchCase, hecb2, hcbc, Bool.false_eq_true, if_false, if_true]
      simp only [aesEncrypt, hnorm, hparse, hecb2, hcbc, Bool.false_eq_true, if_false, if_true,
        htext, Option.some.injEq, Except.ok.injEq] at henc
      have hiac := ivAndCiphertext_of_format C iv
        (cipherToString (C.encrypt "CBC" (bufferFromString key) iv [])) mode
        (by rw [hcbc]; rfl) (base64Encode_no_colon _)
      rw [henc] at hiac
      rw [hattempts.2 "CBC" hcase, hiac, hr3 iv hiv]
      have hiv0 : ivOfCase "CBC" iv = iv := by rfl
      simp only [hiv0, hr1 "CBC" _ iv [] hempty, hr2 "CBC" _ iv [] hempty, utf8Stringify_nil]
      rfl
    · have hcbc2 : modeIs mode "CBC" = false := by simpa using hcbc
      by_cases hctr : modeIs mode "CTR" = true
      · have hcase : switchCase mode = some "CTR" := by
          simp only [switchCase, hecb2, hcbc2, hctr, Bool.false_eq_true, if_false, if_true]
        simp only [aesEncrypt, hnorm, hparse, hecb2, hcbc2, hctr, Bool.false_eq_true, if_false,
          if_true, htext, Option.some.injEq, Except.ok.injEq] at henc
        have hiac := ivAndCiphertext_of_format C iv
          (cipherToString (C.encrypt "CTR" (bufferFromString key) iv [])) mode
          (by rw [hctr]; simp) (base64Encode_no_colon _)
        rw [henc] at hiac
        rw [hattempts.2 "CTR" hcase, hiac, hr3 iv hiv]
        have hiv0 : ivOfCase "CTR" iv = iv := by rfl
        simp only [hiv0, hr1 "CTR" _ iv [] hempty, hr2 "CTR" _ iv [] hempty, utf8Stringify_nil]
        rfl
      · have hctr2 : modeIs mode "CTR" = false := by simpa using hctr
        simp only [aesEncrypt, hnorm, hparse, hecb2, hcbc2, hctr2, Bool.false_eq_true, if_false,
          Option.some.injEq, reduceCtorEq] at henc

theorem hexValue_hexDigit (n : Nat) (h : n < 16) : hexValue (hexDigit n) = n := by
  unfold hexValue hexDigit
  split_ifs <;> omega

theorem bytesOfHex_stringify (iv : List Nat) (h : ∀ b ∈ iv, b < 256) :
    bytesOfHex (hexStringify iv) = iv := by
  induction iv with
  | nil => rfl
  | cons b rest ih =>
    have hb := h b (List.mem_cons_self _ _)
    have ih2 := ih fun x hx => h x (List.mem_cons_of_mem _ hx)
    unfold hexStringify at ih2 ⊢
    simp only [List.flatMap_cons, List.cons_append, List.nil_append, bytesOfHex, ih2,
      hexValue_hexDigit _ (show b % 256 / 16 < 16 by omega),
      hexValue_hexDigit _ (show b % 256 % 16 < 16 by omega)]
    congr 1
    omega

theorem toy_cipher_inverse (key iv message : List Nat) (h : ∀ b ∈ message, b < 256) :
    ((((iv ++ message).map fun b => (b + key.length) % 256).drop iv.length).map fun b =>
      (b + 256 - key.length % 256) % 256) = message := by
  rw [List.map_append, List.drop_left' (by simp), List.map_map]
  have hid : ∀ b ∈ message,
      ((fun b => (b + 256 - key.length % 256) % 256) ∘ fun b => (b + key.length) % 256) b =
        id b := by
    intro b hb
    have := h b hb
    simp only [Function.comp, id]
    omega
  rw [List.map_congr_left hid, List.map_id]

theorem toyCryptoJS_roundTrips : RoundTrips toyCryptoJS := by
  have hbytes : ∀ (key iv message : List Nat),
      ∀ b ∈ (iv ++ message).map (fun b => (b + key.length) % 256), b < 256 := by
    intro key iv message b hb
    rcases List.mem_map.mp hb with ⟨x, _, rfl⟩
    omega
  refine ⟨?_, ?_, ?_⟩
  · intro mode key iv message h
    simp only [toyCryptoJS, cipherToString]
    rw [bufferFromBase64_encode _ (hbytes key iv message)]
    exact toy_cipher_inverse key iv message h
  · intro mode key iv message h
    simp only [toyCryptoJS, cipherToString]
    rw [bufferFromBase64_encode _ (hbytes key iv message)]
    exact toy_cipher_inverse key iv message h
  · intro iv h
    exact bytesOfHex_stringify iv h

/-- Claim C39, amended: `aesDecrypt` never returns the empty string. Once
the normalised key is parsed and a mode is given, it returns the plain text of
the first attempt if that is non-empty, otherwise the plain text of the second
attempt if that is non-empty, and otherwise it fails with
`AES decryption failed: All decryption attempts failed`, as it does for a mode
that is none of ECB, CBC and CTR. So with a valid key and a primitive that
round-trips, what `aesEncrypt` returns for the empty text makes `aesDecrypt`
fail. -/
theorem aesDecrypt_attempts (C : CryptoJS) (ciphertext key : JSString)
    (keySize : Option Int) :
    (∀ mode, aesDecrypt C ciphertext key keySize mode ≠ some (.ok [])) ∧
    (∀ (mode : String) (normalizedKey : JSString) (keyWordArray : List Nat),
      normalizeKey key keySize = some normalizedKey →
      utf8Parse normalizedKey = .ok keyWordArray →
      (switchCase mode = none →
        aesDecrypt C ciphertext key keySize (some mode) =
          some (.error "AES decryption failed: All decryption attempts failed")) ∧
      (∀ name, switchCase mode = some name →
        aesDecrypt C ciphertext key keySize (some mode) =
          some (resultOfAttempts
            (utf8Stringify (C.decrypt name keyWordArray
              (ivOfCase name (ivAndCiphertext C ciphertext mode).1)
              (ivAndCiphertext C ciphertext mode).2))
            (utf8Stringify (C.decryptParsed name keyWordArray
              (ivOfCase name (ivAndCiphertext C ciphertext mode).1)
              (C.base64Parse (ivAndCiphertext C ciphertext mode).2)))))) ∧
    (∀ (iv : List Nat) (mode : String) (encrypted : JSString),
      ValidAesKey key keySize → (∀ b ∈ iv, b < 256) → RoundTrips C →
      aesEncrypt C iv [] key keySize (some mode) = some (.ok encrypted) →
      aesDecrypt C encrypted key keySize (some mode) =
        some (.error "AES decryption failed: All decryption attempts failed")) :=
  ⟨fun mode => aesDecrypt_ne_empty C ciphertext key keySize mode,
    fun mode normalizedKey keyWordArray hnorm hparse =>
      aesDecrypt_eq_resultOfAttempts C ciphertext key keySize mode normalizedKey keyWordArray
        hnorm hparse,
    fun iv mode encrypted hkey hiv hrt henc =>
      aesDecrypt_of_encrypt_empty C iv key keySize mode hkey hiv hrt encrypted henc⟩

theorem aesEncrypt_toy_empty :
    aesEncrypt toyCryptoJS (List.range 16) [] (js "0123456789ABCDEF") (some 128) (some "CBC") =
      some (.ok (js "000102030405060708090a0b0c0d0e0f:EBESExQVFhcYGRobHB0eHw==")) := by
  have hnorm : normalizeKey (js "0123456789ABCDEF") (some 128) =
      some (js "0123456789ABCDEF") := by decide
  have hparse : utf8Parse (js "0123456789ABCDEF") =
      .ok (bufferFromString (js "0123456789ABCDEF")) := by rfl
  have hecb : modeIs "CBC" "ECB" = false := by decide
  have hcbc : modeIs "CBC" "CBC" = true := by decide
  have hout : hexStringify (List.range 16) ++ [58] ++
      cipherToString (toyCryptoJS.encrypt "CBC" (bufferFromString (js "0123456789ABCDEF"))
        (List.range 16) (textWordArray toyCryptoJS [])) =
      js "000102030405060708090a0b0c0d0e0f:EBESExQVFhcYGRobHB0eHw==" := by decide
  simp only [aesEncrypt, hnorm, hparse, hecb, hcbc, Bool.false_eq_true, if_false, if_true, hout]

theorem aesDecrypt_toy_hello :
    aesDecrypt toyCryptoJS (js "000102030405060708090a0b0c0d0e0f:EBESExQVFhcYGRobHB0eH1hVXFxf")
      (js "0123456789ABCDEF") (some 128) (some "CBC") = some (.ok (js "HELLO")) := by
  rfl

/-- Claim C39 with the stand-in for CryptoJS, the key `0123456789ABCDEF`,
128 bits and CBC: the cipher text of `HELLO` decrypts to `HELLO`, and the
cipher text of the empty text makes `aesDecrypt` fail. -/
theorem aesDecrypt_attempts_witness :
    ValidAesKey (js "0123456789ABCDEF") (some 128) ∧ RoundTrips toyCryptoJS ∧
    aesDecrypt toyCryptoJS (js "000102030405060708090a0b0c0d0e0f:EBESExQVFhcYGRobHB0eH1hVXFxf")
      (js "0123456789ABCDEF") (some 128) (some "CBC") = some (.ok (js "HELLO")) ∧
    aesEncrypt toyCryptoJS (List.range 16) [] (js "0123456789ABCDEF") (some 128) (some "CBC") =
      some (.ok (js "000102030405060708090a0b0c0d0e0f:EBESExQVFhcYGRobHB0eHw==")) ∧
    aesDecrypt toyCryptoJS (js "000102030405060708090a0b0c0d0e0f:EBESExQVFhcYGRobHB0eHw==")
      (js "0123456789ABCDEF") (some 128) (some "CBC") =
        some (.error "AES decryption failed: All decryption attempts failed") :=
  have hkey : ValidAesKey (js "0123456789ABCDEF") (some 128) :=
    ⟨Or.inl rfl, by decide, by decide⟩
  ⟨hkey, toyCryptoJS_roundTrips, aesDecrypt_toy_hello, aesEncrypt_toy_empty,
    (aesDecrypt_attempts toyCryptoJS [] (js "0123456789ABCDEF") (some 128)).2.2
      (List.range 16) "CBC" _ hkey (by decide) toyCryptoJS_roundTrips aesEncrypt_toy_empty⟩

/-- Claim C39 as stated fails where `aesDecrypt` throws before the first
attempt: without a mode, and with a key of 16 surrogates that `Utf8.parse`
rejects, it fails with another message than
`AES decryption failed: All decryption attempts failed`, whatever the
primitive. -/
theorem aesDecrypt_early_failure_counterexample :
    (∀ C : CryptoJS,
      aesDecrypt C (js "WFVcXF8=") (js "0123456789ABCDEF") (some 128) none =
        some (.error
          "AES decryption failed: Cannot read properties of undefined (reading 'toUpperCase')")) ∧
    (∀ C : CryptoJS,
      aesDecrypt C (js "WFVcXF8=") (List.replicate 16 0xD800) (some 128) (some "ECB") =
        some (.error "AES decryption failed: URI malformed")) ∧
    "AES decryption failed: Cannot read properties of undefined (reading 'toUpperCase')" ≠
      "AES decryption failed: All decryption attempts failed" ∧
    "AES decryption failed: URI malformed" ≠
      "AES decryption failed: All decryption attempts failed" := by
  refine ⟨fun C => ?_, fun C => ?_, by decide, by decide⟩
  · have hnorm : normalizeKey (js "0123456789ABCDEF") (some 128) =
        some (js "0123456789ABCDEF") := by decide
    have hparse : utf8Parse (js "0123456789ABCDEF") =
        .ok (bufferFromString (js "0123456789ABCDEF")) := by rfl
    simp only [aesDecrypt, hnorm, hparse]
    rfl
  · have hnorm : normalizeKey (List.replicate 16 0xD800) (some 128) =
        some (List.replicate 16 0xD800) := by decide
    have hparse : utf8Parse (List.replicate 16 0xD800) = .error "URI malformed" := by rfl
    simp only [aesDecrypt, hnorm, hparse]
    rfl

/-! ## Claim about the list of frequencies -/

/-- The array `frequencies` of the report: sorted by count, and a
rearrangement of the entries of the distinct letters of the cleaned text. -/
theorem frequencyAnalysis_frequencies (text : JSString) (h : normalizeLetters text ≠ []) :
    ∃ report, frequencyAnalysis text = .ok report ∧
      report.totalSample = (normalizeLetters text).length ∧
      report.frequencies.Perm
        ((normalizeLetters text).dedup.map (frequencyEntryOf (normalizeLetters text))) ∧
      report.frequencies.Pairwise (fun a b => b.count ≤ a.count) := by
  have hlen : ¬ (normalizeLetters text).length = 0 := by
    intro e
    exact h (List.eq_nil_of_length_eq_zero e)
  simp only [frequencyAnalysis, hlen, if_false]
  refine ⟨_, rfl, rfl, ?_, ?_⟩
  · refine (List.perm_insertionSort _ _).trans ?_
    have hp := ((ownKeysOrder_perm (countCharacters (normalizeLetters text))).trans
      (countCharacters_perm (normalizeLetters text))).map fun e : JSString × Nat =>
        ({ character := e.1, count := e.2,
           frequency := (e.2 : ℚ) / ((normalizeLetters text).length : ℚ) * 100 } :
          FrequencyEntry)
    rw [List.map_map] at hp
    exact hp
  · haveI : IsTotal FrequencyEntry fun a b => b.count ≤ a.count :=
      ⟨fun a b => Nat.le_total b.count a.count⟩
    haveI : IsTrans FrequencyEntry fun a b => b.count ≤ a.count :=
      ⟨fun a b c hab hbc => Nat.le_trans hbc hab⟩
    exact List.sorted_insertionSort (fun a b : FrequencyEntry => b.count ≤ a.count) _

/-- Claim C33: for every text with at least one letter, the list
`frequencies` that `frequencyAnalysis` returns has exactly one entry for each
distinct letter of the cleaned text; the count of an entry is the number of
occurrences of its letter, so that the counts add up to `totalSample`; its
frequency is `count / totalSample * 100`; and the entries are in
non-increasing order of count. -/
theorem frequencies_list (text : JSString) (h : normalizeLetters text ≠ []) :
    ∃ report, frequencyAnalysis text = .ok report ∧
      report.totalSample = (normalizeLetters text).length ∧
      (report.frequencies.map fun e => e.character).Nodup ∧
      (∀ c, [c] ∈ report.frequencies.map (fun e => e.character) ↔ c ∈ normalizeLetters text) ∧
      (∀ e ∈ report.frequencies, ∃ c ∈ normalizeLetters text,
        e.character = [c] ∧ e.count = (normalizeLetters text).count c ∧
        e.frequency = (e.count : ℚ) / (report.totalSample : ℚ) * 100) ∧
      (report.frequencies.map fun e => e.count).sum = report.totalSample ∧
      report.frequencies.Pairwise (fun a b => b.count ≤ a.count) := by
  rcases frequencyAnalysis_frequencies text h with ⟨report, hrep, htotal, hperm, hsorted⟩
  have hchars : (report.frequencies.map fun e => e.character).Perm
      ((normalizeLetters text).dedup.map fun c => [c]) := by
    have := hperm.map fun e : FrequencyEntry => e.character
    rw [List.map_map] at this
    exact this
  refine ⟨report, hrep, htotal, ?_, ?_, ?_, ?_, hsorted⟩
  · rw [hchars.nodup_iff]
    exact List.Nodup.map (fun a b hab => List.singleton_injective hab) (List.nodup_dedup _)
  · intro c
    rw [hchars.mem_iff, List.mem_map]
    constructor
    · rintro ⟨d, hd, hdc⟩
      rw [List.singleton_injective hdc] at hd
      exact List.mem_dedup.mp hd
    · intro hc
      exact ⟨c, List.mem_dedup.mpr hc, rfl⟩
  · intro e he
    rcases List.mem_map.mp (hperm.mem_iff.mp he) with ⟨c, hc, rfl⟩
    refine ⟨c, List.mem_dedup.mp hc, rfl, rfl, ?_⟩
    rw [htotal]
    rfl
  · have := (hperm.map fun e : FrequencyEntry => e.count).sum_eq
    rw [this, List.map_map, htotal]
    exact List.sum_map_count_dedup_eq_length _

/-- Claim C33 on the text `Hello, World!`, which has ten letters, seven of
them distinct. -/
theorem frequencies_list_witness :
    normalizeLetters (js "Hello, World!") ≠ [] ∧
    ∃ report, frequencyAnalysis (js "Hello, World!") = .ok report ∧
      report.totalSample = (normalizeLetters (js "Hello, World!")).length ∧
      (report.frequencies.map fun e => e.character).Nodup ∧
      (∀ c, [c] ∈ report.frequencies.map (fun e => e.character) ↔
        c ∈ normalizeLetters (js "Hello, World!")) ∧
      (∀ e ∈ report.frequencies, ∃ c ∈ normalizeLetters (js "Hello, World!"),
        e.character = [c] ∧ e.count = (normalizeLetters (js "Hello, World!")).count c ∧
        e.frequency = (e.count : ℚ) / (report.totalSample : ℚ) * 100) ∧
      (report.frequencies.map fun e => e.count).sum = report.totalSample ∧
      report.frequencies.Pairwise (fun a b => b.count ≤ a.count) :=
  ⟨by decide, frequencies_list (js "Hello, World!") (by decide)⟩



/-! ## Claim about the minimum length for the Autokey analysis -/

theorem normalizeLetters_of_upper (text : JSString) (h : ∀ c ∈ text, isUpperAZ c = true) :
    normalizeLetters text = text := by
  induction text with
  | nil => rfl
  | cons c rest ih =>
    have hc := h c (List.mem_cons_self _ _)
    have hc2 : 65 ≤ c ∧ c ≤ 90 := by simpa [isUpperAZ] using hc
    have hlow : isLowerAZ c = false := by simp [isLowerAZ]; omega
    have halpha : isAlpha c = true := by simp [isAlpha, hc]
    have ih2 := ih fun d hd => h d (List.mem_cons_of_mem _ hd)
    unfold normalizeLetters at ih2 ⊢
    rw [List.flatMap_cons, ih2, upperAZ_of_alpha c halpha]
    simp [toUpperCaseUnit, hlow]

theorem normalizeLetters_idempotent (text : JSString) :
    normalizeLetters (normalizeLetters text) = normalizeLetters text :=
  normalizeLetters_of_upper _ (normalizeLetters_upper text)

/-- What `autokeyAnalysis` returns for a text with at least 20 letters. -/
theorem autokeyAnalysis_report (ciphertext : JSString)
    (h : 20 ≤ (normalizeLetters ciphertext).length) :
    ∃ repeats freqAnalysis,
      findRepeatingSequences (normalizeLetters ciphertext) = .ok repeats ∧
      frequencyAnalysis (normalizeLetters ciphertext) = .ok freqAnalysis ∧
      autokeyAnalysis ciphertext = .ok
        { possibleFirstLetters := setOf (possibleKeyLetters freqAnalysis.frequencies),
          estimatedLength := "Unknown (Autokey uses plaintext as part of the key)",
          frequencies := freqAnalysis.frequencies.take 10,
          ic := freqAnalysis.ic,
          interpretation := freqAnalysis.interpretation,
          repeatingSequences := repeats.take 5 } := by
  have hlt : ¬ (normalizeLetters ciphertext).length < 20 := by omega
  have havoid := avoids_of_upper _ (normalizeLetters_upper ciphertext)
  have hrep := findRepeatingSequences_ok _ havoid
  have hne : normalizeLetters (normalizeLetters ciphertext) ≠ [] := by
    rw [normalizeLetters_idempotent]
    intro e
    rw [e] at h
    simp at h
  rcases frequencyAnalysis_report _ hne with ⟨report, hreport, _⟩
  refine ⟨_, report, hrep, hreport, ?_⟩
  simp only [autokeyAnalysis, hlt, if_false, hrep, hreport]

/-- Claim C31: for every cipher text whose cleaned form (upper-cased, letters
only) has fewer than 20 letters, `autokeyAnalysis` returns the error result
`Text too short for reliable analysis. Need at least 20 characters.`, which
holds nothing else; for a cleaned length of 20 or more it returns a report
and no error. -/
theorem autokeyAnalysis_minimum_length (ciphertext : JSString) :
    ((normalizeLetters ciphertext).length < 20 →
      autokeyAnalysis ciphertext =
        .error "Text too short for reliable analysis. Need at least 20 characters.") ∧
    (20 ≤ (normalizeLetters ciphertext).length →
      ∃ report, autokeyAnalysis ciphertext = .ok report) := by
  constructor
  · intro h
    simp only [autokeyAnalysis, h, if_true]
  · intro h
    rcases autokeyAnalysis_report ciphertext h with ⟨_, _, _, _, hrep⟩
    exact ⟨_, hrep⟩

/-! ## Claim about the possible first letters of the key -/

theorem foldl_set {α : Type} [DecidableEq α] (values acc : List α) (hacc : acc.Nodup) :
    (values.foldl (fun set v => if v ∈ set then set else set ++ [v]) acc).Nodup ∧
    ∀ x, x ∈ values.foldl (fun set v => if v ∈ set then set else set ++ [v]) acc ↔
      x ∈ acc ∨ x ∈ values := by
  induction values generalizing acc with
  | nil => simp [hacc]
  | cons v rest ih =>
    rw [List.foldl_cons]
    by_cases hv : v ∈ acc
    · rw [if_pos hv]
      refine ⟨(ih acc hacc).1, fun x => ?_⟩
      rw [(ih acc hacc).2 x, List.mem_cons]
      constructor
      · rintro (h | h)
        · exact Or.inl h
        · exact Or.inr (Or.inr h)
      · rintro (h | rfl | h)
        · exact Or.inl h
        · exact Or.inl hv
        · exact Or.inr h
    · rw [if_neg hv]
      have hnd : (acc ++ [v]).Nodup :=
        List.Nodup.append hacc (List.nodup_singleton v) (by
          intro a ha hb
          rw [List.mem_singleton] at hb
          subst hb
          exact hv ha)
      refine ⟨(ih _ hnd).1, fun x => ?_⟩
      rw [(ih _ hnd).2 x, List.mem_append, List.mem_singleton, List.mem_cons]
      constructor
      · rintro ((h | h) | h)
        · exact Or.inl h
        · exact Or.inr (Or.inl h)
        · exact Or.inr (Or.inr h)
      · rintro (h | h | h)
        · exact Or.inl (Or.inl h)
        · exact Or.inl (Or.inr h)
        · exact Or.inr h

theorem setOf_nodup {α : Type} [DecidableEq α] (values : List α) : (setOf values).Nodup :=
  (foldl_set values [] List.nodup_nil).1

theorem mem_setOf {α : Type} [DecidableEq α] (values : List α) (x : α) :
    x ∈ setOf values ↔ x ∈ values := by
  unfold setOf
  rw [(foldl_set values [] List.nodup_nil).2 x]
  simp

theorem potentialKey_eq (c e : Nat) (hc : isUpperAZ c = true) (he : isUpperAZ e = true) :
    potentialKey [c] [e] = [candidateKeyLetter c e] ∧
      isUpperAZ (candidateKeyLetter c e) = true := by
  have hc2 : 65 ≤ c ∧ c ≤ 90 := by simpa [isUpperAZ] using hc
  have he2 : 65 ≤ e ∧ e ≤ 90 := by simpa [isUpperAZ] using he
  have hmod : jsMod ((c : Int) - (e : Int) + 26) 26 = ((c : Int) - (e : Int)) % 26 := by
    rcases jsMod_26 ((c : Int) - (e : Int) + 26) with ⟨_, h⟩ | ⟨h0, _⟩
    · rw [h]; omega
    · omega
  constructor
  · simp only [potentialKey, List.head?_cons, fromCharCode, hmod, candidateKeyLetter]
    congr 1
    omega
  · simp only [candidateKeyLetter, isUpperAZ, Bool.and_eq_true, decide_eq_true_eq]
    omega

theorem candidateKeyLetter_injective (c e1 e2 : Nat) (hc : isUpperAZ c = true)
    (h1 : isUpperAZ e1 = true) (h2 : isUpperAZ e2 = true)
    (h : candidateKeyLetter c e1 = candidateKeyLetter c e2) : e1 = e2 := by
  have hc2 : 65 ≤ c ∧ c ≤ 90 := by simpa [isUpperAZ] using hc
  have h12 : 65 ≤ e1 ∧ e1 ≤ 90 := by simpa [isUpperAZ] using h1
  have h22 : 65 ≤ e2 ∧ e2 ≤ 90 := by simpa [isUpperAZ] using h2
  unfold candidateKeyLetter at h
  omega

theorem commonLetters_eq : commonLetters = [[69], [84], [65], [79], [73], [78]] := by decide

theorem commonLetters_upper (letter : JSString) (h : letter ∈ commonLetters) :
    ∃ e, letter = [e] ∧ isUpperAZ e = true := by
  rw [commonLetters_eq] at h
  simp only [List.mem_cons, List.mem_singleton, List.not_mem_nil, or_false] at h
  rcases h with rfl | rfl | rfl | rfl | rfl | rfl <;> exact ⟨_, rfl, by decide⟩

theorem frequencyAnalysis_clean (text : JSString) :
    frequencyAnalysis (normalizeLetters text) = frequencyAnalysis text := by
  unfold frequencyAnalysis
  simp only [normalizeLetters_idempotent]

theorem frequencies_characters (text : JSString) (report : FrequencyReport)
    (h : frequencyAnalysis text = .ok report) :
    report.frequencies ≠ [] ∧
    ∀ item ∈ report.frequencies, ∃ c, item.character = [c] ∧ isUpperAZ c = true := by
  have hne : normalizeLetters text ≠ [] := by
    intro e
    simp only [frequencyAnalysis, e, List.length_nil, if_true, reduceCtorEq] at h
  rcases frequencyAnalysis_frequencies text hne with ⟨report2, hrep, _, hperm, _⟩
  rw [h] at hrep
  cases hrep
  constructor
  · intro e
    rw [e] at hperm
    have := hperm.length_eq
    simp only [List.length_nil, List.length_map] at this
    have hd : (normalizeLetters text).dedup = [] := List.eq_nil_of_length_eq_zero this.symm
    rcases List.exists_mem_of_ne_nil _ hne with ⟨c, hc⟩
    have := List.mem_dedup.mpr hc
    rw [hd] at this
    cases this
  · intro item hitem
    rcases List.mem_map.mp (hperm.mem_iff.mp hitem) with ⟨c, hc, rfl⟩
    exact ⟨c, rfl, normalizeLetters_upper text c (List.mem_dedup.mp hc)⟩

/-- The letters proposed for the items of `frequencies` at hand. -/
theorem mem_possibleKeyLetters (frequencies : List FrequencyEntry)
    (hchars : ∀ item ∈ frequencies, ∃ c, item.character = [c] ∧ isUpperAZ c = true)
    (k : JSString) :
    k ∈ possibleKeyLetters frequencies ↔
      ∃ item ∈ frequencies.take 6, ∃ c e, item.character = [c] ∧ [e] ∈ commonLetters ∧
        k = [candidateKeyLetter c e] := by
  unfold possibleKeyLetters
  rw [List.mem_flatMap]
  constructor
  · rintro ⟨item, hitem, hk⟩
    rcases List.mem_map.mp hk with ⟨letter, hletter, rfl⟩
    rcases hchars item (List.mem_of_mem_take hitem) with ⟨c, hc, hup⟩
    rcases commonLetters_upper letter hletter with ⟨e, rfl, he⟩
    refine ⟨item, hitem, c, e, hc, hletter, ?_⟩
    rw [hc]
    exact (potentialKey_eq c e hup he).1
  · rintro ⟨item, hitem, c, e, hc, he, rfl⟩
    rcases hchars item (List.mem_of_mem_take hitem) with ⟨c2, hc2, hup⟩
    rw [hc] at hc2
    cases hc2
    rcases commonLetters_upper [e] he with ⟨e2, he2, hupe⟩
    cases he2
    refine ⟨item, hitem, List.mem_map.mpr ⟨[e], he, ?_⟩⟩
    rw [hc]
    exact (potentialKey_eq c e hup hupe).1

theorem six_candidates (c : Nat) (hc : isUpperAZ c = true) :
    (commonLetters.map fun letter => potentialKey [c] letter).Nodup ∧
    (commonLetters.map fun letter => potentialKey [c] letter).length = 6 := by
  refine ⟨?_, by simp [commonLetters]⟩
  apply List.Nodup.map_on
  · intro x hx y hy hxy
    rcases commonLetters_upper x hx with ⟨e1, rfl, h1⟩
    rcases commonLetters_upper y hy with ⟨e2, rfl, h2⟩
    rw [(potentialKey_eq c e1 hc h1).1, (potentialKey_eq c e2 hc h2).1] at hxy
    rw [candidateKeyLetter_injective c e1 e2 hc h1 h2 (List.singleton_injective hxy)]
  · rw [commonLetters_eq]
    decide

/-- Claim C32: for every cipher text with at least 20 letters, the list
`possibleFirstLetters` of `autokeyAnalysis` holds no letter twice and holds
exactly the letters with value `(c - e) mod 26` for `c` among the first six
entries of `frequencies` (the most frequent letters, see C33) and `e` among
`E`, `T`, `A`, `O`, `I`, `N`; every element is a capital letter, and there are
at least 6 and at most 26 of them. -/
theorem possible_first_letters (ciphertext : JSString)
    (h : 20 ≤ (normalizeLetters ciphertext).length) :
    ∃ report freqAnalysis, autokeyAnalysis ciphertext = .ok report ∧
      frequencyAnalysis ciphertext = .ok freqAnalysis ∧
      report.frequencies = freqAnalysis.frequencies.take 10 ∧
      report.possibleFirstLetters.Nodup ∧
      (∀ k, k ∈ report.possibleFirstLetters ↔
        ∃ item ∈ freqAnalysis.frequencies.take 6, ∃ c e, item.character = [c] ∧
          [e] ∈ commonLetters ∧ k = [candidateKeyLetter c e]) ∧
      (∀ k ∈ report.possibleFirstLetters, ∃ l, k = [l] ∧ isUpperAZ l = true) ∧
      6 ≤ report.possibleFirstLetters.length ∧ report.possibleFirstLetters.length ≤ 26 := by
  rcases autokeyAnalysis_report ciphertext h with ⟨repeats, freqAnalysis, _, hfreq, hrep⟩
  rw [frequencyAnalysis_clean] at hfreq
  rcases frequencies_characters ciphertext freqAnalysis hfreq with ⟨hne, hchars⟩
  have hmem : ∀ k, k ∈ setOf (possibleKeyLetters freqAnalysis.frequencies) ↔
      ∃ item ∈ freqAnalysis.frequencies.take 6, ∃ c e, item.character = [c] ∧
        [e] ∈ commonLetters ∧ k = [candidateKeyLetter c e] := by
    intro k
    rw [mem_setOf]
    exact mem_possibleKeyLetters _ hchars k
  have hupper : ∀ k ∈ setOf (possibleKeyLetters freqAnalysis.frequencies),
      ∃ l, k = [l] ∧ isUpperAZ l = true := by
    intro k hk
    rcases (hmem k).mp hk with ⟨item, hitem, c, e, hc, he, rfl⟩
    rcases hchars item (List.mem_of_mem_take hitem) with ⟨c2, hc2, hup⟩
    rw [hc] at hc2
    cases hc2
    rcases commonLetters_upper [e] he with ⟨e2, he2, hupe⟩
    cases he2
    exact ⟨_, rfl, (potentialKey_eq c e hup hupe).2⟩
  refine ⟨_, freqAnalysis, hrep, hfreq, rfl, setOf_nodup _, hmem, hupper, ?_, ?_⟩
  · rcases List.exists_cons_of_ne_nil hne with ⟨item, rest, hf⟩
    rcases hchars item (by rw [hf]; exact List.mem_cons_self _ _) with ⟨c, hc, hup⟩
    have hsix := six_candidates c hup
    have hitem : item ∈ freqAnalysis.frequencies.take 6 := by
      rw [hf]
      simp
    have hsub : (commonLetters.map fun letter => potentialKey [c] letter) ⊆
        setOf (possibleKeyLetters freqAnalysis.frequencies) := by
      intro k hk
      rw [mem_setOf]
      unfold possibleKeyLetters
      rw [List.mem_flatMap]
      exact ⟨item, hitem, by rw [hc]; exact hk⟩
    have hlen := (List.subperm_of_subset hsix.1 hsub).length_le
    rw [hsix.2] at hlen
    show 6 ≤ (setOf (possibleKeyLetters freqAnalysis.frequencies)).length
    exact hlen
  · have hsub : setOf (possibleKeyLetters freqAnalysis.frequencies) ⊆
        (List.range 26).map fun i => [65 + i] := by
      intro k hk
      rcases hupper k hk with ⟨l, rfl, hl⟩
      have hl2 : 65 ≤ l ∧ l ≤ 90 := by simpa [isUpperAZ] using hl
      exact List.mem_map.mpr ⟨l - 65, List.mem_range.mpr (by omega), by congr 1; omega⟩
    have hlen := (List.subperm_of_subset (setOf_nodup _) hsub).length_le
    rw [List.length_map, List.length_range] at hlen
    show (setOf (possibleKeyLetters freqAnalysis.frequencies)).length ≤ 26
    exact hlen

/-- Claim C32 on a sentence of 35 letters. -/
theorem possible_first_letters_witness :
    20 ≤ (normalizeLetters (js "The quick brown fox jumps over the lazy dog")).length ∧
    ∃ report freqAnalysis,
      autokeyAnalysis (js "The quick brown fox jumps over the lazy dog") = .ok report ∧
      frequencyAnalysis (js "The quick brown fox jumps over the lazy dog") = .ok freqAnalysis ∧
      report.frequencies = freqAnalysis.frequencies.take 10 ∧
      report.possibleFirstLetters.Nodup ∧
      (∀ k, k ∈ report.possibleFirstLetters ↔
        ∃ item ∈ freqAnalysis.frequencies.take 6, ∃ c e, item.character = [c] ∧
          [e] ∈ commonLetters ∧ k = [candidateKeyLetter c e]) ∧
      (∀ k ∈ report.possibleFirstLetters, ∃ l, k = [l] ∧ isUpperAZ l = true) ∧
      6 ≤ report.possibleFirstLetters.length ∧ report.possibleFirstLetters.length ≤ 26 :=
  ⟨by decide,
    possible_first_letters (js "The quick brown fox jumps over the lazy dog") (by decide)⟩

/-! ## Cryptanalysis: the RSA report -/

theorem chunksOf_ne_nil (ciphertext : JSString) : chunksOf ciphertext ≠ [] := by
  unfold chunksOf
  split_ifs
  · exact List.splitOnP_ne_nil _ _
  · simp

theorem totalLength_eq (chunks : List JSString) :
    totalLength chunks = (chunks.map fun chunk => chunk.length).sum := by
  unfold totalLength
  rw [foldl_add_eq_sum (fun chunk : JSString => chunk.length) chunks 0, Nat.zero_add]

theorem divide_total (chunks : List JSString) (h : chunks ≠ []) :
    divide (totalLength chunks) chunks.length = .value (averageChunkLength chunks) := by
  have hlen : chunks.length ≠ 0 := by
    intro e
    exact h (List.eq_nil_of_length_eq_zero e)
  simp only [divide, hlen, if_false, averageChunkLength, totalLength_eq, Nat.cast_list_sum,
    List.map_map]
  rfl

/-- Claim C34: for every cipher text whose chunks all match
`/^[A-Za-z0-9+/=]+$/` (each is a non-empty string over the base64 alphabet),
the text `estimatedKeySize` of `rsaAnalysis` depends on the average chunk
length `a` alone: it is `4096 bits or higher` exactly when `a > 683`,
`~2048 bits` exactly when `342 < a ≤ 683`, `~1024 bits` exactly when
`171 < a ≤ 342`, and `Less than 1024 bits (not recommended)` exactly when
`a ≤ 171`. -/
theorem estimated_key_size (log2 : ℚ → ℚ) (ciphertext : JSString)
    (h : (chunksOf ciphertext).all isBase64Text = true) :
    ((rsaAnalysis log2 ciphertext).estimatedKeySize = "4096 bits or higher" ↔
      683 < averageChunkLength (chunksOf ciphertext)) ∧
    ((rsaAnalysis log2 ciphertext).estimatedKeySize = "~2048 bits" ↔
      342 < averageChunkLength (chunksOf ciphertext) ∧
        averageChunkLength (chunksOf ciphertext) ≤ 683) ∧
    ((rsaAnalysis log2 ciphertext).estimatedKeySize = "~1024 bits" ↔
      171 < averageChunkLength (chunksOf ciphertext) ∧
        averageChunkLength (chunksOf ciphertext) ≤ 342) ∧
    ((rsaAnalysis log2 ciphertext).estimatedKeySize = "Less than 1024 bits (not recommended)" ↔
      averageChunkLength (chunksOf ciphertext) ≤ 171) := by
  have hne := chunksOf_ne_nil ciphertext
  have hpos : 0 < (chunksOf ciphertext).length := List.length_pos.mpr hne
  have hdiv := divide_total (chunksOf ciphertext) hne
  have hest : (rsaAnalysis log2 ciphertext).estimatedKeySize =
      if 683 < averageChunkLength (chunksOf ciphertext) then "4096 bits or higher"
      else if 342 < averageChunkLength (chunksOf ciphertext) then "~2048 bits"
      else if 171 < averageChunkLength (chunksOf ciphertext) then "~1024 bits"
      else "Less than 1024 bits (not recommended)" := by
    simp only [rsaAnalysis, estimateKeySize, h, hpos, decide_True, Bool.and_self, if_true, hdiv,
      greaterThan, decide_eq_true_eq]
  rw [hest]
  generalize averageChunkLength (chunksOf ciphertext) = a
  have h12 : "4096 bits or higher" ≠ "~2048 bits" := by decide
  have h13 : "4096 bits or higher" ≠ "~1024 bits" := by decide
  have h14 : "4096 bits or higher" ≠ "Less than 1024 bits (not recommended)" := by decide
  have h23 : "~2048 bits" ≠ "~1024 bits" := by decide
  have h24 : "~2048 bits" ≠ "Less than 1024 bits (not recommended)" := by decide
  have h34 : "~1024 bits" ≠ "Less than 1024 bits (not recommended)" := by decide
  by_cases c1 : 683 < a
  · rw [if_pos c1]
    refine ⟨⟨fun _ => c1, fun _ => rfl⟩, ⟨fun e => absurd e h12, fun e => ?_⟩,
      ⟨fun e => absurd e h13, fun e => ?_⟩, ⟨fun e => absurd e h14, fun e => ?_⟩⟩
    · linarith [e.2]
    · linarith [e.2]
    · linarith
  · rw [if_neg c1]
    by_cases c2 : 342 < a
    · rw [if_pos c2]
      refine ⟨⟨fun e => absurd e.symm h12, fun e => absurd e c1⟩,
        ⟨fun _ => ⟨c2, not_lt.mp c1⟩, fun _ => rfl⟩,
        ⟨fun e => absurd e h23, fun e => ?_⟩, ⟨fun e => absurd e h24, fun e => ?_⟩⟩
      · linarith [e.2]
      · linarith
    · rw [if_neg c2]
      by_cases c3 : 171 < a
      · rw [if_pos c3]
        refine ⟨⟨fun e => absurd e.symm h13, fun e => absurd e c1⟩,
          ⟨fun e => absurd e.symm h23, fun e => absurd e.1 c2⟩,
          ⟨fun _ => ⟨c3, not_lt.mp c2⟩, fun _ => rfl⟩,
          ⟨fun e => absurd e h34, fun e => ?_⟩⟩
        linarith
      · rw [if_neg c3]
        exact ⟨⟨fun e => absurd e.symm h14, fun e => absurd e c1⟩,
          ⟨fun e => absurd e.symm h24, fun e => absurd e.1 c2⟩,
          ⟨fun e => absurd e.symm h34, fun e => absurd e.1 c3⟩,
          ⟨fun _ => not_lt.mp c3, fun _ => rfl⟩⟩

/-- Claim C34 on the cipher text `QUJD|REVG`, of two chunks of four
characters: the average is 4 and the estimate is the lowest one. -/
theorem estimated_key_size_witness :
    (chunksOf (js "QUJD|REVG")).all isBase64Text = true ∧
    averageChunkLength (chunksOf (js "QUJD|REVG")) = 4 ∧
    (rsaAnalysis toyLog2 (js "QUJD|REVG")).estimatedKeySize =
      "Less than 1024 bits (not recommended)" :=
  have hchunks : chunksOf (js "QUJD|REVG") = [[81, 85, 74, 68], [82, 69, 86, 71]] := by decide
  have havg : averageChunkLength (chunksOf (js "QUJD|REVG")) = 4 := by
    rw [hchunks]
    norm_num [averageChunkLength]
  ⟨by decide, havg,
    (estimated_key_size toyLog2 (js "QUJD|REVG") (by decide)).2.2.2.2 (by rw [havg]; norm_num)⟩

/-- A chunk that is empty does not match the expression of line 208: after a
trailing separator the estimate stays `Unknown`. -/
theorem rsaAnalysis_trailing_separator :
    (rsaAnalysis toyLog2 (js "QUJD|")).estimatedKeySize = "Unknown" := by
  have hall : (chunksOf (js "QUJD|")).all isBase64Text = false := by decide
  simp only [rsaAnalysis, estimateKeySize, hall, Bool.and_false, Bool.false_eq_true, if_false]

theorem setOf_length_eq_one (values : List Nat) (h : values ≠ []) :
    (setOf values).length = 1 ↔ ∃ n, ∀ v ∈ values, v = n := by
  constructor
  · intro e
    obtain ⟨n, hn⟩ := List.length_eq_one.mp e
    refine ⟨n, fun v hv => ?_⟩
    have hmem : v ∈ setOf values := (mem_setOf values v).mpr hv
    rw [hn] at hmem
    exact List.mem_singleton.mp hmem
  · rintro ⟨n, hn⟩
    have hsub : setOf values ⊆ [n] := by
      intro v hv
      exact List.mem_singleton.mpr (hn v ((mem_setOf values v).mp hv))
    have hle : (setOf values).length ≤ 1 :=
      (List.subperm_of_subset (setOf_nodup values) hsub).length_le
    obtain ⟨v, rest, hv⟩ := List.exists_cons_of_ne_nil h
    have hmem : v ∈ setOf values := (mem_setOf values v).mpr (by rw [hv]; exact List.mem_cons_self _ _)
    have hpos : 0 < (setOf values).length := List.length_pos_of_mem hmem
    omega

theorem setOf_length_le_two (values : List Nat) :
    (setOf values).length ≤ 2 ↔ ∃ a b, ∀ v ∈ values, v = a ∨ v = b := by
  constructor
  · intro e
    have hcases : (setOf values).length = 0 ∨ (setOf values).length = 1 ∨
        (setOf values).length = 2 := by omega
    rcases hcases with h0 | h1 | h2
    · refine ⟨0, 0, fun v hv => ?_⟩
      have hmem : v ∈ setOf values := (mem_setOf values v).mpr hv
      rw [List.length_eq_zero.mp h0] at hmem
      exact absurd hmem (List.not_mem_nil v)
    · obtain ⟨n, hn⟩ := List.length_eq_one.mp h1
      refine ⟨n, n, fun v hv => ?_⟩
      have hmem : v ∈ setOf values := (mem_setOf values v).mpr hv
      rw [hn] at hmem
      exact Or.inl (List.mem_singleton.mp hmem)
    · obtain ⟨a, b, hab⟩ := List.length_eq_two.mp h2
      refine ⟨a, b, fun v hv => ?_⟩
      have hmem : v ∈ setOf values := (mem_setOf values v).mpr hv
      rw [hab] at hmem
      simpa using hmem
  · rintro ⟨a, b, hab⟩
    have hsub : setOf values ⊆ [a, b] := by
      intro v hv
      have := hab v ((mem_setOf values v).mp hv)
      simpa using this
    exact (List.subperm_of_subset (setOf_nodup values) hsub).length_le

/-- Claim C35, with the threshold of the code: `chunks.consistent` of
`rsaAnalysis` is `true` exactly when all chunks have the same length, or there
are more than 5 chunks (at least 6) and their lengths take at most two
values. -/
theorem chunks_consistent (log2 : ℚ → ℚ) (ciphertext : JSString) :
    (rsaAnalysis log2 ciphertext).chunks.consistent = true ↔
      (∃ n, ∀ chunk ∈ chunksOf ciphertext, chunk.length = n) ∨
      (6 ≤ (chunksOf ciphertext).length ∧
        ∃ a b, ∀ chunk ∈ chunksOf ciphertext, chunk.length = a ∨ chunk.length = b) := by
  show consistentChunks (chunksOf ciphertext) = true ↔ _
  have hne : (chunksOf ciphertext).map (fun chunk => chunk.length) ≠ [] := by
    intro e
    exact chunksOf_ne_nil ciphertext (List.map_eq_nil_iff.mp e)
  have h1 := setOf_length_eq_one _ hne
  have h2 := setOf_length_le_two ((chunksOf ciphertext).map fun chunk => chunk.length)
  simp only [List.mem_map, forall_exists_index, and_imp, forall_apply_eq_imp_iff₂] at h1 h2
  simp only [consistentChunks, Bool.or_eq_true, Bool.and_eq_true, decide_eq_true_eq, h1, h2]
  constructor
  · rintro (h | ⟨hlen, h⟩)
    · exact Or.inl h
    · exact Or.inr ⟨hlen, h⟩
  · rintro (h | ⟨hlen, h⟩)
    · exact Or.inl h
    · exact Or.inr ⟨hlen, h⟩

/-- Claim C35 as stated fails on `a|a|a|a|bb`: there are 5 chunks, of the
lengths 1 and 2 only, and `chunks.consistent` is `false`. -/
theorem chunks_consistent_five_counterexample :
    5 ≤ (chunksOf (js "a|a|a|a|bb")).length ∧
    (∀ chunk ∈ chunksOf (js "a|a|a|a|bb"), chunk.length = 1 ∨ chunk.length = 2) ∧
    ¬ (∃ n, ∀ chunk ∈ chunksOf (js "a|a|a|a|bb"), chunk.length = n) ∧
    ∀ log2 : ℚ → ℚ, (rsaAnalysis log2 (js "a|a|a|a|bb")).chunks.consistent = false := by
  have hchunks : chunksOf (js "a|a|a|a|bb") = [[97], [97], [97], [97], [98, 98]] := by decide
  rw [hchunks]
  refine ⟨by decide, by decide, ?_, ?_⟩
  · rintro ⟨n, hn⟩
    have ha := hn [97] (by decide)
    have hb := hn [98, 98] (by decide)
    simp at ha hb
    omega
  · intro log2
    show consistentChunks (chunksOf (js "a|a|a|a|bb")) = false
    decide

end MultiLayer
